import Mathlib

/-!
# TFTE: graph reconstruction and causal scoring

A shallow embedding of `internal/scoring/scorer.go` and `internal/engine/core.go`.

Modelling conventions.

* `int64` values are integers; the result of every `int64` subtraction is wrapped by
  `wrap64` (two's complement), so the model agrees with the code on all inputs in range.
* `float64` values are exact rationals in `ScoreEdge` and `ReconstructGraph`: NaN,
  infinities and binary rounding error are outside that model, and a division by zero
  yields `0` (Go yields NaN or an infinity). The scorer is given a second time in IEEE-754
  binary64 arithmetic (`ScoreEdgeF`: every operation rounds its exact result to the nearest
  binary64 value, ties to even, and no two operations are fused), with NaN, the infinities
  and the rounding explicit.
* A Go `map[string]V` is an association list with unique keys, kept in insertion order;
  `range` over the map visits the entries in list order.
* `sort.Slice` is insertion sort, the algorithm Go runs on short slices (up to twelve
  elements since Go 1.19, up to six before); on longer slices Go returns some sorted
  permutation, which is the same list whenever no two elements tie. `ReconstructGraphBy`
  takes the implementation of `sort.Slice` as a parameter bound by its contract
  (`SortContract`), and `goSortSlice` transcribes what Go does on up to thirteen elements.
* `json.Unmarshal` into a struct with one string field is a parameter
  `unmarshal field payload`: `none` when Go reports an error, `some v` with the value of
  the field (`""` when the key is absent) otherwise.
* A nil-pointer dereference is the result `none`.
-/

namespace Tfte

/-! ## Data model (`proto/gen/tfte`) -/

/-- Event kinds of the wire enum; `OTHER` stands for any further numeric value. -/
inductive EventType where
  | RPC_CALL
  | RPC_ERROR
  | HEALTH_CHANGE
  | OTHER (code : Int)
  deriving DecidableEq, Repr

/-- Telemetry event (`tfte.Event`). -/
structure Event where
  id : String
  ts : Int
  type : EventType
  service : String
  host : String := ""
  traceIds : List String := []
  payload : String := ""
  deriving DecidableEq, Repr

/-- Graph node (`tfte.Node`). -/
structure Node where
  id : String
  serviceName : String
  healthStatus : Int
  amplificationScore : ℚ
  deriving DecidableEq, Repr

/-- Graph edge (`tfte.Edge`). -/
structure Edge where
  source : String
  target : String
  isActive : Bool
  causalConfidence : ℚ
  deriving DecidableEq, Repr

/-- Scoring breakdown of one edge (`tfte.EdgeEvidence`). -/
structure EdgeEvidence where
  sourceService : String := ""
  targetService : String := ""
  baseScore : ℚ := 0
  traceBonus : ℚ := 0
  rpcBonus : ℚ := 0
  timeProximityBonus : ℚ := 0
  score : ℚ := 0
  contributingEventIds : List String := []
  deriving DecidableEq, Repr

/-- Reconstructed graph (`tfte.GraphSnapshot`). -/
structure GraphSnapshot where
  timestamp : Int
  nodes : List Node
  edges : List Edge
  deriving DecidableEq, Repr

/-! ## Runtime primitives -/

/-- Two's-complement wrap of an integer into the `int64` range. -/
def wrap64 (x : Int) : Int := (x + 2 ^ 63) % 2 ^ 64 - 2 ^ 63

/-- Go `math.Round`: nearest integer, halves away from zero. -/
def mathRound (x : ℚ) : ℚ :=
  if 0 ≤ x then ((⌊x + 1 / 2⌋ : Int) : ℚ) else ((⌈x - 1 / 2⌉ : Int) : ℚ)

/-- Go `sort.Slice` with comparison `less`: insertion sort, which like Go's own
`insertionSort` never moves an element across one it is not less than. -/
def sortSlice {α : Type} (less : α → α → Bool) (l : List α) : List α :=
  l.insertionSort (fun a b => less b a = false)

/-- Map read `m[k]`, `none` when the key is absent. -/
def mapGet {V : Type} : List (String × V) → String → Option V
  | [], _ => none
  | (k', v) :: m, k => if k' = k then some v else mapGet m k

/-- Map write `m[k] = v`: replaces the entry in place or appends a new one. -/
def mapSet {V : Type} : List (String × V) → String → V → List (String × V)
  | [], k, v => [(k, v)]
  | (k', v') :: m, k, v => if k' = k then (k, v) :: m else (k', v') :: mapSet m k v

/-! ## `internal/scoring/scorer.go` -/

/-- Tunable scoring parameters (`scoring.Config`). -/
structure Config where
  windowSize : Int
  baseScore : ℚ
  traceBonus : ℚ
  rpcErrorBonus : ℚ
  timeProximityBonus : ℚ
  amplificationPenalty : ℚ
  deriving DecidableEq, Repr

/-- Default parameters (`scoring.DefaultConfig`). -/
def DefaultConfig : Config :=
  { windowSize := 30000
    baseScore := 1 / 10
    traceBonus := 7 / 10
    rpcErrorBonus := 4 / 10
    timeProximityBonus := 3 / 10
    amplificationPenalty := 2 / 10 }

/-- Loop-carried variables of the interaction scan in `ScoreEdge`. -/
structure ScanState where
  contributingEventIds : List String
  hasRpcError : Bool
  minDelta : Int
  deriving DecidableEq, Repr

/-- One iteration of the interaction scan in `ScoreEdge`. -/
def scanStep (cfg : Config) (failureTs : Int) (st : ScanState) (evt : Event) : ScanState :=
  if evt.ts > failureTs then st
  else
    let delta := wrap64 (failureTs - evt.ts)
    if delta > cfg.windowSize then st
    else
      { contributingEventIds := st.contributingEventIds ++ [evt.id]
        minDelta := if delta < st.minDelta then delta else st.minDelta
        hasRpcError := if evt.type = EventType.RPC_ERROR then true else st.hasRpcError }

/-- The interaction scan of `ScoreEdge`, from its initial state. -/
def scanInteractions (cfg : Config) (failureTs : Int) (interactions : List Event) : ScanState :=
  interactions.foldl (scanStep cfg failureTs)
    { contributingEventIds := [], hasRpcError := false, minDelta := cfg.windowSize }

/-- Causal confidence of a dependency, given the failure time of its target and the
interaction events seen on it (`scoring.ScoreEdge`). -/
def ScoreEdge (cfg : Config) (failureTs : Int) (interactions : List Event) : EdgeEvidence :=
  let st := scanInteractions cfg failureTs interactions
  let hasTraceMatch := false
  let traceBonus : ℚ := if hasTraceMatch then cfg.traceBonus else 0
  let total : ℚ := cfg.baseScore + traceBonus
  let rpcBonus : ℚ := if st.hasRpcError then cfg.rpcErrorBonus else 0
  let total := total + rpcBonus
  let timeProximityBonus : ℚ :=
    if st.contributingEventIds.length > 0 then
      let proximityFactor : ℚ :=
        ((wrap64 (cfg.windowSize - st.minDelta) : Int) : ℚ) / ((cfg.windowSize : Int) : ℚ)
      let proximityFactor := if proximityFactor < 0 then 0 else proximityFactor
      proximityFactor * cfg.timeProximityBonus
    else 0
  let total := total + timeProximityBonus
  let total := if total > 1 then 1 else total
  let total := if total < 0 then 0 else total
  { baseScore := cfg.baseScore
    traceBonus := traceBonus
    rpcBonus := rpcBonus
    timeProximityBonus := timeProximityBonus
    score := mathRound (total * 1000000) / 1000000
    contributingEventIds := st.contributingEventIds }

/-! ## `internal/engine/core.go` -/

/-- Creates the node of a service unless the name is empty or the node exists. -/
def ensureNode (nodes : List (String × Node)) (serviceID : String) : List (String × Node) :=
  if serviceID = "" then nodes
  else
    match mapGet nodes serviceID with
    | some _ => nodes
    | none =>
      mapSet nodes serviceID
        { id := serviceID, serviceName := serviceID, healthStatus := 0, amplificationScore := 0 }

/-- The maps `nodes`, `edges` and `edgeInteractions` of `ReconstructGraph`. -/
structure ReplayState where
  nodes : List (String × Node)
  edges : List (String × Edge)
  edgeInteractions : List (String × List Event)
  deriving DecidableEq, Repr

/-- Edge-map key `fmt.Sprintf("%s|%s", source, target)`. -/
def edgeKey (source target : String) : String := source ++ "|" ++ target

/-- Body of the replay loop of `ReconstructGraph` for one event at or before `atTs`. -/
def replayStep (unmarshal : String → String → Option String) (st : ReplayState)
    (evt : Event) : Option ReplayState :=
  let nodes := ensureNode st.nodes evt.service
  match evt.type with
  | EventType.HEALTH_CHANGE =>
    match unmarshal "new_status" evt.payload with
    | some newStatus =>
      match mapGet nodes evt.service with
      | none => none
      | some node =>
        let healthStatus : Int :=
          if newStatus = "DOWN" then 2 else if newStatus = "DEGRADED" then 1 else 0
        some { st with nodes := mapSet nodes evt.service { node with healthStatus := healthStatus } }
    | none => some { st with nodes := nodes }
  | EventType.RPC_CALL | EventType.RPC_ERROR =>
    match unmarshal "dest_service" evt.payload with
    | some destService =>
      if destService ≠ "" then
        let nodes := ensureNode nodes destService
        let key := edgeKey evt.service destService
        let edgeInteractions :=
          mapSet st.edgeInteractions key ((mapGet st.edgeInteractions key).getD [] ++ [evt])
        let edges :=
          match mapGet st.edges key with
          | some _ => st.edges
          | none =>
            mapSet st.edges key
              { source := evt.service, target := destService, isActive := true,
                causalConfidence := 1 / 10 }
        some { nodes := nodes, edges := edges, edgeInteractions := edgeInteractions }
      else some { st with nodes := nodes }
    | none => some { st with nodes := nodes }
  | EventType.OTHER _ => some { st with nodes := nodes }

/-- The replay loop of `ReconstructGraph` over the sorted events, leaving at the first
event later than `atTs`. -/
def replayLoop (unmarshal : String → String → Option String) (atTs : Int) :
    ReplayState → List Event → Option ReplayState
  | st, [] => some st
  | st, evt :: rest =>
    if evt.ts > atTs then some st
    else
      match replayStep unmarshal st evt with
      | none => none
      | some st' => replayLoop unmarshal atTs st' rest

/-- Comparison used to sort the events: by `ts`, then by `id`. -/
def eventLess (a b : Event) : Bool :=
  if a.ts = b.ts then decide (a.id < b.id) else decide (a.ts < b.ts)

/-- Comparison used to sort the snapshot nodes. -/
def nodeLess (a b : Node) : Bool := decide (a.id < b.id)

/-- Comparison used to sort the snapshot edges. -/
def edgeLess (a b : Edge) : Bool :=
  if a.source = b.source then decide (a.target < b.target) else decide (a.source < b.source)

/-- The maps `nodes`, `edges` and `evidenceMap` during the scoring pass. -/
structure ScoreState where
  nodes : List (String × Node)
  edges : List (String × Edge)
  evidenceMap : List (String × EdgeEvidence)
  deriving DecidableEq, Repr

/-- Body of the scoring loop of `ReconstructGraph` for one entry of `edgeInteractions`. -/
def scoreStep (atTs : Int) (st : ScoreState) (entry : String × List Event) :
    Option ScoreState :=
  let key := entry.1
  let interactionEvents := entry.2
  match mapGet st.edges key with
  | none => none
  | some edge =>
    match mapGet st.nodes edge.target with
    | none => none
    | some targetNode =>
      let cfg := DefaultConfig
      let failureTs := atTs
      let currentCfg := if targetNode.healthStatus = 0 then { cfg with baseScore := 1 / 100 } else cfg
      let ev := ScoreEdge currentCfg failureTs interactionEvents
      let ev := { ev with sourceService := edge.source, targetService := edge.target }
      let evidenceMap := mapSet st.evidenceMap key ev
      let edges := mapSet st.edges key { edge with causalConfidence := ev.score }
      let nodes :=
        if targetNode.healthStatus > 0 then
          let errorCount := interactionEvents.countP (fun evt => evt.type = EventType.RPC_ERROR)
          if errorCount > 0 then
            match mapGet st.nodes edge.source with
            | some sourceNode =>
              mapSet st.nodes edge.source
                { sourceNode with
                  amplificationScore := sourceNode.amplificationScore + (errorCount : ℚ) }
            | none => st.nodes
          else st.nodes
        else st.nodes
      some { nodes := nodes, edges := edges, evidenceMap := evidenceMap }

/-- The scoring loop of `ReconstructGraph` over the entries of `edgeInteractions`, visited
in the order given. -/
def scoringPass (atTs : Int) : ScoreState → List (String × List Event) → Option ScoreState
  | st, [] => some st
  | st, entry :: rest =>
    match scoreStep atTs st entry with
    | none => none
    | some st' => scoringPass atTs st' rest

/-- The state after the replay loop of `ReconstructGraph`. -/
def replayEvents (unmarshal : String → String → Option String) (atTs : Int)
    (events : List Event) : Option ReplayState :=
  replayLoop unmarshal atTs { nodes := [], edges := [], edgeInteractions := [] }
    (sortSlice eventLess events)

/-- Builds the graph snapshot and the evidence map (`engine.ReconstructGraph`). -/
def ReconstructGraph (unmarshal : String → String → Option String) (atTs : Int)
    (events : List Event) : Option (GraphSnapshot × List (String × EdgeEvidence)) :=
  match replayEvents unmarshal atTs events with
  | none => none
  | some rs =>
    match scoringPass atTs
        { nodes := rs.nodes, edges := rs.edges, evidenceMap := [] } rs.edgeInteractions with
    | none => none
    | some ss =>
      some
        ({ timestamp := atTs
           nodes := sortSlice nodeLess (ss.nodes.map Prod.snd)
           edges := sortSlice edgeLess (ss.edges.map Prod.snd) },
         ss.evidenceMap)

/-- Decoder table agreeing with `encoding/json` on the payloads used by the repository's
tests; every other payload is reported as malformed. -/
def tableUnmarshal (field payload : String) : Option String :=
  if payload = "\x7b\"dest_service\":\"B\"\x7d" then
    (if field = "dest_service" then some "B" else some "")
  else if payload = "\x7b\"dest_service\":\"c\"\x7d" then
    (if field = "dest_service" then some "c" else some "")
  else if payload = "\x7b\"dest_service\":\"b|c\"\x7d" then
    (if field = "dest_service" then some "b|c" else some "")
  else if payload = "\x7b\"new_status\":\"DOWN\"\x7d" then
    (if field = "new_status" then some "DOWN" else some "")
  else if payload = "\x7b\"new_status\":\"UP\"\x7d" then
    (if field = "new_status" then some "UP" else some "")
  else none

/-! ## Auxiliary definitions: invariants, closed forms and concrete inputs -/

/-- The guard of the scan in `ScoreEdge`: the event is not later than the failure and its
(wrapped) distance to the failure does not exceed the window. -/
def inWindow (cfg : Config) (failureTs : Int) (evt : Event) : Bool :=
  decide (evt.ts ≤ failureTs) && decide (wrap64 (failureTs - evt.ts) ≤ cfg.windowSize)

/-- Clamp to the unit interval, as the spec words it. -/
def clamp01 (x : ℚ) : ℚ := max 0 (min 1 x)

/-- The node `ensureNode` creates for a service. -/
def freshNode (serviceID : String) : Node :=
  { id := serviceID, serviceName := serviceID, healthStatus := 0, amplificationScore := 0 }

/-- Health recorded for a service in the node map, `0` when the service has no node. -/
def healthOf (nodes : List (String × Node)) (service : String) : Int :=
  match mapGet nodes service with
  | some n => n.healthStatus
  | none => 0

/-- Well-formedness of the node map: keys are unique and non-empty, and every node is
stored under its own id. -/
def NodesInv (nodes : List (String × Node)) : Prop :=
  (nodes.map Prod.fst).Nodup ∧ ∀ p ∈ nodes, p.2.id = p.1 ∧ p.1 ≠ ""

/-- The edge inserted by the replay loop for a first interaction on a key. -/
def newEdge (source target : String) : Edge :=
  { source := source, target := target, isActive := true, causalConfidence := 1 / 10 }

/-- Well-formedness of the three maps built by the replay loop. -/
structure ReplayInv (st : ReplayState) : Prop where
  nodesInv : NodesInv st.nodes
  edgesNodup : (st.edges.map Prod.fst).Nodup
  edgeShape : ∀ p ∈ st.edges, p.1 = edgeKey p.2.source p.2.target ∧ p.2.isActive = true ∧
    p.2.target ≠ ""
  edgeTarget : ∀ p ∈ st.edges, (mapGet st.nodes p.2.target).isSome = true
  edgeSource : ∀ p ∈ st.edges, p.2.source ≠ "" → (mapGet st.nodes p.2.source).isSome = true
  interKeys : st.edgeInteractions.map Prod.fst = st.edges.map Prod.fst

/-- The loop body of the replay applied to every event of a list, with no cut-off. -/
def replayAll (unmarshal : String → String → Option String) :
    ReplayState → List Event → Option ReplayState
  | st, [] => some st
  | st, evt :: rest =>
    match replayStep unmarshal st evt with
    | none => none
    | some st' => replayAll unmarshal st' rest

/-- The configuration the scoring pass hands to `ScoreEdge` for a target of the given
health. -/
def currentConfig (health : Int) : Config :=
  if health = 0 then { DefaultConfig with baseScore := 1 / 100 } else DefaultConfig

/-- The evidence the scoring pass stores for an edge whose target has the given health. -/
def edgeEvidence (atTs : Int) (health : Int) (edge : Edge) (interactionEvents : List Event) :
    EdgeEvidence :=
  { ScoreEdge (currentConfig health) atTs interactionEvents with
    sourceService := edge.source, targetService := edge.target }

/-- The part of a node the scoring pass never changes. -/
def nodeView (n : Node) : String × String × Int := (n.id, n.serviceName, n.healthStatus)

/-- The part of an edge the scoring pass never changes. -/
def edgeView (e : Edge) : String × String × Bool := (e.source, e.target, e.isActive)

/-- The nodes after the amplification update of one scoring step. -/
def amplify (nodes : List (String × Node)) (targetHealth : Int) (edge : Edge)
    (interactionEvents : List Event) : List (String × Node) :=
  if targetHealth > 0 then
    if interactionEvents.countP (fun evt => evt.type = EventType.RPC_ERROR) > 0 then
      match mapGet nodes edge.source with
      | some sourceNode =>
        mapSet nodes edge.source
          { sourceNode with
            amplificationScore :=
              sourceNode.amplificationScore +
                ((interactionEvents.countP (fun evt => evt.type = EventType.RPC_ERROR) : Nat) : ℚ) }
      | none => nodes
    else nodes
  else nodes

/-- The entry has been scored: its evidence is stored and its edge carries the score. -/
def Scored (atTs : Int) (rs : ReplayState) (ss : ScoreState) (p : String × List Event) : Prop :=
  ∃ edge tn, mapGet rs.edges p.1 = some edge ∧ mapGet rs.nodes edge.target = some tn ∧
    mapGet ss.evidenceMap p.1 = some (edgeEvidence atTs tn.healthStatus edge p.2) ∧
    mapGet ss.edges p.1 =
      some { edge with causalConfidence := (edgeEvidence atTs tn.healthStatus edge p.2).score }

/-- A `HEALTH_CHANGE` of service `B` to `DOWN`, stamped `(1, "x")`. -/
def dupDown : Event :=
  { id := "x", ts := 1, type := EventType.HEALTH_CHANGE, service := "B",
    payload := "\x7b\"new_status\":\"DOWN\"\x7d" }

/-- A `HEALTH_CHANGE` of service `B` to `UP`, with the same stamp `(1, "x")`. -/
def dupUp : Event :=
  { id := "x", ts := 1, type := EventType.HEALTH_CHANGE, service := "B",
    payload := "\x7b\"new_status\":\"UP\"\x7d" }

/-- Numeric health of a status name as the spec words it: UP = 0, DEGRADED = 1, DOWN = 2. -/
def statusCode (s : String) : Option Int :=
  if s = "UP" then some 0 else if s = "DEGRADED" then some 1 else if s = "DOWN" then some 2
  else none

/-- Health of `service` after the loop body has handled `evt`, given its health before. -/
def healthAfterEvent (unmarshal : String → String → Option String) (service : String)
    (health : Int) (evt : Event) : Int :=
  if evt.type = EventType.HEALTH_CHANGE ∧ evt.service = service then
    match unmarshal "new_status" evt.payload with
    | some s => if s = "DOWN" then 2 else if s = "DEGRADED" then 1 else 0
    | none => health
  else health

/-- An `RPC_CALL` from the service named `a|b` to `c`. -/
def pipeFirst : Event :=
  { id := "1", ts := 1, type := EventType.RPC_CALL, service := "a|b",
    payload := "\x7b\"dest_service\":\"c\"\x7d" }

/-- An `RPC_CALL` from the service named `a` to `b|c`; its edge key is also `a|b|c`. -/
def pipeSecond : Event :=
  { id := "2", ts := 2, type := EventType.RPC_CALL, service := "a",
    payload := "\x7b\"dest_service\":\"b|c\"\x7d" }

/-- An `RPC_CALL` to `B` from an emitter whose service name is empty. -/
def anonymousCall : Event :=
  { id := "2", ts := 200, type := EventType.RPC_CALL, service := "",
    payload := "\x7b\"dest_service\":\"B\"\x7d" }

/-- An `RPC_CALL` from `A` to `B` stamped 40 seconds before the epoch. -/
def farCall : Event :=
  { id := "1", ts := -40000, type := EventType.RPC_CALL, service := "A",
    payload := "\x7b\"dest_service\":\"B\"\x7d" }

/-- An `RPC_ERROR` stamped with the least `int64`. -/
def earliestError : Event :=
  { id := "1", ts := -9223372036854775808, type := EventType.RPC_ERROR, service := "A" }

/-- The interaction of the scorer's golden test: an `RPC_ERROR` one second before the
failure at `100000`. -/
def goldenError : Event :=
  { id := "1", ts := 99000, type := EventType.RPC_ERROR, service := "" }

/-- First event of `TestReconstructGraph`: an `RPC_CALL` from `A` to `B` at `ts = 100`. -/
def callAB : Event :=
  { id := "1", ts := 100, type := EventType.RPC_CALL, service := "A",
    payload := "\x7b\"dest_service\":\"B\"\x7d" }

/-- Second event of `TestReconstructGraph`: `B` goes `DOWN` at `ts = 200`. -/
def downB : Event :=
  { id := "2", ts := 200, type := EventType.HEALTH_CHANGE, service := "B",
    payload := "\x7b\"new_status\":\"DOWN\"\x7d" }

/-- The snapshot of `TestReconstructGraph` at `atTs = 300`. -/
def testSnapshot : GraphSnapshot :=
  { timestamp := 300
    nodes :=
      [{ id := "A", serviceName := "A", healthStatus := 0, amplificationScore := 0 },
       { id := "B", serviceName := "B", healthStatus := 2, amplificationScore := 0 }]
    edges := [{ source := "A", target := "B", isActive := true, causalConfidence := 199 / 500 }] }

/-- The evidence map of `TestReconstructGraph` at `atTs = 300`. -/
def testEvidence : List (String × EdgeEvidence) :=
  [("A|B",
    { sourceService := "A", targetService := "B", baseScore := 1 / 10, traceBonus := 0,
      rpcBonus := 0, timeProximityBonus := 149 / 500, score := 199 / 500,
      contributingEventIds := ["1"] })]

/-- The snapshot of the single call `callAB` at `atTs = 300`: both nodes healthy. -/
def callSnapshot : GraphSnapshot :=
  { timestamp := 300
    nodes :=
      [{ id := "A", serviceName := "A", healthStatus := 0, amplificationScore := 0 },
       { id := "B", serviceName := "B", healthStatus := 0, amplificationScore := 0 }]
    edges := [{ source := "A", target := "B", isActive := true, causalConfidence := 77 / 250 }] }

/-- The evidence map of the single call `callAB` at `atTs = 300`. -/
def callEvidence : List (String × EdgeEvidence) :=
  [("A|B",
    { sourceService := "A", targetService := "B", baseScore := 1 / 100, traceBonus := 0,
      rpcBonus := 0, timeProximityBonus := 149 / 500, score := 77 / 250,
      contributingEventIds := ["1"] })]

/-- The interaction of seed scenario S4: an `RPC_ERROR` 31 seconds before the failure at
`100000`, outside the 30-second window. -/
def staleError : Event :=
  { id := "1", ts := 69000, type := EventType.RPC_ERROR, service := "A" }

/-! ## `internal/engine/rca.go` -/

/-- Comparison used to sort the root-cause candidates: higher health status first. -/
def candidateLess (a b : Node) : Bool := decide (a.healthStatus > b.healthStatus)

/-- One iteration of the loop that fills `maxExplainedScore`; a missing key reads as `0`. -/
def maxExplainedStep (m : List (String × ℚ)) (edge : Edge) : List (String × ℚ) :=
  if edge.causalConfidence > (mapGet m edge.source).getD 0 then
    mapSet m edge.source edge.causalConfidence
  else m

/-- The map `maxExplainedScore` of `GetRootCauseCandidates`. -/
def maxExplainedScore (edges : List Edge) : List (String × ℚ) :=
  edges.foldl maxExplainedStep []

/-- Unhealthy nodes whose best outgoing edge scores below `0.5`, most severe first
(`Engine.GetRootCauseCandidates`). The map `nodeMap` of the source is built but never
read and is left out. -/
def GetRootCauseCandidates (snapshot : GraphSnapshot) : List Node :=
  let maxExplained := maxExplainedScore snapshot.edges
  let candidates :=
    snapshot.nodes.filter
      (fun n => decide (¬ n.healthStatus = 0) &&
        decide ((mapGet maxExplained n.id).getD 0 < 1 / 2))
  sortSlice candidateLess candidates

/-- The value `max_outgoing` as the spec words it: the maximum causal confidence over the
edges with the given source, `0` when there is none. -/
def maxOutgoing (edges : List Edge) (id : String) : ℚ :=
  match (edges.filter (fun e => decide (e.source = id))).map (fun e => e.causalConfidence) with
  | [] => 0
  | c :: cs => cs.foldl max c

/-- A snapshot whose two `DOWN` nodes are listed as `B`, `A`. -/
def unsortedSnapshot : GraphSnapshot :=
  { timestamp := 0
    nodes :=
      [{ id := "B", serviceName := "B", healthStatus := 2, amplificationScore := 0 },
       { id := "A", serviceName := "A", healthStatus := 2, amplificationScore := 0 }]
    edges := [] }

/-- The snapshot of seed scenario S2: `A` and `B` up, `C` down, edges `A → B` and
`B → C`. -/
def chainSnapshot : GraphSnapshot :=
  { timestamp := 250
    nodes :=
      [{ id := "A", serviceName := "A", healthStatus := 0, amplificationScore := 0 },
       { id := "B", serviceName := "B", healthStatus := 0, amplificationScore := 0 },
       { id := "C", serviceName := "C", healthStatus := 2, amplificationScore := 0 }]
    edges :=
      [{ source := "A", target := "B", isActive := true, causalConfidence := 617 / 2000 },
       { source := "B", target := "C", isActive := true, causalConfidence := 399 / 1000 }] }

/-- A snapshot with six nodes, in ascending order of id: `B`, `C` and `F` are `DOWN`, `A`
and `E` are `DEGRADED`, `D` is up, and the one edge `F → C` scores `0.9`. -/
def mixedSnapshot : GraphSnapshot :=
  { timestamp := 250
    nodes :=
      [{ id := "A", serviceName := "A", healthStatus := 1, amplificationScore := 0 },
       { id := "B", serviceName := "B", healthStatus := 2, amplificationScore := 0 },
       { id := "C", serviceName := "C", healthStatus := 2, amplificationScore := 0 },
       { id := "D", serviceName := "D", healthStatus := 0, amplificationScore := 0 },
       { id := "E", serviceName := "E", healthStatus := 1, amplificationScore := 0 },
       { id := "F", serviceName := "F", healthStatus := 2, amplificationScore := 0 }]
    edges := [{ source := "F", target := "C", isActive := true, causalConfidence := 9 / 10 }] }

/-! ## `internal/storage/badger_store.go`

The Badger database is an ordered map from byte-string keys to values: a list of entries in
strictly ascending byte-wise key order. A value is the stored message itself, so that
`proto.Marshal` followed by `proto.Unmarshal` is the identity and decoding a value of the
other kind is the error `none`. -/

/-- The character of a decimal digit. -/
def digitChar (d : Nat) : Char := Char.ofNat (48 + d)

/-- The `w` low-order decimal digits of `n`, most significant first. -/
def decimalDigits : Nat → Nat → List Char
  | 0, _ => []
  | w + 1, n => decimalDigits w (n / 10) ++ [digitChar (n % 10)]

/-- `fmt.Sprintf("%020d", ts)` for an `int64`: zero-padded to width 20, a minus sign taking
the first position (an `int64` never needs more than 19 digits). -/
def pad20 (ts : Int) : String :=
  if ts < 0 then String.mk ('-' :: decimalDigits 19 ts.natAbs)
  else String.mk (decimalDigits 20 ts.toNat)

/-- Key of an event: `fmt.Sprintf("event:%020d:%s", ts, id)`. -/
def eventKey (ts : Int) (id : String) : String := "event:" ++ pad20 ts ++ ":" ++ id

/-- Key of a snapshot: `fmt.Sprintf("snapshot:%020d", ts)`. -/
def snapshotKey (ts : Int) : String := "snapshot:" ++ pad20 ts

/-- A stored value. -/
inductive Value where
  | event (e : Event)
  | snapshot (s : GraphSnapshot)
  deriving DecidableEq, Repr

/-- `txn.Set`: inserts the entry at its place in key order, or overwrites the value of a
key already present. -/
def dbSet : List (String × Value) → String → Value → List (String × Value)
  | [], k, v => [(k, v)]
  | (k', v') :: rest, k, v =>
    if k < k' then (k, v) :: (k', v') :: rest
    else if k = k' then (k, v) :: rest
    else (k', v') :: dbSet rest k v

/-- Stores a batch of events, each under its event key (`BadgerStore.IngestEvents`). -/
def IngestEvents (store : List (String × Value)) (events : List Event) :
    List (String × Value) :=
  events.foldl (fun st e => dbSet st (eventKey e.ts e.id) (Value.event e)) store

/-- Stores a snapshot under its snapshot key (`BadgerStore.SaveSnapshot`). -/
def SaveSnapshot (store : List (String × Value)) (snapshot : GraphSnapshot) :
    List (String × Value) :=
  dbSet store (snapshotKey snapshot.timestamp) (Value.snapshot snapshot)

/-- `bytes.HasPrefix(k, []byte("event:"))`. -/
def hasEventTag (k : String) : Bool := "event:".data.isPrefixOf k.data

/-- The callback `GetEvents` runs on a decoded event: service filter, then offset, then
limit. Returns the events collected and the number of matches skipped. -/
def collectEvent (serviceFilter : String) (limit offset : Int) (events : List Event)
    (skipped : Int) (evt : Event) : List Event × Int :=
  if serviceFilter ≠ "" ∧ evt.service ≠ serviceFilter then (events, skipped)
  else if skipped < offset then (events, skipped + 1)
  else if (events.length : Int) < limit then (events ++ [evt], skipped)
  else (events, skipped)

/-- The iteration of `GetEvents` over the items at and after the seek position, with the
events collected so far and the number of matches skipped. -/
def scanEvents (endBound serviceFilter : String) (limit offset : Int) :
    List (String × Value) → List Event → Int → Option (List Event)
  | [], events, _ => some events
  | (k, v) :: rest, events, skipped =>
    if endBound ≤ k then some events
    else if hasEventTag k = false then
      scanEvents endBound serviceFilter limit offset rest events skipped
    else
      match v with
      | Value.snapshot _ => none
      | Value.event evt =>
        if limit > 0 ∧
            ((collectEvent serviceFilter limit offset events skipped evt).1.length : Int) ≥
              limit then
          some (collectEvent serviceFilter limit offset events skipped evt).1
        else
          scanEvents endBound serviceFilter limit offset rest
            (collectEvent serviceFilter limit offset events skipped evt).1
            (collectEvent serviceFilter limit offset events skipped evt).2

/-- Events of a time range, optionally of one service, paginated
(`BadgerStore.GetEvents`); `none` is a returned error. -/
def GetEvents (store : List (String × Value)) (startTs endTs : Int) (serviceFilter : String)
    (limit offset : Int) : Option (List Event) :=
  let startKey := eventKey startTs ""
  let endBound := "event:" ++ pad20 endTs
  scanEvents endBound serviceFilter limit offset
    (store.dropWhile (fun p => decide (p.1 < startKey))) [] 0

/-- An operation of the store's write interface. -/
inductive StoreOp where
  | ingest (events : List Event)
  | save (snapshot : GraphSnapshot)

/-- The store after a sequence of write operations on an empty database. -/
def runOps (ops : List StoreOp) : List (String × Value) :=
  ops.foldl
    (fun st op =>
      match op with
      | StoreOp.ingest events => IngestEvents st events
      | StoreOp.save snapshot => SaveSnapshot st snapshot)
    []

/-- The events held by the store, in key order. -/
def storedEvents (store : List (String × Value)) : List Event :=
  store.filterMap (fun p => match p.2 with | Value.event e => some e | Value.snapshot _ => none)

/-- The events `GetEvents` can see from a seek position: those of the items before
`endBound` whose key carries the event tag. -/
def rangeEvents (endBound : String) (items : List (String × Value)) : List Event :=
  storedEvents
    ((items.takeWhile (fun p => decide (p.1 < endBound))).filter (fun p => hasEventTag p.1))

/-- The service filter of `GetEvents`: an empty filter lets every event through. -/
def serviceMatch (serviceFilter : String) (evt : Event) : Bool :=
  decide (serviceFilter = "" ∨ evt.service = serviceFilter)

/-- Well-formedness of the database: keys strictly ascending, every entry stored under the
key of its own value. -/
def StoreInv (store : List (String × Value)) : Prop :=
  store.Pairwise (fun a b => a.1 < b.1) ∧
    ∀ p ∈ store,
      (∃ e, p.2 = Value.event e ∧ p.1 = eventKey e.ts e.id) ∨
        (∃ s, p.2 = Value.snapshot s ∧ p.1 = snapshotKey s.timestamp)

/-- Order of events by `(ts, id)`: timestamp ascending, then id ascending. -/
def tsIdLess (a b : Event) : Prop := a.ts < b.ts ∨ (a.ts = b.ts ∧ a.id < b.id)

/-- Membership of an event in the half-open range `[startTs, endTs)`. -/
def inRange (startTs endTs : Int) (e : Event) : Bool :=
  decide (startTs ≤ e.ts ∧ e.ts < endTs)

/-- The `i`-th event of the pagination scenario: stamped `i`, from the service `svc`. -/
def numbered (i : Nat) : Event :=
  { id := "evt", ts := (i : Int), type := EventType.RPC_CALL, service := "svc" }

/-- The 250 events of the pagination scenario, stamped `1` to `250`. -/
def batch250 : List Event := (List.range 250).map (fun i => numbered (i + 1))

/-! ## internal/engine/core.go: the engine over a store -/

/-- The errors the engine's queries return. -/
inductive EngineError where
  | fetchFailed
  | notFound
  deriving DecidableEq, Repr

deriving instance DecidableEq for Except

/-- Fetches the events of the hour before `ts` and reconstructs the graph
(`Engine.reconstructGraphWithEvidence`). The outer `none` is a nil dereference inside
`ReconstructGraph`; `Except.error` is a returned error. -/
def reconstructGraphWithEvidence (unmarshal : String → String → Option String)
    (store : List (String × Value)) (ts : Int) :
    Option (Except EngineError (GraphSnapshot × List (String × EdgeEvidence))) :=
  let windowSize : Int := 3600 * 1000
  let startTs := wrap64 (ts - windowSize)
  let startTs := if startTs < 0 then 0 else startTs
  match GetEvents store startTs ts "" 10000 0 with
  | none => some (Except.error EngineError.fetchFailed)
  | some events =>
    match ReconstructGraph unmarshal ts events with
    | none => none
    | some r => some (Except.ok r)

/-- The evidence stored for the edge `source|target` of the graph reconstructed at `ts`
(`Engine.GetEdgeEvidence`). -/
def GetEdgeEvidence (unmarshal : String → String → Option String)
    (store : List (String × Value)) (source target : String) (ts : Int) :
    Option (Except EngineError EdgeEvidence) :=
  match reconstructGraphWithEvidence unmarshal store ts with
  | none => none
  | some (Except.error err) => some (Except.error err)
  | some (Except.ok (_, evidenceMap)) =>
    match mapGet evidenceMap (edgeKey source target) with
    | some ev => some (Except.ok ev)
    | none => some (Except.error EngineError.notFound)

/-- The destination of an event the replay loop treats as an interaction: an `RPC_CALL` or
`RPC_ERROR` whose payload decodes to a non-empty `dest_service`. -/
def rpcDest (unmarshal : String → String → Option String) (e : Event) : Option String :=
  if e.type = EventType.RPC_CALL ∨ e.type = EventType.RPC_ERROR then
    match unmarshal "dest_service" e.payload with
    | some d => if d = "" then none else some d
    | none => none
  else none

/-- The event is an interaction stored under the edge key `k`. -/
def hasKey (unmarshal : String → String → Option String) (k : String) (e : Event) : Bool :=
  match rpcDest unmarshal e with
  | some d => decide (edgeKey e.service d = k)
  | none => false

/-- The interactions recorded under a key, none when the key is absent. -/
def interOf (m : List (String × List Event)) (k : String) : List Event := (mapGet m k).getD []

/-- The edge the replay creates for a key: the one of the first interaction under it. -/
def firstEdge (unmarshal : String → String → Option String) (l : List Event) (k : String) :
    Option Edge :=
  (l.find? (hasKey unmarshal k)).map
    (fun e => newEdge e.service ((rpcDest unmarshal e).getD ""))

/-- The event makes the replay loop dereference a missing node: a `HEALTH_CHANGE` with a
decodable payload from a service with an empty name. -/
def faulty (unmarshal : String → String → Option String) (e : Event) : Bool :=
  decide (e.type = EventType.HEALTH_CHANGE) && (unmarshal "new_status" e.payload).isSome &&
    decide (e.service = "")

/-- Amplification score recorded for a service in a node map, `0` when the service has no
node. -/
def ampOf (nodes : List (String × Node)) (service : String) : ℚ :=
  match mapGet nodes service with
  | some n => n.amplificationScore
  | none => 0

/-- What the scoring pass adds to the amplification score of `service` when it visits one
entry of the interaction map: the number of `RPC_ERROR` interactions, when the entry's edge
starts at `service` and ends at an unhealthy node. -/
def contribution (rs : ReplayState) (service : String) (p : String × List Event) : ℚ :=
  match mapGet rs.edges p.1 with
  | some edge =>
    if edge.source = service ∧ healthOf rs.nodes edge.target > 0 then
      ((p.2.countP (fun evt => evt.type = EventType.RPC_ERROR) : Nat) : ℚ)
    else 0
  | none => 0

/-- The amplification score of a service in a snapshot, `0` when the snapshot has no node
for it. -/
def amplificationIn (snap : GraphSnapshot) (service : String) : ℚ :=
  match snap.nodes.find? (fun n => decide (n.id = service)) with
  | some n => n.amplificationScore
  | none => 0

/-- An `RPC_ERROR` from `A` to `B` at `ts = 150`, between the two events of
`TestReconstructGraph`. -/
def errorAB : Event :=
  { id := "3", ts := 150, type := EventType.RPC_ERROR, service := "A",
    payload := "\x7b\"dest_service\":\"B\"\x7d" }

/-- An `RPC_CALL` stamped `0`, the failure time of the wrap-around examples. -/
def atFailure : Event :=
  { id := "2", ts := 0, type := EventType.RPC_CALL, service := "A" }

/-- A `HEALTH_CHANGE` of `A` to `DOWN` stamped `400`, after the reconstruction time `300` of
`TestReconstructGraph`. -/
def lateDown : Event :=
  { id := "9", ts := 400, type := EventType.HEALTH_CHANGE, service := "A",
    payload := "\x7b\"new_status\":\"DOWN\"\x7d" }

/-- The amplification score the scoring pass gives a service that has a node: the
contributions of all entries of the interaction map. -/
def totalAmp (rs : ReplayState) (service : String) : ℚ :=
  (rs.edgeInteractions.map (contribution rs service)).sum

/-- The evidence the scoring pass computes for the edge stored under a key. -/
def evidenceOf (atTs : Int) (rs : ReplayState) (k : String) (edge : Edge) : EdgeEvidence :=
  edgeEvidence atTs (healthOf rs.nodes edge.target) edge (interOf rs.edgeInteractions k)

/-- The evidence of the key `k`, the empty evidence when `k` has no edge. -/
def evidenceFor (atTs : Int) (rs : ReplayState) (k : String) : EdgeEvidence :=
  match mapGet rs.edges k with
  | some edge => evidenceOf atTs rs k edge
  | none => {}

/-- The node map after the scoring pass. -/
def scoredNodes (rs : ReplayState) : List (String × Node) :=
  rs.nodes.map (fun p => (p.1, { p.2 with amplificationScore := totalAmp rs p.1 }))

/-- The edge map after the scoring pass. -/
def scoredEdges (atTs : Int) (rs : ReplayState) : List (String × Edge) :=
  rs.edges.map
    (fun p => (p.1, { p.2 with causalConfidence := (evidenceOf atTs rs p.1 p.2).score }))

/-- The node the snapshot shows for a service that has a node after the replay. -/
def finalNode (rs : ReplayState) (service : String) : Node :=
  { id := service, serviceName := service, healthStatus := healthOf rs.nodes service,
    amplificationScore := totalAmp rs service }

/-- The snapshot and the evidence map `ReconstructGraph` assembles from the state left by
the replay loop. -/
def assemble (atTs : Int) (rs : ReplayState) : GraphSnapshot × List (String × EdgeEvidence) :=
  ({ timestamp := atTs
     nodes := sortSlice nodeLess ((rs.nodes.map Prod.fst).map (finalNode rs))
     edges := sortSlice edgeLess ((scoredEdges atTs rs).map Prod.snd) },
   rs.edgeInteractions.map (fun p => (p.1, evidenceFor atTs rs p.1)))

/-- The snapshot has a node for `service` whose health status is above `0`. -/
def unhealthyIn (snap : GraphSnapshot) (service : String) : Bool :=
  snap.nodes.any (fun n => decide (n.id = service) && decide (0 < n.healthStatus))

/-- The events the spec counts for the amplification score of `service`: the `RPC_ERROR`
events with `ts ≤ atTs` emitted by `service` whose `dest_service` is an unhealthy node of
the snapshot. -/
def amplifyingEvent (unmarshal : String → String → Option String) (snap : GraphSnapshot)
    (atTs : Int) (service : String) (e : Event) : Bool :=
  decide (e.type = EventType.RPC_ERROR) && decide (e.ts ≤ atTs) &&
    decide (e.service = service) &&
    match unmarshal "dest_service" e.payload with
    | some d => unhealthyIn snap d
    | none => false

/-- The interactions that count for the amplification score of `service` after a replay:
the `RPC_ERROR` interactions emitted by `service` whose destination is unhealthy. -/
def amplifying (unmarshal : String → String → Option String) (rs : ReplayState)
    (service : String) (e : Event) : Bool :=
  decide (e.type = EventType.RPC_ERROR) && decide (e.service = service) &&
    match rpcDest unmarshal e with
    | some d => decide (0 < healthOf rs.nodes d)
    | none => false

/-- An event of an unknown type, emitted by the service `Z` at `ts = 1`. -/
def unknownEvent : Event :=
  { id := "u", ts := 1, type := EventType.OTHER 7, service := "Z" }

/-- The test `len(k) >= 9 && k[:9] == "snapshot:"` on a key. -/
def hasSnapshotTag (k : String) : Bool := "snapshot:".data.isPrefixOf k.data

/-- The snapshot closest before `ts` (`BadgerStore.GetSnapshot`): the reverse iterator is
positioned by `Seek` on the last entry whose key is at most the snapshot key of `ts`.
The result `some none` is the answer `(nil, nil)`, and `none` is a returned error. -/
def GetSnapshot (store : List (String × Value)) (ts : Int) : Option (Option GraphSnapshot) :=
  match store.reverse.dropWhile (fun p => decide (snapshotKey ts < p.1)) with
  | [] => some none
  | (k, v) :: _ =>
    if hasSnapshotTag k = false then some none
    else
      match v with
      | Value.snapshot s => some (some s)
      | Value.event _ => none

/-- The snapshots held by the store, in key order. -/
def storedSnapshots (store : List (String × Value)) : List GraphSnapshot :=
  store.filterMap (fun p => match p.2 with | Value.snapshot s => some s | Value.event _ => none)

/-- A snapshot without nodes or edges, stamped `ts`. -/
def emptySnapshot (ts : Int) : GraphSnapshot := { timestamp := ts, nodes := [], edges := [] }

/-- The graph at `ts` (`Engine.GetGraphAt`): the snapshot of
`reconstructGraphWithEvidence`, the evidence map dropped. -/
def GetGraphAt (unmarshal : String → String → Option String)
    (store : List (String × Value)) (ts : Int) : Option (Except EngineError GraphSnapshot) :=
  match reconstructGraphWithEvidence unmarshal store ts with
  | none => none
  | some (Except.error err) => some (Except.error err)
  | some (Except.ok (snapshot, _)) => some (Except.ok snapshot)

/-! ## Map iteration order -/

/-- The order in which the three `range` loops of `ReconstructGraph` visit the entries of
the interaction, node and edge maps. Go leaves this order unspecified; each field lists the
entries of a map in the order of one run. -/
structure MapOrder where
  interactions : List (String × List Event) → List (String × List Event)
  nodes : List (String × Node) → List (String × Node)
  edges : List (String × Edge) → List (String × Edge)

/-- A run visits every entry of a map exactly once. -/
def MapOrder.Valid (order : MapOrder) : Prop :=
  (∀ m, (order.interactions m).Perm m) ∧ (∀ m, (order.nodes m).Perm m) ∧
    (∀ m, (order.edges m).Perm m)

/-- The order used by `ReconstructGraph` above: entries as they were inserted. -/
def insertionOrder : MapOrder := { interactions := id, nodes := id, edges := id }

/-- The run that visits every map from its last entry to its first. -/
def reverseOrder : MapOrder :=
  { interactions := List.reverse, nodes := List.reverse, edges := List.reverse }

/-- The function `engine.ReconstructGraph` with the order of its loops over maps explicit: the
scoring pass, and the two loops that copy the nodes and the edges into the snapshot. -/
def ReconstructGraphIn (order : MapOrder) (unmarshal : String → String → Option String)
    (atTs : Int) (events : List Event) : Option (GraphSnapshot × List (String × EdgeEvidence)) :=
  match replayEvents unmarshal atTs events with
  | none => none
  | some rs =>
    match scoringPass atTs
        { nodes := rs.nodes, edges := rs.edges, evidenceMap := [] }
        (order.interactions rs.edgeInteractions) with
    | none => none
    | some ss =>
      some
        ({ timestamp := atTs
           nodes := sortSlice nodeLess ((order.nodes ss.nodes).map Prod.snd)
           edges := sortSlice edgeLess ((order.edges ss.edges).map Prod.snd) },
         ss.evidenceMap)

/-- The method `Engine.reconstructGraphWithEvidence` for a given order of the map loops. -/
def reconstructGraphWithEvidenceIn (order : MapOrder)
    (unmarshal : String → String → Option String) (store : List (String × Value)) (ts : Int) :
    Option (Except EngineError (GraphSnapshot × List (String × EdgeEvidence))) :=
  let windowSize : Int := 3600 * 1000
  let startTs := wrap64 (ts - windowSize)
  let startTs := if startTs < 0 then 0 else startTs
  match GetEvents store startTs ts "" 10000 0 with
  | none => some (Except.error EngineError.fetchFailed)
  | some events =>
    match ReconstructGraphIn order unmarshal ts events with
    | none => none
    | some r => some (Except.ok r)

/-! ## internal/proofs/bundler.go

Byte strings are lists of numbers. The library functions the bundler calls
(`json.MarshalIndent` at the three data types and at the manifest, `sha256.Sum256`, and the
`tar` writer inside the `gzip` writer) are parameters, gathered in `BundleLib`;
`hex.EncodeToString` is written out. The tar writer is the list of the entries it has been
given, each a header with the fields the bundler sets and the bytes written after it. -/

/-- The manifest of a bundle (`proofs.Manifest`). -/
structure Manifest where
  rootEventID : String
  timestamp : Int
  files : List (String × String)
  deriving DecidableEq, Repr

/-- An archive entry: the `tar.Header` fields `Name`, `Mode`, `Size` and the content. -/
structure TarEntry where
  name : String
  mode : Nat
  size : Nat
  content : List Nat
  deriving DecidableEq, Repr

/-- The library functions called by `GenerateProofBundle`. The encoders of the three data
files may fail; the error of the manifest encoder is discarded by the bundler. -/
structure BundleLib where
  marshalSnapshot : GraphSnapshot → Option (List Nat)
  marshalEvidence : List (String × EdgeEvidence) → Option (List Nat)
  marshalEvents : List Event → Option (List Nat)
  marshalManifest : Manifest → List Nat
  sum256 : List Nat → List Nat
  targz : List TarEntry → List Nat

/-- The errors `GenerateProofBundle` returns. -/
inductive BundleError where
  | graphFailed
  | fetchFailed
  | marshalFailed
  deriving DecidableEq, Repr

/-- The hexadecimal digit of a number below 16 (`hextable`). -/
def hexDigit (d : Nat) : Char := "0123456789abcdef".data.getD d '0'

/-- Two hexadecimal digits per byte, high half first (`hex.EncodeToString`). -/
def hexEncode (bs : List Nat) : String :=
  String.mk (bs.flatMap (fun b => [hexDigit (b / 16 % 16), hexDigit (b % 16)]))

/-- The manifest's file map and the entries written to the archive so far. -/
structure BundleState where
  files : List (String × String)
  entries : List TarEntry
  deriving DecidableEq, Repr

/-- The helper `addFile` of `GenerateProofBundle`, given the outcome of
`json.MarshalIndent` on the data: records the hash under the name and writes the entry. -/
def addFile (lib : BundleLib) (st : BundleState) (name : String)
    (jsonBytes : Option (List Nat)) : Option BundleState :=
  match jsonBytes with
  | none => none
  | some b =>
    some
      { files := mapSet st.files name (hexEncode (lib.sum256 b))
        entries := st.entries ++ [{ name := name, mode := 0o600, size := b.length, content := b }] }

/-- The part of `GenerateProofBundle` after its two queries: adds the three data files and
the manifest to the archive and hashes the archive. -/
def packBundle (lib : BundleLib) (rootEventID : String) (ts : Int) (snapshot : GraphSnapshot)
    (evidence : List (String × EdgeEvidence)) (events : List Event) :
    Except BundleError (List Nat × String) :=
  match addFile lib { files := [], entries := [] } "snapshot.json"
      (lib.marshalSnapshot snapshot) with
  | none => Except.error BundleError.marshalFailed
  | some st₁ =>
    match addFile lib st₁ "evidence.json" (lib.marshalEvidence evidence) with
    | none => Except.error BundleError.marshalFailed
    | some st₂ =>
      match addFile lib st₂ "events.json" (lib.marshalEvents events) with
      | none => Except.error BundleError.marshalFailed
      | some st₃ =>
        let manifestBytes := lib.marshalManifest
          { rootEventID := rootEventID, timestamp := ts, files := st₃.files }
        let entries := st₃.entries ++
          [{ name := "manifest.json", mode := 0o600, size := manifestBytes.length,
             content := manifestBytes }]
        let finalBytes := lib.targz entries
        Except.ok (finalBytes, hexEncode (lib.sum256 finalBytes))

/-- Creates the proof bundle (`proofs.GenerateProofBundle`) for a given order of the
engine's map loops: the graph and its evidence from the engine, then the raw events of the
bundler's own window, then the archive. The outer `none` is a nil dereference inside
`ReconstructGraph`. -/
def GenerateProofBundleIn (order : MapOrder) (lib : BundleLib)
    (unmarshal : String → String → Option String) (store : List (String × Value))
    (rootEventID : String) (ts : Int) : Option (Except BundleError (List Nat × String)) :=
  match reconstructGraphWithEvidenceIn order unmarshal store ts with
  | none => none
  | some (Except.error _) => some (Except.error BundleError.graphFailed)
  | some (Except.ok (snapshot, evidence)) =>
    let windowSize : Int := 3600 * 10 ^ 9
    let startTs := wrap64 (ts - windowSize)
    let startTs := if startTs < 0 then 0 else startTs
    match GetEvents store startTs ts "" 10000 0 with
    | none => some (Except.error BundleError.fetchFailed)
    | some events => some (packBundle lib rootEventID ts snapshot evidence events)

/-- Creates the proof bundle (`proofs.GenerateProofBundle`), the maps visited in insertion
order as in `ReconstructGraph`. -/
def GenerateProofBundle (lib : BundleLib) (unmarshal : String → String → Option String)
    (store : List (String × Value)) (rootEventID : String) (ts : Int) :
    Option (Except BundleError (List Nat × String)) :=
  GenerateProofBundleIn insertionOrder lib unmarshal store rootEventID ts

/-- The file map of the manifest of a bundle whose three data files have the given bytes. -/
def manifestFiles (lib : BundleLib) (b₁ b₂ b₃ : List Nat) : List (String × String) :=
  [("snapshot.json", hexEncode (lib.sum256 b₁)), ("evidence.json", hexEncode (lib.sum256 b₂)),
    ("events.json", hexEncode (lib.sum256 b₃))]

/-- The four entries of a bundle whose three data files have the given bytes. -/
def bundleEntries (lib : BundleLib) (rootEventID : String) (ts : Int) (b₁ b₂ b₃ : List Nat) :
    List TarEntry :=
  [{ name := "snapshot.json", mode := 0o600, size := b₁.length, content := b₁ },
   { name := "evidence.json", mode := 0o600, size := b₂.length, content := b₂ },
   { name := "events.json", mode := 0o600, size := b₃.length, content := b₃ },
   { name := "manifest.json", mode := 0o600,
     size := (lib.marshalManifest
       { rootEventID := rootEventID, timestamp := ts,
         files := manifestFiles lib b₁ b₂ b₃ }).length,
     content := lib.marshalManifest
       { rootEventID := rootEventID, timestamp := ts, files := manifestFiles lib b₁ b₂ b₃ } }]

/-- A stand-in for the library in the instances below, far simpler than the real encoders:
each data file is encoded by a few counts, a hash is the sum and the length of the bytes,
and the archive lists for each entry its size and its content. -/
def sampleLib : BundleLib :=
  { marshalSnapshot := fun s => some [s.nodes.length, s.edges.length]
    marshalEvidence := fun m => some [m.length]
    marshalEvents := fun l => some (l.map (fun e => e.ts.toNat % 256))
    marshalManifest := fun m => m.files.map (fun p => p.2.length)
    sum256 := fun b => [b.sum % 256, b.length % 256]
    targz := fun entries => entries.flatMap (fun e => e.size :: e.content) }

/-- A call from `A` to `B` stamped `1`. -/
def earlyCall : Event :=
  { id := "1", ts := 1, type := EventType.RPC_CALL, service := "A",
    payload := "\x7b\"dest_service\":\"B\"\x7d" }

/-- A `HEALTH_CHANGE` to `DOWN` from an emitter whose service name is empty. -/
def anonymousDown : Event :=
  { id := "2", ts := 200, type := EventType.HEALTH_CHANGE, service := "",
    payload := "\x7b\"new_status\":\"DOWN\"\x7d" }

/-! ## The scoring pass in the order of the spec -/

/-- The endpoints `(source, target)` of the edge stored under a key. -/
def endpointsOf (rs : ReplayState) (k : String) : String × String :=
  match mapGet rs.edges k with
  | some edge => (edge.source, edge.target)
  | none => ("", "")

/-- Comparison of two entries of the interaction map by the endpoints of their edges:
source first, then target. -/
def entryLess (rs : ReplayState) (a b : String × List Event) : Bool :=
  if (endpointsOf rs a.1).1 = (endpointsOf rs b.1).1 then
    decide ((endpointsOf rs a.1).2 < (endpointsOf rs b.1).2)
  else decide ((endpointsOf rs a.1).1 < (endpointsOf rs b.1).1)

/-- The order the spec prescribes for the scoring pass: the entries of the interaction map
by ascending `(source, target)`. -/
def ascendingEntries (rs : ReplayState) : List (String × List Event) :=
  sortSlice (entryLess rs) rs.edgeInteractions

/-- An `RPC_ERROR` from `B` to `c` stamped `150`. -/
def errorBc : Event :=
  { id := "3", ts := 150, type := EventType.RPC_ERROR, service := "B",
    payload := "\x7b\"dest_service\":\"c\"\x7d" }

/-- The service `c` goes `DOWN` at `200`. -/
def downC : Event :=
  { id := "4", ts := 200, type := EventType.HEALTH_CHANGE, service := "c",
    payload := "\x7b\"new_status\":\"DOWN\"\x7d" }

/-- The state the replay loop leaves at `300` for `[callAB, errorBc, downC]`. -/
def twoEdgeReplay : ReplayState :=
  { nodes :=
      [("A", { id := "A", serviceName := "A", healthStatus := 0, amplificationScore := 0 }),
       ("B", { id := "B", serviceName := "B", healthStatus := 0, amplificationScore := 0 }),
       ("c", { id := "c", serviceName := "c", healthStatus := 2, amplificationScore := 0 })]
    edges :=
      [("A|B", { source := "A", target := "B", isActive := true, causalConfidence := 1 / 10 }),
       ("B|c", { source := "B", target := "c", isActive := true, causalConfidence := 1 / 10 })]
    edgeInteractions := [("A|B", [callAB]), ("B|c", [errorBc])] }

/-- The service `A` goes `DOWN` at `200`. -/
def downA : Event :=
  { id := "5", ts := 200, type := EventType.HEALTH_CHANGE, service := "A",
    payload := "\x7b\"new_status\":\"DOWN\"\x7d" }

/-! ## Binary floating point (`float64`) -/

/-- An IEEE-754 binary64 value: a NaN, an infinity with its sign, or a finite number.
The two zeros are identified; no operation of the scorer tells them apart. -/
inductive F64 where
  | nan
  | inf (negative : Bool)
  | fin (q : ℚ)
  deriving DecidableEq, Repr

/-- The power `2 ^ k` of an integer exponent, as a rational. -/
def pow2 (k : Int) : ℚ :=
  if 0 ≤ k then ((2 ^ k.toNat : Nat) : ℚ) else 1 / ((2 ^ (-k).toNat : Nat) : ℚ)

/-- Halving count behind `log2Nat`; the first argument bounds the number of steps. -/
def log2Steps : Nat → Nat → Nat
  | 0, _ => 0
  | steps + 1, n => if 2 ≤ n then log2Steps steps (n / 2) + 1 else 0

/-- The binary logarithm of a positive natural number, rounded down. -/
def log2Nat (n : Nat) : Nat := log2Steps n n

/-- The exponent `e` with `2 ^ e ≤ q < 2 ^ (e + 1)`, for positive `q`. -/
def binade (q : ℚ) : Int :=
  let e : Int := (log2Nat q.num.natAbs : Int) - (log2Nat q.den : Int)
  if q < pow2 e then e - 1 else e

/-- Nearest integer, halves to the even neighbour. -/
def roundHalfEven (x : ℚ) : Int :=
  let f : Int := ⌊x⌋
  if x - f < 1 / 2 then f
  else if 1 / 2 < x - f then f + 1
  else if f % 2 = 0 then f else f + 1

/-- Rounding of an exact result to binary64 (round to nearest, ties to even): 53
significant bits, exponents from `-1022` (below that the spacing stays `2 ^ -1074`), and
an infinity from `2 ^ 1024` on. -/
def roundF64 (q : ℚ) : F64 :=
  if q = 0 then F64.fin 0
  else
    let e := max (binade |q|) (-1022)
    let v : ℚ := (roundHalfEven (|q| / pow2 (e - 52)) : ℚ) * pow2 (e - 52)
    if pow2 1024 ≤ v then F64.inf (decide (q < 0))
    else F64.fin (if q < 0 then -v else v)

/-- Sum `x + y` of two `float64` values. -/
def F64.add : F64 → F64 → F64
  | F64.fin a, F64.fin b => roundF64 (a + b)
  | F64.fin _, F64.inf t => F64.inf t
  | F64.inf s, F64.fin _ => F64.inf s
  | F64.inf s, F64.inf t => if s = t then F64.inf s else F64.nan
  | _, _ => F64.nan

/-- Product `x * y` of two `float64` values. -/
def F64.mul : F64 → F64 → F64
  | F64.fin a, F64.fin b => roundF64 (a * b)
  | F64.fin a, F64.inf t => if a = 0 then F64.nan else F64.inf (xor (decide (a < 0)) t)
  | F64.inf s, F64.fin b => if b = 0 then F64.nan else F64.inf (xor s (decide (b < 0)))
  | F64.inf s, F64.inf t => F64.inf (xor s t)
  | _, _ => F64.nan

/-- Quotient `x / y` of two `float64` values (a zero divisor counts as `+0`). -/
def F64.div : F64 → F64 → F64
  | F64.fin a, F64.fin b =>
    if b = 0 then (if a = 0 then F64.nan else F64.inf (decide (a < 0)))
    else roundF64 (a / b)
  | F64.fin _, F64.inf _ => F64.fin 0
  | F64.inf s, F64.fin b => F64.inf (xor s (decide (b < 0)))
  | _, _ => F64.nan

/-- Comparison `x < y` of two `float64` values; false when either is a NaN. -/
def F64.lt : F64 → F64 → Bool
  | F64.fin a, F64.fin b => decide (a < b)
  | F64.fin _, F64.inf t => !t
  | F64.inf s, F64.fin _ => s
  | F64.inf s, F64.inf t => s && !t
  | _, _ => false

/-- Comparison `x <= y` of two `float64` values; false when either is a NaN. -/
def F64.le : F64 → F64 → Bool
  | F64.fin a, F64.fin b => decide (a ≤ b)
  | F64.fin _, F64.inf t => !t
  | F64.inf s, F64.fin _ => s
  | F64.inf s, F64.inf t => s || !t
  | _, _ => false

/-- Conversion `float64(n)` of an `int64`. -/
def F64.ofInt (n : Int) : F64 := roundF64 n

/-- Go `math.Round` on a `float64`: NaN and the infinities are returned unchanged. -/
def F64.round : F64 → F64
  | F64.fin q => F64.fin (mathRound q)
  | x => x

/-- The type `scoring.Config` with its `float64` fields as binary64 values. -/
structure ConfigF where
  windowSize : Int
  baseScore : F64
  traceBonus : F64
  rpcErrorBonus : F64
  timeProximityBonus : F64
  amplificationPenalty : F64
  deriving DecidableEq, Repr

/-- The type `tfte.EdgeEvidence` with its `float64` fields as binary64 values. -/
structure EvidenceF where
  baseScore : F64 := F64.fin 0
  traceBonus : F64 := F64.fin 0
  rpcBonus : F64 := F64.fin 0
  timeProximityBonus : F64 := F64.fin 0
  score : F64 := F64.fin 0
  contributingEventIds : List String := []
  deriving DecidableEq, Repr

/-- A configuration written with decimal constants, each converted to the nearest
binary64 value as the Go compiler does. -/
def Config.toF (cfg : Config) : ConfigF :=
  { windowSize := cfg.windowSize
    baseScore := roundF64 cfg.baseScore
    traceBonus := roundF64 cfg.traceBonus
    rpcErrorBonus := roundF64 cfg.rpcErrorBonus
    timeProximityBonus := roundF64 cfg.timeProximityBonus
    amplificationPenalty := roundF64 cfg.amplificationPenalty }

/-- The interaction scan of `ScoreEdge`, which reads only the integer field `WindowSize`
of the configuration. -/
def scanInteractionsF (cfg : ConfigF) (failureTs : Int) (interactions : List Event) : ScanState :=
  scanInteractions
    { windowSize := cfg.windowSize, baseScore := 0, traceBonus := 0, rpcErrorBonus := 0,
      timeProximityBonus := 0, amplificationPenalty := 0 } failureTs interactions

/-- The function `scoring.ScoreEdge` in binary64 arithmetic: every `float64` operation of
the source rounds its exact result with `roundF64`. -/
def ScoreEdgeF (cfg : ConfigF) (failureTs : Int) (interactions : List Event) : EvidenceF :=
  let st := scanInteractionsF cfg failureTs interactions
  let hasTraceMatch := false
  let traceBonus : F64 := if hasTraceMatch then cfg.traceBonus else F64.fin 0
  let total : F64 := if hasTraceMatch then F64.add cfg.baseScore cfg.traceBonus else cfg.baseScore
  let rpcBonus : F64 := if st.hasRpcError then cfg.rpcErrorBonus else F64.fin 0
  let total := if st.hasRpcError then F64.add total cfg.rpcErrorBonus else total
  let timeProximityBonus : F64 :=
    if st.contributingEventIds.length > 0 then
      let proximityFactor : F64 :=
        F64.div (F64.ofInt (wrap64 (cfg.windowSize - st.minDelta))) (F64.ofInt cfg.windowSize)
      let proximityFactor :=
        if F64.lt proximityFactor (F64.fin 0) then F64.fin 0 else proximityFactor
      F64.mul proximityFactor cfg.timeProximityBonus
    else F64.fin 0
  let total :=
    if st.contributingEventIds.length > 0 then F64.add total timeProximityBonus else total
  let total := if F64.lt (F64.fin 1) total then F64.fin 1 else total
  let total := if F64.lt total (F64.fin 0) then F64.fin 0 else total
  { baseScore := cfg.baseScore
    traceBonus := traceBonus
    rpcBonus := rpcBonus
    timeProximityBonus := timeProximityBonus
    score := F64.div (F64.round (F64.mul total (F64.fin 1000000))) (F64.fin 1000000)
    contributingEventIds := st.contributingEventIds }

/-- A finite binary64 value of magnitude at most `bound`. -/
def F64.Within (bound : ℚ) (x : F64) : Prop := ∃ q : ℚ, x = F64.fin q ∧ |q| ≤ bound

/-- The last two steps of `ScoreEdge` in binary64: the clamp of the total and the
rounding to six decimals. -/
def finishF (total : F64) : F64 :=
  let total := if F64.lt (F64.fin 1) total then F64.fin 1 else total
  let total := if F64.lt total (F64.fin 0) then F64.fin 0 else total
  F64.div (F64.round (F64.mul total (F64.fin 1000000))) (F64.fin 1000000)

/-- The total of `ScoreEdge` in binary64 before the clamp. -/
def totalF (cfg : ConfigF) (failureTs : Int) (interactions : List Event) : F64 :=
  let st := scanInteractionsF cfg failureTs interactions
  let total := if st.hasRpcError then F64.add cfg.baseScore cfg.rpcErrorBonus else cfg.baseScore
  if st.contributingEventIds.length > 0 then
    F64.add total (ScoreEdgeF cfg failureTs interactions).timeProximityBonus
  else total

/-- The default configuration with a NaN as base score. -/
def nanConfig : ConfigF := { Config.toF DefaultConfig with baseScore := F64.nan }

/-- A configuration whose parameters are finite numbers of magnitude `2 ^ 1023`, near the
top of the binary64 range. -/
def hugeConfig : ConfigF :=
  { windowSize := 30000, baseScore := F64.fin (pow2 1023), traceBonus := F64.fin 0,
    rpcErrorBonus := F64.fin (pow2 1023), timeProximityBonus := F64.fin (-pow2 1023),
    amplificationPenalty := F64.fin 0 }

/-- The default configuration with a window of ten minutes. -/
def tenMinuteConfig : Config := { DefaultConfig with windowSize := 600000 }

/-! ## `sort.Slice` as a library function -/

/-- What `sort.Slice` promises when `less` compares keys of a linear order: the result is
a permutation of the slice in ascending order of the keys. The order in which elements with
equal keys come out is left open (`sort.Slice` is not stable). -/
def SortContract (sort : {α : Type} → (α → α → Bool) → List α → List α) : Prop :=
  ∀ (α κ : Type) [LinearOrder κ] (less : α → α → Bool) (key : α → κ),
    (∀ a b, less a b = true ↔ key a < key b) →
    ∀ l : List α, (sort less l).Perm l ∧ (sort less l).Pairwise (fun a b => key a ≤ key b)

/-- The function `engine.ReconstructGraph` over a given implementation `sort` of
`sort.Slice`, which it calls on the events, on the snapshot nodes and on the snapshot
edges. `ReconstructGraph` above is the instance with insertion sort. -/
def ReconstructGraphBy (sort : {α : Type} → (α → α → Bool) → List α → List α)
    (unmarshal : String → String → Option String) (atTs : Int) (events : List Event) :
    Option (GraphSnapshot × List (String × EdgeEvidence)) :=
  match replayLoop unmarshal atTs { nodes := [], edges := [], edgeInteractions := [] }
      (sort eventLess events) with
  | none => none
  | some rs =>
    match scoringPass atTs
        { nodes := rs.nodes, edges := rs.edges, evidenceMap := [] } rs.edgeInteractions with
    | none => none
    | some ss =>
      some
        ({ timestamp := atTs
           nodes := sort nodeLess (ss.nodes.map Prod.snd)
           edges := sort edgeLess (ss.edges.map Prod.snd) },
         ss.evidenceMap)

/-! ## Go's `sort.Slice` on slices of at most thirteen elements

The functions below transcribe the part of `pdqsort_func` (package `sort`, Go 1.19 and
later) that runs on a slice of at most thirteen elements: insertion sort up to twelve
elements, and for thirteen elements the choice of a pivot, the probe for a slice that is
already in order, one partition, and insertion sort of both parts. A slice is a list;
indices count from `0`. -/

/-- The call `data.Less(i, j)`; both indices are in range wherever it is used. -/
def lessAt {α : Type} (less : α → α → Bool) (data : List α) (i j : Nat) : Bool :=
  match data[i]?, data[j]? with
  | some x, some y => less x y
  | _, _ => false

/-- The call `data.Swap(i, j)`. -/
def swapAt {α : Type} (data : List α) (i j : Nat) : List α :=
  match data[i]?, data[j]? with
  | some x, some y => (data.set i y).set j x
  | _, _ => data

/-- Inner loop of `insertionSort_func`, `for j := i; j > a && data.Less(j, j-1); j--`:
swaps the element at `j` with its left neighbour while it is the lesser one. -/
def insertLeft {α : Type} (less : α → α → Bool) (a : Nat) : Nat → List α → List α
  | 0, data => data
  | j + 1, data =>
    if j + 1 > a ∧ lessAt less data (j + 1) j = true then
      insertLeft less a j (swapAt data (j + 1) j)
    else data

/-- Insertion sort of `data[a:b]` (`insertionSort_func`). -/
def insertionSort_func {α : Type} (less : α → α → Bool) (data : List α) (a b : Nat) : List α :=
  (List.range' (a + 1) (b - (a + 1))).foldl (fun data i => insertLeft less a i data) data

/-- The indices `a`, `b` ordered by their elements, and the count of swaps
(`order2_func`). -/
def order2_func {α : Type} (less : α → α → Bool) (data : List α) (a b swaps : Nat) :
    Nat × Nat × Nat :=
  if lessAt less data b a = true then (b, a, swaps + 1) else (a, b, swaps)

/-- The index of the median of the elements at `a`, `b`, `c`, and the count of swaps
(`median_func`). -/
def median_func {α : Type} (less : α → α → Bool) (data : List α) (a b c swaps : Nat) :
    Nat × Nat :=
  let (a, b, swaps) := order2_func less data a b swaps
  let (b, _, swaps) := order2_func less data b c swaps
  let (_, b, swaps) := order2_func less data a b swaps
  (b, swaps)

/-- The hint `choosePivot_func` returns with the pivot. -/
inductive sortedHint where
  | unknownHint
  | increasingHint
  | decreasingHint
  deriving DecidableEq, Repr

/-- Pivot of `data[a:b]` for fewer than fifty elements (`choosePivot_func`): a fixed index
below eight elements, the median of three otherwise; the hint is `increasingHint` when no
swap was needed. The hint `decreasingHint` takes twelve swaps, which three elements never
need. -/
def choosePivot_func {α : Type} (less : α → α → Bool) (data : List α) (a b : Nat) :
    Nat × sortedHint :=
  let l := b - a
  let i := a + l / 4 * 1
  let j := a + l / 4 * 2
  let k := a + l / 4 * 3
  let (j, swaps) := if l ≥ 8 then median_func less data i j k 0 else (j, 0)
  if swaps = 0 then (j, sortedHint.increasingHint)
  else if swaps = 12 then (j, sortedHint.decreasingHint)
  else (j, sortedHint.unknownHint)

/-- The loop `for i < b && !data.Less(i, i-1) { i++ }` of `partialInsertionSort_func`; the
first argument bounds the number of steps. -/
def scanOrdered {α : Type} (less : α → α → Bool) (data : List α) (b : Nat) : Nat → Nat → Nat
  | 0, i => i
  | steps + 1, i =>
    if i < b ∧ lessAt less data i (i - 1) = false then scanOrdered less data b steps (i + 1)
    else i

/-- The function `partialInsertionSort_func` on fewer than fifty elements, where it moves
nothing: it reports whether `data[a:b]` is already in order. -/
def partialInsertionSort_func {α : Type} (less : α → α → Bool) (data : List α) (a b : Nat) :
    Bool :=
  decide (scanOrdered less data b data.length (a + 1) = b)

/-- The loop `for i <= j && data.Less(i, a) { i++ }` of `partition_func`; the first
argument bounds the number of steps. -/
def scanUp {α : Type} (less : α → α → Bool) (data : List α) (a j : Nat) : Nat → Nat → Nat
  | 0, i => i
  | steps + 1, i =>
    if i ≤ j ∧ lessAt less data i a = true then scanUp less data a j steps (i + 1) else i

/-- The loop `for i <= j && !data.Less(j, a) { j-- }` of `partition_func`, from `j`
downwards; it stops above `0` because `i` is at least `a + 1`. -/
def scanDown {α : Type} (less : α → α → Bool) (data : List α) (a i : Nat) : Nat → Nat
  | 0 => 0
  | j + 1 =>
    if i ≤ j + 1 ∧ lessAt less data (j + 1) a = false then scanDown less data a i j else j + 1

/-- The main loop of `partition_func`: both scans, then a swap, until the indices cross;
the first argument bounds the number of rounds. -/
def partitionLoop {α : Type} (less : α → α → Bool) (a : Nat) :
    Nat → List α → Nat → Nat → List α × Nat
  | 0, data, _, j => (data, j)
  | rounds + 1, data, i, j =>
    let i := scanUp less data a j data.length i
    let j := scanDown less data a i j
    if i > j then (data, j)
    else partitionLoop less a rounds (swapAt data i j) (i + 1) (j - 1)

/-- One quicksort partition of `data[a:b]` around the element at `pivot`
(`partition_func`): the slice, the new index of the pivot, and whether the slice was
already partitioned. -/
def partition_func {α : Type} (less : α → α → Bool) (data : List α) (a b pivot : Nat) :
    List α × Nat × Bool :=
  let data := swapAt data a pivot
  let i := a + 1
  let j := b - 1
  let i := scanUp less data a j data.length i
  let j := scanDown less data a i j
  if i > j then (swapAt data j a, j, true)
  else
    let data := swapAt data i j
    let (data, j) := partitionLoop less a data.length data (i + 1) (j - 1)
    (swapAt data j a, j, false)

/-- Go's `sort.Slice` (Go 1.19 and later) on a slice of at most thirteen elements, as
`pdqsort_func` runs it from `a = 0` with both flags set: insertion sort up to twelve
elements; for thirteen, the slice is returned unchanged when the pivot choice hints at an
increasing slice and the slice is in order, and otherwise it is partitioned once and both
parts, of at most twelve elements each, are sorted by insertion, the shorter part first.
Longer slices take further rounds of pdqsort, which are not transcribed; for them this
definition returns the insertion-sorted slice, which need not be the permutation Go
returns. -/
def goSortSlice {α : Type} (less : α → α → Bool) (data : List α) : List α :=
  let length := data.length
  if length ≤ 12 then insertionSort_func less data 0 length
  else if length = 13 then
    let (pivot, hint) := choosePivot_func less data 0 length
    if hint = sortedHint.increasingHint ∧ partialInsertionSort_func less data 0 length = true then
      data
    else
      let (data, mid, _) := partition_func less data 0 length pivot
      if mid - 0 < length - mid then
        insertionSort_func less (insertionSort_func less data 0 mid) (mid + 1) length
      else insertionSort_func less (insertionSort_func less data (mid + 1) length) 0 mid
  else insertionSort_func less data 0 length

/-- An `RPC_ERROR` from `A` to `B` with the given stamp. -/
def errorAt (ts : Int) (id : String) : Event :=
  { id := id, ts := ts, type := EventType.RPC_ERROR, service := "A",
    payload := "\x7b\"dest_service\":\"B\"\x7d" }

/-- Ten errors from `A` to `B`, stamped `3` to `12`. -/
def tenErrors : List Event :=
  [errorAt 3 "e03", errorAt 4 "e04", errorAt 5 "e05", errorAt 6 "e06", errorAt 7 "e07",
   errorAt 8 "e08", errorAt 9 "e09", errorAt 10 "e10", errorAt 11 "e11", errorAt 12 "e12"]

/-- Twelve events in ascending order of `(ts, id)`: the two health changes of `B` that
share the stamp `(1, "x")`, `UP` before `DOWN`, and ten errors from `A` to `B`. -/
def tiedEvents : List Event := dupUp :: dupDown :: tenErrors

/-- An event of an unknown type, emitted by the service `A` at `ts = 2`. -/
def unknownFromA : Event :=
  { id := "u", ts := 2, type := EventType.OTHER 7, service := "A" }

/-- Thirteen events: those of `tiedEvents` with an error stamped `100` put in third
place. -/
def tiedWithLate : List Event := dupUp :: dupDown :: errorAt 100 "late" :: tenErrors

/-! ## Facts about `sort.Slice` -/

section SortLemmas
variable {α κ : Type} [LinearOrder κ]

theorem sortSlice_perm (less : α → α → Bool) (l : List α) : (sortSlice less l).Perm l :=
  List.perm_insertionSort _ l

theorem mem_sortSlice (less : α → α → Bool) (l : List α) (a : α) :
    a ∈ sortSlice less l ↔ a ∈ l :=
  (sortSlice_perm less l).mem_iff

theorem sortSlice_sorted (less : α → α → Bool) (key : α → κ)
    (hless : ∀ a b, less a b = true ↔ key a < key b) (l : List α) :
    (sortSlice less l).Pairwise (fun a b => key a ≤ key b) := by
  have hr : ∀ a b, less b a = false ↔ key a ≤ key b := by
    intro a b
    rw [← not_lt, ← hless b a]
    cases less b a <;> simp
  haveI : IsTotal α (fun a b => less b a = false) :=
    ⟨fun a b => by rw [hr, hr]; exact le_total _ _⟩
  haveI : IsTrans α (fun a b => less b a = false) :=
    ⟨fun a b c => by rw [hr, hr, hr]; exact le_trans⟩
  have h := List.sorted_insertionSort (fun a b => less b a = false) l
  exact List.Pairwise.imp (fun {a b} hab => (hr a b).1 hab) h

theorem sorted_perm_unique (key : α → κ) :
    ∀ (l₁ l₂ : List α), l₁.Perm l₂ →
      l₁.Pairwise (fun a b => key a ≤ key b) → l₂.Pairwise (fun a b => key a ≤ key b) →
      (∀ a ∈ l₁, ∀ b ∈ l₁, key a = key b → a = b) → l₁ = l₂ := by
  intro l₁
  induction l₁ with
  | nil => intro l₂ hp _ _ _; exact hp.nil_eq
  | cons a t ih =>
    intro l₂ hp h1 h2 hinj
    have ha : a ∈ l₂ := hp.subset (List.mem_cons_self _ _)
    obtain ⟨u, v, rfl⟩ := List.append_of_mem ha
    have hp' : t.Perm (u ++ v) := (List.perm_cons a).1 (hp.trans List.perm_middle)
    have h1' := List.pairwise_cons.1 h1
    have h2' := List.pairwise_append.1 h2
    have hu : ∀ x ∈ u, x = a := by
      intro x hx
      have hxa : key x ≤ key a := h2'.2.2 x hx a (List.mem_cons_self _ _)
      have hxt : x ∈ t := hp'.symm.subset (List.mem_append_left _ hx)
      have hax : key a ≤ key x := h1'.1 x hxt
      exact hinj x (List.mem_cons_of_mem _ hxt) a (List.mem_cons_self _ _) (le_antisymm hxa hax)
    have htail : t = u ++ v :=
      ih (u ++ v) hp' h1'.2
        (List.pairwise_append.2 ⟨h2'.1, (List.pairwise_cons.1 h2'.2.1).2,
          fun x hx y hy => h2'.2.2 x hx y (List.mem_cons_of_mem _ hy)⟩)
        (fun x hx y hy => hinj x (List.mem_cons_of_mem _ hx) y (List.mem_cons_of_mem _ hy))
    rw [htail]
    clear ih hp hp' h1 h2 hinj ha h1' h2' htail
    induction u with
    | nil => rfl
    | cons x u ihu =>
      have hx : x = a := hu x (List.mem_cons_self _ _)
      subst hx
      have := ihu (fun y hy => hu y (List.mem_cons_of_mem _ hy))
      simp only [List.cons_append] at this ⊢
      rw [← this]

theorem sortSlice_unique (less : α → α → Bool) (key : α → κ)
    (hless : ∀ a b, less a b = true ↔ key a < key b) (l l' : List α) (hp : l'.Perm l)
    (hinj : ∀ a ∈ l, ∀ b ∈ l, key a = key b → a = b) :
    sortSlice less l' = sortSlice less l := by
  apply sorted_perm_unique key
  · exact ((sortSlice_perm less l').trans hp).trans (sortSlice_perm less l).symm
  · exact sortSlice_sorted less key hless l'
  · exact sortSlice_sorted less key hless l
  · intro a ha b hb
    exact hinj a (hp.subset ((mem_sortSlice less l' a).1 ha)) b
      (hp.subset ((mem_sortSlice less l' b).1 hb))

theorem sortSlice_strict (less : α → α → Bool) (key : α → κ)
    (hless : ∀ a b, less a b = true ↔ key a < key b) (l : List α)
    (hnd : (l.map key).Nodup) :
    (sortSlice less l).Pairwise (fun a b => key a < key b) := by
  have hs := sortSlice_sorted less key hless l
  have hnd' : ((sortSlice less l).map key).Nodup :=
    ((sortSlice_perm less l).map key).nodup_iff.2 hnd
  have hne : (sortSlice less l).Pairwise (fun a b => key a ≠ key b) :=
    (List.pairwise_map (f := key) (R := fun x y => x ≠ y)).1 hnd'
  exact (hs.and hne).imp (fun {a b} h => lt_of_le_of_ne h.1 h.2)

end SortLemmas

/-! ## Facts about maps -/

section MapLemmas
variable {V : Type}

theorem mapGet_mapSet_self (m : List (String × V)) (k : String) (v : V) :
    mapGet (mapSet m k v) k = some v := by
  induction m with
  | nil => simp [mapSet, mapGet]
  | cons p m ih =>
    obtain ⟨k', v'⟩ := p
    by_cases h : k' = k
    · simp [mapSet, mapGet, h]
    · simp [mapSet, mapGet, h, ih]

theorem mapGet_mapSet_of_ne (m : List (String × V)) (k k' : String) (v : V) (hne : k' ≠ k) :
    mapGet (mapSet m k v) k' = mapGet m k' := by
  induction m with
  | nil => simp [mapSet, mapGet, Ne.symm hne]
  | cons p m ih =>
    obtain ⟨k₀, v₀⟩ := p
    by_cases h : k₀ = k
    · subst h
      simp [mapSet, mapGet, Ne.symm hne]
    · by_cases h' : k₀ = k'
      · subst h'
        simp [mapSet, mapGet, h]
      · simp [mapSet, mapGet, h, h', ih]

theorem mapGet_eq_none_iff (m : List (String × V)) (k : String) :
    mapGet m k = none ↔ k ∉ m.map Prod.fst := by
  induction m with
  | nil => simp [mapGet]
  | cons p m ih =>
    obtain ⟨k', v'⟩ := p
    by_cases h : k' = k
    · simp [mapGet, h]
    · simp [mapGet, h, ih, Ne.symm h]

theorem mapGet_isSome_iff (m : List (String × V)) (k : String) :
    (mapGet m k).isSome = true ↔ k ∈ m.map Prod.fst := by
  rw [← not_iff_not, ← mapGet_eq_none_iff]
  cases mapGet m k <;> simp

theorem mem_of_mapGet (m : List (String × V)) (k : String) (v : V)
    (h : mapGet m k = some v) : (k, v) ∈ m := by
  induction m with
  | nil => simp [mapGet] at h
  | cons p m ih =>
    obtain ⟨k', v'⟩ := p
    by_cases hk : k' = k
    · simp [mapGet, hk] at h
      simp [hk, h]
    · simp [mapGet, hk] at h
      exact List.mem_cons_of_mem _ (ih h)

theorem mapGet_of_mem (m : List (String × V)) (k : String) (v : V)
    (hnd : (m.map Prod.fst).Nodup) (h : (k, v) ∈ m) : mapGet m k = some v := by
  induction m with
  | nil => simp at h
  | cons p m ih =>
    obtain ⟨k', v'⟩ := p
    simp only [List.map_cons, List.nodup_cons] at hnd
    rcases List.mem_cons.1 h with heq | hmem
    · cases heq
      simp [mapGet]
    · have hk : k' ≠ k := by
        intro hk
        subst hk
        exact hnd.1 (List.mem_map_of_mem Prod.fst hmem)
      simp [mapGet, hk, ih hnd.2 hmem]

theorem mapSet_of_none (m : List (String × V)) (k : String) (v : V)
    (h : mapGet m k = none) : mapSet m k v = m ++ [(k, v)] := by
  induction m with
  | nil => simp [mapSet]
  | cons p m ih =>
    obtain ⟨k', v'⟩ := p
    by_cases hk : k' = k
    · simp [mapGet, hk] at h
    · simp [mapGet, hk] at h
      simp [mapSet, hk, ih h]

/-- Overwriting a present key with a value that looks the same through `f` leaves the
`f`-view of the map unchanged. -/
theorem mapSet_view {W : Type} (f : V → W) (m : List (String × V)) (k : String) (v v' : V)
    (h : mapGet m k = some v) (hf : f v' = f v) :
    (mapSet m k v').map (fun p => (p.1, f p.2)) = m.map (fun p => (p.1, f p.2)) := by
  induction m with
  | nil => simp [mapGet] at h
  | cons p m ih =>
    obtain ⟨k₀, v₀⟩ := p
    by_cases hk : k₀ = k
    · simp [mapGet, hk] at h
      subst h
      simp [mapSet, hk, hf]
    · simp [mapGet, hk] at h
      simp [mapSet, hk, ih h]

theorem mapGet_view {W : Type} (f : V → W) (m m' : List (String × V)) (k : String)
    (h : m.map (fun p => (p.1, f p.2)) = m'.map (fun p => (p.1, f p.2))) :
    (mapGet m k).map f = (mapGet m' k).map f := by
  induction m generalizing m' with
  | nil =>
    cases m' with
    | nil => rfl
    | cons _ _ => simp at h
  | cons p m ih =>
    cases m' with
    | nil => simp at h
    | cons p' m' =>
      obtain ⟨k₀, v₀⟩ := p
      obtain ⟨k₁, v₁⟩ := p'
      simp only [List.map_cons, List.cons.injEq, Prod.mk.injEq] at h
      obtain ⟨⟨hk, hv⟩, ht⟩ := h
      subst hk
      by_cases hk : k₀ = k
      · simp [mapGet, hk, hv]
      · simp [mapGet, hk, ih m' ht]

theorem keys_of_view {W : Type} (f : V → W) (m m' : List (String × V))
    (h : m.map (fun p => (p.1, f p.2)) = m'.map (fun p => (p.1, f p.2))) :
    m.map Prod.fst = m'.map Prod.fst := by
  have := congrArg (List.map Prod.fst) h
  simpa [List.map_map, Function.comp_def] using this

theorem mapSet_keys_of_some (m : List (String × V)) (k : String) (v v' : V)
    (h : mapGet m k = some v) : (mapSet m k v').map Prod.fst = m.map Prod.fst :=
  keys_of_view (fun _ => ()) _ _ (mapSet_view (fun _ => ()) m k v v' h rfl)

theorem mem_mapSet (m : List (String × V)) (k : String) (v : V) (p : String × V)
    (h : p ∈ mapSet m k v) : p = (k, v) ∨ p ∈ m := by
  induction m with
  | nil => simp [mapSet] at h; exact Or.inl h
  | cons q m ih =>
    obtain ⟨k₀, v₀⟩ := q
    by_cases hk : k₀ = k
    · simp only [mapSet, hk, if_true, List.mem_cons] at h
      rcases h with h | h
      · exact Or.inl h
      · exact Or.inr (List.mem_cons_of_mem _ h)
    · simp only [mapSet, hk, if_false, List.mem_cons] at h
      rcases h with h | h
      · exact Or.inr (h ▸ List.mem_cons_self _ _)
      · rcases ih h with h' | h'
        · exact Or.inl h'
        · exact Or.inr (List.mem_cons_of_mem _ h')

end MapLemmas

/-! ## Facts about the interaction scan and rounding -/

theorem wrap64_of_range (x : Int) (h0 : 0 ≤ x) (h1 : x < 2 ^ 63) : wrap64 x = x := by
  unfold wrap64
  have : (x + 2 ^ 63) % 2 ^ 64 = x + 2 ^ 63 := Int.emod_eq_of_lt (by omega) (by omega)
  omega

theorem scanStep_of_inWindow (cfg : Config) (failureTs : Int) (st : ScanState) (evt : Event)
    (h : inWindow cfg failureTs evt = true) :
    scanStep cfg failureTs st evt =
      { contributingEventIds := st.contributingEventIds ++ [evt.id]
        minDelta := min (wrap64 (failureTs - evt.ts)) st.minDelta
        hasRpcError := (decide (evt.type = EventType.RPC_ERROR) || st.hasRpcError) } := by
  simp only [inWindow, Bool.and_eq_true, decide_eq_true_eq] at h
  obtain ⟨h1, h2⟩ := h
  have h1' : ¬ evt.ts > failureTs := not_lt.2 h1
  have h2' : ¬ wrap64 (failureTs - evt.ts) > cfg.windowSize := not_lt.2 h2
  have hmin : (if wrap64 (failureTs - evt.ts) < st.minDelta then wrap64 (failureTs - evt.ts)
      else st.minDelta) = min (wrap64 (failureTs - evt.ts)) st.minDelta := by
    by_cases hlt : wrap64 (failureTs - evt.ts) < st.minDelta
    · rw [if_pos hlt, min_eq_left (le_of_lt hlt)]
    · rw [if_neg hlt, min_eq_right (not_lt.1 hlt)]
  have hb : (if evt.type = EventType.RPC_ERROR then true else st.hasRpcError) =
      (decide (evt.type = EventType.RPC_ERROR) || st.hasRpcError) := by
    by_cases ht : evt.type = EventType.RPC_ERROR <;> simp [ht]
  simp only [scanStep, h1', h2', if_false, hmin, hb]

theorem scanStep_of_not_inWindow (cfg : Config) (failureTs : Int) (st : ScanState)
    (evt : Event) (h : inWindow cfg failureTs evt = false) :
    scanStep cfg failureTs st evt = st := by
  simp only [inWindow, Bool.and_eq_false_iff, decide_eq_false_iff_not, not_le] at h
  rcases h with h | h
  · simp [scanStep, h]
  · by_cases h1 : evt.ts > failureTs
    · simp [scanStep, h1]
    · simp [scanStep, h1, h]

theorem scan_foldl (cfg : Config) (failureTs : Int) (interactions : List Event) :
    ∀ st : ScanState,
      interactions.foldl (scanStep cfg failureTs) st =
        { contributingEventIds :=
            st.contributingEventIds ++
              (interactions.filter (inWindow cfg failureTs)).map (fun e => e.id)
          hasRpcError :=
            (st.hasRpcError ||
              interactions.any
                (fun e => inWindow cfg failureTs e && decide (e.type = EventType.RPC_ERROR)))
          minDelta :=
            ((interactions.filter (inWindow cfg failureTs)).map
              (fun e => wrap64 (failureTs - e.ts))).foldl min st.minDelta } := by
  induction interactions with
  | nil => intro st; simp
  | cons e rest ih =>
    intro st
    rw [List.foldl_cons, ih]
    by_cases h : inWindow cfg failureTs e = true
    · rw [scanStep_of_inWindow cfg failureTs st e h]
      simp only [List.filter_cons, h, if_true, List.map_cons, List.foldl_cons, List.any_cons,
        Bool.true_and, List.append_assoc, List.singleton_append]
      congr 1
      · cases decide (e.type = EventType.RPC_ERROR) <;> cases st.hasRpcError <;> simp
      · rw [min_comm]
    · have h' : inWindow cfg failureTs e = false := by simpa using h
      rw [scanStep_of_not_inWindow cfg failureTs st e h']
      simp [List.filter_cons, h', List.any_cons]

theorem scan_ids (cfg : Config) (failureTs : Int) (interactions : List Event) :
    (scanInteractions cfg failureTs interactions).contributingEventIds =
      (interactions.filter (inWindow cfg failureTs)).map (fun e => e.id) := by
  simp [scanInteractions, scan_foldl]

theorem scan_hasRpcError (cfg : Config) (failureTs : Int) (interactions : List Event) :
    (scanInteractions cfg failureTs interactions).hasRpcError =
      interactions.any
        (fun e => inWindow cfg failureTs e && decide (e.type = EventType.RPC_ERROR)) := by
  simp [scanInteractions, scan_foldl]

theorem scan_minDelta (cfg : Config) (failureTs : Int) (interactions : List Event) :
    (scanInteractions cfg failureTs interactions).minDelta =
      ((interactions.filter (inWindow cfg failureTs)).map
        (fun e => wrap64 (failureTs - e.ts))).foldl min cfg.windowSize := by
  simp [scanInteractions, scan_foldl]

/-! ### rounding -/

theorem mathRound_spec (x : ℚ) :
    ∃ n : Int, mathRound x = (n : ℚ) ∧ |x - n| ≤ 1 / 2 ∧ (|x - n| = 1 / 2 → |x| < |(n : ℚ)|) := by
  unfold mathRound
  by_cases hx : 0 ≤ x
  · refine ⟨⌊x + 1 / 2⌋, by simp [hx], ?_, ?_⟩
    · have h1 := Int.floor_le (x + 1 / 2)
      have h2 := Int.lt_floor_add_one (x + 1 / 2)
      rw [abs_le]
      constructor <;> linarith
    · intro habs
      have h1 := Int.floor_le (x + 1 / 2)
      have h2 := Int.lt_floor_add_one (x + 1 / 2)
      have hn : ((⌊x + 1 / 2⌋ : Int) : ℚ) = x + 1 / 2 := by
        rcases abs_eq (by norm_num : (0 : ℚ) ≤ 1 / 2) |>.1 habs with h | h
        · linarith
        · linarith
      rw [hn, abs_of_nonneg hx, abs_of_nonneg (by linarith)]
      linarith
  · have hx' : x < 0 := not_le.1 hx
    refine ⟨⌈x - 1 / 2⌉, by simp [hx], ?_, ?_⟩
    · have h1 := Int.le_ceil (x - 1 / 2)
      have h2 := Int.ceil_lt_add_one (x - 1 / 2)
      rw [abs_le]
      constructor <;> linarith
    · intro habs
      have h1 := Int.le_ceil (x - 1 / 2)
      have h2 := Int.ceil_lt_add_one (x - 1 / 2)
      have hn : ((⌈x - 1 / 2⌉ : Int) : ℚ) = x - 1 / 2 := by
        rcases abs_eq (by norm_num : (0 : ℚ) ≤ 1 / 2) |>.1 habs with h | h
        · linarith
        · linarith
      rw [hn, abs_of_neg hx', abs_of_neg (by linarith)]
      linarith

theorem mathRound_intCast (n : Int) : mathRound (n : ℚ) = (n : ℚ) := by
  unfold mathRound
  by_cases hn : (0 : ℚ) ≤ (n : ℚ)
  · rw [if_pos hn]
    have : ⌊(n : ℚ) + 1 / 2⌋ = n := by
      rw [Int.floor_eq_iff]
      constructor <;> norm_num
    rw [this]
  · rw [if_neg hn]
    have : ⌈(n : ℚ) - 1 / 2⌉ = n := by
      rw [Int.ceil_eq_iff]
      constructor <;> norm_num
    rw [this]

theorem mathRound_bounds (x : ℚ) (N : Int) (h0 : 0 ≤ x) (h1 : x ≤ N) :
    0 ≤ mathRound x ∧ mathRound x ≤ N := by
  unfold mathRound
  rw [if_pos h0]
  constructor
  · have : (0 : Int) ≤ ⌊x + 1 / 2⌋ := Int.floor_nonneg.2 (by linarith)
    exact_mod_cast this
  · have : ⌊x + 1 / 2⌋ ≤ N := by
      have h2 : ⌊x + 1 / 2⌋ < N + 1 := by
        rw [Int.floor_lt]
        push_cast
        linarith
      omega
    exact_mod_cast this

/-! ## Facts about `ScoreEdge` -/

theorem clamp_eq (t : ℚ) :
    (if (if t > 1 then 1 else t) < 0 then 0 else (if t > 1 then 1 else t)) = clamp01 t := by
  unfold clamp01
  by_cases h1 : t > 1
  · rw [if_pos h1, if_neg (by norm_num), min_eq_left (le_of_lt h1), max_eq_right (by norm_num)]
  · rw [if_neg h1, min_eq_right (not_lt.1 h1)]
    by_cases h0 : t < 0
    · rw [if_pos h0, max_eq_left (le_of_lt h0)]
    · rw [if_neg h0, max_eq_right (not_lt.1 h0)]

theorem clamp01_bounds (t : ℚ) : 0 ≤ clamp01 t ∧ clamp01 t ≤ 1 := by
  unfold clamp01
  exact ⟨le_max_left _ _, max_le (by norm_num) (min_le_left _ _)⟩

theorem ScoreEdge_baseScore (cfg : Config) (failureTs : Int) (interactions : List Event) :
    (ScoreEdge cfg failureTs interactions).baseScore = cfg.baseScore := rfl

theorem ScoreEdge_traceBonus (cfg : Config) (failureTs : Int) (interactions : List Event) :
    (ScoreEdge cfg failureTs interactions).traceBonus = 0 := by
  simp [ScoreEdge]

theorem ScoreEdge_rpcBonus_eq (cfg : Config) (failureTs : Int) (interactions : List Event) :
    (ScoreEdge cfg failureTs interactions).rpcBonus =
      if interactions.any
          (fun e => inWindow cfg failureTs e && decide (e.type = EventType.RPC_ERROR)) = true
      then cfg.rpcErrorBonus else 0 := by
  simp only [ScoreEdge, scan_hasRpcError]

theorem ScoreEdge_ids (cfg : Config) (failureTs : Int) (interactions : List Event) :
    (ScoreEdge cfg failureTs interactions).contributingEventIds =
      (interactions.filter (inWindow cfg failureTs)).map (fun e => e.id) := by
  simp only [ScoreEdge, scan_ids]

theorem ScoreEdge_score_eq (cfg : Config) (failureTs : Int) (interactions : List Event) :
    (ScoreEdge cfg failureTs interactions).score =
      mathRound
        (clamp01
          ((ScoreEdge cfg failureTs interactions).baseScore +
            (ScoreEdge cfg failureTs interactions).traceBonus +
            (ScoreEdge cfg failureTs interactions).rpcBonus +
            (ScoreEdge cfg failureTs interactions).timeProximityBonus) * 1000000) / 1000000 := by
  simp only [ScoreEdge, clamp_eq]

theorem ScoreEdge_score_bounds (cfg : Config) (failureTs : Int) (interactions : List Event) :
    0 ≤ (ScoreEdge cfg failureTs interactions).score ∧
      (ScoreEdge cfg failureTs interactions).score ≤ 1 := by
  rw [ScoreEdge_score_eq]
  generalize (ScoreEdge cfg failureTs interactions).baseScore +
    (ScoreEdge cfg failureTs interactions).traceBonus +
    (ScoreEdge cfg failureTs interactions).rpcBonus +
    (ScoreEdge cfg failureTs interactions).timeProximityBonus = t
  obtain ⟨h0, h1⟩ := clamp01_bounds t
  have hb := mathRound_bounds (clamp01 t * 1000000) 1000000 (by positivity)
    (by push_cast; linarith)
  push_cast at hb
  constructor
  · exact div_nonneg hb.1 (by norm_num)
  · rw [div_le_one (by norm_num)]
    exact hb.2

theorem inWindow_iff_of_no_overflow (cfg : Config) (failureTs : Int) (e : Event)
    (h : e.ts ≤ failureTs → failureTs - e.ts < 2 ^ 63) :
    inWindow cfg failureTs e = true ↔
      0 ≤ failureTs - e.ts ∧ failureTs - e.ts ≤ cfg.windowSize := by
  simp only [inWindow, Bool.and_eq_true, decide_eq_true_eq]
  constructor
  · rintro ⟨h1, h2⟩
    rw [wrap64_of_range _ (by omega) (h h1)] at h2
    exact ⟨by omega, h2⟩
  · rintro ⟨h1, h2⟩
    have h1' : e.ts ≤ failureTs := by omega
    rw [wrap64_of_range _ h1 (h h1')]
    exact ⟨h1', h2⟩

/-! ## Facts about `ensureNode` -/

theorem ensureNode_cases (nodes : List (String × Node)) (s : String) :
    (ensureNode nodes s = nodes ∧ (s = "" ∨ (mapGet nodes s).isSome = true)) ∨
      (s ≠ "" ∧ mapGet nodes s = none ∧ ensureNode nodes s = nodes ++ [(s, freshNode s)]) := by
  unfold ensureNode
  by_cases hs : s = ""
  · left; simp [hs]
  · cases hg : mapGet nodes s with
    | some n => left; simp [hs]
    | none =>
      right
      refine ⟨hs, rfl, ?_⟩
      simp only [hs, if_false]
      exact mapSet_of_none nodes s _ hg

theorem mapGet_append_of_some {V : Type} (m m' : List (String × V)) (k : String) (v : V)
    (h : mapGet m k = some v) : mapGet (m ++ m') k = some v := by
  induction m with
  | nil => simp [mapGet] at h
  | cons p m ih =>
    obtain ⟨k₀, v₀⟩ := p
    by_cases hk : k₀ = k
    · simp [mapGet, hk] at h ⊢
      exact h
    · simp [mapGet, hk] at h ⊢
      exact ih h

theorem mapGet_append_of_none {V : Type} (m m' : List (String × V)) (k : String)
    (h : mapGet m k = none) : mapGet (m ++ m') k = mapGet m' k := by
  induction m with
  | nil => rfl
  | cons p m ih =>
    obtain ⟨k₀, v₀⟩ := p
    by_cases hk : k₀ = k
    · simp [mapGet, hk] at h
    · simp [mapGet, hk] at h ⊢
      exact ih h

theorem ensureNode_mapGet_of_some (nodes : List (String × Node)) (s k : String) (n : Node)
    (h : mapGet nodes k = some n) : mapGet (ensureNode nodes s) k = some n := by
  rcases ensureNode_cases nodes s with ⟨he, _⟩ | ⟨_, _, he⟩
  · rw [he]; exact h
  · rw [he]; exact mapGet_append_of_some _ _ _ _ h

theorem ensureNode_mapGet_self (nodes : List (String × Node)) (s : String) (hs : s ≠ "") :
    (mapGet (ensureNode nodes s) s).isSome = true := by
  rcases ensureNode_cases nodes s with ⟨he, h | h⟩ | ⟨_, hn, he⟩
  · exact absurd h hs
  · rw [he]; exact h
  · rw [he, mapGet_append_of_none _ _ _ hn]
    simp [mapGet]

theorem ensureNode_healthOf (nodes : List (String × Node)) (s k : String) :
    healthOf (ensureNode nodes s) k = healthOf nodes k := by
  rcases ensureNode_cases nodes s with ⟨he, _⟩ | ⟨_, hn, he⟩
  · rw [he]
  · rw [he]
    unfold healthOf
    cases hg : mapGet nodes k with
    | some n => rw [mapGet_append_of_some _ _ _ _ hg]
    | none =>
      rw [mapGet_append_of_none _ _ _ hg]
      by_cases hk : s = k
      · simp [mapGet, hk, freshNode]
      · simp [mapGet, hk]

theorem ensureNode_inv (nodes : List (String × Node)) (s : String) (h : NodesInv nodes) :
    NodesInv (ensureNode nodes s) := by
  rcases ensureNode_cases nodes s with ⟨he, _⟩ | ⟨hs, hn, he⟩
  · rw [he]; exact h
  · rw [he]
    obtain ⟨hnd, hid⟩ := h
    constructor
    · rw [List.map_append, List.nodup_append]
      refine ⟨hnd, by simp, ?_⟩
      intro a ha hb
      simp only [List.map_cons, List.map_nil, List.mem_singleton] at hb
      subst hb
      exact (mapGet_eq_none_iff nodes a).1 hn ha
    · intro p hp
      rcases List.mem_append.1 hp with hp | hp
      · exact hid p hp
      · simp only [List.mem_singleton] at hp
        subst hp
        exact ⟨rfl, hs⟩

theorem ensureNode_keys_subset (nodes : List (String × Node)) (s k : String)
    (h : k ∈ nodes.map Prod.fst) : k ∈ (ensureNode nodes s).map Prod.fst := by
  rcases ensureNode_cases nodes s with ⟨he, _⟩ | ⟨_, _, he⟩
  · rw [he]; exact h
  · rw [he, List.map_append]; exact List.mem_append_left _ h

theorem mapSet_nodes_inv (nodes : List (String × Node)) (k : String) (n n' : Node)
    (h : NodesInv nodes) (hg : mapGet nodes k = some n) (hid : n'.id = n.id) :
    NodesInv (mapSet nodes k n') := by
  obtain ⟨hnd, hall⟩ := h
  constructor
  · rw [mapSet_keys_of_some nodes k n n' hg]; exact hnd
  · intro p hp
    rcases mem_mapSet nodes k n' p hp with hp | hp
    · subst hp
      have := hall (k, n) (mem_of_mapGet nodes k n hg)
      exact ⟨hid.trans this.1, this.2⟩
    · exact hall p hp

theorem healthOf_mapSet (nodes : List (String × Node)) (k s : String) (n : Node) :
    healthOf (mapSet nodes k n) s = if s = k then n.healthStatus else healthOf nodes s := by
  unfold healthOf
  by_cases hs : s = k
  · subst hs
    simp [mapGet_mapSet_self]
  · simp [mapGet_mapSet_of_ne nodes k s n hs, hs]

/-! ## Facts about the replay loop body -/

theorem mapSet_keys {V : Type} (m : List (String × V)) (k : String) (v : V) :
    (mapSet m k v).map Prod.fst =
      if k ∈ m.map Prod.fst then m.map Prod.fst else m.map Prod.fst ++ [k] := by
  cases hg : mapGet m k with
  | none =>
    rw [mapSet_of_none m k v hg, if_neg ((mapGet_eq_none_iff m k).1 hg)]
    simp
  | some v₀ =>
    have : k ∈ m.map Prod.fst := (mapGet_isSome_iff m k).1 (by simp [hg])
    rw [mapSet_keys_of_some m k v₀ v hg, if_pos this]

theorem mapGet_mapSet_isSome {V : Type} (m : List (String × V)) (k k' : String) (v : V)
    (h : (mapGet m k').isSome = true) : (mapGet (mapSet m k v) k').isSome = true := by
  by_cases hk : k' = k
  · subst hk; simp [mapGet_mapSet_self]
  · rw [mapGet_mapSet_of_ne m k k' v hk]; exact h

theorem ensureNode_isSome (nodes : List (String × Node)) (s k : String)
    (h : (mapGet nodes k).isSome = true) : (mapGet (ensureNode nodes s) k).isSome = true := by
  cases hg : mapGet nodes k with
  | none => simp [hg] at h
  | some n => simp [ensureNode_mapGet_of_some nodes s k n hg]

theorem replayStep_rpc (unmarshal : String → String → Option String) (st : ReplayState)
    (e : Event) (d : String)
    (hty : e.type = EventType.RPC_CALL ∨ e.type = EventType.RPC_ERROR)
    (hd : unmarshal "dest_service" e.payload = some d) (hne : d ≠ "") :
    replayStep unmarshal st e =
      some
        { nodes := ensureNode (ensureNode st.nodes e.service) d
          edges :=
            match mapGet st.edges (edgeKey e.service d) with
            | some _ => st.edges
            | none => st.edges ++ [(edgeKey e.service d, newEdge e.service d)]
          edgeInteractions :=
            mapSet st.edgeInteractions (edgeKey e.service d)
              ((mapGet st.edgeInteractions (edgeKey e.service d)).getD [] ++ [e]) } := by
  have hedges : (match mapGet st.edges (edgeKey e.service d) with
      | some _ => st.edges
      | none => mapSet st.edges (edgeKey e.service d) (newEdge e.service d)) =
      (match mapGet st.edges (edgeKey e.service d) with
      | some _ => st.edges
      | none => st.edges ++ [(edgeKey e.service d, newEdge e.service d)]) := by
    cases hg : mapGet st.edges (edgeKey e.service d) with
    | some _ => rfl
    | none => exact mapSet_of_none _ _ _ hg
  rcases hty with hty | hty <;>
    simp only [replayStep, hty, hd, hne, ne_eq, not_false_eq_true, if_true] <;>
    exact congrArg some (by rw [← hedges]; rfl)

theorem replayStep_health (unmarshal : String → String → Option String) (st : ReplayState)
    (e : Event) (s : String) (node : Node) (hty : e.type = EventType.HEALTH_CHANGE)
    (hs : unmarshal "new_status" e.payload = some s)
    (hg : mapGet (ensureNode st.nodes e.service) e.service = some node) :
    replayStep unmarshal st e =
      some
        { st with
          nodes :=
            mapSet (ensureNode st.nodes e.service) e.service
              { node with
                healthStatus :=
                  if s = "DOWN" then 2 else if s = "DEGRADED" then 1 else 0 } } := by
  simp only [replayStep, hty, hs, hg]

theorem replayStep_health_none (unmarshal : String → String → Option String)
    (st : ReplayState) (e : Event) (s : String) (hty : e.type = EventType.HEALTH_CHANGE)
    (hs : unmarshal "new_status" e.payload = some s)
    (hg : mapGet (ensureNode st.nodes e.service) e.service = none) :
    replayStep unmarshal st e = none := by
  simp only [replayStep, hty, hs, hg]

theorem replayStep_other (unmarshal : String → String → Option String) (st : ReplayState)
    (e : Event)
    (hrpc : (e.type = EventType.RPC_CALL ∨ e.type = EventType.RPC_ERROR) →
      ∀ d, unmarshal "dest_service" e.payload = some d → d = "")
    (hhc : e.type = EventType.HEALTH_CHANGE → unmarshal "new_status" e.payload = none) :
    replayStep unmarshal st e = some { st with nodes := ensureNode st.nodes e.service } := by
  cases hty : e.type with
  | HEALTH_CHANGE => simp only [replayStep, hty, hhc hty]
  | OTHER c => simp only [replayStep, hty]
  | RPC_CALL =>
    cases hd : unmarshal "dest_service" e.payload with
    | none => simp only [replayStep, hty, hd]
    | some d =>
      have := hrpc (Or.inl hty) d hd
      subst this
      simp [replayStep, hty, hd]
  | RPC_ERROR =>
    cases hd : unmarshal "dest_service" e.payload with
    | none => simp only [replayStep, hty, hd]
    | some d =>
      have := hrpc (Or.inr hty) d hd
      subst this
      simp [replayStep, hty, hd]

/-- The three ways the loop body can act on an event. -/
theorem replayStep_cases (unmarshal : String → String → Option String) (e : Event) :
    (∃ d, (e.type = EventType.RPC_CALL ∨ e.type = EventType.RPC_ERROR) ∧
        unmarshal "dest_service" e.payload = some d ∧ d ≠ "") ∨
    (∃ s, e.type = EventType.HEALTH_CHANGE ∧ unmarshal "new_status" e.payload = some s) ∨
    (((e.type = EventType.RPC_CALL ∨ e.type = EventType.RPC_ERROR) →
        ∀ d, unmarshal "dest_service" e.payload = some d → d = "") ∧
      (e.type = EventType.HEALTH_CHANGE → unmarshal "new_status" e.payload = none)) := by
  by_cases h1 : ∃ d, (e.type = EventType.RPC_CALL ∨ e.type = EventType.RPC_ERROR) ∧
        unmarshal "dest_service" e.payload = some d ∧ d ≠ ""
  · exact Or.inl h1
  · by_cases h2 : ∃ s, e.type = EventType.HEALTH_CHANGE ∧
        unmarshal "new_status" e.payload = some s
    · exact Or.inr (Or.inl h2)
    · refine Or.inr (Or.inr ⟨?_, ?_⟩)
      · intro hty d hd
        by_contra hne
        exact h1 ⟨d, hty, hd, hne⟩
      · intro hty
        cases hs : unmarshal "new_status" e.payload with
        | none => rfl
        | some s => exact absurd ⟨s, hty, hs⟩ h2

/-! ## Invariant of the replay loop -/

theorem replayLoop_eq_replayAll (unmarshal : String → String → Option String) (atTs : Int)
    (l : List Event) :
    ∀ st, replayLoop unmarshal atTs st l =
      replayAll unmarshal st (l.takeWhile (fun e => decide (e.ts ≤ atTs))) := by
  induction l with
  | nil => intro st; rfl
  | cons e rest ih =>
    intro st
    by_cases h : e.ts > atTs
    · have h' : ¬ e.ts ≤ atTs := not_le.2 h
      simp [replayLoop, h, List.takeWhile_cons, h', replayAll]
    · have h' : e.ts ≤ atTs := not_lt.1 h
      simp only [replayLoop, h, if_false, List.takeWhile_cons, h', decide_True, if_true,
        replayAll]
      cases replayStep unmarshal st e with
      | none => rfl
      | some st' => exact ih st'

theorem replayInv_ensureNode (st : ReplayState) (s : String) (h : ReplayInv st) :
    ReplayInv { st with nodes := ensureNode st.nodes s } where
  nodesInv := ensureNode_inv _ _ h.nodesInv
  edgesNodup := h.edgesNodup
  edgeShape := h.edgeShape
  edgeTarget := fun p hp => ensureNode_isSome _ _ _ (h.edgeTarget p hp)
  edgeSource := fun p hp hne => ensureNode_isSome _ _ _ (h.edgeSource p hp hne)
  interKeys := h.interKeys

theorem replayStep_inv (unmarshal : String → String → Option String) (st st' : ReplayState)
    (e : Event) (h : ReplayInv st) (hstep : replayStep unmarshal st e = some st') :
    ReplayInv st' := by
  rcases replayStep_cases unmarshal e with ⟨d, hty, hd, hne⟩ | ⟨s, hty, hs⟩ | ⟨h1, h2⟩
  · rw [replayStep_rpc unmarshal st e d hty hd hne] at hstep
    cases hstep
    have hn1 := replayInv_ensureNode st e.service h
    have hn2 := replayInv_ensureNode _ d hn1
    have hkeymem : edgeKey e.service d ∈ st.edgeInteractions.map Prod.fst ↔
        edgeKey e.service d ∈ st.edges.map Prod.fst := by rw [h.interKeys]
    cases hg : mapGet st.edges (edgeKey e.service d) with
    | some e₀ =>
      have hin : edgeKey e.service d ∈ st.edges.map Prod.fst :=
        (mapGet_isSome_iff _ _).1 (by simp [hg])
      exact
        { nodesInv := hn2.nodesInv
          edgesNodup := h.edgesNodup
          edgeShape := h.edgeShape
          edgeTarget := hn2.edgeTarget
          edgeSource := hn2.edgeSource
          interKeys := by
            show (mapSet _ _ _).map Prod.fst = _
            rw [mapSet_keys, if_pos (hkeymem.2 hin), h.interKeys] }
    | none =>
      have hnin : edgeKey e.service d ∉ st.edges.map Prod.fst :=
        (mapGet_eq_none_iff _ _).1 hg
      exact
        { nodesInv := hn2.nodesInv
          edgesNodup := by
            show ((st.edges ++ [_]).map Prod.fst).Nodup
            rw [List.map_append, List.nodup_append]
            refine ⟨h.edgesNodup, by simp, ?_⟩
            intro a ha hb
            simp only [List.map_cons, List.map_nil, List.mem_singleton] at hb
            subst hb
            exact hnin ha
          edgeShape := by
            intro p hp
            rcases List.mem_append.1 hp with hp | hp
            · exact h.edgeShape p hp
            · simp only [List.mem_singleton] at hp
              subst hp
              exact ⟨rfl, rfl, hne⟩
          edgeTarget := by
            intro p hp
            rcases List.mem_append.1 hp with hp | hp
            · exact hn2.edgeTarget p hp
            · simp only [List.mem_singleton] at hp
              subst hp
              exact ensureNode_mapGet_self _ _ hne
          edgeSource := by
            intro p hp hsrc
            rcases List.mem_append.1 hp with hp | hp
            · exact hn2.edgeSource p hp hsrc
            · simp only [List.mem_singleton] at hp
              subst hp
              exact ensureNode_isSome _ _ _ (ensureNode_mapGet_self _ _ hsrc)
          interKeys := by
            show (mapSet _ _ _).map Prod.fst = (st.edges ++ [_]).map Prod.fst
            rw [mapSet_keys, if_neg (fun hc => hnin (hkeymem.1 hc)), h.interKeys]
            simp }
  · cases hg : mapGet (ensureNode st.nodes e.service) e.service with
    | none =>
      rw [replayStep_health_none unmarshal st e s hty hs hg] at hstep
      cases hstep
    | some node =>
      rw [replayStep_health unmarshal st e s node hty hs hg] at hstep
      cases hstep
      have hn1 := replayInv_ensureNode st e.service h
      exact
        { nodesInv := mapSet_nodes_inv _ _ node _ hn1.nodesInv hg rfl
          edgesNodup := h.edgesNodup
          edgeShape := h.edgeShape
          edgeTarget := fun p hp => mapGet_mapSet_isSome _ _ _ _ (hn1.edgeTarget p hp)
          edgeSource := fun p hp hsrc => mapGet_mapSet_isSome _ _ _ _ (hn1.edgeSource p hp hsrc)
          interKeys := h.interKeys }
  · rw [replayStep_other unmarshal st e h1 h2] at hstep
    cases hstep
    exact replayInv_ensureNode st e.service h

theorem replayAll_inv (unmarshal : String → String → Option String) (l : List Event) :
    ∀ st st', ReplayInv st → replayAll unmarshal st l = some st' → ReplayInv st' := by
  induction l with
  | nil => intro st st' h hr; cases hr; exact h
  | cons e rest ih =>
    intro st st' h hr
    simp only [replayAll] at hr
    cases hstep : replayStep unmarshal st e with
    | none => rw [hstep] at hr; cases hr
    | some st₁ =>
      rw [hstep] at hr
      exact ih st₁ st' (replayStep_inv unmarshal st st₁ e h hstep) hr

theorem replayInv_init : ReplayInv { nodes := [], edges := [], edgeInteractions := [] } where
  nodesInv := ⟨by simp, by simp⟩
  edgesNodup := by simp
  edgeShape := by simp
  edgeTarget := by simp
  edgeSource := by simp
  interKeys := rfl

theorem replayEvents_inv (unmarshal : String → String → Option String) (atTs : Int)
    (events : List Event) (rs : ReplayState)
    (h : replayEvents unmarshal atTs events = some rs) : ReplayInv rs := by
  unfold replayEvents at h
  rw [replayLoop_eq_replayAll] at h
  exact replayAll_inv unmarshal _ _ _ replayInv_init h

/-! ## Invariant of the scoring pass -/

theorem scoreStep_eq (atTs : Int) (st : ScoreState) (key : String) (inter : List Event)
    (edge : Edge) (tn : Node) (he : mapGet st.edges key = some edge)
    (ht : mapGet st.nodes edge.target = some tn) :
    scoreStep atTs st (key, inter) =
      some
        { nodes := amplify st.nodes tn.healthStatus edge inter
          edges :=
            mapSet st.edges key
              { edge with causalConfidence := (edgeEvidence atTs tn.healthStatus edge inter).score }
          evidenceMap := mapSet st.evidenceMap key (edgeEvidence atTs tn.healthStatus edge inter) } := by
  simp only [scoreStep, he, ht]
  rfl

theorem amplify_view (nodes : List (String × Node)) (h : Int) (edge : Edge)
    (inter : List Event) :
    (amplify nodes h edge inter).map (fun p => (p.1, nodeView p.2)) =
      nodes.map (fun p => (p.1, nodeView p.2)) := by
  unfold amplify
  split_ifs
  · cases hg : mapGet nodes edge.source with
    | none => rfl
    | some sn => exact mapSet_view nodeView nodes edge.source sn _ hg rfl
  · rfl
  · rfl

theorem scoringPass_inv (atTs : Int) (rs : ReplayState) (hrs : ReplayInv rs) :
    ∀ (todo done : List (String × List Event)) (st : ScoreState),
      st.nodes.map (fun p => (p.1, nodeView p.2)) = rs.nodes.map (fun p => (p.1, nodeView p.2)) →
      st.edges.map (fun p => (p.1, edgeView p.2)) = rs.edges.map (fun p => (p.1, edgeView p.2)) →
      st.evidenceMap.map Prod.fst = done.map Prod.fst →
      (∀ p ∈ done, Scored atTs rs st p) →
      (∀ k, k ∉ done.map Prod.fst → mapGet st.edges k = mapGet rs.edges k) →
      ((done ++ todo).map Prod.fst).Nodup →
      (∀ p ∈ todo, p.1 ∈ rs.edges.map Prod.fst) →
      ∃ ss, scoringPass atTs st todo = some ss ∧
        ss.nodes.map (fun p => (p.1, nodeView p.2)) =
          rs.nodes.map (fun p => (p.1, nodeView p.2)) ∧
        ss.edges.map (fun p => (p.1, edgeView p.2)) =
          rs.edges.map (fun p => (p.1, edgeView p.2)) ∧
        ss.evidenceMap.map Prod.fst = (done ++ todo).map Prod.fst ∧
        ∀ p ∈ done ++ todo, Scored atTs rs ss p := by
  intro todo
  induction todo with
  | nil =>
    intro done st h1 h2 h3 h4 _ _ _
    exact ⟨st, rfl, h1, h2, by simpa using h3, by simpa using h4⟩
  | cons p rest ih =>
    intro done st h1 h2 h3 h4 h5 h6 h7
    obtain ⟨k, inter⟩ := p
    have hk : k ∈ rs.edges.map Prod.fst := h7 (k, inter) (List.mem_cons_self _ _)
    have hnd : (done.map Prod.fst ++ k :: rest.map Prod.fst).Nodup := by
      simpa [List.map_append] using h6
    have hkdone : k ∉ done.map Prod.fst := by
      intro hc
      exact (List.nodup_append.1 hnd).2.2 hc (List.mem_cons_self _ _)
    obtain ⟨edge, hedge⟩ : ∃ edge, mapGet rs.edges k = some edge := by
      have := (mapGet_isSome_iff rs.edges k).2 hk
      exact Option.isSome_iff_exists.1 this
    have hedge' : mapGet st.edges k = some edge := by rw [h5 k hkdone, hedge]
    have hmem : (k, edge) ∈ rs.edges := mem_of_mapGet _ _ _ hedge
    obtain ⟨tn₀, htn₀⟩ : ∃ tn, mapGet rs.nodes edge.target = some tn :=
      Option.isSome_iff_exists.1 (hrs.edgeTarget (k, edge) hmem)
    have hview := mapGet_view nodeView st.nodes rs.nodes edge.target h1
    rw [htn₀] at hview
    obtain ⟨tn, htn⟩ : ∃ tn, mapGet st.nodes edge.target = some tn := by
      cases hg : mapGet st.nodes edge.target with
      | none => rw [hg] at hview; simp at hview
      | some tn => exact ⟨tn, rfl⟩
    have hhealth : tn.healthStatus = tn₀.healthStatus := by
      rw [htn] at hview
      simp only [Option.map_some', Option.some.injEq, nodeView, Prod.mk.injEq] at hview
      exact hview.2.2
    have hstep := scoreStep_eq atTs st k inter edge tn hedge' htn
    rw [hhealth] at hstep
    simp only [scoringPass, hstep]
    have hres := ih (done ++ [(k, inter)])
      { nodes := amplify st.nodes tn₀.healthStatus edge inter
        edges := mapSet st.edges k
          { edge with causalConfidence := (edgeEvidence atTs tn₀.healthStatus edge inter).score }
        evidenceMap := mapSet st.evidenceMap k (edgeEvidence atTs tn₀.healthStatus edge inter) }
      (by rw [amplify_view]; exact h1)
      (by
        exact (mapSet_view edgeView st.edges k edge
          { edge with causalConfidence := (edgeEvidence atTs tn₀.healthStatus edge inter).score }
          hedge' rfl).trans h2)
      (by
        show (mapSet st.evidenceMap k _).map Prod.fst = _
        rw [mapSet_keys, h3, if_neg hkdone]; simp)
      (by
        intro q hq
        rcases List.mem_append.1 hq with hq | hq
        · obtain ⟨e', t', hq1, hq2, hq3, hq4⟩ := h4 q hq
          have hne : q.1 ≠ k := by
            intro hc
            exact hkdone (hc ▸ List.mem_map_of_mem Prod.fst hq)
          refine ⟨e', t', hq1, hq2, ?_, ?_⟩
          · show mapGet (mapSet st.evidenceMap k _) q.1 = _
            rw [mapGet_mapSet_of_ne _ _ _ _ hne]; exact hq3
          · show mapGet (mapSet st.edges k _) q.1 = _
            rw [mapGet_mapSet_of_ne _ _ _ _ hne]; exact hq4
        · simp only [List.mem_singleton] at hq
          subst hq
          exact ⟨edge, tn₀, hedge, htn₀, mapGet_mapSet_self _ _ _, mapGet_mapSet_self _ _ _⟩)
      (by
        intro k' hk'
        have hne : k' ≠ k := by
          intro hc
          apply hk'
          simp [hc]
        have hnd' : k' ∉ done.map Prod.fst := by
          intro hc
          apply hk'
          simp only [List.map_append, List.mem_append]
          exact Or.inl hc
        show mapGet (mapSet st.edges k _) k' = _
        rw [mapGet_mapSet_of_ne _ _ _ _ hne]
        exact h5 k' hnd')
      (by simpa [List.append_assoc] using h6)
      (fun q hq => h7 q (List.mem_cons_of_mem _ hq))
    simpa [List.append_assoc] using hres

/-! ## Shape of the result of `ReconstructGraph` -/

theorem scoringPass_spec (atTs : Int) (rs : ReplayState) (hrs : ReplayInv rs) :
    ∃ ss, scoringPass atTs { nodes := rs.nodes, edges := rs.edges, evidenceMap := [] }
        rs.edgeInteractions = some ss ∧
      ss.nodes.map (fun p => (p.1, nodeView p.2)) =
        rs.nodes.map (fun p => (p.1, nodeView p.2)) ∧
      ss.edges.map (fun p => (p.1, edgeView p.2)) =
        rs.edges.map (fun p => (p.1, edgeView p.2)) ∧
      ss.evidenceMap.map Prod.fst = rs.edges.map Prod.fst ∧
      ∀ p ∈ rs.edgeInteractions, Scored atTs rs ss p := by
  have h := scoringPass_inv atTs rs hrs rs.edgeInteractions []
    { nodes := rs.nodes, edges := rs.edges, evidenceMap := [] } rfl rfl rfl
    (by simp) (fun _ _ => rfl)
    (by rw [List.nil_append, hrs.interKeys]; exact hrs.edgesNodup)
    (fun p hp => by rw [← hrs.interKeys]; exact List.mem_map_of_mem Prod.fst hp)
  obtain ⟨ss, h1, h2, h3, h4, h5⟩ := h
  refine ⟨ss, h1, h2, h3, ?_, ?_⟩
  · rw [h4, List.nil_append, hrs.interKeys]
  · simpa using h5

/-- Whenever `ReconstructGraph` returns, its result is assembled from a well-formed replay
state and a completed scoring pass. -/
theorem ReconstructGraph_some (unmarshal : String → String → Option String) (atTs : Int)
    (events : List Event) (snap : GraphSnapshot) (ev : List (String × EdgeEvidence))
    (h : ReconstructGraph unmarshal atTs events = some (snap, ev)) :
    ∃ rs ss, replayEvents unmarshal atTs events = some rs ∧ ReplayInv rs ∧
      scoringPass atTs { nodes := rs.nodes, edges := rs.edges, evidenceMap := [] }
        rs.edgeInteractions = some ss ∧
      snap = { timestamp := atTs
               nodes := sortSlice nodeLess (ss.nodes.map Prod.snd)
               edges := sortSlice edgeLess (ss.edges.map Prod.snd) } ∧
      ev = ss.evidenceMap ∧
      ss.nodes.map (fun p => (p.1, nodeView p.2)) =
        rs.nodes.map (fun p => (p.1, nodeView p.2)) ∧
      ss.edges.map (fun p => (p.1, edgeView p.2)) =
        rs.edges.map (fun p => (p.1, edgeView p.2)) ∧
      ss.evidenceMap.map Prod.fst = rs.edges.map Prod.fst ∧
      ∀ p ∈ rs.edgeInteractions, Scored atTs rs ss p := by
  unfold ReconstructGraph at h
  cases hr : replayEvents unmarshal atTs events with
  | none => rw [hr] at h; cases h
  | some rs =>
    rw [hr] at h
    have hinv := replayEvents_inv unmarshal atTs events rs hr
    obtain ⟨ss, hs, h1, h2, h3, h4⟩ := scoringPass_spec atTs rs hinv
    simp only [hs, Option.some.injEq, Prod.mk.injEq] at h
    exact ⟨rs, ss, rfl, hinv, hs, h.1.symm, h.2.symm, h1, h2, h3, h4⟩

/-- `ReconstructGraph` returns exactly when the replay loop does. -/
theorem ReconstructGraph_of_replay (unmarshal : String → String → Option String) (atTs : Int)
    (events : List Event) (rs : ReplayState)
    (hr : replayEvents unmarshal atTs events = some rs) :
    ∃ snap ev, ReconstructGraph unmarshal atTs events = some (snap, ev) := by
  have hinv := replayEvents_inv unmarshal atTs events rs hr
  obtain ⟨ss, hs, _⟩ := scoringPass_spec atTs rs hinv
  exact
    ⟨{ timestamp := atTs
       nodes := sortSlice nodeLess (ss.nodes.map Prod.snd)
       edges := sortSlice edgeLess (ss.edges.map Prod.snd) },
      ss.evidenceMap, by simp only [ReconstructGraph, hr, hs]⟩

theorem nodeLess_iff (a b : Node) : nodeLess a b = true ↔ a.id < b.id := by
  simp [nodeLess]

theorem edgeLess_iff (a b : Edge) :
    edgeLess a b = true ↔
      toLex (a.source, a.target) < toLex (b.source, b.target) := by
  rw [Prod.Lex.lt_iff]
  unfold edgeLess
  by_cases h : a.source = b.source
  · simp [h]
  · simp [h]

theorem eventLess_iff (a b : Event) :
    eventLess a b = true ↔ toLex (a.ts, a.id) < toLex (b.ts, b.id) := by
  rw [Prod.Lex.lt_iff]
  unfold eventLess
  by_cases h : a.ts = b.ts
  · simp [h]
  · simp [h]

/-! ## Snapshot order -/

theorem view_mem {V W : Type} (f : V → W) (m m' : List (String × V))
    (h : m.map (fun p => (p.1, f p.2)) = m'.map (fun p => (p.1, f p.2)))
    (k : String) (v : V) (hm : (k, v) ∈ m) : ∃ v', (k, v') ∈ m' ∧ f v' = f v := by
  have : (k, f v) ∈ m.map (fun p => (p.1, f p.2)) :=
    List.mem_map.2 ⟨(k, v), hm, rfl⟩
  rw [h] at this
  obtain ⟨⟨k', v'⟩, hm', heq⟩ := List.mem_map.1 this
  simp only [Prod.mk.injEq] at heq
  obtain ⟨hk, hv⟩ := heq
  subst hk
  exact ⟨v', hm', hv⟩

theorem view_values {V W : Type} (f : V → W) (m m' : List (String × V))
    (h : m.map (fun p => (p.1, f p.2)) = m'.map (fun p => (p.1, f p.2))) :
    (m.map Prod.snd).map f = (m'.map Prod.snd).map f := by
  have := congrArg (List.map Prod.snd) h
  simpa [List.map_map, Function.comp_def] using this

/-- The ids of the nodes after the scoring pass are the keys of the replay's node map. -/
theorem scored_node_ids (rs : ReplayState) (ss : ScoreState) (hrs : ReplayInv rs)
    (hv : ss.nodes.map (fun p => (p.1, nodeView p.2)) =
      rs.nodes.map (fun p => (p.1, nodeView p.2))) :
    (ss.nodes.map Prod.snd).map (fun n => n.id) = rs.nodes.map Prod.fst := by
  have h1 := congrArg (List.map (fun q : String × String × String × Int => q.2.1)) hv
  simp only [List.map_map, Function.comp_def, nodeView] at h1
  simp only [List.map_map, Function.comp_def]
  rw [h1]
  exact List.map_congr_left (fun p hp => (hrs.nodesInv.2 p hp).1)

/-- The endpoint pairs of the edges after the scoring pass are those of the replay. -/
theorem scored_edge_pairs (rs : ReplayState) (ss : ScoreState)
    (hv : ss.edges.map (fun p => (p.1, edgeView p.2)) =
      rs.edges.map (fun p => (p.1, edgeView p.2))) :
    (ss.edges.map Prod.snd).map (fun e => toLex (e.source, e.target)) =
      rs.edges.map (fun p => toLex (p.2.source, p.2.target)) := by
  have h1 := congrArg
    (List.map (fun q : String × String × String × Bool => toLex (q.2.1, q.2.2.1))) hv
  simpa only [List.map_map, Function.comp_def, edgeView] using h1

theorem replay_edge_pairs_nodup (rs : ReplayState) (hrs : ReplayInv rs) :
    (rs.edges.map (fun p => toLex (p.2.source, p.2.target))).Nodup := by
  have hkeys : (rs.edges.map (fun p => toLex (p.2.source, p.2.target))).map
      (fun q => edgeKey (ofLex q).1 (ofLex q).2) = rs.edges.map Prod.fst := by
    rw [List.map_map]
    exact List.map_congr_left (fun p hp => (hrs.edgeShape p hp).1.symm)
  have hnd := hrs.edgesNodup
  rw [← hkeys] at hnd
  exact List.Nodup.of_map _ hnd

/-- Nodes and edges of a returned snapshot are strictly sorted. -/
theorem snapshot_sorted (unmarshal : String → String → Option String) (atTs : Int)
    (events : List Event) (snap : GraphSnapshot) (ev : List (String × EdgeEvidence))
    (h : ReconstructGraph unmarshal atTs events = some (snap, ev)) :
    snap.nodes.Pairwise (fun a b => a.id < b.id) ∧
      snap.edges.Pairwise
        (fun a b => a.source < b.source ∨ (a.source = b.source ∧ a.target < b.target)) := by
  obtain ⟨rs, ss, _, hrs, _, hsnap, _, hvn, hve, _, _⟩ :=
    ReconstructGraph_some unmarshal atTs events snap ev h
  subst hsnap
  constructor
  · apply sortSlice_strict nodeLess (fun n => n.id) nodeLess_iff
    rw [scored_node_ids rs ss hrs hvn]
    exact hrs.nodesInv.1
  · have := sortSlice_strict edgeLess (fun e => toLex (e.source, e.target)) edgeLess_iff
      (ss.edges.map Prod.snd)
      (by rw [scored_edge_pairs rs ss hve]; exact replay_edge_pairs_nodup rs hrs)
    exact this.imp (fun {a b} hab => (Prod.Lex.lt_iff _ _).1 hab)

/-- C2 (snapshot order invariant): whenever `ReconstructGraph` returns a snapshot, its
nodes are in strictly ascending order of id and its edges in strictly ascending
lexicographic order of `(source, target)`; in particular no id and no pair repeats. -/
theorem order_invariant (unmarshal : String → String → Option String) (atTs : Int)
    (events : List Event) (snap : GraphSnapshot) (ev : List (String × EdgeEvidence))
    (h : ReconstructGraph unmarshal atTs events = some (snap, ev)) :
    snap.nodes.Pairwise (fun a b => a.id < b.id) ∧
      snap.edges.Pairwise
        (fun a b => a.source < b.source ∨ (a.source = b.source ∧ a.target < b.target)) :=
  snapshot_sorted unmarshal atTs events snap ev h

/-! ## Edges, evidence and score bounds -/

/-- Every edge left by the scoring pass is a replay edge carrying the score of the
evidence stored under its key. -/
theorem scored_edge (atTs : Int) (rs : ReplayState) (ss : ScoreState) (hrs : ReplayInv rs)
    (hve : ss.edges.map (fun p => (p.1, edgeView p.2)) =
      rs.edges.map (fun p => (p.1, edgeView p.2)))
    (hsc : ∀ p ∈ rs.edgeInteractions, Scored atTs rs ss p)
    (e : Edge) (he : e ∈ ss.edges.map Prod.snd) :
    ∃ inter edge tn, (edgeKey edge.source edge.target, inter) ∈ rs.edgeInteractions ∧
      (edgeKey edge.source edge.target, edge) ∈ rs.edges ∧
      mapGet rs.nodes edge.target = some tn ∧
      mapGet ss.evidenceMap (edgeKey edge.source edge.target) =
        some (edgeEvidence atTs tn.healthStatus edge inter) ∧
      e = { edge with causalConfidence := (edgeEvidence atTs tn.healthStatus edge inter).score } := by
  obtain ⟨⟨k, e'⟩, hmem, heq⟩ := List.mem_map.1 he
  simp only at heq
  subst heq
  have hkeys : ss.edges.map Prod.fst = rs.edges.map Prod.fst := keys_of_view edgeView _ _ hve
  have hk : k ∈ rs.edgeInteractions.map Prod.fst := by
    rw [hrs.interKeys, ← hkeys]
    exact List.mem_map_of_mem Prod.fst hmem
  obtain ⟨⟨k', inter⟩, hinter, hk'⟩ := List.mem_map.1 hk
  simp only at hk'
  subst hk'
  obtain ⟨edge, tn, h1, h2, h3, h4⟩ := hsc (k', inter) hinter
  simp only at h1 h3 h4
  have hmem₀ := mem_of_mapGet _ _ _ h1
  have hkey : k' = edgeKey edge.source edge.target := (hrs.edgeShape _ hmem₀).1
  have hnd : (ss.edges.map Prod.fst).Nodup := by rw [hkeys]; exact hrs.edgesNodup
  have hget := mapGet_of_mem ss.edges k' e' hnd hmem
  rw [h4] at hget
  simp only [Option.some.injEq] at hget
  subst hkey
  exact ⟨inter, edge, tn, hinter, hmem₀, h2, h3, hget.symm⟩

theorem edgeEvidence_source (atTs h : Int) (edge : Edge) (inter : List Event) :
    (edgeEvidence atTs h edge inter).sourceService = edge.source := rfl

theorem edgeEvidence_target (atTs h : Int) (edge : Edge) (inter : List Event) :
    (edgeEvidence atTs h edge inter).targetService = edge.target := rfl

theorem edgeEvidence_score (atTs h : Int) (edge : Edge) (inter : List Event) :
    (edgeEvidence atTs h edge inter).score = (ScoreEdge (currentConfig h) atTs inter).score :=
  rfl

/-- C3, as amended (edge-endpoint invariant): whenever `ReconstructGraph` returns a
snapshot, the target of every edge is the id of a snapshot node, and so is its source
unless the source is the empty service name. -/
theorem edge_endpoints (unmarshal : String → String → Option String) (atTs : Int)
    (events : List Event) (snap : GraphSnapshot) (ev : List (String × EdgeEvidence))
    (h : ReconstructGraph unmarshal atTs events = some (snap, ev)) :
    ∀ e ∈ snap.edges,
      (∃ n ∈ snap.nodes, n.id = e.target) ∧
        (e.source ≠ "" → ∃ n ∈ snap.nodes, n.id = e.source) := by
  obtain ⟨rs, ss, _, hrs, _, hsnap, _, hvn, hve, _, hsc⟩ :=
    ReconstructGraph_some unmarshal atTs events snap ev h
  subst hsnap
  intro e he
  have he' : e ∈ ss.edges.map Prod.snd := (mem_sortSlice _ _ _).1 he
  obtain ⟨inter, edge, tn, _, hmem, _, _, heq⟩ := scored_edge atTs rs ss hrs hve hsc e he'
  have hnode : ∀ s, (mapGet rs.nodes s).isSome = true →
      ∃ n ∈ sortSlice nodeLess (ss.nodes.map Prod.snd), n.id = s := by
    intro s hs
    have hin : s ∈ rs.nodes.map Prod.fst := (mapGet_isSome_iff _ _).1 hs
    rw [← scored_node_ids rs ss hrs hvn] at hin
    obtain ⟨n, hn, hid⟩ := List.mem_map.1 hin
    exact ⟨n, (mem_sortSlice _ _ _).2 hn, hid⟩
  subst heq
  exact ⟨hnode _ (hrs.edgeTarget _ hmem), fun hsrc => hnode _ (hrs.edgeSource _ hmem hsrc)⟩

/-- C5 (edge/evidence agreement): whenever `ReconstructGraph` returns, the evidence map has
unique keys and as many entries as the snapshot has edges; every snapshot edge has an entry
under `source|target` with the edge's source, target and causal confidence; and every entry
is stored under the key of a snapshot edge. -/
theorem edge_evidence_agreement (unmarshal : String → String → Option String) (atTs : Int)
    (events : List Event) (snap : GraphSnapshot) (ev : List (String × EdgeEvidence))
    (h : ReconstructGraph unmarshal atTs events = some (snap, ev)) :
    (ev.map Prod.fst).Nodup ∧ ev.length = snap.edges.length ∧
      (∀ e ∈ snap.edges, ∃ x, mapGet ev (edgeKey e.source e.target) = some x ∧
        x.sourceService = e.source ∧ x.targetService = e.target ∧
        x.score = e.causalConfidence) ∧
      (∀ p ∈ ev, ∃ e ∈ snap.edges, p.1 = edgeKey e.source e.target) := by
  obtain ⟨rs, ss, _, hrs, _, hsnap, hev, hvn, hve, hkeys, hsc⟩ :=
    ReconstructGraph_some unmarshal atTs events snap ev h
  subst hsnap hev
  have hekeys : ss.edges.map Prod.fst = rs.edges.map Prod.fst := keys_of_view edgeView _ _ hve
  refine ⟨by rw [hkeys]; exact hrs.edgesNodup, ?_, ?_, ?_⟩
  · have h1 : ss.evidenceMap.length = ss.edges.length := by
      have := congrArg List.length (hkeys.trans hekeys.symm)
      simpa using this
    rw [h1, (sortSlice_perm edgeLess _).length_eq, List.length_map]
  · intro e he
    have he' : e ∈ ss.edges.map Prod.snd := (mem_sortSlice _ _ _).1 he
    obtain ⟨inter, edge, tn, _, _, _, hget, heq⟩ := scored_edge atTs rs ss hrs hve hsc e he'
    subst heq
    exact ⟨_, hget, rfl, rfl, rfl⟩
  · intro p hp
    obtain ⟨k, x⟩ := p
    have hk : k ∈ ss.edges.map Prod.fst := by
      rw [hekeys, ← hkeys]; exact List.mem_map_of_mem Prod.fst hp
    obtain ⟨⟨k', e⟩, hmem, hkeq⟩ := List.mem_map.1 hk
    simp only at hkeq
    subst hkeq
    obtain ⟨e₀, hmem₀, hview⟩ := view_mem edgeView ss.edges rs.edges hve k' e hmem
    refine ⟨e, (mem_sortSlice _ _ _).2 (List.mem_map_of_mem Prod.snd hmem), ?_⟩
    have := (hrs.edgeShape _ hmem₀).1
    simp only [edgeView, Prod.mk.injEq] at hview
    simp only at this
    rw [this, hview.1, hview.2.1]

/-! ## Determinism of the reconstruction -/

/-- C1, as amended (reconstruction determinism): for event lists in which two events with
the same `(ts, id)` are the same event, `ReconstructGraph` returns the same result (snapshot
and evidence map, or the same failure) on every permutation of the list. -/
theorem reconstruction_determinism (unmarshal : String → String → Option String) (atTs : Int)
    (events events' : List Event) (hperm : events'.Perm events)
    (hkey : ∀ a ∈ events, ∀ b ∈ events, a.ts = b.ts → a.id = b.id → a = b) :
    ReconstructGraph unmarshal atTs events' = ReconstructGraph unmarshal atTs events := by
  have hsort : sortSlice eventLess events' = sortSlice eventLess events := by
    apply sortSlice_unique eventLess (fun e => toLex (e.ts, e.id)) eventLess_iff _ _ hperm
    intro a ha b hb hab
    have := congrArg ofLex hab
    simp only [ofLex_toLex, Prod.mk.injEq] at this
    exact hkey a ha b hb this.1 this.2
  simp only [ReconstructGraph, replayEvents, hsort]


/-- C1 fails as stated: two events sharing `(ts, id)` are replayed in input order, so
swapping them changes the health of `B` in the snapshot. -/
theorem reconstruction_determinism_fails :
    [dupUp, dupDown].Perm [dupDown, dupUp] ∧
      ReconstructGraph tableUnmarshal 5 [dupUp, dupDown] ≠
        ReconstructGraph tableUnmarshal 5 [dupDown, dupUp] := by
  refine ⟨List.Perm.swap _ _ _, ?_⟩
  decide!

/-! ## Health along the replay -/

theorem replayStep_healthOf (unmarshal : String → String → Option String)
    (st st' : ReplayState) (e : Event) (s : String)
    (hstep : replayStep unmarshal st e = some st') :
    healthOf st'.nodes s = healthAfterEvent unmarshal s (healthOf st.nodes s) e := by
  rcases replayStep_cases unmarshal e with ⟨d, hty, hd, hne⟩ | ⟨x, hty, hx⟩ | ⟨h1, h2⟩
  · rw [replayStep_rpc unmarshal st e d hty hd hne] at hstep
    cases hstep
    have hnot : ¬ (e.type = EventType.HEALTH_CHANGE ∧ e.service = s) := by
      rintro ⟨hc, _⟩
      rcases hty with hty | hty <;> rw [hty] at hc <;> cases hc
    simp only [healthAfterEvent, hnot, if_false, ensureNode_healthOf]
  · cases hg : mapGet (ensureNode st.nodes e.service) e.service with
    | none =>
      rw [replayStep_health_none unmarshal st e x hty hx hg] at hstep
      cases hstep
    | some node =>
      rw [replayStep_health unmarshal st e x node hty hx hg] at hstep
      cases hstep
      simp only [healthOf_mapSet, healthAfterEvent, hty, hx, true_and, ensureNode_healthOf]
      by_cases hs : s = e.service
      · subst hs; simp
      · have hs' : ¬ e.service = s := fun hc => hs hc.symm
        simp [hs, hs']
  · rw [replayStep_other unmarshal st e h1 h2] at hstep
    cases hstep
    simp only [ensureNode_healthOf, healthAfterEvent]
    by_cases hc : e.type = EventType.HEALTH_CHANGE ∧ e.service = s
    · simp [hc, h2 hc.1]
    · simp [hc]

theorem replayAll_healthOf (unmarshal : String → String → Option String) (s : String)
    (l : List Event) :
    ∀ st st', replayAll unmarshal st l = some st' →
      healthOf st'.nodes s = l.foldl (healthAfterEvent unmarshal s) (healthOf st.nodes s) := by
  induction l with
  | nil => intro st st' h; cases h; rfl
  | cons e rest ih =>
    intro st st' h
    simp only [replayAll] at h
    cases hstep : replayStep unmarshal st e with
    | none => rw [hstep] at h; cases h
    | some st₁ =>
      rw [hstep] at h
      rw [List.foldl_cons, ih st₁ st' h, replayStep_healthOf unmarshal st st₁ e s hstep]

theorem replayStep_isSome (unmarshal : String → String → Option String) (st : ReplayState)
    (e : Event) (hsvc : e.service ≠ "") : ∃ st', replayStep unmarshal st e = some st' := by
  rcases replayStep_cases unmarshal e with ⟨d, hty, hd, hne⟩ | ⟨x, hty, hx⟩ | ⟨h1, h2⟩
  · exact ⟨_, replayStep_rpc unmarshal st e d hty hd hne⟩
  · obtain ⟨node, hg⟩ := Option.isSome_iff_exists.1 (ensureNode_mapGet_self st.nodes _ hsvc)
    exact ⟨_, replayStep_health unmarshal st e x node hty hx hg⟩
  · exact ⟨_, replayStep_other unmarshal st e h1 h2⟩

theorem replayAll_isSome (unmarshal : String → String → Option String) (l : List Event)
    (hsvc : ∀ e ∈ l, e.service ≠ "") : ∀ st, ∃ st', replayAll unmarshal st l = some st' := by
  induction l with
  | nil => intro st; exact ⟨st, rfl⟩
  | cons e rest ih =>
    intro st
    obtain ⟨st₁, h₁⟩ := replayStep_isSome unmarshal st e (hsvc e (List.mem_cons_self _ _))
    obtain ⟨st', h'⟩ := ih (fun x hx => hsvc x (List.mem_cons_of_mem _ hx)) st₁
    exact ⟨st', by simp only [replayAll, h₁, h']⟩

theorem takeWhile_eq_filter_of_sorted (atTs : Int) (l : List Event)
    (hs : l.Pairwise (fun a b => a.ts ≤ b.ts)) :
    l.takeWhile (fun e => decide (e.ts ≤ atTs)) = l.filter (fun e => decide (e.ts ≤ atTs)) := by
  induction l with
  | nil => rfl
  | cons a rest ih =>
    have hs' := List.pairwise_cons.1 hs
    by_cases h : a.ts ≤ atTs
    · simp only [List.takeWhile_cons, List.filter_cons, h, decide_True, if_true]
      rw [ih hs'.2]
    · simp only [List.takeWhile_cons, List.filter_cons, h, decide_False, Bool.false_eq_true,
        if_false]
      symm
      rw [List.filter_eq_nil_iff]
      intro b hb
      have := hs'.1 b hb
      simp only [decide_eq_true_eq]
      omega

/-- The events handled by the replay loop: the sorted input up to `atTs`. -/
theorem processed_spec (atTs : Int) (events : List Event) :
    (sortSlice eventLess events).takeWhile (fun e => decide (e.ts ≤ atTs)) =
        (sortSlice eventLess events).filter (fun e => decide (e.ts ≤ atTs)) ∧
      ((sortSlice eventLess events).filter (fun e => decide (e.ts ≤ atTs))).Pairwise
        (fun a b => toLex (a.ts, a.id) ≤ toLex (b.ts, b.id)) ∧
      ∀ e, e ∈ (sortSlice eventLess events).filter (fun e => decide (e.ts ≤ atTs)) ↔
        e ∈ events ∧ e.ts ≤ atTs := by
  have hsorted := sortSlice_sorted eventLess (fun e => toLex (e.ts, e.id)) eventLess_iff events
  refine ⟨?_, ?_, ?_⟩
  · apply takeWhile_eq_filter_of_sorted
    refine hsorted.imp ?_
    intro a b hab
    rcases (Prod.Lex.le_iff _ _).1 hab with h | h
    · exact le_of_lt h
    · exact le_of_eq h.1
  · exact hsorted.sublist (List.filter_sublist _)
  · intro e
    simp [List.mem_filter, mem_sortSlice]

/-! ## Health replay -/

theorem foldl_health_stable (unmarshal : String → String → Option String) (s : String)
    (c : Int) (l : List Event) (h : ∀ e ∈ l, healthAfterEvent unmarshal s c e = c) :
    l.foldl (healthAfterEvent unmarshal s) c = c := by
  induction l with
  | nil => rfl
  | cons e rest ih =>
    rw [List.foldl_cons, h e (List.mem_cons_self _ _)]
    exact ih (fun x hx => h x (List.mem_cons_of_mem _ hx))

theorem snapshot_node_health (rs : ReplayState) (ss : ScoreState) (hrs : ReplayInv rs)
    (hvn : ss.nodes.map (fun p => (p.1, nodeView p.2)) =
      rs.nodes.map (fun p => (p.1, nodeView p.2)))
    (n : Node) (hn : n ∈ ss.nodes.map Prod.snd) :
    (∃ n₀, mapGet rs.nodes n.id = some n₀ ∧ n₀.healthStatus = n.healthStatus) ∧
      n.healthStatus = healthOf rs.nodes n.id := by
  obtain ⟨⟨k, n'⟩, hmem, heq⟩ := List.mem_map.1 hn
  simp only at heq
  subst heq
  obtain ⟨n₀, hmem₀, hview⟩ := view_mem nodeView ss.nodes rs.nodes hvn k n' hmem
  simp only [nodeView, Prod.mk.injEq] at hview
  have hid := (hrs.nodesInv.2 _ hmem₀).1
  simp only at hid
  have hget := mapGet_of_mem rs.nodes k n₀ hrs.nodesInv.1 hmem₀
  have hk : n'.id = k := by rw [← hview.1, hid]
  rw [hk]
  exact ⟨⟨n₀, hget, hview.2.2⟩, by simp only [healthOf, hget, hview.2.2]⟩

theorem statusCode_of_valid (s : String) (h : s = "UP" ∨ s = "DEGRADED" ∨ s = "DOWN") :
    statusCode s = some (if s = "DOWN" then 2 else if s = "DEGRADED" then 1 else 0) := by
  rcases h with h | h | h <;> subst h <;> decide

/-- C4 (health replay): for events with non-empty service names and pairwise distinct
`(ts, id)` whose `HEALTH_CHANGE` payloads decode to `UP`, `DEGRADED` or `DOWN`,
`ReconstructGraph` returns, and every snapshot node has health 0 when its service has no
`HEALTH_CHANGE` at or before `atTs`, and otherwise the code (UP = 0, DEGRADED = 1, DOWN = 2)
of the status carried by the last such event in `(ts, id)` order. -/
theorem health_replay (unmarshal : String → String → Option String) (atTs : Int)
    (events : List Event)
    (hsvc : ∀ e ∈ events, e.service ≠ "")
    (hdist : (events.map (fun e => (e.ts, e.id))).Nodup)
    (hpay : ∀ e ∈ events, e.type = EventType.HEALTH_CHANGE →
      ∃ s, unmarshal "new_status" e.payload = some s ∧
        (s = "UP" ∨ s = "DEGRADED" ∨ s = "DOWN")) :
    ∃ snap ev, ReconstructGraph unmarshal atTs events = some (snap, ev) ∧
      ∀ n ∈ snap.nodes,
        ((∀ e ∈ events, e.type = EventType.HEALTH_CHANGE → e.service = n.id →
            ¬ e.ts ≤ atTs) → n.healthStatus = 0) ∧
        (∀ e ∈ events, e.type = EventType.HEALTH_CHANGE → e.service = n.id → e.ts ≤ atTs →
          (∀ e' ∈ events, e'.type = EventType.HEALTH_CHANGE → e'.service = n.id →
            e'.ts ≤ atTs → e'.ts < e.ts ∨ (e'.ts = e.ts ∧ e'.id ≤ e.id)) →
          ∃ s, unmarshal "new_status" e.payload = some s ∧
            statusCode s = some n.healthStatus) := by
  obtain ⟨htw, hsorted, hmemL⟩ := processed_spec atTs events
  obtain ⟨rs, hrs⟩ := replayAll_isSome unmarshal
    ((sortSlice eventLess events).filter (fun e => decide (e.ts ≤ atTs)))
    (fun e he => hsvc e ((hmemL e).1 he).1)
    { nodes := [], edges := [], edgeInteractions := [] }
  have hreplay : replayEvents unmarshal atTs events = some rs := by
    unfold replayEvents
    rw [replayLoop_eq_replayAll, htw]
    exact hrs
  obtain ⟨snap, ev, hres⟩ := ReconstructGraph_of_replay unmarshal atTs events rs hreplay
  refine ⟨snap, ev, hres, ?_⟩
  obtain ⟨rs', ss, hreplay', hinv, _, hsnap, _, hvn, _, _, _⟩ :=
    ReconstructGraph_some unmarshal atTs events snap ev hres
  rw [hreplay] at hreplay'
  cases hreplay'
  subst hsnap
  intro n hn
  have hn' : n ∈ ss.nodes.map Prod.snd := (mem_sortSlice _ _ _).1 hn
  have hhealth := (snapshot_node_health rs ss hinv hvn n hn').2
  have hfold := replayAll_healthOf unmarshal n.id _ _ _ hrs
  rw [← hhealth] at hfold
  have hinit : healthOf ([] : List (String × Node)) n.id = 0 := rfl
  simp only [hinit] at hfold
  constructor
  · intro hnone
    rw [hfold]
    apply foldl_health_stable
    intro e he
    have hmem := (hmemL e).1 he
    have : ¬ (e.type = EventType.HEALTH_CHANGE ∧ e.service = n.id) :=
      fun hc => hnone e hmem.1 hc.1 hc.2 hmem.2
    simp [healthAfterEvent, this]
  · intro e he hty hs hts hmax
    obtain ⟨x, hx, hvalid⟩ := hpay e he hty
    refine ⟨x, hx, ?_⟩
    rw [statusCode_of_valid x hvalid]
    have heL : e ∈ (sortSlice eventLess events).filter (fun e => decide (e.ts ≤ atTs)) :=
      (hmemL e).2 ⟨he, hts⟩
    obtain ⟨pre, post, hsplit⟩ := List.append_of_mem heL
    rw [hsplit] at hfold hsorted
    rw [hfold, List.foldl_append, List.foldl_cons]
    have hafter : ∀ h₀, healthAfterEvent unmarshal n.id h₀ e =
        (if x = "DOWN" then 2 else if x = "DEGRADED" then 1 else 0) := by
      intro h₀
      simp [healthAfterEvent, hty, hs, hx]
    rw [hafter]
    have hstable := foldl_health_stable unmarshal n.id
      (if x = "DOWN" then 2 else if x = "DEGRADED" then 1 else 0) post ?_
    · rw [hstable]
    · intro e' he'
      by_cases hc : e'.type = EventType.HEALTH_CHANGE ∧ e'.service = n.id
      · have he'L : e' ∈ (sortSlice eventLess events).filter (fun e => decide (e.ts ≤ atTs)) := by
          rw [hsplit]
          exact List.mem_append_right _ (List.mem_cons_of_mem _ he')
        have hmem' := (hmemL e').1 he'L
        have hle := hmax e' hmem'.1 hc.1 hc.2 hmem'.2
        have hge : toLex (e.ts, e.id) ≤ toLex (e'.ts, e'.id) :=
          (List.pairwise_cons.1 (List.pairwise_append.1 hsorted).2.1).1 e' he'
        have hkey : (e'.ts, e'.id) = (e.ts, e.id) := by
          rcases (Prod.Lex.le_iff _ _).1 hge with h | h
          · simp only at h
            rcases hle with h' | h'
            · omega
            · omega
          · simp only at h
            rcases hle with h' | h'
            · omega
            · rw [Prod.mk.injEq]
              exact ⟨h'.1, le_antisymm h'.2 h.2⟩
        have heq : e' = e :=
          List.inj_on_of_nodup_map hdist hmem'.1 he hkey
        rw [heq]
        exact hafter _
      · simp [healthAfterEvent, hc]

/-! ## Edges along the replay -/

theorem append_cons_inj_of_not_mem {α : Type} (a : α) :
    ∀ (l₁ l₂ r₁ r₂ : List α), a ∉ l₁ → a ∉ l₂ → l₁ ++ a :: r₁ = l₂ ++ a :: r₂ →
      l₁ = l₂ ∧ r₁ = r₂ := by
  intro l₁
  induction l₁ with
  | nil =>
    intro l₂ r₁ r₂ _ h₂ h
    cases l₂ with
    | nil => simp at h; exact ⟨rfl, h⟩
    | cons b l₂ =>
      simp only [List.nil_append, List.cons_append, List.cons.injEq] at h
      exact absurd (h.1 ▸ List.mem_cons_self _ _) h₂
  | cons x l₁ ih =>
    intro l₂ r₁ r₂ h₁ h₂ h
    cases l₂ with
    | nil =>
      simp only [List.nil_append, List.cons_append, List.cons.injEq] at h
      exact absurd (h.1 ▸ List.mem_cons_self _ _) h₁
    | cons b l₂ =>
      simp only [List.cons_append, List.cons.injEq] at h
      obtain ⟨hl, hr⟩ := ih l₂ r₁ r₂ (fun hc => h₁ (List.mem_cons_of_mem _ hc))
        (fun hc => h₂ (List.mem_cons_of_mem _ hc)) h.2
      exact ⟨by rw [h.1, hl], hr⟩

theorem edgeKey_inj (s₁ t₁ s₂ t₂ : String) (h₁ : '|' ∉ s₁.data) (h₂ : '|' ∉ s₂.data)
    (h : edgeKey s₁ t₁ = edgeKey s₂ t₂) : s₁ = s₂ ∧ t₁ = t₂ := by
  have hd := congrArg String.data h
  simp only [edgeKey, String.data_append] at hd
  simp only [List.append_assoc, List.singleton_append] at hd
  obtain ⟨hs, ht⟩ := append_cons_inj_of_not_mem '|' _ _ _ _ h₁ h₂ hd
  exact ⟨String.ext hs, String.ext ht⟩

/-- Edges are only ever added by the loop body, each for a qualifying RPC event, and every
qualifying RPC event finds an edge under its key afterwards. -/
theorem replayStep_edges (unmarshal : String → String → Option String) (st st' : ReplayState)
    (e : Event) (hstep : replayStep unmarshal st e = some st') :
    (∀ p ∈ st.edges, p ∈ st'.edges) ∧
    (∀ p ∈ st'.edges, p ∈ st.edges ∨
      ∃ d, (e.type = EventType.RPC_CALL ∨ e.type = EventType.RPC_ERROR) ∧
        unmarshal "dest_service" e.payload = some d ∧ d ≠ "" ∧
        p.2.source = e.service ∧ p.2.target = d) ∧
    (∀ d, (e.type = EventType.RPC_CALL ∨ e.type = EventType.RPC_ERROR) →
      unmarshal "dest_service" e.payload = some d → d ≠ "" →
      (mapGet st'.edges (edgeKey e.service d)).isSome = true) := by
  rcases replayStep_cases unmarshal e with ⟨d, hty, hd, hne⟩ | ⟨x, hty, hx⟩ | ⟨h1, h2⟩
  · rw [replayStep_rpc unmarshal st e d hty hd hne] at hstep
    cases hstep
    cases hg : mapGet st.edges (edgeKey e.service d) with
    | some e₀ =>
      refine ⟨fun p hp => hp, fun p hp => Or.inl hp, ?_⟩
      intro d' _ hd' _
      rw [hd] at hd'
      cases hd'
      simp [hg]
    | none =>
      refine ⟨fun p hp => List.mem_append_left _ hp, ?_, ?_⟩
      · intro p hp
        rcases List.mem_append.1 hp with hp | hp
        · exact Or.inl hp
        · simp only [List.mem_singleton] at hp
          subst hp
          exact Or.inr ⟨d, hty, hd, hne, rfl, rfl⟩
      · intro d' _ hd' _
        rw [hd] at hd'
        cases hd'
        show (mapGet (st.edges ++ [_]) _).isSome = true
        rw [mapGet_append_of_none _ _ _ hg]
        simp [mapGet]
  · cases hg : mapGet (ensureNode st.nodes e.service) e.service with
    | none =>
      rw [replayStep_health_none unmarshal st e x hty hx hg] at hstep
      cases hstep
    | some node =>
      rw [replayStep_health unmarshal st e x node hty hx hg] at hstep
      cases hstep
      refine ⟨fun p hp => hp, fun p hp => Or.inl hp, ?_⟩
      intro d hty' _ _
      rcases hty' with h | h <;> rw [hty] at h <;> cases h
  · rw [replayStep_other unmarshal st e h1 h2] at hstep
    cases hstep
    refine ⟨fun p hp => hp, fun p hp => Or.inl hp, ?_⟩
    intro d hty hd hne
    exact absurd (h1 hty d hd) hne

theorem mapGet_isSome_of_mem {V : Type} (m : List (String × V)) (k : String) (v : V)
    (h : (k, v) ∈ m) : (mapGet m k).isSome = true :=
  (mapGet_isSome_iff m k).2 (List.mem_map_of_mem Prod.fst h)

theorem replayAll_edges (unmarshal : String → String → Option String) (l : List Event) :
    ∀ st st', ReplayInv st → replayAll unmarshal st l = some st' →
      (∀ p ∈ st.edges, p ∈ st'.edges) ∧
      (∀ p ∈ st'.edges, p ∈ st.edges ∨
        ∃ e ∈ l, ∃ d, (e.type = EventType.RPC_CALL ∨ e.type = EventType.RPC_ERROR) ∧
          unmarshal "dest_service" e.payload = some d ∧ d ≠ "" ∧
          p.2.source = e.service ∧ p.2.target = d) ∧
      (∀ e ∈ l, ∀ d, (e.type = EventType.RPC_CALL ∨ e.type = EventType.RPC_ERROR) →
        unmarshal "dest_service" e.payload = some d → d ≠ "" →
        (mapGet st'.edges (edgeKey e.service d)).isSome = true) := by
  induction l with
  | nil =>
    intro st st' _ h
    cases h
    exact ⟨fun p hp => hp, fun p hp => Or.inl hp, by simp⟩
  | cons e rest ih =>
    intro st st' hinv h
    simp only [replayAll] at h
    cases hstep : replayStep unmarshal st e with
    | none => rw [hstep] at h; cases h
    | some st₁ =>
      rw [hstep] at h
      obtain ⟨a1, a2, a3⟩ := replayStep_edges unmarshal st st₁ e hstep
      have hinv₁ := replayStep_inv unmarshal st st₁ e hinv hstep
      obtain ⟨b1, b2, b3⟩ := ih st₁ st' hinv₁ h
      refine ⟨fun p hp => b1 p (a1 p hp), ?_, ?_⟩
      · intro p hp
        rcases b2 p hp with hp | ⟨e', he', d, hh⟩
        · rcases a2 p hp with hp | ⟨d, hh⟩
          · exact Or.inl hp
          · exact Or.inr ⟨e, List.mem_cons_self _ _, d, hh⟩
        · exact Or.inr ⟨e', List.mem_cons_of_mem _ he', d, hh⟩
      · intro e' he' d hty hd hne
        rcases List.mem_cons.1 he' with heq | hmem
        · subst heq
          obtain ⟨v, hv⟩ := Option.isSome_iff_exists.1 (a3 d hty hd hne)
          exact mapGet_isSome_of_mem _ _ v (b1 _ (mem_of_mapGet _ _ _ hv))
        · exact b3 e' hmem d hty hd hne

/-! ## Edge set -/

/-- C6, as amended (edge set): when no event's service name contains the character `|`, the
edges of a snapshot returned by `ReconstructGraph` are exactly the pairs
`(event.service, dest_service)` of the `RPC_CALL` / `RPC_ERROR` events with `ts ≤ atTs` whose
payload decodes to a non-empty `dest_service`: every edge is such a pair and is active,
every such pair is an edge, and no pair occurs on two edges. -/
theorem edge_set (unmarshal : String → String → Option String) (atTs : Int)
    (events : List Event) (snap : GraphSnapshot) (ev : List (String × EdgeEvidence))
    (hbar : ∀ e ∈ events, '|' ∉ e.service.data)
    (h : ReconstructGraph unmarshal atTs events = some (snap, ev)) :
    (∀ x ∈ snap.edges, x.isActive = true ∧
      ∃ e ∈ events, e.ts ≤ atTs ∧
        (e.type = EventType.RPC_CALL ∨ e.type = EventType.RPC_ERROR) ∧
        ∃ d, unmarshal "dest_service" e.payload = some d ∧ d ≠ "" ∧
          x.source = e.service ∧ x.target = d) ∧
    (∀ e ∈ events, e.ts ≤ atTs →
      (e.type = EventType.RPC_CALL ∨ e.type = EventType.RPC_ERROR) →
      ∀ d, unmarshal "dest_service" e.payload = some d → d ≠ "" →
        ∃ x ∈ snap.edges, x.source = e.service ∧ x.target = d) ∧
    snap.edges.Pairwise (fun a b => ¬ (a.source = b.source ∧ a.target = b.target)) := by
  obtain ⟨rs, ss, hreplay, hrs, _, hsnap, _, _, hve, _, hsc⟩ :=
    ReconstructGraph_some unmarshal atTs events snap ev h
  obtain ⟨htw, _, hmemL⟩ := processed_spec atTs events
  have hall : replayAll unmarshal { nodes := [], edges := [], edgeInteractions := [] }
      ((sortSlice eventLess events).filter (fun e => decide (e.ts ≤ atTs))) = some rs := by
    rw [← htw, ← replayLoop_eq_replayAll]; exact hreplay
  obtain ⟨_, hfrom, hto⟩ := replayAll_edges unmarshal _ _ _ replayInv_init hall
  have horigin : ∀ p ∈ rs.edges, ∃ e ∈ events, e.ts ≤ atTs ∧
      (e.type = EventType.RPC_CALL ∨ e.type = EventType.RPC_ERROR) ∧
      ∃ d, unmarshal "dest_service" e.payload = some d ∧ d ≠ "" ∧
        p.2.source = e.service ∧ p.2.target = d := by
    intro p hp
    rcases hfrom p hp with hp | ⟨e, he, d, hty, hd, hne, hs, ht⟩
    · simp at hp
    · exact ⟨e, ((hmemL e).1 he).1, ((hmemL e).1 he).2, hty, d, hd, hne, hs, ht⟩
  have hsnapEdge : ∀ x, x ∈ snap.edges ↔ x ∈ ss.edges.map Prod.snd := by
    intro x; rw [hsnap]; exact mem_sortSlice _ _ _
  refine ⟨?_, ?_, ?_⟩
  · intro x hx
    obtain ⟨inter, edge, tn, _, hmem, _, _, heq⟩ :=
      scored_edge atTs rs ss hrs hve hsc x ((hsnapEdge x).1 hx)
    subst heq
    exact ⟨(hrs.edgeShape _ hmem).2.1, horigin _ hmem⟩
  · intro e he hts hty d hd hne
    have hsome := hto e ((hmemL e).2 ⟨he, hts⟩) d hty hd hne
    obtain ⟨edge, hedge⟩ := Option.isSome_iff_exists.1 hsome
    have hmem := mem_of_mapGet _ _ _ hedge
    have hkey := (hrs.edgeShape _ hmem).1
    obtain ⟨e₀, he₀, _, _, d₀, _, _, hs₀, _⟩ := horigin _ hmem
    simp only at hkey hs₀
    have hinj := edgeKey_inj e.service d edge.source edge.target (hbar e he)
      (by rw [hs₀]; exact hbar e₀ he₀) hkey
    have hk : edgeKey e.service d ∈ ss.edges.map Prod.fst := by
      rw [keys_of_view edgeView _ _ hve]; exact List.mem_map_of_mem Prod.fst hmem
    obtain ⟨⟨k', x⟩, hx, hkx⟩ := List.mem_map.1 hk
    simp only at hkx
    subst hkx
    obtain ⟨edge', hmem', hview⟩ := view_mem edgeView ss.edges rs.edges hve _ x hx
    have hget' := mapGet_of_mem rs.edges _ edge' hrs.edgesNodup hmem'
    rw [hedge] at hget'
    cases hget'
    simp only [edgeView, Prod.mk.injEq] at hview
    refine ⟨x, (hsnapEdge x).2 (List.mem_map_of_mem Prod.snd hx), ?_, ?_⟩
    · rw [← hview.1, hinj.1]
    · rw [← hview.2.1, hinj.2]
  · have hstrict := (snapshot_sorted unmarshal atTs events snap ev h).2
    refine hstrict.imp ?_
    intro a b hab hc
    rcases hab with hlt | ⟨_, hlt⟩
    · exact absurd hc.1 (ne_of_lt hlt)
    · exact absurd hc.2 (ne_of_lt hlt)

/-- C6 fails as stated: `pipeSecond` is a qualifying call from `a` to `b|c`, but its key
`a|b|c` is the key of the edge from `a|b` to `c`, so the snapshot has that edge only. -/
theorem edge_set_fails :
    pipeSecond.ts ≤ 5 ∧ pipeSecond.type = EventType.RPC_CALL ∧
      tableUnmarshal "dest_service" pipeSecond.payload = some "b|c" ∧
      (ReconstructGraph tableUnmarshal 5 [pipeFirst, pipeSecond]).map
          (fun r => r.1.edges.map (fun x => (x.source, x.target))) =
        some [("a|b", "c")] := by
  decide!

/-- C3 fails as stated: a call from an emitter with an empty service name yields the edge
from `""` to `B`, while the only snapshot node is `B`. -/
theorem edge_endpoints_fails :
    (ReconstructGraph tableUnmarshal 300 [anonymousCall]).map
        (fun r => (r.1.nodes.map (fun n => n.id), r.1.edges.map (fun x => (x.source, x.target)))) =
      some (["B"], [("", "B")]) := by
  decide!

/-! ## Exact scores under the configuration of the scoring pass -/

theorem currentConfig_windowSize (h : Int) : (currentConfig h).windowSize = 30000 := by
  unfold currentConfig; split_ifs <;> rfl

theorem currentConfig_rpc (h : Int) : (currentConfig h).rpcErrorBonus = 4 / 10 := by
  unfold currentConfig; split_ifs <;> rfl

theorem currentConfig_tp (h : Int) : (currentConfig h).timeProximityBonus = 3 / 10 := by
  unfold currentConfig; split_ifs <;> rfl

theorem currentConfig_base (h : Int) :
    (currentConfig h).baseScore = if h = 0 then 1 / 100 else 1 / 10 := by
  unfold currentConfig; split_ifs <;> rfl

theorem inWindow_congr (cfg cfg' : Config) (hW : cfg.windowSize = cfg'.windowSize)
    (failureTs : Int) : inWindow cfg failureTs = inWindow cfg' failureTs := by
  funext e
  simp only [inWindow, hW]

theorem scanInteractions_congr (cfg cfg' : Config) (hW : cfg.windowSize = cfg'.windowSize)
    (failureTs : Int) (inter : List Event) :
    scanInteractions cfg failureTs inter = scanInteractions cfg' failureTs inter := by
  simp only [scanInteractions, scan_foldl, inWindow_congr cfg cfg' hW, hW]

/-- The time-proximity bonus in terms of the scan. -/
theorem ScoreEdge_tp_eq (cfg : Config) (failureTs : Int) (inter : List Event) :
    (ScoreEdge cfg failureTs inter).timeProximityBonus =
      if (scanInteractions cfg failureTs inter).contributingEventIds.length > 0 then
        max 0 (((wrap64 (cfg.windowSize - (scanInteractions cfg failureTs inter).minDelta) : Int) : ℚ) /
          ((cfg.windowSize : Int) : ℚ)) * cfg.timeProximityBonus
      else 0 := by
  simp only [ScoreEdge]
  split_ifs with h1 h2
  · rw [max_eq_left (le_of_lt h2)]
  · rw [max_eq_right (not_lt.1 h2)]
  · rfl

/-- With the window and bonuses of the default configuration, the bonuses do not depend on
the base score, the proximity bonus is a non-negative multiple of `1e-5`, and the RPC bonus
is `0` or `0.4`. -/
theorem reconstruct_bonuses (h : Int) (atTs : Int) (inter : List Event) :
    (ScoreEdge (currentConfig h) atTs inter).rpcBonus =
        (ScoreEdge DefaultConfig atTs inter).rpcBonus ∧
      (ScoreEdge (currentConfig h) atTs inter).timeProximityBonus =
        (ScoreEdge DefaultConfig atTs inter).timeProximityBonus ∧
      ((ScoreEdge DefaultConfig atTs inter).rpcBonus = 0 ∨
        (ScoreEdge DefaultConfig atTs inter).rpcBonus = 4 / 10) ∧
      ∃ T : Int, 0 ≤ T ∧
        (ScoreEdge DefaultConfig atTs inter).timeProximityBonus = (T : ℚ) / 100000 := by
  have hW : (currentConfig h).windowSize = DefaultConfig.windowSize :=
    currentConfig_windowSize h
  refine ⟨?_, ?_, ?_, ?_⟩
  · rw [ScoreEdge_rpcBonus_eq, ScoreEdge_rpcBonus_eq, inWindow_congr _ _ hW, currentConfig_rpc]
    rfl
  · rw [ScoreEdge_tp_eq, ScoreEdge_tp_eq, scanInteractions_congr _ _ hW, currentConfig_tp,
      currentConfig_windowSize]
    rfl
  · rw [ScoreEdge_rpcBonus_eq]
    split_ifs
    · right; rfl
    · left; rfl
  · rw [ScoreEdge_tp_eq]
    split_ifs
    · refine ⟨max 0 (wrap64 (DefaultConfig.windowSize -
        (scanInteractions DefaultConfig atTs inter).minDelta)), le_max_left _ _, ?_⟩
      generalize wrap64 (DefaultConfig.windowSize -
        (scanInteractions DefaultConfig atTs inter).minDelta) = w
      have hWv : ((DefaultConfig.windowSize : Int) : ℚ) = 30000 := by
        simp [DefaultConfig]
      have htp : DefaultConfig.timeProximityBonus = 3 / 10 := rfl
      rw [hWv, htp]
      rcases le_total 0 w with hw | hw
      · have hw' : (0 : ℚ) ≤ (w : ℚ) := by exact_mod_cast hw
        rw [max_eq_right (div_nonneg hw' (by norm_num)), max_eq_right hw]
        field_simp
        ring
      · have hw' : (w : ℚ) ≤ 0 := by exact_mod_cast hw
        rw [max_eq_left (div_nonpos_of_nonpos_of_nonneg hw' (by norm_num)), max_eq_left hw]
        simp
    · exact ⟨0, le_refl _, by simp⟩

/-- With the configuration of the scoring pass, neither the rounding nor the lower clamp
changes the total: the score is the total capped at 1. -/
theorem reconstruct_score (h : Int) (atTs : Int) (inter : List Event) :
    (ScoreEdge (currentConfig h) atTs inter).score =
      min 1 ((if h = 0 then 1 / 100 else 1 / 10) +
        (ScoreEdge DefaultConfig atTs inter).rpcBonus +
        (ScoreEdge DefaultConfig atTs inter).timeProximityBonus) := by
  obtain ⟨h1, h2, h3, T, hT, h4⟩ := reconstruct_bonuses h atTs inter
  rw [ScoreEdge_score_eq, ScoreEdge_baseScore, ScoreEdge_traceBonus, h1, h2, currentConfig_base,
    h4, add_zero]
  have hbase : ∃ B : Int, 0 ≤ B ∧ (if h = 0 then (1 : ℚ) / 100 else 1 / 10) = (B : ℚ) / 1000000 := by
    split_ifs
    · exact ⟨10000, by norm_num, by norm_num⟩
    · exact ⟨100000, by norm_num, by norm_num⟩
  have hrpc : ∃ R : Int, 0 ≤ R ∧ (ScoreEdge DefaultConfig atTs inter).rpcBonus = (R : ℚ) / 1000000 := by
    rcases h3 with h3 | h3
    · exact ⟨0, le_refl _, by rw [h3]; norm_num⟩
    · exact ⟨400000, by norm_num, by rw [h3]; norm_num⟩
  obtain ⟨B, hB, hBeq⟩ := hbase
  obtain ⟨R, hR, hReq⟩ := hrpc
  rw [hBeq, hReq]
  have hsum : (B : ℚ) / 1000000 + (R : ℚ) / 1000000 + (T : ℚ) / 100000 =
      ((B + R + 10 * T : Int) : ℚ) / 1000000 := by
    push_cast
    ring
  rw [hsum]
  generalize hN : B + R + 10 * T = N
  have hN0 : 0 ≤ N := by omega
  have hN0' : (0 : ℚ) ≤ (N : ℚ) := by exact_mod_cast hN0
  have hclamp : clamp01 ((N : ℚ) / 1000000) * 1000000 = ((min 1000000 N : Int) : ℚ) := by
    unfold clamp01
    rw [max_eq_right (le_min (by norm_num) (div_nonneg hN0' (by norm_num)))]
    rcases le_total N 1000000 with hle | hle
    · have hle' : (N : ℚ) ≤ 1000000 := by exact_mod_cast hle
      rw [min_eq_right ((div_le_one (by norm_num)).2 hle'), min_eq_right hle]
      field_simp
    · have hle' : (1000000 : ℚ) ≤ (N : ℚ) := by exact_mod_cast hle
      rw [min_eq_left ((one_le_div (by norm_num)).2 hle'), min_eq_left hle]
      norm_num
  rw [hclamp, mathRound_intCast]
  rcases le_total N 1000000 with hle | hle
  · have hle' : (N : ℚ) ≤ 1000000 := by exact_mod_cast hle
    rw [min_eq_right hle, min_eq_right ((div_le_one (by norm_num)).2 hle')]
  · have hle' : (1000000 : ℚ) ≤ (N : ℚ) := by exact_mod_cast hle
    rw [min_eq_left hle, min_eq_left ((one_le_div (by norm_num)).2 hle')]
    norm_num

/-! ## Healthy-target suppression -/

theorem foldl_min_bounds (ds : List Int) (hds : ∀ d ∈ ds, 0 ≤ d) :
    ∀ W : Int, 0 ≤ W → 0 ≤ ds.foldl min W ∧ ds.foldl min W ≤ W := by
  induction ds with
  | nil => intro W hW; exact ⟨hW, le_refl _⟩
  | cons d rest ih =>
    intro W hW
    have hd : 0 ≤ d := hds d (List.mem_cons_self _ _)
    obtain ⟨h1, h2⟩ := ih (fun x hx => hds x (List.mem_cons_of_mem _ hx)) (min W d)
      (le_min hW hd)
    rw [List.foldl_cons]
    exact ⟨h1, le_trans h2 (min_le_left _ _)⟩

/-- Without wrap-around in `atTs - ts`, the proximity bonus of the default configuration is
at most `0.3`. -/
theorem default_tp_le (atTs : Int) (inter : List Event)
    (hno : ∀ evt ∈ inter, evt.ts ≤ atTs → atTs - evt.ts < 2 ^ 63) :
    (ScoreEdge DefaultConfig atTs inter).timeProximityBonus ≤ 3 / 10 := by
  rw [ScoreEdge_tp_eq]
  split_ifs
  · rw [scan_minDelta]
    have hb := foldl_min_bounds
      (((inter.filter (inWindow DefaultConfig atTs)).map (fun e => wrap64 (atTs - e.ts))))
      (by
        intro d hd
        obtain ⟨e, he, rfl⟩ := List.mem_map.1 hd
        obtain ⟨hmem, hw⟩ := List.mem_filter.1 he
        have := (inWindow_iff_of_no_overflow DefaultConfig atTs e (hno e hmem)).1 hw
        have hts : e.ts ≤ atTs := by omega
        rw [wrap64_of_range _ this.1 (hno e hmem hts)]
        exact this.1)
      DefaultConfig.windowSize (by decide)
    generalize ((inter.filter (inWindow DefaultConfig atTs)).map
      (fun e => wrap64 (atTs - e.ts))).foldl min DefaultConfig.windowSize = m at hb
    have hWv : DefaultConfig.windowSize = 30000 := rfl
    rw [hWv] at hb ⊢
    rw [wrap64_of_range _ (by omega) (by omega)]
    have htp : DefaultConfig.timeProximityBonus = 3 / 10 := rfl
    rw [htp]
    have h0 : (0 : ℚ) ≤ ((30000 - m : Int) : ℚ) := by exact_mod_cast (by omega : 0 ≤ 30000 - m)
    have h1 : ((30000 - m : Int) : ℚ) ≤ 30000 := by exact_mod_cast (by omega : 30000 - m ≤ 30000)
    rw [max_eq_right (div_nonneg h0 (by norm_num))]
    have : ((30000 - m : Int) : ℚ) / ((30000 : Int) : ℚ) ≤ 1 := by
      rw [div_le_one (by norm_num)]
      exact_mod_cast h1
    nlinarith
  · norm_num

/-- Healthy-target suppression in the rational model: every snapshot edge whose target node
is healthy has a causal confidence of at most `0.01 + rpc_bonus + trace_bonus +
time_proximity_bonus` of its evidence plus the rounding unit `10^-6` of the score; and when
no interaction of the edge lies `2^63` or more milliseconds before `atTs`, the value
`0.01 + rpc_bonus + trace_bonus + time_proximity_bonus` is strictly below the score the same
interactions receive under the default base score `0.1`. -/
theorem healthy_suppression (unmarshal : String → String → Option String) (atTs : Int)
    (events : List Event) (snap : GraphSnapshot) (ev : List (String × EdgeEvidence))
    (h : ReconstructGraph unmarshal atTs events = some (snap, ev)) :
    ∃ rs, replayEvents unmarshal atTs events = some rs ∧
      ∀ e ∈ snap.edges, ∀ n ∈ snap.nodes, n.id = e.target → n.healthStatus = 0 →
        ∃ x inter, mapGet ev (edgeKey e.source e.target) = some x ∧
          mapGet rs.edgeInteractions (edgeKey e.source e.target) = some inter ∧
          e.causalConfidence ≤
            1 / 100 + x.rpcBonus + x.traceBonus + x.timeProximityBonus + 1 / 1000000 ∧
          ((∀ evt ∈ inter, evt.ts ≤ atTs → atTs - evt.ts < 2 ^ 63) →
            1 / 100 + x.rpcBonus + x.traceBonus + x.timeProximityBonus <
              (ScoreEdge DefaultConfig atTs inter).score) := by
  obtain ⟨rs, ss, hreplay, hrs, _, hsnap, hev, hvn, hve, _, hsc⟩ :=
    ReconstructGraph_some unmarshal atTs events snap ev h
  subst hsnap hev
  refine ⟨rs, hreplay, ?_⟩
  intro e he n hn hid hhealth
  have he' : e ∈ ss.edges.map Prod.snd := (mem_sortSlice _ _ _).1 he
  have hn' : n ∈ ss.nodes.map Prod.snd := (mem_sortSlice _ _ _).1 hn
  obtain ⟨inter, edge, tn, hinter, _, htn, hget, heq⟩ :=
    scored_edge atTs rs ss hrs hve hsc e he'
  obtain ⟨⟨n₀, hn₀, hh₀⟩, _⟩ := snapshot_node_health rs ss hrs hvn n hn'
  subst heq
  simp only at hid
  rw [hid, htn] at hn₀
  cases hn₀
  rw [hhealth] at hh₀
  have hinterGet : mapGet rs.edgeInteractions (edgeKey edge.source edge.target) = some inter :=
    mapGet_of_mem _ _ _ (by rw [hrs.interKeys]; exact hrs.edgesNodup) hinter
  refine ⟨_, inter, hget, hinterGet, ?_, ?_⟩
  · simp only [edgeEvidence, hh₀]
    obtain ⟨h1, h2, _, _⟩ := reconstruct_bonuses 0 atTs inter
    rw [reconstruct_score, ScoreEdge_traceBonus, h1, h2]
    simp only [if_true, add_zero]
    exact le_trans (min_le_right _ _) (le_add_of_nonneg_right (by norm_num))
  · intro hno
    simp only [edgeEvidence, hh₀]
    obtain ⟨h1, h2, h3, T, hT, h4⟩ := reconstruct_bonuses 0 atTs inter
    have hdef : DefaultConfig = currentConfig 1 := by
      unfold currentConfig; rw [if_neg (by decide)]
    have hscore := reconstruct_score 1 atTs inter
    rw [← hdef] at hscore
    rw [hscore, ScoreEdge_traceBonus, h1, h2]
    have htp := default_tp_le atTs inter hno
    have hrpc : (ScoreEdge DefaultConfig atTs inter).rpcBonus ≤ 4 / 10 := by
      rcases h3 with h3 | h3
      · rw [h3]; norm_num
      · rw [h3]
    rw [if_neg (by decide), min_eq_right (by linarith)]
    linarith

/-- C9 fails as stated, in both halves. Second half: with `atTs` the greatest `int64`,
`atTs - ts` wraps for `farCall`, the proximity bonus becomes huge, and the healthy-target
value `0.01 + bonuses` is not below the score `1` that the call receives under base score
`0.1`. First half: for the single call `callAB` seen at `atTs = 120`, whose target `B` is
healthy, `ScoreEdge` in binary64 arithmetic returns the components `0.01`, `0`, `0` and
`0.29979999999999996` and the score `0.3098`, which exceeds their sum, whether the sum is
taken exactly or in binary64. -/
theorem healthy_target_suppression_fails :
    ((ReconstructGraph tableUnmarshal 9223372036854775807 [farCall]).map
        (fun r => r.1.nodes.map (fun n => (n.id, n.healthStatus))) =
      some [("A", 0), ("B", 0)] ∧
    (ReconstructGraph tableUnmarshal 9223372036854775807 [farCall]).map
        (fun r => r.1.edges.map (fun x => (x.source, x.target, x.causalConfidence))) =
      some [("A", "B", 1)] ∧
    (ReconstructGraph tableUnmarshal 9223372036854775807 [farCall]).map
        (fun r => r.2.map
          (fun p => (p.1, p.2.rpcBonus, p.2.traceBonus, p.2.timeProximityBonus))) =
      some [("A|B", 0, 0, 9223372036854765809 / 100000)] ∧
    (replayEvents tableUnmarshal 9223372036854775807 [farCall]).map
        (fun rs => rs.edgeInteractions) = some [("A|B", [farCall])] ∧
    (ScoreEdge DefaultConfig 9223372036854775807 [farCall]).score = 1) ∧
    ((ReconstructGraph tableUnmarshal 120 [callAB]).map
        (fun r => r.1.nodes.map (fun n => (n.id, n.healthStatus))) =
      some [("A", 0), ("B", 0)] ∧
    (replayEvents tableUnmarshal 120 [callAB]).map
        (fun rs => rs.edgeInteractions) = some [("A|B", [callAB])] ∧
    (ScoreEdgeF (Config.toF (currentConfig 0)) 120 [callAB]).baseScore =
      F64.fin (5764607523034235 / 576460752303423488) ∧
    (ScoreEdgeF (Config.toF (currentConfig 0)) 120 [callAB]).rpcBonus = F64.fin 0 ∧
    (ScoreEdgeF (Config.toF (currentConfig 0)) 120 [callAB]).traceBonus = F64.fin 0 ∧
    (ScoreEdgeF (Config.toF (currentConfig 0)) 120 [callAB]).timeProximityBonus =
      F64.fin (2700358336571349 / 9007199254740992) ∧
    (ScoreEdgeF (Config.toF (currentConfig 0)) 120 [callAB]).score =
      F64.fin (5580860658237519 / 18014398509481984) ∧
    (5764607523034235 / 576460752303423488 + 0 + 0 + 2700358336571349 / 9007199254740992 : ℚ) <
      5580860658237519 / 18014398509481984 ∧
    F64.le (ScoreEdgeF (Config.toF (currentConfig 0)) 120 [callAB]).score
        (F64.add
          (F64.add
            (F64.add (roundF64 (1 / 100))
              (ScoreEdgeF (Config.toF (currentConfig 0)) 120 [callAB]).rpcBonus)
            (ScoreEdgeF (Config.toF (currentConfig 0)) 120 [callAB]).traceBonus)
          (ScoreEdgeF (Config.toF (currentConfig 0)) 120 [callAB]).timeProximityBonus) =
      false) := by
  refine ⟨⟨?_, ?_, ?_, ?_, ?_⟩, ?_, ?_, ?_, ?_, ?_, ?_, ?_, ?_, ?_⟩ <;> decide!

/-- C10 fails as stated: for `earliestError` and failure time `0` the distance `2^63` is
outside the window, yet the `int64` subtraction wraps to a negative `delta` and the RPC
bonus is granted. -/
theorem rpc_bonus_fails :
    ¬ (0 - earliestError.ts ≤ DefaultConfig.windowSize) ∧
      (ScoreEdge DefaultConfig 0 [earliestError]).rpcBonus = 4 / 10 := by
  decide!

/-! ## Rounded precision, RPC-error bonus and instances on the repository's tests -/

/-- The result of `TestReconstructGraph`, computed. -/
theorem test_reconstruction :
    ReconstructGraph tableUnmarshal 300 [callAB, downB] = some (testSnapshot, testEvidence) := by
  decide!

/-- The result of reconstructing the single call `callAB`, computed. -/
theorem call_reconstruction :
    ReconstructGraph tableUnmarshal 300 [callAB] = some (callSnapshot, callEvidence) := by
  decide!

/-- Rounding in the rational model of the scorer: the score of `ScoreEdge` times `10^6` is
an integer `n`, and `n` is the exact total of the evidence components, clamped to `[0, 1]`
and multiplied by `10^6`, rounded to the nearest integer with halves away from zero. The
code rounds the binary64 total instead, which can lie on the other side of a tie
(`rounded_tie_binary64`). -/
theorem rounded_precision (cfg : Config) (failureTs : Int) (interactions : List Event)
    (_hW : 0 < cfg.windowSize) :
    ∃ n : Int,
      (ScoreEdge cfg failureTs interactions).score * 1000000 = (n : ℚ) ∧
      |clamp01
          ((ScoreEdge cfg failureTs interactions).baseScore +
            (ScoreEdge cfg failureTs interactions).traceBonus +
            (ScoreEdge cfg failureTs interactions).rpcBonus +
            (ScoreEdge cfg failureTs interactions).timeProximityBonus) * 1000000 - n| ≤ 1 / 2 ∧
      (|clamp01
          ((ScoreEdge cfg failureTs interactions).baseScore +
            (ScoreEdge cfg failureTs interactions).traceBonus +
            (ScoreEdge cfg failureTs interactions).rpcBonus +
            (ScoreEdge cfg failureTs interactions).timeProximityBonus) * 1000000 - n| = 1 / 2 →
        |clamp01
          ((ScoreEdge cfg failureTs interactions).baseScore +
            (ScoreEdge cfg failureTs interactions).traceBonus +
            (ScoreEdge cfg failureTs interactions).rpcBonus +
            (ScoreEdge cfg failureTs interactions).timeProximityBonus) * 1000000| < |(n : ℚ)|) := by
  rw [ScoreEdge_score_eq]
  generalize clamp01 ((ScoreEdge cfg failureTs interactions).baseScore +
    (ScoreEdge cfg failureTs interactions).traceBonus +
    (ScoreEdge cfg failureTs interactions).rpcBonus +
    (ScoreEdge cfg failureTs interactions).timeProximityBonus) * 1000000 = y
  obtain ⟨n, hn, h1, h2⟩ := mathRound_spec y
  refine ⟨n, ?_, h1, h2⟩
  rw [hn]
  field_simp

/-- C10, as amended (RPC-error bonus): when no interaction lies `2^63` or more milliseconds
before `failureTs`, `ScoreEdge` sets `rpc_bonus` to `cfg.rpc_error_bonus` if some interaction
with `0 ≤ failureTs - ts ≤ window_size` is an `RPC_ERROR`, and to `0` otherwise; and for the
default configuration, `failureTs = 100000` and a single `RPC_ERROR` at `ts = 99000`,
`rpc_bonus = 0.4` and `0.7 ≤ score ≤ 0.9`. -/
theorem rpc_error_bonus (cfg : Config) (failureTs : Int) (interactions : List Event)
    (hno : ∀ e ∈ interactions, e.ts ≤ failureTs → failureTs - e.ts < 2 ^ 63) :
    ((∃ e ∈ interactions, 0 ≤ failureTs - e.ts ∧ failureTs - e.ts ≤ cfg.windowSize ∧
          e.type = EventType.RPC_ERROR) →
        (ScoreEdge cfg failureTs interactions).rpcBonus = cfg.rpcErrorBonus) ∧
    ((¬ ∃ e ∈ interactions, 0 ≤ failureTs - e.ts ∧ failureTs - e.ts ≤ cfg.windowSize ∧
          e.type = EventType.RPC_ERROR) →
        (ScoreEdge cfg failureTs interactions).rpcBonus = 0) ∧
    (∀ e : Event, e.ts = 99000 → e.type = EventType.RPC_ERROR →
        (ScoreEdge DefaultConfig 100000 [e]).rpcBonus = 4 / 10 ∧
        7 / 10 ≤ (ScoreEdge DefaultConfig 100000 [e]).score ∧
        (ScoreEdge DefaultConfig 100000 [e]).score ≤ 9 / 10) := by
  have hany : interactions.any
      (fun e => inWindow cfg failureTs e && decide (e.type = EventType.RPC_ERROR)) = true ↔
      ∃ e ∈ interactions, 0 ≤ failureTs - e.ts ∧ failureTs - e.ts ≤ cfg.windowSize ∧
          e.type = EventType.RPC_ERROR := by
    rw [List.any_eq_true]
    constructor
    · rintro ⟨e, he, h⟩
      rw [Bool.and_eq_true, decide_eq_true_eq] at h
      have := (inWindow_iff_of_no_overflow cfg failureTs e (hno e he)).1 h.1
      exact ⟨e, he, this.1, this.2, h.2⟩
    · rintro ⟨e, he, h1, h2, h3⟩
      refine ⟨e, he, ?_⟩
      rw [Bool.and_eq_true, decide_eq_true_eq]
      exact ⟨(inWindow_iff_of_no_overflow cfg failureTs e (hno e he)).2 ⟨h1, h2⟩, h3⟩
  refine ⟨?_, ?_, ?_⟩
  · intro h
    rw [ScoreEdge_rpcBonus_eq, if_pos (hany.2 h)]
  · intro h
    rw [ScoreEdge_rpcBonus_eq, if_neg (fun h' => h (hany.1 h'))]
  · intro e hts hty
    have hscan : scanInteractions DefaultConfig 100000 [e] =
        { contributingEventIds := [e.id], hasRpcError := true, minDelta := 1000 } := by
      simp [scanInteractions, scanStep, hts, hty, DefaultConfig, wrap64]
    have hsc : (ScoreEdge DefaultConfig 100000 [e]).score = 79 / 100 := by
      simp only [ScoreEdge, hscan]
      simp only [DefaultConfig, wrap64]
      norm_num [mathRound]
    refine ⟨?_, ?_, ?_⟩
    · simp only [ScoreEdge, hscan]
      simp [DefaultConfig]
    · rw [hsc]; norm_num
    · rw [hsc]; norm_num


/-- Instance of C1: the two events of `TestReconstructGraph` in either order. -/
theorem reconstruction_determinism_witness :
    [downB, callAB].Perm [callAB, downB] ∧
      (∀ a ∈ [callAB, downB], ∀ b ∈ [callAB, downB], a.ts = b.ts → a.id = b.id → a = b) ∧
      ReconstructGraph tableUnmarshal 300 [downB, callAB] =
        ReconstructGraph tableUnmarshal 300 [callAB, downB] :=
  ⟨List.Perm.swap _ _ _, by decide!,
    reconstruction_determinism tableUnmarshal 300 [callAB, downB] [downB, callAB]
      (List.Perm.swap _ _ _) (by decide!)⟩

/-- Instance of C2 on the events of `TestReconstructGraph`. -/
theorem order_invariant_witness :
    ReconstructGraph tableUnmarshal 300 [callAB, downB] = some (testSnapshot, testEvidence) ∧
      testSnapshot.nodes.Pairwise (fun a b => a.id < b.id) ∧
      testSnapshot.edges.Pairwise
        (fun a b => a.source < b.source ∨ (a.source = b.source ∧ a.target < b.target)) :=
  ⟨test_reconstruction,
    order_invariant tableUnmarshal 300 [callAB, downB] testSnapshot testEvidence
      test_reconstruction⟩

/-- Instance of C3 on the events of `TestReconstructGraph`. -/
theorem edge_endpoints_witness :
    ReconstructGraph tableUnmarshal 300 [callAB, downB] = some (testSnapshot, testEvidence) ∧
      ∀ e ∈ testSnapshot.edges,
        (∃ n ∈ testSnapshot.nodes, n.id = e.target) ∧
          (e.source ≠ "" → ∃ n ∈ testSnapshot.nodes, n.id = e.source) :=
  ⟨test_reconstruction,
    edge_endpoints tableUnmarshal 300 [callAB, downB] testSnapshot testEvidence
      test_reconstruction⟩

/-- The `HEALTH_CHANGE` payloads of `TestReconstructGraph` decode to a valid status. -/
theorem test_payloads :
    ∀ e ∈ [callAB, downB], e.type = EventType.HEALTH_CHANGE →
      ∃ s, tableUnmarshal "new_status" e.payload = some s ∧
        (s = "UP" ∨ s = "DEGRADED" ∨ s = "DOWN") := by
  intro e he hty
  simp only [List.mem_cons, List.mem_singleton, List.not_mem_nil, or_false] at he
  rcases he with rfl | rfl
  · exact absurd hty (by decide)
  · exact ⟨"DOWN", by decide!, Or.inr (Or.inr rfl)⟩

/-- Instance of C4 on the events of `TestReconstructGraph`. -/
theorem health_replay_witness :
    (∀ e ∈ [callAB, downB], e.service ≠ "") ∧
      ([callAB, downB].map (fun e => (e.ts, e.id))).Nodup ∧
      (∀ e ∈ [callAB, downB], e.type = EventType.HEALTH_CHANGE →
        ∃ s, tableUnmarshal "new_status" e.payload = some s ∧
          (s = "UP" ∨ s = "DEGRADED" ∨ s = "DOWN")) ∧
      ∃ snap ev, ReconstructGraph tableUnmarshal 300 [callAB, downB] = some (snap, ev) ∧
        ∀ n ∈ snap.nodes,
          ((∀ e ∈ [callAB, downB], e.type = EventType.HEALTH_CHANGE → e.service = n.id →
              ¬ e.ts ≤ 300) → n.healthStatus = 0) ∧
          (∀ e ∈ [callAB, downB], e.type = EventType.HEALTH_CHANGE → e.service = n.id →
            e.ts ≤ 300 →
            (∀ e' ∈ [callAB, downB], e'.type = EventType.HEALTH_CHANGE → e'.service = n.id →
              e'.ts ≤ 300 → e'.ts < e.ts ∨ (e'.ts = e.ts ∧ e'.id ≤ e.id)) →
            ∃ s, tableUnmarshal "new_status" e.payload = some s ∧
              statusCode s = some n.healthStatus) :=
  ⟨by decide!, by decide!, test_payloads,
    health_replay tableUnmarshal 300 [callAB, downB] (by decide!) (by decide!) test_payloads⟩

/-- Instance of C5 on the events of `TestReconstructGraph`. -/
theorem edge_evidence_agreement_witness :
    ReconstructGraph tableUnmarshal 300 [callAB, downB] = some (testSnapshot, testEvidence) ∧
      (testEvidence.map Prod.fst).Nodup ∧ testEvidence.length = testSnapshot.edges.length ∧
      (∀ e ∈ testSnapshot.edges, ∃ x, mapGet testEvidence (edgeKey e.source e.target) = some x ∧
        x.sourceService = e.source ∧ x.targetService = e.target ∧
        x.score = e.causalConfidence) ∧
      (∀ p ∈ testEvidence, ∃ e ∈ testSnapshot.edges, p.1 = edgeKey e.source e.target) :=
  ⟨test_reconstruction,
    edge_evidence_agreement tableUnmarshal 300 [callAB, downB] testSnapshot testEvidence
      test_reconstruction⟩

/-- Instance of C6 on the events of `TestReconstructGraph`. -/
theorem edge_set_witness :
    (∀ e ∈ [callAB, downB], '|' ∉ e.service.data) ∧
      ReconstructGraph tableUnmarshal 300 [callAB, downB] = some (testSnapshot, testEvidence) ∧
      (∀ x ∈ testSnapshot.edges, x.isActive = true ∧
        ∃ e ∈ [callAB, downB], e.ts ≤ 300 ∧
          (e.type = EventType.RPC_CALL ∨ e.type = EventType.RPC_ERROR) ∧
          ∃ d, tableUnmarshal "dest_service" e.payload = some d ∧ d ≠ "" ∧
            x.source = e.service ∧ x.target = d) ∧
      (∀ e ∈ [callAB, downB], e.ts ≤ 300 →
        (e.type = EventType.RPC_CALL ∨ e.type = EventType.RPC_ERROR) →
        ∀ d, tableUnmarshal "dest_service" e.payload = some d → d ≠ "" →
          ∃ x ∈ testSnapshot.edges, x.source = e.service ∧ x.target = d) ∧
      testSnapshot.edges.Pairwise (fun a b => ¬ (a.source = b.source ∧ a.target = b.target)) :=
  ⟨by decide!, test_reconstruction,
    edge_set tableUnmarshal 300 [callAB, downB] testSnapshot testEvidence (by decide!)
      test_reconstruction⟩

/-- Instance of `rounded_precision` on the scorer's golden test. -/
theorem rounded_precision_witness :
    0 < DefaultConfig.windowSize ∧
      ∃ n : Int,
        (ScoreEdge DefaultConfig 100000 [goldenError]).score * 1000000 = (n : ℚ) ∧
        |clamp01
            ((ScoreEdge DefaultConfig 100000 [goldenError]).baseScore +
              (ScoreEdge DefaultConfig 100000 [goldenError]).traceBonus +
              (ScoreEdge DefaultConfig 100000 [goldenError]).rpcBonus +
              (ScoreEdge DefaultConfig 100000 [goldenError]).timeProximityBonus) * 1000000 - n| ≤
          1 / 2 ∧
        (|clamp01
            ((ScoreEdge DefaultConfig 100000 [goldenError]).baseScore +
              (ScoreEdge DefaultConfig 100000 [goldenError]).traceBonus +
              (ScoreEdge DefaultConfig 100000 [goldenError]).rpcBonus +
              (ScoreEdge DefaultConfig 100000 [goldenError]).timeProximityBonus) * 1000000 - n| =
            1 / 2 →
          |clamp01
            ((ScoreEdge DefaultConfig 100000 [goldenError]).baseScore +
              (ScoreEdge DefaultConfig 100000 [goldenError]).traceBonus +
              (ScoreEdge DefaultConfig 100000 [goldenError]).rpcBonus +
              (ScoreEdge DefaultConfig 100000 [goldenError]).timeProximityBonus) * 1000000| <
            |(n : ℚ)|) :=
  ⟨by decide, rounded_precision DefaultConfig 100000 [goldenError] (by decide)⟩

/-- Instance of C10 on the scorer's golden test. -/
theorem rpc_error_bonus_witness :
    (∀ e ∈ [goldenError], e.ts ≤ 100000 → 100000 - e.ts < 2 ^ 63) ∧
      ((∃ e ∈ [goldenError], 0 ≤ 100000 - e.ts ∧ 100000 - e.ts ≤ DefaultConfig.windowSize ∧
            e.type = EventType.RPC_ERROR) →
          (ScoreEdge DefaultConfig 100000 [goldenError]).rpcBonus =
            DefaultConfig.rpcErrorBonus) ∧
      ((¬ ∃ e ∈ [goldenError], 0 ≤ 100000 - e.ts ∧ 100000 - e.ts ≤ DefaultConfig.windowSize ∧
            e.type = EventType.RPC_ERROR) →
          (ScoreEdge DefaultConfig 100000 [goldenError]).rpcBonus = 0) ∧
      (∀ e : Event, e.ts = 99000 → e.type = EventType.RPC_ERROR →
          (ScoreEdge DefaultConfig 100000 [e]).rpcBonus = 4 / 10 ∧
          7 / 10 ≤ (ScoreEdge DefaultConfig 100000 [e]).score ∧
          (ScoreEdge DefaultConfig 100000 [e]).score ≤ 9 / 10) :=
  ⟨by decide!, rpc_error_bonus DefaultConfig 100000 [goldenError] (by decide!)⟩

/-! ## Window exclusion and the unused trace bonus -/

theorem filter_inWindow_eq_nil (cfg : Config) (failureTs : Int) (inter : List Event)
    (hno : ∀ e ∈ inter, e.ts ≤ failureTs → failureTs - e.ts < 2 ^ 63)
    (hout : ∀ e ∈ inter, ¬ (0 ≤ failureTs - e.ts ∧ failureTs - e.ts ≤ cfg.windowSize)) :
    inter.filter (inWindow cfg failureTs) = [] := by
  rw [List.filter_eq_nil_iff]
  intro e he hw
  exact hout e he ((inWindow_iff_of_no_overflow cfg failureTs e (hno e he)).1 hw)

/-- C11, as amended (window exclusion): for every configuration with a positive window, when
no interaction lies `2^63` or more milliseconds before `failureTs` and none satisfies
`0 ≤ failureTs - ts ≤ window_size`, `ScoreEdge` returns no contributing event id, zero
trace, RPC and proximity bonuses, and the base score clamped to `[0, 1]` and rounded to six
decimals. -/
theorem window_exclusion (cfg : Config) (failureTs : Int) (interactions : List Event)
    (_hW : 0 < cfg.windowSize)
    (hno : ∀ e ∈ interactions, e.ts ≤ failureTs → failureTs - e.ts < 2 ^ 63)
    (hout : ∀ e ∈ interactions,
      ¬ (0 ≤ failureTs - e.ts ∧ failureTs - e.ts ≤ cfg.windowSize)) :
    (ScoreEdge cfg failureTs interactions).contributingEventIds = [] ∧
      (ScoreEdge cfg failureTs interactions).traceBonus = 0 ∧
      (ScoreEdge cfg failureTs interactions).rpcBonus = 0 ∧
      (ScoreEdge cfg failureTs interactions).timeProximityBonus = 0 ∧
      (ScoreEdge cfg failureTs interactions).score =
        mathRound (clamp01 cfg.baseScore * 1000000) / 1000000 := by
  have hnil := filter_inWindow_eq_nil cfg failureTs interactions hno hout
  have hids : (ScoreEdge cfg failureTs interactions).contributingEventIds = [] := by
    rw [ScoreEdge_ids, hnil]; rfl
  have hrpc : (ScoreEdge cfg failureTs interactions).rpcBonus = 0 := by
    rw [ScoreEdge_rpcBonus_eq]
    have : interactions.any
        (fun e => inWindow cfg failureTs e && decide (e.type = EventType.RPC_ERROR)) = false := by
      rw [List.any_eq_false]
      intro e he
      have hw : inWindow cfg failureTs e = false := by
        cases h : inWindow cfg failureTs e with
        | false => rfl
        | true =>
          exact absurd (List.mem_filter.2 ⟨he, h⟩) (by rw [hnil]; simp)
      simp [hw]
    rw [this]
    simp
  have htp : (ScoreEdge cfg failureTs interactions).timeProximityBonus = 0 := by
    rw [ScoreEdge_tp_eq, scan_ids, hnil]
    simp
  refine ⟨hids, ScoreEdge_traceBonus _ _ _, hrpc, htp, ?_⟩
  rw [ScoreEdge_score_eq, ScoreEdge_traceBonus, hrpc, htp, ScoreEdge_baseScore]
  simp

/-- C11 fails as stated: for `earliestError` and failure time `0` no interaction is inside
the window, yet the wrapped `delta` passes the guard and the event is counted as
contributing. -/
theorem window_exclusion_fails :
    ¬ (0 ≤ 0 - earliestError.ts ∧ 0 - earliestError.ts ≤ DefaultConfig.windowSize) ∧
      (ScoreEdge DefaultConfig 0 [earliestError]).contributingEventIds = ["1"] ∧
      (ScoreEdge DefaultConfig 0 [earliestError]).score = 1 / 2 := by
  decide!

/-- Instance of C11 on seed scenario S4. -/
theorem window_exclusion_witness :
    0 < DefaultConfig.windowSize ∧
      (∀ e ∈ [staleError], e.ts ≤ 100000 → 100000 - e.ts < 2 ^ 63) ∧
      (∀ e ∈ [staleError],
        ¬ (0 ≤ 100000 - e.ts ∧ 100000 - e.ts ≤ DefaultConfig.windowSize)) ∧
      ((ScoreEdge DefaultConfig 100000 [staleError]).contributingEventIds = [] ∧
        (ScoreEdge DefaultConfig 100000 [staleError]).traceBonus = 0 ∧
        (ScoreEdge DefaultConfig 100000 [staleError]).rpcBonus = 0 ∧
        (ScoreEdge DefaultConfig 100000 [staleError]).timeProximityBonus = 0 ∧
        (ScoreEdge DefaultConfig 100000 [staleError]).score =
          mathRound (clamp01 DefaultConfig.baseScore * 1000000) / 1000000) :=
  ⟨by decide, by decide!, by decide!,
    window_exclusion DefaultConfig 100000 [staleError] (by decide) (by decide!) (by decide!)⟩

/-- C12 (no trace bonus without failure-trace context): for every configuration, failure
time and interaction list, whatever trace ids the interactions carry, the evidence has
`trace_bonus = 0`, and the whole evidence, score included, does not depend on
`cfg.trace_bonus`. -/
theorem no_trace_bonus (cfg : Config) (failureTs : Int) (interactions : List Event) :
    (ScoreEdge cfg failureTs interactions).traceBonus = 0 ∧
      ∀ t : ℚ, ScoreEdge { cfg with traceBonus := t } failureTs interactions =
        ScoreEdge cfg failureTs interactions := by
  refine ⟨ScoreEdge_traceBonus _ _ _, ?_⟩
  intro t
  have hscan : scanInteractions { cfg with traceBonus := t } failureTs interactions =
      scanInteractions cfg failureTs interactions :=
    scanInteractions_congr _ _ rfl failureTs interactions
  simp only [ScoreEdge, hscan]
  simp

/-! ## Facts about the root-cause selector -/

theorem foldl_max_lt (cs : List ℚ) : ∀ (a b : ℚ),
    cs.foldl max a < b ↔ a < b ∧ ∀ c ∈ cs, c < b := by
  induction cs with
  | nil => intro a b; simp
  | cons c cs ih =>
    intro a b
    rw [List.foldl_cons, ih, max_lt_iff]
    simp only [List.mem_cons, forall_eq_or_imp]
    tauto

theorem maxExplained_foldl (id : String) (edges : List Edge) :
    ∀ m : List (String × ℚ),
      (mapGet (edges.foldl maxExplainedStep m) id).getD 0 =
        ((edges.filter (fun e => decide (e.source = id))).map
          (fun e => e.causalConfidence)).foldl max ((mapGet m id).getD 0) := by
  induction edges with
  | nil => intro m; rfl
  | cons e rest ih =>
    intro m
    rw [List.foldl_cons, ih]
    by_cases hs : e.source = id
    · subst hs
      simp only [List.filter_cons, decide_True, if_true, List.map_cons, List.foldl_cons]
      congr 1
      unfold maxExplainedStep
      by_cases hgt : e.causalConfidence > (mapGet m e.source).getD 0
      · rw [if_pos hgt, mapGet_mapSet_self, Option.getD_some, max_eq_right (le_of_lt hgt)]
      · rw [if_neg hgt, max_eq_left (not_lt.1 hgt)]
    · simp only [List.filter_cons, hs, decide_False, Bool.false_eq_true, if_false]
      congr 1
      unfold maxExplainedStep
      split_ifs
      · rw [mapGet_mapSet_of_ne _ _ _ _ (fun h => hs h.symm)]
      · rfl

/-- The value read from `maxExplainedScore` is below `0.5` exactly when `max_outgoing` is. -/
theorem maxExplained_lt_iff (edges : List Edge) (id : String) :
    (mapGet (maxExplainedScore edges) id).getD 0 < 1 / 2 ↔ maxOutgoing edges id < 1 / 2 := by
  unfold maxExplainedScore maxOutgoing
  rw [maxExplained_foldl]
  have h0 : (mapGet ([] : List (String × ℚ)) id).getD 0 = 0 := rfl
  rw [h0, foldl_max_lt]
  cases (edges.filter (fun e => decide (e.source = id))).map (fun e => e.causalConfidence) with
  | nil => simp
  | cons c cs =>
    simp only [foldl_max_lt, List.mem_cons, forall_eq_or_imp]
    constructor
    · rintro ⟨_, h⟩; exact h
    · intro h; exact ⟨by norm_num, h⟩

theorem candidateLess_iff (a b : Node) :
    candidateLess a b = true ↔ -a.healthStatus < -b.healthStatus := by
  simp [candidateLess]

/-- Insertion sort keeps elements of equal key in their input order. -/
theorem sortSlice_stable {α κ : Type} [LinearOrder κ] (less : α → α → Bool) (key : α → κ)
    (hless : ∀ a b, less a b = true ↔ key a < key b) (T : α → α → Prop) (l : List α)
    (hT : l.Pairwise T) :
    (sortSlice less l).Pairwise (fun a b => key a < key b ∨ (key a = key b ∧ T a b)) := by
  have hr : ∀ a b, less b a = false ↔ key a ≤ key b := by
    intro a b
    rw [← not_lt, ← hless b a]
    cases less b a <;> simp
  have hins : ∀ (a : α) (O : List α),
      O.Pairwise (fun a b => key a < key b ∨ (key a = key b ∧ T a b)) →
      (∀ y ∈ O, T a y) →
      (O.orderedInsert (fun a b => less b a = false) a).Pairwise
        (fun a b => key a < key b ∨ (key a = key b ∧ T a b)) := by
    intro a O
    induction O with
    | nil => intro _ _; simp
    | cons b O' ih =>
      intro hO hTa
      have hO' := List.pairwise_cons.1 hO
      simp only [List.orderedInsert]
      by_cases hab : less b a = false
      · rw [if_pos hab]
        refine List.pairwise_cons.2 ⟨?_, hO⟩
        intro y hy
        have hle : key a ≤ key y := by
          rcases List.mem_cons.1 hy with rfl | hy'
          · exact (hr a y).1 hab
          · have hby := hO'.1 y hy'
            have hab' := (hr a b).1 hab
            rcases hby with h | h
            · exact le_trans hab' (le_of_lt h)
            · exact le_trans hab' (le_of_eq h.1)
        rcases lt_or_eq_of_le hle with h | h
        · exact Or.inl h
        · exact Or.inr ⟨h, hTa y hy⟩
      · rw [if_neg hab]
        have hlt : key b < key a := by
          rw [← not_le, ← hr a b]; exact hab
        refine List.pairwise_cons.2 ⟨?_, ih hO'.2 (fun y hy => hTa y (List.mem_cons_of_mem _ hy))⟩
        intro z hz
        rcases (List.mem_orderedInsert _).1 hz with rfl | hz'
        · exact Or.inl hlt
        · exact hO'.1 z hz'
  induction l with
  | nil => simp [sortSlice]
  | cons a l ih =>
    have hT' := List.pairwise_cons.1 hT
    show (List.orderedInsert _ a (sortSlice less l)).Pairwise _
    exact hins a _ (ih hT'.2) (fun y hy => hT'.1 y ((mem_sortSlice less l y).1 hy))

/-! ## Root-cause membership and ordering -/

theorem mem_candidates (snap : GraphSnapshot) (n : Node) :
    n ∈ GetRootCauseCandidates snap ↔
      n ∈ snap.nodes ∧ n.healthStatus ≠ 0 ∧ maxOutgoing snap.edges n.id < 1 / 2 := by
  unfold GetRootCauseCandidates
  simp only [mem_sortSlice, List.mem_filter, Bool.and_eq_true, decide_eq_true_eq,
    maxExplained_lt_iff]

theorem maxOutgoing_of_no_edge (edges : List Edge) (id : String)
    (h : ∀ e ∈ edges, e.source ≠ id) : maxOutgoing edges id = 0 := by
  unfold maxOutgoing
  have : edges.filter (fun e => decide (e.source = id)) = [] := by
    rw [List.filter_eq_nil_iff]
    intro e he
    simpa using h e he
  rw [this]
  rfl

/-- C13 (root-cause membership): for every snapshot whose nodes have health status 0, 1 or
2, `GetRootCauseCandidates` returns, up to order, exactly the snapshot nodes with
health status above 0 whose `max_outgoing` is below `0.5`; an unhealthy node with no
outgoing edge is always returned and a healthy node never is. -/
theorem root_cause_membership (snap : GraphSnapshot)
    (hhealth : ∀ n ∈ snap.nodes,
      n.healthStatus = 0 ∨ n.healthStatus = 1 ∨ n.healthStatus = 2) :
    (GetRootCauseCandidates snap).Perm
        (snap.nodes.filter
          (fun n => decide (n.healthStatus > 0 ∧ maxOutgoing snap.edges n.id < 1 / 2))) ∧
      (∀ n ∈ snap.nodes, n.healthStatus > 0 → (∀ e ∈ snap.edges, e.source ≠ n.id) →
        n ∈ GetRootCauseCandidates snap) ∧
      (∀ n, n.healthStatus = 0 → n ∉ GetRootCauseCandidates snap) := by
  refine ⟨?_, ?_, ?_⟩
  · unfold GetRootCauseCandidates
    refine (sortSlice_perm _ _).trans ?_
    have : snap.nodes.filter
        (fun n => decide (¬ n.healthStatus = 0) &&
          decide ((mapGet (maxExplainedScore snap.edges) n.id).getD 0 < 1 / 2)) =
        snap.nodes.filter
          (fun n => decide (n.healthStatus > 0 ∧ maxOutgoing snap.edges n.id < 1 / 2)) := by
      apply List.filter_congr
      intro n hn
      have hpos : ¬ n.healthStatus = 0 ↔ n.healthStatus > 0 := by
        rcases hhealth n hn with h | h | h <;> omega
      rw [Bool.decide_and, decide_eq_decide.2 hpos,
        decide_eq_decide.2 (maxExplained_lt_iff snap.edges n.id)]
    rw [this]
  · intro n hn hpos hnone
    rw [mem_candidates]
    refine ⟨hn, by omega, ?_⟩
    rw [maxOutgoing_of_no_edge _ _ hnone]
    norm_num
  · intro n h0 hmem
    exact ((mem_candidates snap n).1 hmem).2.1 h0

/-- Instance of C13 on seed scenario S2. -/
theorem root_cause_membership_witness :
    (∀ n ∈ chainSnapshot.nodes,
      n.healthStatus = 0 ∨ n.healthStatus = 1 ∨ n.healthStatus = 2) ∧
      ((GetRootCauseCandidates chainSnapshot).Perm
          (chainSnapshot.nodes.filter
            (fun n => decide (n.healthStatus > 0 ∧
              maxOutgoing chainSnapshot.edges n.id < 1 / 2))) ∧
        (∀ n ∈ chainSnapshot.nodes, n.healthStatus > 0 →
          (∀ e ∈ chainSnapshot.edges, e.source ≠ n.id) →
          n ∈ GetRootCauseCandidates chainSnapshot) ∧
        (∀ n, n.healthStatus = 0 → n ∉ GetRootCauseCandidates chainSnapshot)) :=
  ⟨by decide!, root_cause_membership chainSnapshot (by decide!)⟩

/-- The candidates of seed scenario S2 are `[C]`. -/
theorem chain_candidates :
    (GetRootCauseCandidates chainSnapshot).map (fun n => n.id) = ["C"] := by
  decide!

/-- C14, as amended (root-cause ordering): the list returned by `GetRootCauseCandidates` is
sorted by health status descending; and when the snapshot's nodes are in ascending order of
id and there are at most twelve candidates, candidates of equal health status appear in
ascending order of id. -/
theorem root_cause_ordering (snap : GraphSnapshot) :
    (GetRootCauseCandidates snap).Pairwise (fun a b => a.healthStatus ≥ b.healthStatus) ∧
      (snap.nodes.Pairwise (fun a b => a.id < b.id) →
        (GetRootCauseCandidates snap).length ≤ 12 →
        (GetRootCauseCandidates snap).Pairwise
          (fun a b => a.healthStatus = b.healthStatus → a.id < b.id)) := by
  constructor
  · unfold GetRootCauseCandidates
    have h := sortSlice_sorted candidateLess (fun n => -n.healthStatus) candidateLess_iff
      (snap.nodes.filter
        (fun n => decide (¬ n.healthStatus = 0) &&
          decide ((mapGet (maxExplainedScore snap.edges) n.id).getD 0 < 1 / 2)))
    refine h.imp ?_
    intro a b hab
    have hab' : -a.healthStatus ≤ -b.healthStatus := hab
    omega
  · intro hsorted _
    unfold GetRootCauseCandidates
    have h := sortSlice_stable candidateLess (fun n => -n.healthStatus) candidateLess_iff
      (fun a b => a.id < b.id)
      (snap.nodes.filter
        (fun n => decide (¬ n.healthStatus = 0) &&
          decide ((mapGet (maxExplainedScore snap.edges) n.id).getD 0 < 1 / 2)))
      (hsorted.sublist (List.filter_sublist _))
    refine h.imp ?_
    intro a b hab heq
    rcases hab with h | h
    · have h' : -a.healthStatus < -b.healthStatus := h
      omega
    · exact h.2

/-- C14 fails as stated: the candidates are sorted by health status only, so the two `DOWN`
nodes of `unsortedSnapshot` come back as `B`, `A`. -/
theorem root_cause_ordering_fails :
    (GetRootCauseCandidates unsortedSnapshot).map (fun n => (n.id, n.healthStatus)) =
      [("B", 2), ("A", 2)] := by
  decide!

/-- Instance of C14 on a snapshot with four candidates: of the six nodes of `mixedSnapshot`
the healthy `D` and the explained `F` are left out, the two `DOWN` nodes come first, in the
order `B`, `C` of their ids, and the two `DEGRADED` nodes follow, in the order `A`, `E`. -/
theorem root_cause_ordering_witness :
    mixedSnapshot.nodes.Pairwise (fun a b => a.id < b.id) ∧
      (GetRootCauseCandidates mixedSnapshot).length ≤ 12 ∧
      (GetRootCauseCandidates mixedSnapshot).map (fun n => (n.id, n.healthStatus)) =
        [("B", 2), ("C", 2), ("A", 1), ("E", 1)] ∧
      (GetRootCauseCandidates mixedSnapshot).Pairwise
        (fun a b => a.healthStatus ≥ b.healthStatus) ∧
      (GetRootCauseCandidates mixedSnapshot).Pairwise
        (fun a b => a.healthStatus = b.healthStatus → a.id < b.id) :=
  ⟨by decide!, by decide!, by decide!, (root_cause_ordering mixedSnapshot).1,
    (root_cause_ordering mixedSnapshot).2 (by decide!) (by decide!)⟩

/-! ## Closed form of the event scan -/

example : eventKey 5 "ab" = "event:00000000000000000005:ab" := by decide!
example : eventKey (-5) "ab" = "event:-0000000000000000005:ab" := by decide!
example : eventKey 9223372036854775807 "" = "event:09223372036854775807:" := by decide!
example : eventKey (-9223372036854775808) "" = "event:-9223372036854775808:" := by decide!


theorem rangeEvents_nil (endBound : String) : rangeEvents endBound [] = [] := rfl

theorem rangeEvents_of_ge (endBound : String) (p : String × Value)
    (rest : List (String × Value)) (h : endBound ≤ p.1) :
    rangeEvents endBound (p :: rest) = [] := by
  have hlt : decide (p.1 < endBound) = false := decide_eq_false (not_lt.2 h)
  unfold rangeEvents
  rw [List.takeWhile_cons, hlt]
  rfl

theorem rangeEvents_of_untagged (endBound : String) (p : String × Value)
    (rest : List (String × Value)) (h : ¬ endBound ≤ p.1) (ht : hasEventTag p.1 = false) :
    rangeEvents endBound (p :: rest) = rangeEvents endBound rest := by
  have hlt : decide (p.1 < endBound) = true := decide_eq_true (not_le.1 h)
  unfold rangeEvents
  rw [List.takeWhile_cons, hlt, if_pos rfl, List.filter_cons, ht]
  rfl

theorem rangeEvents_of_event (endBound : String) (k : String) (e : Event)
    (rest : List (String × Value)) (h : ¬ endBound ≤ k) (ht : ¬ hasEventTag k = false) :
    rangeEvents endBound ((k, Value.event e) :: rest) = e :: rangeEvents endBound rest := by
  have hlt : decide (k < endBound) = true := decide_eq_true (not_le.1 h)
  have ht' : hasEventTag k = true := by simpa using ht
  unfold rangeEvents
  rw [List.takeWhile_cons, hlt, if_pos rfl, List.filter_cons, ht', if_pos rfl]
  rfl

theorem collectEvent_filtered (serviceFilter : String) (limit offset : Int)
    (events : List Event) (skipped : Int) (e : Event)
    (h : serviceFilter ≠ "" ∧ e.service ≠ serviceFilter) :
    collectEvent serviceFilter limit offset events skipped e = (events, skipped) := by
  unfold collectEvent; rw [if_pos h]

theorem collectEvent_skip (serviceFilter : String) (limit offset : Int)
    (events : List Event) (skipped : Int) (e : Event)
    (h : ¬ (serviceFilter ≠ "" ∧ e.service ≠ serviceFilter)) (hs : skipped < offset) :
    collectEvent serviceFilter limit offset events skipped e = (events, skipped + 1) := by
  unfold collectEvent; rw [if_neg h, if_pos hs]

theorem collectEvent_take (serviceFilter : String) (limit offset : Int)
    (events : List Event) (skipped : Int) (e : Event)
    (h : ¬ (serviceFilter ≠ "" ∧ e.service ≠ serviceFilter)) (hs : ¬ skipped < offset)
    (hr : (events.length : Int) < limit) :
    collectEvent serviceFilter limit offset events skipped e = (events ++ [e], skipped) := by
  unfold collectEvent; rw [if_neg h, if_neg hs, if_pos hr]

theorem collectEvent_full (serviceFilter : String) (limit offset : Int)
    (events : List Event) (skipped : Int) (e : Event)
    (h : ¬ (serviceFilter ≠ "" ∧ e.service ≠ serviceFilter)) (hs : ¬ skipped < offset)
    (hr : ¬ (events.length : Int) < limit) :
    collectEvent serviceFilter limit offset events skipped e = (events, skipped) := by
  unfold collectEvent; rw [if_neg h, if_neg hs, if_neg hr]

/-- Closed form of the scan: what is still to be collected is the filtered range, less the
part of the offset not yet skipped, cut to the room left under the limit. -/
theorem scanEvents_closed (endBound serviceFilter : String) (limit offset : Int)
    (items : List (String × Value)) :
    (∀ p ∈ items, p.1 < endBound → hasEventTag p.1 = true → ∃ e, p.2 = Value.event e) →
    ∀ (events : List Event) (skipped : Int),
      scanEvents endBound serviceFilter limit offset items events skipped =
        some (events ++
          ((((rangeEvents endBound items).filter (serviceMatch serviceFilter)).drop
            (offset - skipped).toNat).take (limit - events.length).toNat)) := by
  induction items with
  | nil => intro _ events skipped; simp [scanEvents, rangeEvents_nil]
  | cons p rest ih =>
    intro hvals events skipped
    obtain ⟨k, v⟩ := p
    have ih' := ih (fun q hq => hvals q (List.mem_cons_of_mem _ hq))
    by_cases hge : endBound ≤ k
    · rw [rangeEvents_of_ge endBound (k, v) rest hge]
      simp only [scanEvents, hge, if_true]
      simp
    · by_cases ht : hasEventTag k = false
      · simp only [scanEvents, hge, ht, if_false, if_true]
        rw [ih', rangeEvents_of_untagged endBound (k, v) rest hge ht]
      · obtain ⟨e, he⟩ := hvals (k, v) (List.mem_cons_self _ _) (not_le.1 hge)
          (by simpa using ht)
        simp only at he
        subst he
        have hstep : scanEvents endBound serviceFilter limit offset
            ((k, Value.event e) :: rest) events skipped =
            if limit > 0 ∧
                ((collectEvent serviceFilter limit offset events skipped e).1.length : Int) ≥
                  limit then
              some (collectEvent serviceFilter limit offset events skipped e).1
            else
              scanEvents endBound serviceFilter limit offset rest
                (collectEvent serviceFilter limit offset events skipped e).1
                (collectEvent serviceFilter limit offset events skipped e).2 := by
          rw [scanEvents, if_neg hge, if_neg ht]
        rw [hstep, rangeEvents_of_event endBound k e rest hge ht]
        generalize rangeEvents endBound rest = R at ih' ⊢
        by_cases hsvc : serviceFilter ≠ "" ∧ e.service ≠ serviceFilter
        · have hm : ¬ serviceMatch serviceFilter e = true := by
            simp only [serviceMatch, decide_eq_true_eq]
            tauto
          rw [collectEvent_filtered _ limit offset events skipped e hsvc,
            List.filter_cons_of_neg hm]
          by_cases hbrk : limit > 0 ∧ (events.length : Int) ≥ limit
          · rw [if_pos hbrk]
            have h0 : (limit - events.length).toNat = 0 := by omega
            rw [h0, List.take_zero, List.append_nil]
          · rw [if_neg hbrk, ih']
        · have hm : serviceMatch serviceFilter e = true := by
            simp only [serviceMatch, decide_eq_true_eq]
            tauto
          rw [List.filter_cons_of_pos hm]
          by_cases hskip : skipped < offset
          · rw [collectEvent_skip _ limit offset events skipped e hsvc hskip]
            have hd : (offset - skipped).toNat = (offset - (skipped + 1)).toNat + 1 := by omega
            by_cases hbrk : limit > 0 ∧ (events.length : Int) ≥ limit
            · rw [if_pos hbrk]
              have h0 : (limit - events.length).toNat = 0 := by omega
              rw [h0, List.take_zero, List.append_nil]
            · rw [if_neg hbrk, ih', hd, List.drop_succ_cons]
          · have hd : (offset - skipped).toNat = 0 := by omega
            by_cases hroom : (events.length : Int) < limit
            · rw [collectEvent_take _ limit offset events skipped e hsvc hskip hroom]
              have hlen : ((events ++ [e]).length : Int) = events.length + 1 := by
                simp
              have ht' : (limit - events.length).toNat =
                  (limit - ((events ++ [e]).length : Nat)).toNat + 1 := by
                rw [hlen]; omega
              by_cases hbrk : limit > 0 ∧ ((events ++ [e]).length : Int) ≥ limit
              · rw [if_pos hbrk, hd, List.drop_zero, ht', List.take_succ_cons]
                have h0 : (limit - ((events ++ [e]).length : Nat)).toNat = 0 := by
                  rw [hlen] at hbrk ⊢; omega
                rw [h0, List.take_zero]
              · rw [if_neg hbrk, ih', hd]
                simp only [List.drop_zero]
                rw [ht', List.take_succ_cons, List.append_assoc, List.singleton_append]
            · rw [collectEvent_full _ limit offset events skipped e hsvc hskip hroom]
              have h0 : (limit - events.length).toNat = 0 := by omega
              by_cases hbrk : limit > 0 ∧ (events.length : Int) ≥ limit
              · rw [if_pos hbrk, h0, List.take_zero, List.append_nil]
              · rw [if_neg hbrk, ih', h0, List.take_zero, List.take_zero]

/-! ## Lexicographic order and fixed-width decimals -/

theorem lex_cons_cons (a b : Char) (l l' : List Char) :
    List.Lex (· < ·) (a :: l) (b :: l') ↔ a < b ∨ (a = b ∧ List.Lex (· < ·) l l') := by
  constructor
  · intro h
    cases h with
    | cons h => exact Or.inr ⟨rfl, h⟩
    | rel h => exact Or.inl h
  · rintro (h | ⟨rfl, h⟩)
    · exact List.Lex.rel h
    · exact List.Lex.cons h

theorem lex_append_left (p l l' : List Char) :
    List.Lex (· < ·) (p ++ l) (p ++ l') ↔ List.Lex (· < ·) l l' := by
  induction p with
  | nil => rfl
  | cons a p ih =>
    rw [List.cons_append, List.cons_append, lex_cons_cons, ih]
    constructor
    · rintro (h | ⟨_, h⟩)
      · exact absurd h (lt_irrefl a)
      · exact h
    · intro h; exact Or.inr ⟨rfl, h⟩

/-- Lexicographic comparison of two lists that start with blocks of the same length. -/
theorem lex_append_of_length_eq :
    ∀ (u v s t : List Char), u.length = v.length →
      (List.Lex (· < ·) (u ++ s) (v ++ t) ↔
        List.Lex (· < ·) u v ∨ (u = v ∧ List.Lex (· < ·) s t)) := by
  intro u
  induction u with
  | nil =>
    intro v s t hlen
    cases v with
    | nil =>
      simp only [List.nil_append, true_and]
      constructor
      · intro h; exact Or.inr h
      · rintro (h | h)
        · cases h
        · exact h
    | cons b v => simp at hlen
  | cons a u ih =>
    intro v s t hlen
    cases v with
    | nil => simp at hlen
    | cons b v =>
      have hlen' : u.length = v.length := by simpa using hlen
      rw [List.cons_append, List.cons_append, lex_cons_cons, lex_cons_cons, ih v s t hlen']
      constructor
      · rintro (h | ⟨rfl, h | ⟨rfl, h⟩⟩)
        · exact Or.inl (Or.inl h)
        · exact Or.inl (Or.inr ⟨rfl, h⟩)
        · exact Or.inr ⟨rfl, h⟩
      · rintro ((h | ⟨rfl, h⟩) | ⟨heq, h⟩)
        · exact Or.inl h
        · exact Or.inr ⟨rfl, Or.inl h⟩
        · cases heq
          exact Or.inr ⟨rfl, Or.inr ⟨rfl, h⟩⟩

theorem digitChar_lt_iff (d d' : Nat) (hd : d < 10) (hd' : d' < 10) :
    digitChar d < digitChar d' ↔ d < d' := by
  interval_cases d <;> interval_cases d' <;> decide

theorem digitChar_inj (d d' : Nat) (hd : d < 10) (hd' : d' < 10)
    (h : digitChar d = digitChar d') : d = d' := by
  interval_cases d <;> interval_cases d' <;> first | rfl | (exact absurd h (by decide))

theorem minus_lt_digitChar (d : Nat) (hd : d < 10) : '-' < digitChar d := by
  interval_cases d <;> decide

theorem decimalDigits_length (w n : Nat) : (decimalDigits w n).length = w := by
  induction w generalizing n with
  | zero => rfl
  | succ w ih => simp [decimalDigits, ih]

theorem decimalDigits_mem (w n : Nat) : ∀ c ∈ decimalDigits w n, '-' < c := by
  induction w generalizing n with
  | zero => intro c hc; simp [decimalDigits] at hc
  | succ w ih =>
    intro c hc
    simp only [decimalDigits, List.mem_append, List.mem_singleton] at hc
    rcases hc with hc | rfl
    · exact ih _ c hc
    · exact minus_lt_digitChar _ (Nat.mod_lt _ (by norm_num))

/-- Fixed-width decimal notation is order preserving and injective below `10^w`. -/
theorem decimalDigits_lex (w : Nat) : ∀ (a b : Nat), a < 10 ^ w → b < 10 ^ w →
    ((List.Lex (· < ·) (decimalDigits w a) (decimalDigits w b) ↔ a < b) ∧
      (decimalDigits w a = decimalDigits w b ↔ a = b)) := by
  induction w with
  | zero =>
    intro a b ha hb
    have ha' : a = 0 := by simpa using ha
    have hb' : b = 0 := by simpa using hb
    subst ha' hb'
    simp only [decimalDigits, lt_self_iff_false, iff_false, and_true]
    intro h; cases h
  | succ w ih =>
    intro a b ha hb
    have ha' : a / 10 < 10 ^ w := by
      rw [pow_succ] at ha; exact Nat.div_lt_of_lt_mul (by omega)
    have hb' : b / 10 < 10 ^ w := by
      rw [pow_succ] at hb; exact Nat.div_lt_of_lt_mul (by omega)
    obtain ⟨ih1, ih2⟩ := ih (a / 10) (b / 10) ha' hb'
    have hma : a % 10 < 10 := Nat.mod_lt _ (by norm_num)
    have hmb : b % 10 < 10 := Nat.mod_lt _ (by norm_num)
    constructor
    · simp only [decimalDigits]
      rw [lex_append_of_length_eq _ _ _ _
        ((decimalDigits_length w _).trans (decimalDigits_length w _).symm), ih1, ih2,
        lex_cons_cons, digitChar_lt_iff _ _ hma hmb]
      constructor
      · rintro (h | ⟨h1, h2 | ⟨_, h2⟩⟩)
        · omega
        · omega
        · cases h2
      · intro h
        by_cases hq : a / 10 < b / 10
        · exact Or.inl hq
        · exact Or.inr ⟨by omega, Or.inl (by omega)⟩
    · simp only [decimalDigits]
      constructor
      · intro h
        have hl := List.append_inj h
          ((decimalDigits_length w _).trans (decimalDigits_length w _).symm)
        have h1 := ih2.1 hl.1
        have h2 := digitChar_inj _ _ hma hmb (by simpa using hl.2)
        omega
      · intro h; rw [h]

/-! ## Order of the event keys -/

theorem pad20_data_nonneg (ts : Int) (h : 0 ≤ ts) :
    (pad20 ts).data = decimalDigits 20 ts.toNat := by
  unfold pad20; rw [if_neg (not_lt.2 h)]

theorem pad20_data_neg (ts : Int) (h : ts < 0) :
    (pad20 ts).data = '-' :: decimalDigits 19 ts.natAbs := by
  unfold pad20; rw [if_pos h]

theorem pad20_length (ts : Int) : (pad20 ts).data.length = 20 := by
  by_cases h : ts < 0
  · rw [pad20_data_neg ts h, List.length_cons, decimalDigits_length]
  · rw [pad20_data_nonneg ts (not_lt.1 h), decimalDigits_length]

theorem pad20_lex_nonneg (a b : Int) (ha : 0 ≤ a) (ha' : a < 10 ^ 20) (hb : 0 ≤ b)
    (hb' : b < 10 ^ 20) :
    (List.Lex (· < ·) (pad20 a).data (pad20 b).data ↔ a < b) ∧
      ((pad20 a).data = (pad20 b).data ↔ a = b) := by
  rw [pad20_data_nonneg a ha, pad20_data_nonneg b hb]
  obtain ⟨h1, h2⟩ := decimalDigits_lex 20 a.toNat b.toNat (by omega) (by omega)
  rw [h1, h2]
  constructor <;> omega

theorem pad20_nonneg_vs_neg (a b : Int) (ha : 0 ≤ a) (hb : b < 0) :
    ¬ List.Lex (· < ·) (pad20 a).data (pad20 b).data ∧ (pad20 a).data ≠ (pad20 b).data ∧
      List.Lex (· < ·) (pad20 b).data (pad20 a).data := by
  rw [pad20_data_nonneg a ha, pad20_data_neg b hb]
  have hlen := decimalDigits_length 20 a.toNat
  have hmem := decimalDigits_mem 20 a.toNat
  cases hd : decimalDigits 20 a.toNat with
  | nil => rw [hd] at hlen; simp at hlen
  | cons c l =>
    rw [hd] at hmem
    have hc : '-' < c := hmem c (List.mem_cons_self _ _)
    refine ⟨?_, ?_, List.Lex.rel hc⟩
    · rw [lex_cons_cons]
      rintro (h | ⟨h, _⟩)
      · exact absurd hc (not_lt.2 (le_of_lt h))
      · rw [h] at hc; exact absurd hc (lt_irrefl _)
    · intro h
      simp only [List.cons.injEq] at h
      rw [h.1] at hc; exact absurd hc (lt_irrefl _)

theorem eventKey_data (ts : Int) (id : String) :
    (eventKey ts id).data = "event:".data ++ ((pad20 ts).data ++ (':' :: id.data)) := by
  simp [eventKey, String.data_append]

theorem string_lt_iff_lex (s t : String) : s < t ↔ List.Lex (· < ·) s.data t.data :=
  String.lt_iff_toList_lt

/-- Order of two event keys in terms of their padded timestamps and ids. -/
theorem eventKey_lt_iff_pad (t₁ t₂ : Int) (i₁ i₂ : String) :
    eventKey t₁ i₁ < eventKey t₂ i₂ ↔
      List.Lex (· < ·) (pad20 t₁).data (pad20 t₂).data ∨
        ((pad20 t₁).data = (pad20 t₂).data ∧ i₁ < i₂) := by
  rw [string_lt_iff_lex, eventKey_data, eventKey_data, lex_append_left,
    lex_append_of_length_eq _ _ _ _ ((pad20_length t₁).trans (pad20_length t₂).symm),
    lex_cons_cons, string_lt_iff_lex]
  constructor
  · rintro (h | ⟨h1, h2 | ⟨_, h2⟩⟩)
    · exact Or.inl h
    · exact absurd h2 (lt_irrefl _)
    · exact Or.inr ⟨h1, h2⟩
  · rintro (h | ⟨h1, h2⟩)
    · exact Or.inl h
    · exact Or.inr ⟨h1, Or.inr ⟨rfl, h2⟩⟩

theorem eventKey_eq_iff_pad (t₁ t₂ : Int) (i₁ i₂ : String) :
    eventKey t₁ i₁ = eventKey t₂ i₂ ↔ (pad20 t₁).data = (pad20 t₂).data ∧ i₁ = i₂ := by
  constructor
  · intro h
    have hd := congrArg String.data h
    rw [eventKey_data, eventKey_data] at hd
    have h1 := List.append_cancel_left hd
    have h2 := List.append_inj h1 ((pad20_length t₁).trans (pad20_length t₂).symm)
    refine ⟨h2.1, ?_⟩
    have h3 := h2.2
    simp only [List.cons.injEq, true_and] at h3
    exact String.ext h3
  · rintro ⟨h1, h2⟩
    apply String.ext
    rw [eventKey_data, eventKey_data, h1, h2]

theorem eventKey_order (ts₁ ts₂ : Int) (id₁ id₂ : String)
    (h₁ : 0 ≤ ts₁) (h₁' : ts₁ < 2 ^ 63) (h₂ : 0 ≤ ts₂) (h₂' : ts₂ < 2 ^ 63) :
    (eventKey ts₁ id₁ < eventKey ts₂ id₂ ↔ ts₁ < ts₂ ∨ (ts₁ = ts₂ ∧ id₁ < id₂)) ∧
      (eventKey ts₁ id₁ = eventKey ts₂ id₂ ↔ ts₁ = ts₂ ∧ id₁ = id₂) := by
  obtain ⟨hlt, heq⟩ := pad20_lex_nonneg ts₁ ts₂ h₁ (by omega) h₂ (by omega)
  rw [eventKey_lt_iff_pad, eventKey_eq_iff_pad, hlt, heq]
  exact ⟨Iff.rfl, Iff.rfl⟩

theorem pad20_lex_iff (a b : Int) (ha : 0 ≤ a) (ha' : a < 2 ^ 63) (hb : -2 ^ 63 ≤ b)
    (hb' : b < 2 ^ 63) :
    (List.Lex (· < ·) (pad20 a).data (pad20 b).data ↔ a < b) ∧
      ((pad20 a).data = (pad20 b).data ↔ a = b) := by
  by_cases hneg : b < 0
  · obtain ⟨h1, h2, _⟩ := pad20_nonneg_vs_neg a b ha hneg
    constructor
    · constructor
      · intro h; exact absurd h h1
      · intro h; omega
    · constructor
      · intro h; exact absurd h h2
      · intro h; omega
  · exact pad20_lex_nonneg a b ha (by omega) (not_lt.1 hneg) (by omega)

/-- C19, as amended (order-preserving key encoding): for two `(ts, id)` pairs with
non-negative `int64` timestamps, the byte-wise lexicographic comparison of their event keys
agrees with the comparison by `ts` ascending and then `id` ascending: less, equal and
greater correspond. -/
theorem key_encoding_order (ts₁ ts₂ : Int) (id₁ id₂ : String)
    (h₁ : 0 ≤ ts₁) (h₁' : ts₁ < 2 ^ 63) (h₂ : 0 ≤ ts₂) (h₂' : ts₂ < 2 ^ 63) :
    (eventKey ts₁ id₁ < eventKey ts₂ id₂ ↔ ts₁ < ts₂ ∨ (ts₁ = ts₂ ∧ id₁ < id₂)) ∧
      (eventKey ts₁ id₁ = eventKey ts₂ id₂ ↔ ts₁ = ts₂ ∧ id₁ = id₂) ∧
      (eventKey ts₂ id₂ < eventKey ts₁ id₁ ↔ ts₂ < ts₁ ∨ (ts₂ = ts₁ ∧ id₂ < id₁)) :=
  ⟨(eventKey_order ts₁ ts₂ id₁ id₂ h₁ h₁' h₂ h₂').1,
    (eventKey_order ts₁ ts₂ id₁ id₂ h₁ h₁' h₂ h₂').2,
    (eventKey_order ts₂ ts₁ id₂ id₁ h₂ h₂' h₁ h₁').1⟩

/-- C19 fails as stated: `-2 < -1`, but `%020d` writes the sign first and pads after it, so
the key of `-1` is byte-wise below the key of `-2`. -/
theorem key_encoding_order_fails :
    ((-2 : Int) < -1) ∧ eventKey (-1) "" < eventKey (-2) "" ∧
      eventKey (-1) "" = "event:-0000000000000000001:" ∧
      eventKey (-2) "" = "event:-0000000000000000002:" := by
  decide!

/-- Instance of C19 on the stamps of the two events of `TestReconstructGraph`. -/
theorem key_encoding_order_witness :
    (0 : Int) ≤ 100 ∧ (100 : Int) < 2 ^ 63 ∧ (0 : Int) ≤ 200 ∧ (200 : Int) < 2 ^ 63 ∧
      ((eventKey 100 "1" < eventKey 200 "2" ↔ (100 : Int) < 200 ∨ ((100 : Int) = 200 ∧ "1" < "2")) ∧
        (eventKey 100 "1" = eventKey 200 "2" ↔ (100 : Int) = 200 ∧ "1" = "2") ∧
        (eventKey 200 "2" < eventKey 100 "1" ↔
          (200 : Int) < 100 ∨ ((200 : Int) = 100 ∧ "2" < "1"))) :=
  ⟨by decide, by decide, by decide, by decide,
    key_encoding_order 100 200 "1" "2" (by decide) (by decide) (by decide) (by decide)⟩

/-! ## Well-formed databases -/

theorem mem_dbSet (store : List (String × Value)) (k : String) (v : Value)
    (q : String × Value) (h : q ∈ dbSet store k v) : q = (k, v) ∨ q ∈ store := by
  induction store with
  | nil => simp [dbSet] at h; exact Or.inl h
  | cons p rest ih =>
    obtain ⟨k', v'⟩ := p
    simp only [dbSet] at h
    split_ifs at h with h1 h2
    · rcases List.mem_cons.1 h with h | h
      · exact Or.inl h
      · exact Or.inr h
    · rcases List.mem_cons.1 h with h | h
      · exact Or.inl h
      · exact Or.inr (List.mem_cons_of_mem _ h)
    · rcases List.mem_cons.1 h with h | h
      · exact Or.inr (h ▸ List.mem_cons_self _ _)
      · rcases ih h with h | h
        · exact Or.inl h
        · exact Or.inr (List.mem_cons_of_mem _ h)

theorem dbSet_sorted (store : List (String × Value)) (k : String) (v : Value)
    (hs : store.Pairwise (fun a b => a.1 < b.1)) :
    (dbSet store k v).Pairwise (fun a b => a.1 < b.1) := by
  induction store with
  | nil => simp [dbSet]
  | cons p rest ih =>
    obtain ⟨k', v'⟩ := p
    have hs' := List.pairwise_cons.1 hs
    simp only [dbSet]
    split_ifs with h1 h2
    · refine List.pairwise_cons.2 ⟨?_, hs⟩
      intro q hq
      rcases List.mem_cons.1 hq with rfl | hq
      · exact h1
      · exact lt_trans h1 (hs'.1 q hq)
    · subst h2
      exact List.pairwise_cons.2 ⟨hs'.1, hs'.2⟩
    · refine List.pairwise_cons.2 ⟨?_, ih hs'.2⟩
      intro q hq
      rcases mem_dbSet rest k v q hq with rfl | hq
      · exact lt_of_le_of_ne (not_lt.1 h1) (fun h => h2 h.symm)
      · exact hs'.1 q hq

theorem storeInv_nil : StoreInv [] := ⟨List.Pairwise.nil, by simp⟩

theorem storeInv_dbSet_event (store : List (String × Value)) (e : Event)
    (h : StoreInv store) : StoreInv (dbSet store (eventKey e.ts e.id) (Value.event e)) := by
  refine ⟨dbSet_sorted _ _ _ h.1, ?_⟩
  intro q hq
  rcases mem_dbSet _ _ _ q hq with rfl | hq
  · exact Or.inl ⟨e, rfl, rfl⟩
  · exact h.2 q hq

theorem storeInv_IngestEvents (events : List Event) :
    ∀ store, StoreInv store → StoreInv (IngestEvents store events) := by
  induction events with
  | nil => intro store h; exact h
  | cons e rest ih =>
    intro store h
    exact ih _ (storeInv_dbSet_event store e h)

theorem storeInv_SaveSnapshot (store : List (String × Value)) (s : GraphSnapshot)
    (h : StoreInv store) : StoreInv (SaveSnapshot store s) := by
  refine ⟨dbSet_sorted _ _ _ h.1, ?_⟩
  intro q hq
  rcases mem_dbSet _ _ _ q hq with rfl | hq
  · exact Or.inr ⟨s, rfl, rfl⟩
  · exact h.2 q hq

/-- Every database produced by the write interface is well-formed. -/
theorem storeInv_runOps (ops : List StoreOp) : StoreInv (runOps ops) := by
  unfold runOps
  have : ∀ (ops : List StoreOp) (st : List (String × Value)), StoreInv st →
      StoreInv (ops.foldl
        (fun st op =>
          match op with
          | StoreOp.ingest events => IngestEvents st events
          | StoreOp.save snapshot => SaveSnapshot st snapshot) st) := by
    intro ops
    induction ops with
    | nil => intro st h; exact h
    | cons op rest ih =>
      intro st h
      rw [List.foldl_cons]
      apply ih
      cases op with
      | ingest events => exact storeInv_IngestEvents events st h
      | save snapshot => exact storeInv_SaveSnapshot st snapshot h
  exact this ops [] storeInv_nil

theorem hasEventTag_eventKey (ts : Int) (id : String) : hasEventTag (eventKey ts id) = true := by
  unfold hasEventTag
  rw [eventKey_data]
  simp

theorem hasEventTag_snapshotKey (ts : Int) : hasEventTag (snapshotKey ts) = false := by
  unfold hasEventTag snapshotKey
  rw [String.data_append]
  rfl

/-- In a well-formed database an entry whose key carries the event tag holds an event. -/
theorem tagged_is_event (store : List (String × Value)) (h : StoreInv store)
    (p : String × Value) (hp : p ∈ store) (ht : hasEventTag p.1 = true) :
    ∃ e, p.2 = Value.event e ∧ p.1 = eventKey e.ts e.id := by
  rcases h.2 p hp with he | ⟨s, _, hk⟩
  · exact he
  · rw [hk, hasEventTag_snapshotKey] at ht
    cases ht

theorem mem_storedEvents (store : List (String × Value)) (e : Event) :
    e ∈ storedEvents store ↔ ∃ k, (k, Value.event e) ∈ store := by
  unfold storedEvents
  rw [List.mem_filterMap]
  constructor
  · rintro ⟨⟨k, v⟩, hp, hv⟩
    cases v with
    | event e' =>
      simp only [Option.some.injEq] at hv
      subst hv
      exact ⟨k, hp⟩
    | snapshot s => simp at hv
  · rintro ⟨k, hp⟩
    exact ⟨(k, Value.event e), hp, rfl⟩

/-! ## Range seen by the event scan -/

theorem dropWhile_eq_filter_of_closed {α : Type} (p : α → Bool) (l : List α)
    (h : l.Pairwise (fun a b => p b = true → p a = true)) :
    l.dropWhile p = l.filter (fun a => !p a) := by
  induction l with
  | nil => rfl
  | cons a l ih =>
    have h' := List.pairwise_cons.1 h
    cases hp : p a with
    | true =>
      rw [List.dropWhile_cons, hp, if_pos rfl, List.filter_cons_of_neg (by simp [hp])]
      exact ih h'.2
    | false =>
      rw [List.dropWhile_cons, hp, if_neg (by simp), List.filter_cons_of_pos (by simp [hp])]
      congr 1
      symm
      rw [List.filter_eq_self]
      intro b hb
      cases hb' : p b with
      | true => rw [h'.1 b hb hb'] at hp; cases hp
      | false => rfl

theorem takeWhile_eq_filter_of_closed {α : Type} (q : α → Bool) (l : List α)
    (h : l.Pairwise (fun a b => q b = true → q a = true)) :
    l.takeWhile q = l.filter q := by
  induction l with
  | nil => rfl
  | cons a l ih =>
    have h' := List.pairwise_cons.1 h
    cases hq : q a with
    | true =>
      rw [List.takeWhile_cons, hq, if_pos rfl, List.filter_cons_of_pos hq]
      congr 1
      exact ih h'.2
    | false =>
      rw [List.takeWhile_cons, hq, if_neg (by simp), List.filter_cons_of_neg (by simp [hq])]
      symm
      rw [List.filter_eq_nil_iff]
      intro b hb hb'
      rw [h'.1 b hb hb'] at hq
      cases hq

theorem storedEvents_filter_congr (f : String × Value → Bool) (g : Event → Bool)
    (store : List (String × Value))
    (h : ∀ p ∈ store, ∀ e, p.2 = Value.event e → f p = g e) :
    storedEvents (store.filter f) = (storedEvents store).filter g := by
  induction store with
  | nil => rfl
  | cons p rest ih =>
    have ih' := ih (fun q hq => h q (List.mem_cons_of_mem _ hq))
    obtain ⟨k, v⟩ := p
    cases v with
    | snapshot s =>
      have h2 : storedEvents ((k, Value.snapshot s) :: rest) = storedEvents rest := rfl
      rw [h2, ← ih']
      by_cases hf : f (k, Value.snapshot s) = true
      · rw [List.filter_cons_of_pos hf]; rfl
      · rw [List.filter_cons_of_neg hf]
    | event e =>
      have h2 : storedEvents ((k, Value.event e) :: rest) = e :: storedEvents rest := rfl
      have hfg := h (k, Value.event e) (List.mem_cons_self _ _) e rfl
      rw [h2]
      by_cases hf : f (k, Value.event e) = true
      · rw [List.filter_cons_of_pos hf, List.filter_cons_of_pos (by rw [← hfg]; exact hf), ← ih']
        rfl
      · rw [List.filter_cons_of_neg hf, List.filter_cons_of_neg (by rw [← hfg]; exact hf), ← ih']

theorem not_lex_nil (l : List Char) : ¬ List.Lex (· < ·) l [] := by
  intro h; cases h

theorem eventKey_lt_start (ts start : Int) (id : String) (h : 0 ≤ ts) (h' : ts < 2 ^ 63)
    (hs : -2 ^ 63 ≤ start) (hs' : start < 2 ^ 63) :
    eventKey ts id < eventKey start "" ↔ ts < start := by
  rw [eventKey_lt_iff_pad, (pad20_lex_iff ts start h h' hs hs').1]
  constructor
  · rintro (h1 | ⟨_, h2⟩)
    · exact h1
    · rw [string_lt_iff_lex] at h2
      exact absurd h2 (not_lex_nil _)
  · intro h1; exact Or.inl h1

theorem eventKey_lt_bound (ts endTs : Int) (id : String) (h : 0 ≤ ts) (h' : ts < 2 ^ 63)
    (he : -2 ^ 63 ≤ endTs) (he' : endTs < 2 ^ 63) :
    eventKey ts id < "event:" ++ pad20 endTs ↔ ts < endTs := by
  rw [string_lt_iff_lex, eventKey_data, String.data_append, lex_append_left]
  have h0 : (pad20 endTs).data = (pad20 endTs).data ++ [] := (List.append_nil _).symm
  rw [h0, lex_append_of_length_eq _ _ _ _ ((pad20_length ts).trans (pad20_length endTs).symm),
    (pad20_lex_iff ts endTs h h' he he').1]
  constructor
  · rintro (h1 | ⟨_, h2⟩)
    · exact h1
    · exact absurd h2 (not_lex_nil _)
  · intro h1; exact Or.inl h1

/-- What the scan can see in a well-formed database holding non-negative timestamps: the
stored events with `startTs ≤ ts < endTs`, in key order. -/
theorem rangeEvents_eq (store : List (String × Value)) (hinv : StoreInv store)
    (hts : ∀ e ∈ storedEvents store, 0 ≤ e.ts ∧ e.ts < 2 ^ 63)
    (startTs endTs : Int) (hs : -2 ^ 63 ≤ startTs) (hs' : startTs < 2 ^ 63)
    (he : -2 ^ 63 ≤ endTs) (he' : endTs < 2 ^ 63) :
    rangeEvents ("event:" ++ pad20 endTs)
        (store.dropWhile (fun p => decide (p.1 < eventKey startTs ""))) =
      (storedEvents store).filter (fun e => decide (startTs ≤ e.ts ∧ e.ts < endTs)) := by
  have hclosed : ∀ (b : String) (l : List (String × Value)),
      l.Pairwise (fun a b => a.1 < b.1) →
      l.Pairwise (fun x y => decide (y.1 < b) = true → decide (x.1 < b) = true) := by
    intro b l hl
    refine hl.imp ?_
    intro x y hxy hy
    simp only [decide_eq_true_eq] at hy ⊢
    exact lt_trans hxy hy
  unfold rangeEvents
  rw [dropWhile_eq_filter_of_closed _ _ (hclosed _ _ hinv.1),
    takeWhile_eq_filter_of_closed _ _
      (hclosed _ _ (hinv.1.sublist (List.filter_sublist _))),
    List.filter_filter, List.filter_filter]
  apply storedEvents_filter_congr
  intro p hp e hev
  obtain ⟨k, v⟩ := p
  simp only at hev
  subst hev
  have hk : k = eventKey e.ts e.id := by
    rcases hinv.2 _ hp with ⟨e', h1, h2⟩ | ⟨s, h1, _⟩
    · simp only [Value.event.injEq] at h1
      subst h1
      exact h2
    · cases h1
  subst hk
  obtain ⟨h0, h1⟩ := hts e ((mem_storedEvents store e).2 ⟨_, hp⟩)
  have hstart := eventKey_lt_start e.ts startTs e.id h0 h1 hs hs'
  have hend := eventKey_lt_bound e.ts endTs e.id h0 h1 he he'
  simp only [hasEventTag_eventKey, Bool.true_and]
  by_cases ha : e.ts < startTs
  · have : ¬ (startTs ≤ e.ts ∧ e.ts < endTs) := by omega
    simp [hstart.2 ha, this]
  · by_cases hb : e.ts < endTs
    · have : startTs ≤ e.ts ∧ e.ts < endTs := by omega
      simp [ha, hb, hstart, hend, this]
    · have : ¬ (startTs ≤ e.ts ∧ e.ts < endTs) := by omega
      simp [hb, hend, this]

/-! ## Closed form of the event query -/

/-- On a well-formed database `GetEvents` returns, and what it returns is the page cut out
of the service-filtered events visible to the scan. -/
theorem GetEvents_scan (store : List (String × Value)) (hinv : StoreInv store)
    (startTs endTs : Int) (serviceFilter : String) (limit offset : Int) :
    GetEvents store startTs endTs serviceFilter limit offset =
      some ((((rangeEvents ("event:" ++ pad20 endTs)
          (store.dropWhile (fun p => decide (p.1 < eventKey startTs "")))).filter
            (serviceMatch serviceFilter)).drop offset.toNat).take limit.toNat) := by
  unfold GetEvents
  simp only []
  rw [scanEvents_closed]
  · simp only [List.nil_append, sub_zero, List.length_nil, Int.Nat.cast_ofNat_Int]
  · intro p hp _ ht
    obtain ⟨e, he, _⟩ :=
      tagged_is_event store hinv p ((List.dropWhile_suffix _).subset hp) ht
    exact ⟨e, he⟩

/-- Closed form of `GetEvents` on a well-formed database of non-negative timestamps. -/
theorem GetEvents_closed (store : List (String × Value)) (hinv : StoreInv store)
    (hts : ∀ e ∈ storedEvents store, 0 ≤ e.ts ∧ e.ts < 2 ^ 63)
    (startTs endTs : Int) (hs : -2 ^ 63 ≤ startTs) (hs' : startTs < 2 ^ 63)
    (he : -2 ^ 63 ≤ endTs) (he' : endTs < 2 ^ 63)
    (serviceFilter : String) (limit offset : Int) :
    GetEvents store startTs endTs serviceFilter limit offset =
      some (((((storedEvents store).filter (inRange startTs endTs)).filter
        (serviceMatch serviceFilter)).drop offset.toNat).take limit.toNat) := by
  rw [GetEvents_scan store hinv, rangeEvents_eq store hinv hts startTs endTs hs hs' he he']
  rfl

/-- The events of a well-formed database of non-negative timestamps come in strictly
ascending `(ts, id)` order. -/
theorem storedEvents_sorted (store : List (String × Value)) (hinv : StoreInv store)
    (hts : ∀ e ∈ storedEvents store, 0 ≤ e.ts ∧ e.ts < 2 ^ 63) :
    (storedEvents store).Pairwise tsIdLess := by
  unfold storedEvents
  rw [List.pairwise_filterMap]
  refine (hinv.1.imp_of_mem ?_)
  intro p q hp hq hpq a ha b hb
  obtain ⟨kp, vp⟩ := p
  obtain ⟨kq, vq⟩ := q
  cases vp with
  | snapshot s => simp at ha
  | event ea =>
    cases vq with
    | snapshot s => simp at hb
    | event eb =>
      simp only [Option.mem_def, Option.some.injEq] at ha hb
      subst ha hb
      have hka : kp = eventKey ea.ts ea.id := by
        rcases hinv.2 _ hp with ⟨e', h1, h2⟩ | ⟨s, h1, _⟩
        · simp only [Value.event.injEq] at h1
          subst h1
          exact h2
        · cases h1
      have hkb : kq = eventKey eb.ts eb.id := by
        rcases hinv.2 _ hq with ⟨e', h1, h2⟩ | ⟨s, h1, _⟩
        · simp only [Value.event.injEq] at h1
          subst h1
          exact h2
        · cases h1
      subst hka hkb
      obtain ⟨a0, a1⟩ := hts ea ((mem_storedEvents _ ea).2 ⟨_, hp⟩)
      obtain ⟨b0, b1⟩ := hts eb ((mem_storedEvents _ eb).2 ⟨_, hq⟩)
      exact (eventKey_order ea.ts eb.ts ea.id eb.id a0 a1 b0 b1).1.1 hpq

/-! ## Query range, pagination and the pagination scenario -/

theorem dbSet_append (store : List (String × Value)) (k : String) (v : Value)
    (h : ∀ p ∈ store, p.1 < k) : dbSet store k v = store ++ [(k, v)] := by
  induction store with
  | nil => rfl
  | cons p rest ih =>
    obtain ⟨k', v'⟩ := p
    have hk : k' < k := h (k', v') (List.mem_cons_self _ _)
    have h1 : ¬ k < k' := not_lt.2 (le_of_lt hk)
    have h2 : ¬ k = k' := fun e => (ne_of_lt hk) e.symm
    rw [dbSet, if_neg h1, if_neg h2, ih (fun q hq => h q (List.mem_cons_of_mem _ hq))]
    rfl

/-- Ingesting events whose keys ascend, all above the keys already stored, appends them. -/
theorem IngestEvents_ascending (events : List Event) :
    ∀ store : List (String × Value),
      (∀ p ∈ store, ∀ e ∈ events, p.1 < eventKey e.ts e.id) →
      events.Pairwise (fun a b => eventKey a.ts a.id < eventKey b.ts b.id) →
      IngestEvents store events =
        store ++ events.map (fun e => (eventKey e.ts e.id, Value.event e)) := by
  induction events with
  | nil => intro store _ _; simp [IngestEvents]
  | cons e rest ih =>
    intro store h1 h2
    have h2' := List.pairwise_cons.1 h2
    have hstep : IngestEvents store (e :: rest) =
        IngestEvents (dbSet store (eventKey e.ts e.id) (Value.event e)) rest := rfl
    rw [hstep, dbSet_append store _ _ (fun p hp => h1 p hp e (List.mem_cons_self _ _)),
      ih _ ?_ h2'.2]
    · simp
    · intro p hp e' he'
      rcases List.mem_append.1 hp with hp | hp
      · exact h1 p hp e' (List.mem_cons_of_mem _ he')
      · simp only [List.mem_singleton] at hp
        subst hp
        exact h2'.1 e' he'

theorem storedEvents_map_event (events : List Event) (key : Event → String) :
    storedEvents (events.map (fun e => (key e, Value.event e))) = events := by
  induction events with
  | nil => rfl
  | cons e rest ih =>
    have : storedEvents ((key e, Value.event e) :: rest.map (fun e => (key e, Value.event e))) =
        e :: storedEvents (rest.map (fun e => (key e, Value.event e))) := rfl
    rw [List.map_cons, this, ih]

theorem runOps_ingest (events : List Event) :
    runOps [StoreOp.ingest events] = IngestEvents [] events := rfl

/-- The store of the pagination scenario holds the 250 events in the order of their
stamps. -/
theorem stored_batch250 : storedEvents (runOps [StoreOp.ingest batch250]) = batch250 := by
  rw [runOps_ingest, IngestEvents_ascending batch250 [] (fun p hp => by cases hp),
    List.nil_append, storedEvents_map_event]
  unfold batch250
  rw [List.pairwise_map]
  refine (List.pairwise_lt_range 250).imp_of_mem ?_
  intro i j hi hj hij
  rw [List.mem_range] at hi hj
  have e1 : (numbered (i + 1)).ts = ((i + 1 : Nat) : Int) := rfl
  have e2 : (numbered (j + 1)).ts = ((j + 1 : Nat) : Int) := rfl
  rw [e1, e2]
  refine (eventKey_order _ _ _ _ (by omega) (by omega) (by omega) (by omega)).1.2 ?_
  left
  omega

theorem batch250_stamps : ∀ e ∈ batch250, 0 ≤ e.ts ∧ e.ts < 2 ^ 63 := by
  intro e he
  unfold batch250 at he
  rw [List.mem_map] at he
  obtain ⟨i, hi, rfl⟩ := he
  rw [List.mem_range] at hi
  have e1 : (numbered (i + 1)).ts = ((i + 1 : Nat) : Int) := rfl
  rw [e1]
  constructor <;> omega

/-- C16 (query range and order): on every store reached by ingests and snapshot saves in any
order, whose events carry non-negative `int64` timestamps, and for every `int64` range and
limit `n > 0`, `GetEvents(startTs, endTs, no filter, n, 0)` returns; every event returned is
a stored event with `startTs ≤ ts < endTs` (an event stamped `endTs` is left out), and the
events returned are in strictly ascending `(ts, id)` order. -/
theorem query_range_order (ops : List StoreOp)
    (hts : ∀ e ∈ storedEvents (runOps ops), 0 ≤ e.ts ∧ e.ts < 2 ^ 63)
    (startTs endTs : Int) (hs : -2 ^ 63 ≤ startTs) (hs' : startTs < 2 ^ 63)
    (he : -2 ^ 63 ≤ endTs) (he' : endTs < 2 ^ 63) (n : Int) (_hn : 0 < n) :
    ∃ events, GetEvents (runOps ops) startTs endTs "" n 0 = some events ∧
      (∀ e ∈ events, (∃ k, (k, Value.event e) ∈ runOps ops) ∧ startTs ≤ e.ts ∧ e.ts < endTs) ∧
      events.Pairwise tsIdLess := by
  refine ⟨_, GetEvents_closed (runOps ops) (storeInv_runOps ops) hts startTs endTs hs hs' he he'
    "" n 0, ?_, ?_⟩
  · intro e hmem
    have h1 := (List.drop_sublist _ _).subset ((List.take_sublist _ _).subset hmem)
    have h2 := List.mem_filter.1 (List.mem_filter.1 h1).1
    have h3 : startTs ≤ e.ts ∧ e.ts < endTs := by
      have := h2.2
      unfold inRange at this
      exact of_decide_eq_true this
    exact ⟨(mem_storedEvents _ e).1 h2.1, h3⟩
  · exact (((((storedEvents_sorted _ (storeInv_runOps ops) hts).sublist
      (List.filter_sublist _)).sublist (List.filter_sublist _)).sublist
      (List.drop_sublist _ _)).sublist (List.take_sublist _ _))

/-- Instance of C16: `B` going down at `200` is ingested before the call at `100`; the range
`[0, 200)` returns the call alone. -/
theorem query_range_order_witness :
    (∀ e ∈ storedEvents (runOps [StoreOp.ingest [downB], StoreOp.ingest [callAB]]),
        0 ≤ e.ts ∧ e.ts < 2 ^ 63) ∧
      (-2 ^ 63 ≤ (0 : Int)) ∧ ((0 : Int) < 2 ^ 63) ∧ (-2 ^ 63 ≤ (200 : Int)) ∧
      ((200 : Int) < 2 ^ 63) ∧ ((0 : Int) < 10) ∧
      GetEvents (runOps [StoreOp.ingest [downB], StoreOp.ingest [callAB]]) 0 200 "" 10 0 =
        some [callAB] ∧
      ∃ events,
        GetEvents (runOps [StoreOp.ingest [downB], StoreOp.ingest [callAB]]) 0 200 "" 10 0 =
          some events ∧
        (∀ e ∈ events,
          (∃ k, (k, Value.event e) ∈ runOps [StoreOp.ingest [downB], StoreOp.ingest [callAB]]) ∧
            (0 : Int) ≤ e.ts ∧ e.ts < 200) ∧
        events.Pairwise tsIdLess :=
  ⟨by decide!, by decide, by decide, by decide, by decide, by decide, by decide!,
    query_range_order [StoreOp.ingest [downB], StoreOp.ingest [callAB]] (by decide!) 0 200
      (by decide) (by decide) (by decide) (by decide) 10 (by decide)⟩

/-- C17 (filter before pagination): on every store reached by ingests and snapshot saves,
whose events carry non-negative `int64` timestamps, the stored events come in strictly
ascending `(ts, id)` order, and for every `int64` range, service filter, limit and offset
`GetEvents(startTs, endTs, X, limit, offset)` returns `take limit (drop offset F)`, where `F`
keeps of that ordered list the events with `startTs ≤ ts < endTs`, and of those the events
of service `X` when `X` is not empty. -/
theorem filter_before_pagination (ops : List StoreOp)
    (hts : ∀ e ∈ storedEvents (runOps ops), 0 ≤ e.ts ∧ e.ts < 2 ^ 63)
    (startTs endTs : Int) (hs : -2 ^ 63 ≤ startTs) (hs' : startTs < 2 ^ 63)
    (he : -2 ^ 63 ≤ endTs) (he' : endTs < 2 ^ 63)
    (serviceFilter : String) (limit offset : Int) (_hl : 0 ≤ limit) (_ho : 0 ≤ offset) :
    (storedEvents (runOps ops)).Pairwise tsIdLess ∧
      (∀ e, e ∈ storedEvents (runOps ops) ↔ ∃ k, (k, Value.event e) ∈ runOps ops) ∧
      GetEvents (runOps ops) startTs endTs serviceFilter limit offset =
        some ((((storedEvents (runOps ops)).filter
          (fun e => decide (startTs ≤ e.ts ∧ e.ts < endTs) &&
            decide (serviceFilter = "" ∨ e.service = serviceFilter))).drop
              offset.toNat).take limit.toNat) := by
  refine ⟨storedEvents_sorted _ (storeInv_runOps ops) hts, mem_storedEvents _, ?_⟩
  rw [GetEvents_closed (runOps ops) (storeInv_runOps ops) hts startTs endTs hs hs' he he',
    List.filter_filter]
  congr 4
  funext e
  exact Bool.and_comm _ _

set_option maxRecDepth 100000 in
/-- Instance of C17, the pagination scenario: of 250 events stamped `1` to `250`, the query
`(0, 1000, no filter, limit 100, offset 100)` returns the events `101` to `200` in order. -/
theorem filter_before_pagination_witness :
    (∀ e ∈ storedEvents (runOps [StoreOp.ingest batch250]), 0 ≤ e.ts ∧ e.ts < 2 ^ 63) ∧
      (-2 ^ 63 ≤ (0 : Int)) ∧ ((0 : Int) < 2 ^ 63) ∧ (-2 ^ 63 ≤ (1000 : Int)) ∧
      ((1000 : Int) < 2 ^ 63) ∧ ((0 : Int) ≤ 100) ∧
      GetEvents (runOps [StoreOp.ingest batch250]) 0 1000 "" 100 100 =
        some ((List.range 100).map (fun i => numbered (i + 101))) := by
  have hst := stored_batch250
  have hts : ∀ e ∈ storedEvents (runOps [StoreOp.ingest batch250]),
      0 ≤ e.ts ∧ e.ts < 2 ^ 63 := by
    rw [hst]
    exact batch250_stamps
  refine ⟨hts, by decide, by decide, by decide, by decide, by decide, ?_⟩
  refine (filter_before_pagination [StoreOp.ingest batch250] hts 0 1000 (by decide) (by decide)
    (by decide) (by decide) "" 100 100 (by decide) (by decide)).2.2.trans ?_
  rw [hst]
  decide!

/-- C18 (pagination equivalence): on every store reached by ingests and snapshot saves, for
every range, service filter and limit, the three queries return, and the page at offset `0`
followed by the page at offset `limit` is the page of `2 * limit` events at offset `0`. -/
theorem pagination_equivalence (ops : List StoreOp) (startTs endTs : Int)
    (serviceFilter : String) (limit : Int) :
    ∃ first second,
      GetEvents (runOps ops) startTs endTs serviceFilter limit 0 = some first ∧
      GetEvents (runOps ops) startTs endTs serviceFilter limit limit = some second ∧
      GetEvents (runOps ops) startTs endTs serviceFilter (2 * limit) 0 =
        some (first ++ second) := by
  refine ⟨_, _, GetEvents_scan _ (storeInv_runOps ops) _ _ _ _ _,
    GetEvents_scan _ (storeInv_runOps ops) _ _ _ _ _, ?_⟩
  rw [GetEvents_scan _ (storeInv_runOps ops)]
  have h2 : (2 * limit).toNat = limit.toNat + limit.toNat := by omega
  have h0 : (0 : Int).toNat = 0 := rfl
  rw [h2, h0, List.take_add]
  simp only [List.drop_zero]

/-! ## Edge-evidence lookup -/

/-- Whenever the engine's reconstruction returns a graph, it is a result of
`ReconstructGraph` at the same timestamp. -/
theorem reconstructGraphWithEvidence_ok (unmarshal : String → String → Option String)
    (store : List (String × Value)) (ts : Int) (snap : GraphSnapshot)
    (ev : List (String × EdgeEvidence))
    (h : reconstructGraphWithEvidence unmarshal store ts = some (Except.ok (snap, ev))) :
    ∃ events, ReconstructGraph unmarshal ts events = some (snap, ev) := by
  unfold reconstructGraphWithEvidence at h
  simp only [] at h
  split at h
  · cases h
  · rename_i events _
    refine ⟨events, ?_⟩
    split at h
    · cases h
    · rename_i r hr
      simp only [Option.some.injEq, Except.ok.injEq] at h
      rw [hr, h]

/-- The evidence map of a returned reconstruction and the snapshot's edges: every edge has
an entry under its key carrying its endpoints, and every key of the map is the key of an
edge. -/
theorem evidence_lookup (unmarshal : String → String → Option String) (atTs : Int)
    (events : List Event) (snap : GraphSnapshot) (ev : List (String × EdgeEvidence))
    (h : ReconstructGraph unmarshal atTs events = some (snap, ev)) :
    (∀ e ∈ snap.edges, ∃ x, mapGet ev (edgeKey e.source e.target) = some x ∧
      x.sourceService = e.source ∧ x.targetService = e.target) ∧
    (∀ k, (mapGet ev k).isSome = true → ∃ e ∈ snap.edges, k = edgeKey e.source e.target) := by
  obtain ⟨rs, ss, _, hrs, _, hsnap, hev, _, hve, hkeys, hsc⟩ :=
    ReconstructGraph_some unmarshal atTs events snap ev h
  subst hsnap hev
  have hekeys : ss.edges.map Prod.fst = rs.edges.map Prod.fst := keys_of_view edgeView _ _ hve
  constructor
  · intro e he
    have he' : e ∈ ss.edges.map Prod.snd := (mem_sortSlice _ _ _).1 he
    obtain ⟨inter, edge, tn, _, _, _, hget, heq⟩ := scored_edge atTs rs ss hrs hve hsc e he'
    subst heq
    exact ⟨_, hget, rfl, rfl⟩
  · intro k hk
    rw [mapGet_isSome_iff, hkeys, ← hekeys] at hk
    obtain ⟨⟨k', e⟩, hmem, hkeq⟩ := List.mem_map.1 hk
    simp only at hkeq
    subst hkeq
    obtain ⟨e₀, hmem₀, hview⟩ := view_mem edgeView ss.edges rs.edges hve k' e hmem
    refine ⟨e, (mem_sortSlice _ _ _).2 (List.mem_map_of_mem Prod.snd hmem), ?_⟩
    have := (hrs.edgeShape _ hmem₀).1
    simp only [edgeView, Prod.mk.injEq] at hview
    simp only at this
    rw [this, hview.1, hview.2.1]

/-- C20, as amended (edge-evidence lookup): when the reconstruction at the timestamp returns
a snapshot, and neither the requested source nor the source of any snapshot edge contains
the character `|`, `GetEdgeEvidence` returns: it fails with not-found exactly when the
snapshot has no edge `(source, target)`, it succeeds exactly when the snapshot has one, and
the evidence it returns carries the requested source and target. -/
theorem edge_evidence_lookup (unmarshal : String → String → Option String)
    (store : List (String × Value)) (source target : String) (ts : Int)
    (snap : GraphSnapshot) (ev : List (String × EdgeEvidence))
    (hrec : reconstructGraphWithEvidence unmarshal store ts = some (Except.ok (snap, ev)))
    (hsrc : '|' ∉ source.data) (hbar : ∀ e ∈ snap.edges, '|' ∉ e.source.data) :
    (GetEdgeEvidence unmarshal store source target ts =
        some (Except.error EngineError.notFound) ↔
      ¬ ∃ e ∈ snap.edges, e.source = source ∧ e.target = target) ∧
    ((∃ x, GetEdgeEvidence unmarshal store source target ts = some (Except.ok x)) ↔
      ∃ e ∈ snap.edges, e.source = source ∧ e.target = target) ∧
    (∀ x, GetEdgeEvidence unmarshal store source target ts = some (Except.ok x) →
      x.sourceService = source ∧ x.targetService = target) := by
  obtain ⟨events, hR⟩ := reconstructGraphWithEvidence_ok unmarshal store ts snap ev hrec
  obtain ⟨hto, hfrom⟩ := evidence_lookup unmarshal ts events snap ev hR
  have hG : GetEdgeEvidence unmarshal store source target ts =
      match mapGet ev (edgeKey source target) with
      | some x => some (Except.ok x)
      | none => some (Except.error EngineError.notFound) := by
    unfold GetEdgeEvidence
    rw [hrec]
  rw [hG]
  cases hget : mapGet ev (edgeKey source target) with
  | none =>
    have hno : ¬ ∃ e ∈ snap.edges, e.source = source ∧ e.target = target := by
      rintro ⟨e, he, h1, h2⟩
      obtain ⟨x, hx, _⟩ := hto e he
      rw [h1, h2, hget] at hx
      cases hx
    refine ⟨⟨fun _ => hno, fun _ => rfl⟩, ⟨?_, fun h => absurd h hno⟩, ?_⟩
    · rintro ⟨x, hx⟩
      simp only [Option.some.injEq] at hx
      cases hx
    · intro x hx
      simp only [Option.some.injEq] at hx
      cases hx
  | some x =>
    obtain ⟨e, he, hk⟩ := hfrom (edgeKey source target) (by rw [hget]; rfl)
    obtain ⟨h1, h2⟩ := edgeKey_inj source target e.source e.target hsrc (hbar e he) hk
    have hyes : ∃ e ∈ snap.edges, e.source = source ∧ e.target = target :=
      ⟨e, he, h1.symm, h2.symm⟩
    obtain ⟨y, hy, hy1, hy2⟩ := hto e he
    rw [← hk, hget] at hy
    simp only [Option.some.injEq] at hy
    subst hy
    refine ⟨⟨?_, fun h => absurd hyes h⟩, ⟨fun _ => hyes, fun _ => ⟨x, rfl⟩⟩, ?_⟩
    · intro h
      simp only [Option.some.injEq] at h
      cases h
    · intro z hz
      simp only [Option.some.injEq, Except.ok.injEq] at hz
      subst hz
      exact ⟨hy1.trans h1.symm, hy2.trans h2.symm⟩

/-- C20 fails as stated: the store holds the single call from `a|b` to `c`, so the snapshot
at `5` has one edge, from `a|b` to `c`, and none from `a` to `b|c`; yet the request for
source `a` and target `b|c` builds the same key `a|b|c` and succeeds, returning evidence
whose source is `a|b` and whose target is `c`. -/
theorem edge_evidence_lookup_fails :
    (reconstructGraphWithEvidence tableUnmarshal (runOps [StoreOp.ingest [pipeFirst]]) 5).map
        (fun r => r.toOption.map (fun s => s.1.edges.map (fun x => (x.source, x.target)))) =
      some (some [("a|b", "c")]) ∧
    (GetEdgeEvidence tableUnmarshal (runOps [StoreOp.ingest [pipeFirst]]) "a" "b|c" 5).map
        (fun r => r.toOption.map (fun x => (x.sourceService, x.targetService))) =
      some (some ("a|b", "c")) := by
  decide!

/-- Instance of C20 on the events of `TestReconstructGraph`: at `300` the evidence of the
edge from `A` to `B` is found, and carries these endpoints. -/
theorem edge_evidence_lookup_witness :
    reconstructGraphWithEvidence tableUnmarshal (runOps [StoreOp.ingest [callAB, downB]]) 300 =
        some (Except.ok (testSnapshot, testEvidence)) ∧
      ('|' ∉ "A".data) ∧ (∀ e ∈ testSnapshot.edges, '|' ∉ e.source.data) ∧
      ((GetEdgeEvidence tableUnmarshal (runOps [StoreOp.ingest [callAB, downB]]) "A" "B" 300 =
          some (Except.error EngineError.notFound) ↔
        ¬ ∃ e ∈ testSnapshot.edges, e.source = "A" ∧ e.target = "B") ∧
      ((∃ x, GetEdgeEvidence tableUnmarshal (runOps [StoreOp.ingest [callAB, downB]]) "A" "B" 300 =
          some (Except.ok x)) ↔
        ∃ e ∈ testSnapshot.edges, e.source = "A" ∧ e.target = "B") ∧
      (∀ x, GetEdgeEvidence tableUnmarshal (runOps [StoreOp.ingest [callAB, downB]]) "A" "B" 300 =
          some (Except.ok x) →
        x.sourceService = "A" ∧ x.targetService = "B")) :=
  ⟨by decide!, by decide, by decide!,
    edge_evidence_lookup tableUnmarshal (runOps [StoreOp.ingest [callAB, downB]]) "A" "B" 300
      testSnapshot testEvidence (by decide!) (by decide) (by decide!)⟩

/-! ## Sorting a list with one more element -/

section InsertLemmas
variable {α κ : Type} [LinearOrder κ]

theorem orderedInsert_split (less : α → α → Bool) (key : α → κ)
    (hless : ∀ a b, less a b = true ↔ key a < key b) (a x : α) (B : List α) :
    ∀ A : List α, (A ++ x :: B).Pairwise (fun a b => key a ≤ key b) →
      ∃ A' B', List.orderedInsert (fun a b => less b a = false) a (A ++ x :: B) = A' ++ x :: B' ∧
        List.orderedInsert (fun a b => less b a = false) a (A ++ B) = A' ++ B' := by
  have hr : ∀ u v, less v u = false ↔ key u ≤ key v := by
    intro u v
    rw [← not_lt, ← hless, Bool.not_eq_true]
  intro A
  induction A with
  | nil =>
    intro hs
    simp only [List.nil_append] at hs ⊢
    by_cases hax : less x a = false
    · refine ⟨[a], B, by simp [List.orderedInsert, hax], ?_⟩
      cases B with
      | nil => rfl
      | cons b B =>
        have hxb : key x ≤ key b := (List.pairwise_cons.1 hs).1 b (List.mem_cons_self _ _)
        have hab : less b a = false := (hr a b).2 (le_trans ((hr a x).1 hax) hxb)
        simp [List.orderedInsert, hab]
    · exact ⟨[], List.orderedInsert (fun a b => less b a = false) a B,
        by simp [List.orderedInsert, hax], rfl⟩
  | cons b A ih =>
    intro hs
    simp only [List.cons_append] at hs ⊢
    by_cases hab : less b a = false
    · exact ⟨a :: b :: A, B, by simp [List.orderedInsert, hab], by simp [List.orderedInsert, hab]⟩
    · obtain ⟨A', B', h1, h2⟩ := ih (List.pairwise_cons.1 hs).2
      exact ⟨b :: A', B', by simp [List.orderedInsert, hab, h1],
        by simp [List.orderedInsert, hab, h2]⟩

/-- Sorting a list with one more element: the sorted list of the others, with the new
element put in somewhere. -/
theorem sortSlice_insert (less : α → α → Bool) (key : α → κ)
    (hless : ∀ a b, less a b = true ↔ key a < key b) (x : α) (l₂ : List α) :
    ∀ l₁ : List α, ∃ A B, sortSlice less (l₁ ++ x :: l₂) = A ++ x :: B ∧
      sortSlice less (l₁ ++ l₂) = A ++ B := by
  intro l₁
  induction l₁ with
  | nil =>
    refine ⟨(sortSlice less l₂).takeWhile (fun b => decide ¬ less b x = false),
      (sortSlice less l₂).dropWhile (fun b => decide ¬ less b x = false), ?_, ?_⟩
    · simp only [List.nil_append, sortSlice, List.insertionSort]
      rw [List.orderedInsert_eq_take_drop]
    · simp only [List.nil_append]
      exact (List.takeWhile_append_dropWhile _ _).symm
  | cons a l₁ ih =>
    obtain ⟨A, B, h1, h2⟩ := ih
    have hs := sortSlice_sorted less key hless (l₁ ++ x :: l₂)
    rw [h1] at hs
    obtain ⟨A', B', h3, h4⟩ := orderedInsert_split less key hless a x B A hs
    refine ⟨A', B', ?_, ?_⟩
    · have : sortSlice less (a :: l₁ ++ x :: l₂) =
          List.orderedInsert (fun a b => less b a = false) a (sortSlice less (l₁ ++ x :: l₂)) := rfl
      rw [this, h1, h3]
    · have : sortSlice less (a :: l₁ ++ l₂) =
          List.orderedInsert (fun a b => less b a = false) a (sortSlice less (l₁ ++ l₂)) := rfl
      rw [this, h2, h4]

end InsertLemmas

/-! ## Closed forms of the replay maps -/

theorem rpcDest_eq_some (unmarshal : String → String → Option String) (e : Event) (d : String) :
    rpcDest unmarshal e = some d ↔
      (e.type = EventType.RPC_CALL ∨ e.type = EventType.RPC_ERROR) ∧
        unmarshal "dest_service" e.payload = some d ∧ d ≠ "" := by
  unfold rpcDest
  by_cases hty : e.type = EventType.RPC_CALL ∨ e.type = EventType.RPC_ERROR
  · rw [if_pos hty]
    cases hd : unmarshal "dest_service" e.payload with
    | none => simp
    | some d' =>
      by_cases hne : d' = ""
      · simp only [hne, if_true]
        constructor
        · intro h; cases h
        · rintro ⟨_, h1, h2⟩
          simp only [Option.some.injEq] at h1
          exact absurd h1.symm h2
      · simp only [hne, if_false, Option.some.injEq]
        constructor
        · intro h; subst h; exact ⟨hty, rfl, hne⟩
        · rintro ⟨_, h1, _⟩; exact h1
  · rw [if_neg hty]
    constructor
    · intro h; cases h
    · rintro ⟨h, _⟩; exact absurd h hty

theorem rpcDest_eq_none (unmarshal : String → String → Option String) (e : Event)
    (h : rpcDest unmarshal e = none) :
    (e.type = EventType.RPC_CALL ∨ e.type = EventType.RPC_ERROR) →
      ∀ d, unmarshal "dest_service" e.payload = some d → d = "" := by
  intro hty d hd
  by_contra hne
  have := (rpcDest_eq_some unmarshal e d).2 ⟨hty, hd, hne⟩
  rw [h] at this
  cases this

theorem hasKey_iff (unmarshal : String → String → Option String) (k : String) (e : Event) :
    hasKey unmarshal k e = true ↔ ∃ d, rpcDest unmarshal e = some d ∧ edgeKey e.service d = k := by
  unfold hasKey
  cases rpcDest unmarshal e with
  | none => simp
  | some d => simp

/-- The loop body on an interaction. -/
theorem replayStep_of_dest (unmarshal : String → String → Option String) (st : ReplayState)
    (e : Event) (d : String) (hd : rpcDest unmarshal e = some d) :
    replayStep unmarshal st e =
      some
        { nodes := ensureNode (ensureNode st.nodes e.service) d
          edges :=
            match mapGet st.edges (edgeKey e.service d) with
            | some _ => st.edges
            | none => st.edges ++ [(edgeKey e.service d, newEdge e.service d)]
          edgeInteractions :=
            mapSet st.edgeInteractions (edgeKey e.service d)
              ((mapGet st.edgeInteractions (edgeKey e.service d)).getD [] ++ [e]) } := by
  obtain ⟨hty, hu, hne⟩ := (rpcDest_eq_some unmarshal e d).1 hd
  exact replayStep_rpc unmarshal st e d hty hu hne

/-- The loop body on any other event touches the node map only. -/
theorem replayStep_of_no_dest (unmarshal : String → String → Option String)
    (st st' : ReplayState) (e : Event) (hd : rpcDest unmarshal e = none)
    (hstep : replayStep unmarshal st e = some st') :
    st'.edges = st.edges ∧ st'.edgeInteractions = st.edgeInteractions := by
  rcases replayStep_cases unmarshal e with ⟨d, hty, hu, hne⟩ | ⟨s, hty, hs⟩ | ⟨h1, h2⟩
  · have := (rpcDest_eq_some unmarshal e d).2 ⟨hty, hu, hne⟩
    rw [hd] at this
    cases this
  · cases hg : mapGet (ensureNode st.nodes e.service) e.service with
    | none =>
      rw [replayStep_health_none unmarshal st e s hty hs hg] at hstep
      cases hstep
    | some node =>
      rw [replayStep_health unmarshal st e s node hty hs hg] at hstep
      cases hstep
      exact ⟨rfl, rfl⟩
  · rw [replayStep_other unmarshal st e h1 h2] at hstep
    cases hstep
    exact ⟨rfl, rfl⟩

/-- Closed form of the interaction map after a replay: every key has gained the
interactions stored under it, in the order replayed. -/
theorem replayAll_interOf (unmarshal : String → String → Option String) (k : String)
    (l : List Event) :
    ∀ st st', replayAll unmarshal st l = some st' →
      interOf st'.edgeInteractions k =
        interOf st.edgeInteractions k ++ l.filter (hasKey unmarshal k) := by
  induction l with
  | nil =>
    intro st st' h
    simp only [replayAll, Option.some.injEq] at h
    subst h
    simp
  | cons e l ih =>
    intro st st' h
    simp only [replayAll] at h
    cases hstep : replayStep unmarshal st e with
    | none => rw [hstep] at h; cases h
    | some st₁ =>
      rw [hstep] at h
      simp only at h
      rw [ih st₁ st' h]
      cases hd : rpcDest unmarshal e with
      | none =>
        have hk : hasKey unmarshal k e = false := by
          unfold hasKey; rw [hd]
        rw [(replayStep_of_no_dest unmarshal st st₁ e hd hstep).2, List.filter_cons_of_neg
          (by rw [hk]; exact Bool.false_ne_true)]
      | some d =>
        rw [replayStep_of_dest unmarshal st e d hd] at hstep
        simp only [Option.some.injEq] at hstep
        subst hstep
        simp only
        by_cases hk : edgeKey e.service d = k
        · have hk' : hasKey unmarshal k e = true := (hasKey_iff _ _ _).2 ⟨d, hd, hk⟩
          rw [List.filter_cons_of_pos hk']
          subst hk
          unfold interOf
          rw [mapGet_mapSet_self]
          simp
        · have hk' : ¬ hasKey unmarshal k e = true := by
            rw [hasKey_iff]
            rintro ⟨d', hd', hkey⟩
            rw [hd] at hd'
            simp only [Option.some.injEq] at hd'
            subst hd'
            exact hk hkey
          rw [List.filter_cons_of_neg hk']
          unfold interOf
          rw [mapGet_mapSet_of_ne _ _ _ _ (fun h => hk h.symm)]

/-- Closed form of the edge map after a replay: an edge already present stays, and a key
without an edge gets the edge of the first interaction stored under it. -/
theorem replayAll_edgeOf (unmarshal : String → String → Option String) (k : String)
    (l : List Event) :
    ∀ st st', replayAll unmarshal st l = some st' →
      mapGet st'.edges k =
        match mapGet st.edges k with
        | some edge => some edge
        | none => firstEdge unmarshal l k := by
  induction l with
  | nil =>
    intro st st' h
    simp only [replayAll, Option.some.injEq] at h
    subst h
    cases mapGet st.edges k <;> rfl
  | cons e l ih =>
    intro st st' h
    simp only [replayAll] at h
    cases hstep : replayStep unmarshal st e with
    | none => rw [hstep] at h; cases h
    | some st₁ =>
      rw [hstep] at h
      simp only at h
      rw [ih st₁ st' h]
      cases hd : rpcDest unmarshal e with
      | none =>
        have hk : hasKey unmarshal k e = false := by
          unfold hasKey; rw [hd]
        rw [(replayStep_of_no_dest unmarshal st st₁ e hd hstep).1]
        have : firstEdge unmarshal (e :: l) k = firstEdge unmarshal l k := by
          unfold firstEdge
          rw [List.find?_cons_of_neg _ (by rw [hk]; exact Bool.false_ne_true)]
        rw [this]
      | some d =>
        rw [replayStep_of_dest unmarshal st e d hd] at hstep
        simp only [Option.some.injEq] at hstep
        subst hstep
        simp only
        by_cases hk : edgeKey e.service d = k
        · have hk' : hasKey unmarshal k e = true := (hasKey_iff _ _ _).2 ⟨d, hd, hk⟩
          have hf : firstEdge unmarshal (e :: l) k = some (newEdge e.service d) := by
            unfold firstEdge
            rw [List.find?_cons_of_pos _ hk']
            simp only [Option.map_some', hd, Option.getD_some]
          subst hk
          cases hg : mapGet st.edges (edgeKey e.service d) with
          | some edge => simp only [hg]
          | none =>
            simp only [hf]
            rw [mapGet_append_of_none _ _ _ hg]
            simp [mapGet]
        · have hk' : ¬ hasKey unmarshal k e = true := by
            rw [hasKey_iff]
            rintro ⟨d', hd', hkey⟩
            rw [hd] at hd'
            simp only [Option.some.injEq] at hd'
            subst hd'
            exact hk hkey
          have hf : firstEdge unmarshal (e :: l) k = firstEdge unmarshal l k := by
            unfold firstEdge
            rw [List.find?_cons_of_neg _ hk']
          rw [hf]
          cases hg : mapGet st.edges (edgeKey e.service d) with
          | some edge => rfl
          | none =>
            simp only
            cases hgk : mapGet st.edges k with
            | some edge => rw [mapGet_append_of_some _ _ _ _ hgk]
            | none =>
              rw [mapGet_append_of_none _ _ _ hgk]
              simp [mapGet, hk]

/-! ## Faulty events, node persistence and amplification during the replay -/

theorem faulty_iff (unmarshal : String → String → Option String) (e : Event) :
    faulty unmarshal e = true ↔
      e.type = EventType.HEALTH_CHANGE ∧ (∃ s, unmarshal "new_status" e.payload = some s) ∧
        e.service = "" := by
  unfold faulty
  simp only [Bool.and_eq_true, decide_eq_true_eq, Option.isSome_iff_exists, and_assoc]

/-- The loop body fails exactly on a faulty event. -/
theorem replayStep_isSome_iff (unmarshal : String → String → Option String) (st : ReplayState)
    (e : Event) (hn : NodesInv st.nodes) :
    (∃ st', replayStep unmarshal st e = some st') ↔ faulty unmarshal e = false := by
  rw [← Bool.not_eq_true, faulty_iff]
  rcases replayStep_cases unmarshal e with ⟨d, hty, hu, hne⟩ | ⟨s, hty, hs⟩ | ⟨h1, h2⟩
  · rw [replayStep_rpc unmarshal st e d hty hu hne]
    refine ⟨fun _ => ?_, fun _ => ⟨_, rfl⟩⟩
    rintro ⟨h, _⟩
    rcases hty with hty | hty <;> rw [hty] at h <;> cases h
  · by_cases hsvc : e.service = ""
    · have hg : mapGet (ensureNode st.nodes e.service) e.service = none := by
        rw [hsvc]
        have : ensureNode st.nodes "" = st.nodes := by simp [ensureNode]
        rw [this, mapGet_eq_none_iff]
        intro hmem
        obtain ⟨p, hp, hk⟩ := List.mem_map.1 hmem
        exact (hn.2 p hp).2 hk
      rw [replayStep_health_none unmarshal st e s hty hs hg]
      refine ⟨?_, fun h => absurd ⟨hty, ⟨s, hs⟩, hsvc⟩ h⟩
      rintro ⟨_, h⟩
      cases h
    · have hsome := ensureNode_mapGet_self st.nodes e.service hsvc
      cases hg : mapGet (ensureNode st.nodes e.service) e.service with
      | none => rw [hg] at hsome; cases hsome
      | some node =>
        rw [replayStep_health unmarshal st e s node hty hs hg]
        exact ⟨fun _ h => hsvc h.2.2, fun _ => ⟨_, rfl⟩⟩
  · rw [replayStep_other unmarshal st e h1 h2]
    refine ⟨fun _ => ?_, fun _ => ⟨_, rfl⟩⟩
    rintro ⟨hty, ⟨s, hs⟩, _⟩
    rw [h2 hty] at hs
    cases hs

/-- The replay returns exactly when none of its events is faulty. -/
theorem replayAll_isSome_iff (unmarshal : String → String → Option String) (l : List Event) :
    ∀ st, ReplayInv st →
      ((∃ st', replayAll unmarshal st l = some st') ↔ ∀ e ∈ l, faulty unmarshal e = false) := by
  induction l with
  | nil =>
    intro st _
    simp [replayAll]
  | cons e l ih =>
    intro st hinv
    simp only [replayAll, List.mem_cons, forall_eq_or_imp]
    cases hstep : replayStep unmarshal st e with
    | none =>
      have := (replayStep_isSome_iff unmarshal st e hinv.nodesInv).not.1
        (by rw [hstep]; rintro ⟨_, h⟩; cases h)
      simp only
      constructor
      · rintro ⟨_, h⟩; cases h
      · rintro ⟨h, _⟩; exact absurd h this
    | some st₁ =>
      have h1 := (replayStep_isSome_iff unmarshal st e hinv.nodesInv).1 ⟨st₁, hstep⟩
      simp only
      rw [ih st₁ (replayStep_inv unmarshal st st₁ e hinv hstep)]
      exact ⟨fun h => ⟨h1, h⟩, fun h => h.2⟩

/-- The loop body removes no node and leaves the emitter with a node when its name is not
empty. -/
theorem replayStep_nodes (unmarshal : String → String → Option String) (st st' : ReplayState)
    (e : Event) (hstep : replayStep unmarshal st e = some st') :
    (∀ s, (mapGet st.nodes s).isSome = true → (mapGet st'.nodes s).isSome = true) ∧
      (e.service ≠ "" → (mapGet st'.nodes e.service).isSome = true) := by
  rcases replayStep_cases unmarshal e with ⟨d, hty, hu, hne⟩ | ⟨s, hty, hs⟩ | ⟨h1, h2⟩
  · rw [replayStep_rpc unmarshal st e d hty hu hne] at hstep
    cases hstep
    exact ⟨fun s h => ensureNode_isSome _ _ _ (ensureNode_isSome _ _ _ h),
      fun h => ensureNode_isSome _ _ _ (ensureNode_mapGet_self _ _ h)⟩
  · cases hg : mapGet (ensureNode st.nodes e.service) e.service with
    | none =>
      rw [replayStep_health_none unmarshal st e s hty hs hg] at hstep
      cases hstep
    | some node =>
      rw [replayStep_health unmarshal st e s node hty hs hg] at hstep
      cases hstep
      refine ⟨fun s h => mapGet_mapSet_isSome _ _ _ _ (ensureNode_isSome _ _ _ h), fun _ => ?_⟩
      simp only
      rw [mapGet_mapSet_self]
      rfl
  · rw [replayStep_other unmarshal st e h1 h2] at hstep
    cases hstep
    exact ⟨fun s h => ensureNode_isSome _ _ _ h, fun h => ensureNode_mapGet_self _ _ h⟩

theorem replayAll_nodes (unmarshal : String → String → Option String) (l : List Event) :
    ∀ st st', replayAll unmarshal st l = some st' →
      (∀ s, (mapGet st.nodes s).isSome = true → (mapGet st'.nodes s).isSome = true) ∧
        (∀ e ∈ l, e.service ≠ "" → (mapGet st'.nodes e.service).isSome = true) := by
  induction l with
  | nil =>
    intro st st' h
    simp only [replayAll, Option.some.injEq] at h
    subst h
    exact ⟨fun _ h => h, fun e he => by cases he⟩
  | cons e l ih =>
    intro st st' h
    simp only [replayAll] at h
    cases hstep : replayStep unmarshal st e with
    | none => rw [hstep] at h; cases h
    | some st₁ =>
      rw [hstep] at h
      simp only at h
      obtain ⟨h1, h2⟩ := replayStep_nodes unmarshal st st₁ e hstep
      obtain ⟨h3, h4⟩ := ih st₁ st' h
      refine ⟨fun s hs => h3 s (h1 s hs), ?_⟩
      intro e' he' hne
      rcases List.mem_cons.1 he' with rfl | he'
      · exact h3 _ (h2 hne)
      · exact h4 e' he' hne

/-- The replay leaves every amplification score at zero. -/
theorem replayStep_amp (unmarshal : String → String → Option String) (st st' : ReplayState)
    (e : Event) (hz : ∀ p ∈ st.nodes, p.2.amplificationScore = 0)
    (hstep : replayStep unmarshal st e = some st') :
    ∀ p ∈ st'.nodes, p.2.amplificationScore = 0 := by
  have hens : ∀ (nodes : List (String × Node)) (s : String),
      (∀ p ∈ nodes, p.2.amplificationScore = 0) →
      ∀ p ∈ ensureNode nodes s, p.2.amplificationScore = 0 := by
    intro nodes s h p hp
    rcases ensureNode_cases nodes s with ⟨heq, _⟩ | ⟨_, _, heq⟩
    · rw [heq] at hp; exact h p hp
    · rw [heq] at hp
      rcases List.mem_append.1 hp with hp | hp
      · exact h p hp
      · simp only [List.mem_singleton] at hp
        subst hp
        rfl
  rcases replayStep_cases unmarshal e with ⟨d, hty, hu, hne⟩ | ⟨s, hty, hs⟩ | ⟨h1, h2⟩
  · rw [replayStep_rpc unmarshal st e d hty hu hne] at hstep
    cases hstep
    exact hens _ _ (hens _ _ hz)
  · cases hg : mapGet (ensureNode st.nodes e.service) e.service with
    | none =>
      rw [replayStep_health_none unmarshal st e s hty hs hg] at hstep
      cases hstep
    | some node =>
      rw [replayStep_health unmarshal st e s node hty hs hg] at hstep
      cases hstep
      intro p hp
      rcases mem_mapSet _ _ _ _ hp with hp | hp
      · subst hp
        exact hens _ _ hz (e.service, node) (mem_of_mapGet _ _ node hg)
      · exact hens _ _ hz p hp
  · rw [replayStep_other unmarshal st e h1 h2] at hstep
    cases hstep
    exact hens _ _ hz

theorem replayAll_amp (unmarshal : String → String → Option String) (l : List Event) :
    ∀ st st', (∀ p ∈ st.nodes, p.2.amplificationScore = 0) →
      replayAll unmarshal st l = some st' → ∀ p ∈ st'.nodes, p.2.amplificationScore = 0 := by
  induction l with
  | nil =>
    intro st st' hz h
    simp only [replayAll, Option.some.injEq] at h
    subst h
    exact hz
  | cons e l ih =>
    intro st st' hz h
    simp only [replayAll] at h
    cases hstep : replayStep unmarshal st e with
    | none => rw [hstep] at h; cases h
    | some st₁ =>
      rw [hstep] at h
      exact ih st₁ st' (replayStep_amp unmarshal st st₁ e hz hstep) h

/-! ## Amplification along the scoring pass -/

theorem healthOf_view (nodes nodes' : List (String × Node))
    (h : nodes.map (fun p => (p.1, nodeView p.2)) = nodes'.map (fun p => (p.1, nodeView p.2)))
    (s : String) : healthOf nodes s = healthOf nodes' s := by
  have hv := mapGet_view nodeView nodes nodes' s h
  unfold healthOf
  cases h1 : mapGet nodes s with
  | none =>
    cases h2 : mapGet nodes' s with
    | none => rfl
    | some n' => rw [h1, h2] at hv; simp at hv
  | some n =>
    cases h2 : mapGet nodes' s with
    | none => rw [h1, h2] at hv; simp at hv
    | some n' =>
      rw [h1, h2] at hv
      simp only [Option.map_some', Option.some.injEq, nodeView, Prod.mk.injEq] at hv
      exact hv.2.2

theorem contribution_nonneg (rs : ReplayState) (service : String) (p : String × List Event) :
    0 ≤ contribution rs service p := by
  unfold contribution
  cases mapGet rs.edges p.1 with
  | none => exact le_refl 0
  | some edge =>
    simp only
    split_ifs
    · exact Nat.cast_nonneg _
    · exact le_refl 0

/-- The amplification update of one scoring step, seen from one service that has a node. -/
theorem amplify_ampOf (nodes : List (String × Node)) (h : Int) (edge : Edge)
    (inter : List Event) (s : String) (hs : (mapGet nodes s).isSome = true) :
    ampOf (amplify nodes h edge inter) s =
      ampOf nodes s +
        (if edge.source = s ∧ h > 0 then
          ((inter.countP (fun evt => evt.type = EventType.RPC_ERROR) : Nat) : ℚ)
        else 0) := by
  obtain ⟨n, hn⟩ := Option.isSome_iff_exists.1 hs
  unfold amplify
  by_cases hh : h > 0
  · rw [if_pos hh]
    by_cases hc : inter.countP (fun evt => evt.type = EventType.RPC_ERROR) > 0
    · rw [if_pos hc]
      by_cases hsrc : edge.source = s
      · rw [if_pos ⟨hsrc, hh⟩, hsrc, hn]
        simp only
        unfold ampOf
        rw [mapGet_mapSet_self, hn]
      · rw [if_neg (fun hc' => hsrc hc'.1), add_zero]
        cases hg : mapGet nodes edge.source with
        | none => rfl
        | some sn =>
          simp only
          unfold ampOf
          rw [mapGet_mapSet_of_ne _ _ _ _ (fun hc' => hsrc hc'.symm)]
    · rw [if_neg hc]
      have h0 : inter.countP (fun evt => evt.type = EventType.RPC_ERROR) = 0 := by omega
      rw [h0]
      simp
  · rw [if_neg hh, if_neg (fun hc' => hh hc'.2), add_zero]

/-- The amplification score the scoring pass leaves on a service that has a node: the score
it started with plus the contributions of the entries visited. -/
theorem scoringPass_amp (atTs : Int) (rs : ReplayState) (s : String)
    (hs : (mapGet rs.nodes s).isSome = true) :
    ∀ (todo : List (String × List Event)) (st ss : ScoreState),
      st.nodes.map (fun p => (p.1, nodeView p.2)) = rs.nodes.map (fun p => (p.1, nodeView p.2)) →
      st.edges.map (fun p => (p.1, edgeView p.2)) = rs.edges.map (fun p => (p.1, edgeView p.2)) →
      scoringPass atTs st todo = some ss →
      ampOf ss.nodes s = ampOf st.nodes s + (todo.map (contribution rs s)).sum := by
  intro todo
  induction todo with
  | nil =>
    intro st ss _ _ h
    simp only [scoringPass, Option.some.injEq] at h
    subst h
    simp
  | cons p rest ih =>
    intro st ss h1 h2 h
    obtain ⟨k, inter⟩ := p
    simp only [scoringPass] at h
    cases hstep : scoreStep atTs st (k, inter) with
    | none => rw [hstep] at h; cases h
    | some st₁ =>
      rw [hstep] at h
      simp only at h
      cases he : mapGet st.edges k with
      | none => simp [scoreStep, he] at hstep
      | some edge =>
        cases ht : mapGet st.nodes edge.target with
        | none => simp [scoreStep, he, ht] at hstep
        | some tn =>
          rw [scoreStep_eq atTs st k inter edge tn he ht] at hstep
          simp only [Option.some.injEq] at hstep
          subst hstep
          have hs' : (mapGet st.nodes s).isSome = true := by
            rw [mapGet_isSome_iff, keys_of_view nodeView _ _ h1, ← mapGet_isSome_iff]
            exact hs
          have hres := ih _ ss (by rw [amplify_view]; exact h1)
            ((mapSet_view edgeView st.edges k edge
              { edge with causalConfidence := (edgeEvidence atTs tn.healthStatus edge inter).score }
              he rfl).trans h2) h
          simp only at hres
          rw [hres, amplify_ampOf st.nodes tn.healthStatus edge inter s hs', List.map_cons,
            List.sum_cons, add_assoc]
          congr 2
          have hev := mapGet_view edgeView st.edges rs.edges k h2
          rw [he] at hev
          cases he₀ : mapGet rs.edges k with
          | none => rw [he₀] at hev; simp at hev
          | some edge₀ =>
            rw [he₀] at hev
            simp only [Option.map_some', Option.some.injEq, edgeView, Prod.mk.injEq] at hev
            have hh : healthOf rs.nodes edge₀.target = tn.healthStatus := by
              rw [← healthOf_view st.nodes rs.nodes h1, ← hev.2.1]
              unfold healthOf
              rw [ht]
            unfold contribution
            simp only [he₀, hh, ← hev.1]

/-! ## Comparing amplification sums -/

/-- Sums over two maps: when every entry of the first has an entry of the second under the
same key that counts at least as much, the first sum is at most the second. -/
theorem sum_le_of_keys {V : Type} (f f' : String × V → ℚ) (m : List (String × V)) :
    ∀ m' : List (String × V), (m.map Prod.fst).Nodup → (∀ p ∈ m', 0 ≤ f' p) →
      (∀ p ∈ m, ∃ p' ∈ m', p'.1 = p.1 ∧ f p ≤ f' p') →
      (m.map f).sum ≤ (m'.map f').sum := by
  induction m with
  | nil =>
    intro m' _ hnn _
    simp only [List.map_nil, List.sum_nil]
    apply List.sum_nonneg
    intro y hy
    obtain ⟨p, hp, rfl⟩ := List.mem_map.1 hy
    exact hnn p hp
  | cons p m ih =>
    intro m' hnd hnn hall
    obtain ⟨p', hp', hk, hle⟩ := hall p (List.mem_cons_self _ _)
    obtain ⟨s, t, hst⟩ := List.append_of_mem hp'
    have hsum : (m'.map f').sum = f' p' + ((s ++ t).map f').sum := by
      rw [hst]
      simp only [List.map_append, List.map_cons, List.sum_append, List.sum_cons]
      ring
    have hnd' : p.1 ∉ m.map Prod.fst ∧ (m.map Prod.fst).Nodup := by
      rw [List.map_cons] at hnd
      exact List.nodup_cons.1 hnd
    have hsub : ∀ q ∈ s ++ t, q ∈ m' := by
      intro q hq
      rw [hst]
      rcases List.mem_append.1 hq with hq | hq
      · exact List.mem_append_left _ hq
      · exact List.mem_append_right _ (List.mem_cons_of_mem _ hq)
    rw [hsum, List.map_cons, List.sum_cons]
    refine add_le_add hle (ih (s ++ t) hnd'.2 (fun q hq => hnn q (hsub q hq)) ?_)
    intro q hq
    obtain ⟨q', hq', hqk, hqle⟩ := hall q (List.mem_cons_of_mem _ hq)
    have hne : q' ≠ p' := by
      intro hc
      apply hnd'.1
      rw [← hk, ← hc, hqk]
      exact List.mem_map_of_mem Prod.fst hq
    refine ⟨q', ?_, hqk, hqle⟩
    rw [hst] at hq'
    rcases List.mem_append.1 hq' with hq' | hq'
    · exact List.mem_append_left _ hq'
    · rcases List.mem_cons.1 hq' with hq' | hq'
      · exact absurd hq' hne
      · exact List.mem_append_right _ hq'

theorem edgeKey_left_cancel (s t₁ t₂ : String) (h : edgeKey s t₁ = edgeKey s t₂) : t₁ = t₂ := by
  have hd := congrArg String.data h
  simp only [edgeKey, String.data_append, List.append_assoc] at hd
  exact String.ext (List.append_cancel_left (List.append_cancel_left hd))

theorem healthAfterEvent_of_not_health (unmarshal : String → String → Option String)
    (s : String) (h : Int) (x : Event) (hx : x.type ≠ EventType.HEALTH_CHANGE) :
    healthAfterEvent unmarshal s h x = h := by
  unfold healthAfterEvent
  rw [if_neg (fun hc => hx hc.1)]

/-- The amplification sum of a service does not shrink when one more event it emitted,
not a health change, is replayed. -/
theorem amp_sum_mono (unmarshal : String → String → Option String) (A B : List Event)
    (x : Event) (hx : x.type ≠ EventType.HEALTH_CHANGE) (rs rs' : ReplayState)
    (h : replayAll unmarshal { nodes := [], edges := [], edgeInteractions := [] } (A ++ B) =
      some rs)
    (h' : replayAll unmarshal { nodes := [], edges := [], edgeInteractions := [] }
      (A ++ x :: B) = some rs') :
    (rs.edgeInteractions.map (contribution rs x.service)).sum ≤
      (rs'.edgeInteractions.map (contribution rs' x.service)).sum := by
  have hrs := replayAll_inv unmarshal _ _ _ replayInv_init h
  have hrs' := replayAll_inv unmarshal _ _ _ replayInv_init h'
  have hhealth : ∀ t, healthOf rs'.nodes t = healthOf rs.nodes t := by
    intro t
    rw [replayAll_healthOf unmarshal t _ _ _ h', replayAll_healthOf unmarshal t _ _ _ h,
      List.foldl_append, List.foldl_append, List.foldl_cons,
      healthAfterEvent_of_not_health unmarshal t _ x hx]
  have hinter : ∀ k, interOf rs.edgeInteractions k = (A ++ B).filter (hasKey unmarshal k) := by
    intro k
    rw [replayAll_interOf unmarshal k _ _ _ h]
    rfl
  have hinter' : ∀ k, interOf rs'.edgeInteractions k =
      (A ++ x :: B).filter (hasKey unmarshal k) := by
    intro k
    rw [replayAll_interOf unmarshal k _ _ _ h']
    rfl
  have hedge : ∀ k, mapGet rs.edges k = firstEdge unmarshal (A ++ B) k := by
    intro k
    rw [replayAll_edgeOf unmarshal k _ _ _ h]
    rfl
  have hedge' : ∀ k, mapGet rs'.edges k = firstEdge unmarshal (A ++ x :: B) k := by
    intro k
    rw [replayAll_edgeOf unmarshal k _ _ _ h']
    rfl
  have hsub : (A ++ B).Sublist (A ++ x :: B) :=
    List.Sublist.append_left (List.sublist_cons_self x B) A
  apply sum_le_of_keys
  · rw [hrs.interKeys]; exact hrs.edgesNodup
  · intro p _; exact contribution_nonneg _ _ _
  · rintro ⟨k, inter⟩ hp
    have hknd : (rs.edgeInteractions.map Prod.fst).Nodup := by
      rw [hrs.interKeys]; exact hrs.edgesNodup
    have hget : mapGet rs.edgeInteractions k = some inter := mapGet_of_mem _ _ _ hknd hp
    have hin : inter = (A ++ B).filter (hasKey unmarshal k) := by
      rw [← hinter k]; unfold interOf; rw [hget]; rfl
    have hkE : k ∈ rs.edges.map Prod.fst := by
      rw [← hrs.interKeys]; exact List.mem_map_of_mem Prod.fst hp
    obtain ⟨edge, hedgek⟩ := Option.isSome_iff_exists.1 ((mapGet_isSome_iff rs.edges k).2 hkE)
    have hfirst : firstEdge unmarshal (A ++ B) k = some edge := by rw [← hedge k]; exact hedgek
    -- the first interaction under the key, before and after
    obtain ⟨e₀, hfind, hedge₀⟩ : ∃ e₀, (A ++ B).find? (hasKey unmarshal k) = some e₀ ∧
        edge = newEdge e₀.service ((rpcDest unmarshal e₀).getD "") := by
      unfold firstEdge at hfirst
      cases hf : (A ++ B).find? (hasKey unmarshal k) with
      | none => rw [hf] at hfirst; cases hfirst
      | some e₀ =>
        rw [hf] at hfirst
        simp only [Option.map_some', Option.some.injEq] at hfirst
        exact ⟨e₀, rfl, hfirst.symm⟩
    have hsome' : ((A ++ x :: B).find? (hasKey unmarshal k)).isSome = true := by
      rw [List.find?_isSome]
      exact ⟨e₀, hsub.subset (List.mem_of_find?_eq_some hfind), List.find?_some hfind⟩
    obtain ⟨e₁, hfind'⟩ := Option.isSome_iff_exists.1 hsome'
    have hedgek' : mapGet rs'.edges k =
        some (newEdge e₁.service ((rpcDest unmarshal e₁).getD "")) := by
      rw [hedge' k]; unfold firstEdge; rw [hfind']; rfl
    have hkI' : k ∈ rs'.edgeInteractions.map Prod.fst := by
      rw [hrs'.interKeys, ← mapGet_isSome_iff, hedgek']; rfl
    obtain ⟨⟨k', inter'⟩, hp', hk'⟩ := List.mem_map.1 hkI'
    simp only at hk'
    subst hk'
    have hknd' : (rs'.edgeInteractions.map Prod.fst).Nodup := by
      rw [hrs'.interKeys]; exact hrs'.edgesNodup
    have hget' : mapGet rs'.edgeInteractions k' = some inter' := mapGet_of_mem _ _ _ hknd' hp'
    have hin' : inter' = (A ++ x :: B).filter (hasKey unmarshal k') := by
      rw [← hinter' k']; unfold interOf; rw [hget']; rfl
    refine ⟨(k', inter'), hp', rfl, ?_⟩
    unfold contribution
    simp only [hedgek, hedgek']
    by_cases hcond : edge.source = x.service ∧ healthOf rs.nodes edge.target > 0
    · rw [if_pos hcond]
      have hsame : newEdge e₁.service ((rpcDest unmarshal e₁).getD "") = edge := by
        rw [List.find?_append] at hfind hfind'
        cases hA : A.find? (hasKey unmarshal k') with
        | some a =>
          rw [hA] at hfind hfind'
          simp only [Option.or_some, Option.some.injEq] at hfind hfind'
          rw [hedge₀, ← hfind, ← hfind']
        | none =>
          rw [hA] at hfind hfind'
          simp only [Option.none_or] at hfind hfind'
          by_cases hxk : hasKey unmarshal k' x = true
          · rw [List.find?_cons_of_pos _ hxk] at hfind'
            simp only [Option.some.injEq] at hfind'
            subst hfind'
            obtain ⟨dx, hdx, hkx⟩ := (hasKey_iff unmarshal k' x).1 hxk
            obtain ⟨d₀, hd₀, hk₀⟩ := (hasKey_iff unmarshal k' e₀).1 (List.find?_some hfind)
            have hsrc : e₀.service = x.service := by
              have := hcond.1
              rw [hedge₀] at this
              exact this
            rw [hedge₀, hdx, hd₀, hsrc]
            simp only [Option.getD_some]
            rw [hsrc] at hk₀
            rw [edgeKey_left_cancel x.service dx d₀ (hkx.trans hk₀.symm)]
          · rw [List.find?_cons_of_neg _ hxk, hfind] at hfind'
            simp only [Option.some.injEq] at hfind'
            rw [hedge₀, hfind']
      rw [hsame, hhealth, if_pos hcond, hin, hin']
      exact Nat.cast_le.2 (List.Sublist.countP_le _ (hsub.filter _))
    · rw [if_neg hcond]
      split_ifs
      · exact Nat.cast_nonneg _
      · exact le_refl 0

/-! ## Amplification monotonicity -/

theorem find_unique {α : Type} (p : α → Bool) (a : α) :
    ∀ l : List α, a ∈ l → p a = true → (∀ b ∈ l, p b = true → b = a) → l.find? p = some a := by
  intro l
  induction l with
  | nil => intro h; cases h
  | cons b l ih =>
    intro ha hp hu
    by_cases hb : p b = true
    · rw [List.find?_cons_of_pos _ hb, hu b (List.mem_cons_self _ _) hb]
    · rw [List.find?_cons_of_neg _ hb]
      rcases List.mem_cons.1 ha with rfl | ha
      · exact absurd hp hb
      · exact ih ha hp (fun c hc => hu c (List.mem_cons_of_mem _ hc))

/-- The amplification score a snapshot shows for a service is the one the scoring pass left
in the node map. -/
theorem snapshot_amp (rs : ReplayState) (ss : ScoreState) (hrs : ReplayInv rs)
    (hvn : ss.nodes.map (fun p => (p.1, nodeView p.2)) =
      rs.nodes.map (fun p => (p.1, nodeView p.2)))
    (atTs : Int) (edges : List Edge) (s : String) :
    amplificationIn
        { timestamp := atTs, nodes := sortSlice nodeLess (ss.nodes.map Prod.snd), edges := edges }
        s = ampOf ss.nodes s := by
  have hids := scored_node_ids rs ss hrs hvn
  have hkeys : ss.nodes.map Prod.fst = rs.nodes.map Prod.fst := keys_of_view nodeView _ _ hvn
  have hnd : ((sortSlice nodeLess (ss.nodes.map Prod.snd)).map (fun n => n.id)).Nodup := by
    have hp := (sortSlice_perm nodeLess (ss.nodes.map Prod.snd)).map (fun n => n.id)
    rw [hp.nodup_iff, hids]
    exact hrs.nodesInv.1
  unfold amplificationIn ampOf
  simp only
  cases hg : mapGet ss.nodes s with
  | some n =>
    have hm := mem_of_mapGet _ _ _ hg
    obtain ⟨v', hv', hview⟩ := view_mem nodeView ss.nodes rs.nodes hvn s n hm
    have hid : n.id = s := by
      have h1 := (hrs.nodesInv.2 _ hv').1
      simp only [nodeView, Prod.mk.injEq] at hview
      simp only at h1
      rw [← hview.1, h1]
    have hmem : n ∈ sortSlice nodeLess (ss.nodes.map Prod.snd) :=
      (mem_sortSlice _ _ _).2 (List.mem_map_of_mem Prod.snd hm)
    rw [find_unique (fun n => decide (n.id = s)) n _ hmem (by simp [hid])]
    intro b hb hpb
    simp only [decide_eq_true_eq] at hpb
    exact List.inj_on_of_nodup_map hnd hb hmem (hpb.trans hid.symm)
  | none =>
    have hnone : (sortSlice nodeLess (ss.nodes.map Prod.snd)).find?
        (fun n => decide (n.id = s)) = none := by
      rw [List.find?_eq_none]
      intro n hn hc
      simp only [decide_eq_true_eq] at hc
      have h1 : n.id ∈ (ss.nodes.map Prod.snd).map (fun n => n.id) :=
        List.mem_map_of_mem (fun n => n.id) ((mem_sortSlice _ _ _).1 hn)
      rw [hids, ← hkeys, hc] at h1
      exact (mapGet_eq_none_iff _ _).1 hg h1
    rw [hnone]

theorem replayEvents_eq (unmarshal : String → String → Option String) (atTs : Int)
    (events : List Event) :
    replayEvents unmarshal atTs events =
      replayAll unmarshal { nodes := [], edges := [], edgeInteractions := [] }
        ((sortSlice eventLess events).filter (fun e => decide (e.ts ≤ atTs))) := by
  unfold replayEvents
  rw [replayLoop_eq_replayAll, (processed_spec atTs events).1]

/-- The amplification score of a service in a returned snapshot: the contributions of all
entries of the interaction map when the service has a node, and `0` otherwise. -/
theorem reconstruct_amp (unmarshal : String → String → Option String) (atTs : Int)
    (events : List Event) (snap : GraphSnapshot) (ev : List (String × EdgeEvidence))
    (h : ReconstructGraph unmarshal atTs events = some (snap, ev)) (s : String) :
    ∃ rs, replayEvents unmarshal atTs events = some rs ∧
      amplificationIn snap s =
        if (mapGet rs.nodes s).isSome = true then
          (rs.edgeInteractions.map (contribution rs s)).sum
        else 0 := by
  obtain ⟨rs, ss, hreplay, hrs, hpass, hsnap, _, hvn, _, _, _⟩ :=
    ReconstructGraph_some unmarshal atTs events snap ev h
  refine ⟨rs, hreplay, ?_⟩
  rw [hsnap, snapshot_amp rs ss hrs hvn]
  by_cases hs : (mapGet rs.nodes s).isSome = true
  · rw [if_pos hs, scoringPass_amp atTs rs s hs rs.edgeInteractions
      { nodes := rs.nodes, edges := rs.edges, evidenceMap := [] } ss rfl rfl hpass]
    obtain ⟨n, hn⟩ := Option.isSome_iff_exists.1 hs
    have hz : ampOf rs.nodes s = 0 := by
      unfold ampOf
      rw [hn]
      rw [replayEvents_eq] at hreplay
      exact replayAll_amp unmarshal _ _ rs (fun p hp => by cases hp) hreplay (s, n)
        (mem_of_mapGet _ _ _ hn)
    show ampOf rs.nodes s + _ = _
    rw [hz, zero_add]
  · rw [if_neg hs]
    have : mapGet ss.nodes s = none := by
      rw [mapGet_eq_none_iff, keys_of_view nodeView _ _ hvn, ← mapGet_eq_none_iff]
      cases hg : mapGet rs.nodes s with
      | none => rfl
      | some n => rw [hg] at hs; exact absurd rfl hs
    unfold ampOf
    rw [this]

/-- Adding an `RPC_ERROR` stamped at or before `atTs` to the input: the reconstruction
still returns, and the amplification score of the emitter has not gone down. -/
theorem amp_monotone (unmarshal : String → String → Option String) (atTs : Int)
    (l₁ l₂ : List Event) (x : Event) (snap : GraphSnapshot)
    (ev : List (String × EdgeEvidence))
    (hx : x.type = EventType.RPC_ERROR) (hts : x.ts ≤ atTs)
    (h : ReconstructGraph unmarshal atTs (l₁ ++ l₂) = some (snap, ev)) :
    ∃ snap' ev', ReconstructGraph unmarshal atTs (l₁ ++ x :: l₂) = some (snap', ev') ∧
      amplificationIn snap x.service ≤ amplificationIn snap' x.service := by
  have hxh : x.type ≠ EventType.HEALTH_CHANGE := by rw [hx]; intro hc; cases hc
  obtain ⟨A, B, hs', hs⟩ :=
    sortSlice_insert eventLess (fun e => toLex (e.ts, e.id)) eventLess_iff x l₂ l₁
  obtain ⟨rs, hre, hamp⟩ := reconstruct_amp unmarshal atTs _ snap ev h x.service
  have hall := hre
  rw [replayEvents_eq, hs, List.filter_append] at hall
  have hproc : (sortSlice eventLess (l₁ ++ x :: l₂)).filter (fun e => decide (e.ts ≤ atTs)) =
      A.filter (fun e => decide (e.ts ≤ atTs)) ++
        x :: B.filter (fun e => decide (e.ts ≤ atTs)) := by
    rw [hs', List.filter_append, List.filter_cons_of_pos (by simpa using hts)]
  have hgood := (replayAll_isSome_iff unmarshal _ _ replayInv_init).1 ⟨rs, hall⟩
  have hxgood : faulty unmarshal x = false := by
    rw [← Bool.not_eq_true, faulty_iff]
    exact fun hc => hxh hc.1
  obtain ⟨rs', hall'⟩ := (replayAll_isSome_iff unmarshal
    (A.filter (fun e => decide (e.ts ≤ atTs)) ++ x :: B.filter (fun e => decide (e.ts ≤ atTs)))
    _ replayInv_init).2 (by
      intro e he
      rcases List.mem_append.1 he with he | he
      · exact hgood e (List.mem_append_left _ he)
      · rcases List.mem_cons.1 he with rfl | he
        · exact hxgood
        · exact hgood e (List.mem_append_right _ he))
  have hre' : replayEvents unmarshal atTs (l₁ ++ x :: l₂) = some rs' := by
    rw [replayEvents_eq, hproc]; exact hall'
  obtain ⟨snap', ev', h'⟩ := ReconstructGraph_of_replay unmarshal atTs _ rs' hre'
  refine ⟨snap', ev', h', ?_⟩
  obtain ⟨rs'', hre'', hamp'⟩ := reconstruct_amp unmarshal atTs _ snap' ev' h' x.service
  rw [hre'] at hre''
  simp only [Option.some.injEq] at hre''
  subst hre''
  rw [hamp, hamp']
  have hnn : ∀ r : ReplayState, 0 ≤ (r.edgeInteractions.map (contribution r x.service)).sum := by
    intro r
    apply List.sum_nonneg
    intro y hy
    obtain ⟨p, _, rfl⟩ := List.mem_map.1 hy
    exact contribution_nonneg _ _ _
  by_cases hS : (mapGet rs.nodes x.service).isSome = true
  · have hne : x.service ≠ "" := by
      obtain ⟨p, hp, hk⟩ := List.mem_map.1 ((mapGet_isSome_iff _ _).1 hS)
      rw [← hk]
      exact ((replayAll_inv unmarshal _ _ _ replayInv_init hall).nodesInv.2 p hp).2
    have hS' : (mapGet rs'.nodes x.service).isSome = true :=
      (replayAll_nodes unmarshal _ _ _ hall').2 x
        (List.mem_append_right _ (List.mem_cons_self _ _)) hne
    rw [if_pos hS, if_pos hS']
    exact amp_sum_mono unmarshal _ _ x hxh rs rs' hall hall'
  · rw [if_neg hS]
    split_ifs
    · exact hnn rs'
    · exact le_refl 0

/-! ## Contributing events -/

theorem foldl_min_of_le (ds : List Int) : ∀ a : Int, (∀ d ∈ ds, a ≤ d) → ds.foldl min a = a := by
  induction ds with
  | nil => intro a _; rfl
  | cons d rest ih =>
    intro a h
    rw [List.foldl_cons, min_eq_left (h d (List.mem_cons_self _ _))]
    exact ih a (fun x hx => h x (List.mem_cons_of_mem _ hx))

theorem foldl_min_eq (ds : List Int) (d₀ : Int) :
    ∀ W : Int, d₀ ∈ ds → d₀ ≤ W → (∀ d ∈ ds, d₀ ≤ d) → ds.foldl min W = d₀ := by
  induction ds with
  | nil => intro W h; cases h
  | cons d rest ih =>
    intro W hmem hW hall
    rw [List.foldl_cons]
    have hd : d₀ ≤ d := hall d (List.mem_cons_self _ _)
    by_cases heq : d₀ = d
    · subst heq
      rw [min_eq_right hW]
      exact foldl_min_of_le rest d₀ (fun x hx => hall x (List.mem_cons_of_mem _ hx))
    · rcases List.mem_cons.1 hmem with h | h
      · exact absurd h heq
      · exact ih (min W d) h (le_min hW hd) (fun x hx => hall x (List.mem_cons_of_mem _ hx))

/-- Without wrap-around, the guard of the scan is the window test of the spec. -/
theorem filter_inWindow_eq (cfg : Config) (failureTs : Int) (inter : List Event)
    (hno : ∀ e ∈ inter, e.ts ≤ failureTs → failureTs - e.ts < 2 ^ 63) :
    inter.filter (inWindow cfg failureTs) =
      inter.filter
        (fun e => decide (e.ts ≤ failureTs ∧ failureTs - e.ts ≤ cfg.windowSize)) := by
  apply List.filter_congr
  intro e he
  rw [Bool.eq_iff_iff, inWindow_iff_of_no_overflow cfg failureTs e (hno e he), decide_eq_true_eq]
  constructor
  · rintro ⟨h1, h2⟩; exact ⟨by omega, h2⟩
  · rintro ⟨h1, h2⟩; exact ⟨by omega, h2⟩

/-- C28, as amended (contributing events): when no interaction lies `2^63` or more
milliseconds before `failureTs`, the `contributing_event_ids` returned by `ScoreEdge` is the
list of ids of the interactions with `ts ≤ failureTs` and `failureTs - ts ≤ window_size`
(boundary included), in input order and with multiplicity. -/
theorem contributing_events (cfg : Config) (failureTs : Int) (interactions : List Event)
    (hno : ∀ e ∈ interactions, e.ts ≤ failureTs → failureTs - e.ts < 2 ^ 63) :
    (ScoreEdge cfg failureTs interactions).contributingEventIds =
      (interactions.filter
        (fun e => decide (e.ts ≤ failureTs ∧ failureTs - e.ts ≤ cfg.windowSize))).map
          (fun e => e.id) := by
  rw [ScoreEdge_ids, filter_inWindow_eq cfg failureTs interactions hno]

/-- C28 fails as stated: `earliestError` lies `2^63` milliseconds before the failure time
`0`, far outside the window of `30000`, yet its id is returned; the interaction stamped `0`
is the only one the claim lists. -/
theorem contributing_events_fails :
    ([atFailure, earliestError].filter
        (fun e => decide (e.ts ≤ 0 ∧ 0 - e.ts ≤ DefaultConfig.windowSize))).map
          (fun e => e.id) = ["2"] ∧
      (ScoreEdge DefaultConfig 0 [atFailure, earliestError]).contributingEventIds =
        ["2", "1"] := by
  decide!

/-- Instance of C28 on the boundary: at failure time `100000` the interaction stamped
`70000`, exactly one window before, is kept and the one stamped `69000` is not. -/
theorem contributing_events_witness :
    (∀ e ∈ [staleError, { staleError with id := "7", ts := 70000 }, goldenError],
        e.ts ≤ 100000 → 100000 - e.ts < 2 ^ 63) ∧
      (ScoreEdge DefaultConfig 100000
          [staleError, { staleError with id := "7", ts := 70000 }, goldenError]).contributingEventIds =
        ([staleError, { staleError with id := "7", ts := 70000 }, goldenError].filter
          (fun e => decide (e.ts ≤ 100000 ∧ 100000 - e.ts ≤ DefaultConfig.windowSize))).map
            (fun e => e.id) ∧
      ([staleError, { staleError with id := "7", ts := 70000 }, goldenError].filter
          (fun e => decide (e.ts ≤ 100000 ∧ 100000 - e.ts ≤ DefaultConfig.windowSize))).map
            (fun e => e.id) = ["7", "1"] :=
  ⟨by decide!, contributing_events DefaultConfig 100000 _ (by decide!), by decide!⟩

/-! ## Time-proximity bonus -/

/-- Without wrap-around, the smallest distance seen by the scan is the distance of any
interaction in the window that is nearest to the failure. -/
theorem scan_minDelta_eq (cfg : Config) (failureTs : Int) (inter : List Event)
    (hno : ∀ e ∈ inter, e.ts ≤ failureTs → failureTs - e.ts < 2 ^ 63)
    (e₀ : Event) (h₀ : e₀ ∈ inter) (h₀a : 0 ≤ failureTs - e₀.ts)
    (h₀b : failureTs - e₀.ts ≤ cfg.windowSize)
    (hmin : ∀ e ∈ inter, 0 ≤ failureTs - e.ts → failureTs - e.ts ≤ cfg.windowSize →
      failureTs - e₀.ts ≤ failureTs - e.ts) :
    (scanInteractions cfg failureTs inter).minDelta = failureTs - e₀.ts := by
  rw [scan_minDelta]
  have hw : ∀ e ∈ inter.filter (inWindow cfg failureTs),
      wrap64 (failureTs - e.ts) = failureTs - e.ts ∧ 0 ≤ failureTs - e.ts ∧
        failureTs - e.ts ≤ cfg.windowSize := by
    intro e he
    obtain ⟨hmem, hin⟩ := List.mem_filter.1 he
    obtain ⟨h1, h2⟩ := (inWindow_iff_of_no_overflow cfg failureTs e (hno e hmem)).1 hin
    exact ⟨wrap64_of_range _ h1 (hno e hmem (by omega)), h1, h2⟩
  apply foldl_min_eq
  · refine List.mem_map.2 ⟨e₀, List.mem_filter.2 ⟨h₀, ?_⟩, ?_⟩
    · exact (inWindow_iff_of_no_overflow cfg failureTs e₀ (hno e₀ h₀)).2 ⟨h₀a, h₀b⟩
    · exact wrap64_of_range _ h₀a (hno e₀ h₀ (by omega))
  · exact h₀b
  · intro d hd
    obtain ⟨e, he, rfl⟩ := List.mem_map.1 hd
    obtain ⟨h1, h2, h3⟩ := hw e he
    rw [h1]
    exact hmin e (List.mem_filter.1 he).1 h2 h3

/-- C27, as amended (time-proximity bonus): for every configuration with an `int64` window
`W > 0`, when no interaction lies `2^63` or more milliseconds before `failureTs`: if some
interaction satisfies `0 ≤ failureTs - ts ≤ W`, then for `d_min` the smallest such distance
`ScoreEdge` sets `time_proximity_bonus = max(0, (W - d_min) / W) * cfg.time_proximity_bonus`,
which lies between `0` and `cfg.time_proximity_bonus`, is `0` when `d_min = W` and is
`cfg.time_proximity_bonus` when `d_min = 0`; and if no interaction satisfies it the bonus is
`0`. -/
theorem time_proximity_bonus (cfg : Config) (failureTs : Int) (interactions : List Event)
    (hW : 0 < cfg.windowSize) (hW' : cfg.windowSize < 2 ^ 63)
    (hno : ∀ e ∈ interactions, e.ts ≤ failureTs → failureTs - e.ts < 2 ^ 63) :
    (∀ e₀ ∈ interactions, 0 ≤ failureTs - e₀.ts → failureTs - e₀.ts ≤ cfg.windowSize →
      (∀ e ∈ interactions, 0 ≤ failureTs - e.ts → failureTs - e.ts ≤ cfg.windowSize →
        failureTs - e₀.ts ≤ failureTs - e.ts) →
      (ScoreEdge cfg failureTs interactions).timeProximityBonus =
          max 0 (((cfg.windowSize - (failureTs - e₀.ts) : Int) : ℚ) / (cfg.windowSize : ℚ)) *
            cfg.timeProximityBonus ∧
        min 0 cfg.timeProximityBonus ≤ (ScoreEdge cfg failureTs interactions).timeProximityBonus ∧
        (ScoreEdge cfg failureTs interactions).timeProximityBonus ≤ max 0 cfg.timeProximityBonus ∧
        (failureTs - e₀.ts = cfg.windowSize →
          (ScoreEdge cfg failureTs interactions).timeProximityBonus = 0) ∧
        (failureTs - e₀.ts = 0 →
          (ScoreEdge cfg failureTs interactions).timeProximityBonus = cfg.timeProximityBonus)) ∧
    ((∃ e ∈ interactions, 0 ≤ failureTs - e.ts ∧ failureTs - e.ts ≤ cfg.windowSize) →
      ∃ e₀ ∈ interactions, 0 ≤ failureTs - e₀.ts ∧ failureTs - e₀.ts ≤ cfg.windowSize ∧
        ∀ e ∈ interactions, 0 ≤ failureTs - e.ts → failureTs - e.ts ≤ cfg.windowSize →
          failureTs - e₀.ts ≤ failureTs - e.ts) ∧
    ((¬ ∃ e ∈ interactions, 0 ≤ failureTs - e.ts ∧ failureTs - e.ts ≤ cfg.windowSize) →
      (ScoreEdge cfg failureTs interactions).timeProximityBonus = 0) := by
  refine ⟨?_, ?_, ?_⟩
  · intro e₀ h₀ h₀a h₀b hmin
    have hWq : (0 : ℚ) < (cfg.windowSize : ℚ) := by exact_mod_cast hW
    have hne : (scanInteractions cfg failureTs interactions).contributingEventIds.length > 0 := by
      rw [scan_ids, List.length_map]
      exact List.length_pos_of_mem (List.mem_filter.2
        ⟨h₀, (inWindow_iff_of_no_overflow cfg failureTs e₀ (hno e₀ h₀)).2 ⟨h₀a, h₀b⟩⟩)
    have htp : (ScoreEdge cfg failureTs interactions).timeProximityBonus =
        max 0 (((cfg.windowSize - (failureTs - e₀.ts) : Int) : ℚ) / (cfg.windowSize : ℚ)) *
          cfg.timeProximityBonus := by
      rw [ScoreEdge_tp_eq, if_pos hne,
        scan_minDelta_eq cfg failureTs interactions hno e₀ h₀ h₀a h₀b hmin,
        wrap64_of_range _ (by omega) (by omega)]
    have hd0 : (0 : ℚ) ≤ ((cfg.windowSize - (failureTs - e₀.ts) : Int) : ℚ) := by
      exact_mod_cast (by omega : (0 : Int) ≤ cfg.windowSize - (failureTs - e₀.ts))
    have hd1 : ((cfg.windowSize - (failureTs - e₀.ts) : Int) : ℚ) ≤ (cfg.windowSize : ℚ) := by
      exact_mod_cast (by omega : cfg.windowSize - (failureTs - e₀.ts) ≤ cfg.windowSize)
    have hf0 : (0 : ℚ) ≤
        ((cfg.windowSize - (failureTs - e₀.ts) : Int) : ℚ) / (cfg.windowSize : ℚ) :=
      div_nonneg hd0 (le_of_lt hWq)
    have hf1 : ((cfg.windowSize - (failureTs - e₀.ts) : Int) : ℚ) / (cfg.windowSize : ℚ) ≤ 1 :=
      (div_le_one hWq).2 hd1
    rw [max_eq_right hf0] at htp
    refine ⟨by rw [htp, max_eq_right hf0], ?_, ?_, ?_, ?_⟩
    · rw [htp]
      rcases le_total 0 cfg.timeProximityBonus with ht | ht
      · rw [min_eq_left ht]; exact mul_nonneg hf0 ht
      · rw [min_eq_right ht]
        calc cfg.timeProximityBonus = 1 * cfg.timeProximityBonus := (one_mul _).symm
          _ ≤ _ := mul_le_mul_of_nonpos_right hf1 ht
    · rw [htp]
      rcases le_total 0 cfg.timeProximityBonus with ht | ht
      · rw [max_eq_right ht]
        calc _ ≤ 1 * cfg.timeProximityBonus := mul_le_mul_of_nonneg_right hf1 ht
          _ = cfg.timeProximityBonus := one_mul _
      · rw [max_eq_left ht]; exact mul_nonpos_of_nonneg_of_nonpos hf0 ht
    · intro hd
      rw [htp, hd, sub_self]
      simp
    · intro hd
      rw [htp, hd, sub_zero, div_self (ne_of_gt hWq), one_mul]
  · rintro ⟨e, he, h1, h2⟩
    have hex : ∃ d : Int, ∃ e ∈ interactions, 0 ≤ failureTs - e.ts ∧
        failureTs - e.ts ≤ cfg.windowSize ∧ failureTs - e.ts = d := ⟨_, e, he, h1, h2, rfl⟩
    have hbound : ∀ n : Nat, ∀ d : Int, d.toNat = n →
        (∃ e ∈ interactions, 0 ≤ failureTs - e.ts ∧ failureTs - e.ts ≤ cfg.windowSize ∧
          failureTs - e.ts = d) →
        ∃ e₀ ∈ interactions, 0 ≤ failureTs - e₀.ts ∧ failureTs - e₀.ts ≤ cfg.windowSize ∧
          ∀ e ∈ interactions, 0 ≤ failureTs - e.ts → failureTs - e.ts ≤ cfg.windowSize →
            failureTs - e₀.ts ≤ failureTs - e.ts := by
      intro n
      induction n using Nat.strong_induction_on with
      | _ n ih =>
        rintro d hd ⟨e, he, h1, h2, h3⟩
        by_cases hmin : ∀ e' ∈ interactions, 0 ≤ failureTs - e'.ts →
            failureTs - e'.ts ≤ cfg.windowSize → failureTs - e.ts ≤ failureTs - e'.ts
        · exact ⟨e, he, h1, h2, hmin⟩
        · push_neg at hmin
          obtain ⟨e', he', h1', h2', h3'⟩ := hmin
          exact ih (failureTs - e'.ts).toNat (by omega) (failureTs - e'.ts) rfl
            ⟨e', he', h1', h2', rfl⟩
    obtain ⟨d, hd⟩ := hex
    exact hbound d.toNat d rfl hd
  · intro hnone
    rw [ScoreEdge_tp_eq, if_neg]
    rw [scan_ids, List.length_map, filter_inWindow_eq_nil cfg failureTs interactions hno
      (fun e he hc => hnone ⟨e, he, hc⟩)]
    simp

/-- C27 fails as stated: the interaction stamped at the failure time `0` has `d_min = 0`,
so the claim gives the full bonus `0.3`; but `earliestError`, `2^63` milliseconds earlier,
passes the guard with a wrapped distance, the smallest distance becomes `-2^63`, and the
bonus is `0`. -/
theorem time_proximity_bonus_fails :
    (0 ≤ 0 - atFailure.ts ∧ 0 - atFailure.ts ≤ DefaultConfig.windowSize) ∧
      ¬ (0 ≤ 0 - earliestError.ts ∧ 0 - earliestError.ts ≤ DefaultConfig.windowSize) ∧
      max 0 (((DefaultConfig.windowSize - (0 - atFailure.ts) : Int) : ℚ) /
          (DefaultConfig.windowSize : ℚ)) * DefaultConfig.timeProximityBonus = 3 / 10 ∧
      (ScoreEdge DefaultConfig 0 [atFailure, earliestError]).timeProximityBonus = 0 := by
  decide!

/-- Instance of C27 on the scorer's golden test: one interaction a second before the
failure at `100000` gives the bonus `29/30 * 0.3 = 0.29`. -/
theorem time_proximity_bonus_witness :
    0 < DefaultConfig.windowSize ∧ DefaultConfig.windowSize < 2 ^ 63 ∧
      (∀ e ∈ [goldenError], e.ts ≤ 100000 → 100000 - e.ts < 2 ^ 63) ∧
      (ScoreEdge DefaultConfig 100000 [goldenError]).timeProximityBonus = 29 / 100 ∧
      max 0 (((DefaultConfig.windowSize - (100000 - goldenError.ts) : Int) : ℚ) /
          (DefaultConfig.windowSize : ℚ)) * DefaultConfig.timeProximityBonus = 29 / 100 ∧
      (ScoreEdge DefaultConfig 100000 [goldenError]).timeProximityBonus =
        max 0 (((DefaultConfig.windowSize - (100000 - goldenError.ts) : Int) : ℚ) /
          (DefaultConfig.windowSize : ℚ)) * DefaultConfig.timeProximityBonus :=
  ⟨by decide, by decide, by decide!, by decide!, by decide!,
    ((time_proximity_bonus DefaultConfig 100000 [goldenError] (by decide) (by decide)
      (by decide!)).1 goldenError (List.mem_singleton.2 rfl) (by decide!) (by decide!)
      (by decide!)).1⟩

/-! ## Future events -/

section FilterSort
variable {α κ : Type} [LinearOrder κ]

theorem orderedInsert_of_le_all (r : α → α → Prop) [DecidableRel r] (a : α) (l : List α)
    (h : ∀ c ∈ l, r a c) : List.orderedInsert r a l = a :: l := by
  cases l with
  | nil => rfl
  | cons b l => simp [List.orderedInsert, h b (List.mem_cons_self _ _)]

theorem filter_orderedInsert (less : α → α → Bool) (key : α → κ)
    (hless : ∀ a b, less a b = true ↔ key a < key b) (p : α → Bool) (a : α) :
    ∀ l : List α, l.Pairwise (fun a b => key a ≤ key b) →
      (List.orderedInsert (fun a b => less b a = false) a l).filter p =
        if p a = true then List.orderedInsert (fun a b => less b a = false) a (l.filter p)
        else l.filter p := by
  have hr : ∀ u v, less v u = false ↔ key u ≤ key v := by
    intro u v
    rw [← not_lt, ← hless, Bool.not_eq_true]
  intro l
  induction l with
  | nil =>
    intro _
    by_cases hp : p a = true <;> simp [hp]
  | cons b l ih =>
    intro hs
    obtain ⟨hb, hs'⟩ := List.pairwise_cons.1 hs
    by_cases hab : less b a = false
    · have hall : ∀ c ∈ (b :: l).filter p, less c a = false := by
        intro c hc
        rcases List.mem_cons.1 (List.mem_filter.1 hc).1 with rfl | hc'
        · exact hab
        · exact (hr a c).2 (le_trans ((hr a b).1 hab) (hb c hc'))
      have h1 : List.orderedInsert (fun a b => less b a = false) a (b :: l) = a :: b :: l := by
        simp [List.orderedInsert, hab]
      rw [h1, orderedInsert_of_le_all _ a _ hall]
      by_cases hp : p a = true
      · rw [if_pos hp, List.filter_cons_of_pos hp]
      · rw [if_neg hp, List.filter_cons_of_neg hp]
    · have h1 : List.orderedInsert (fun a b => less b a = false) a (b :: l) =
          b :: List.orderedInsert (fun a b => less b a = false) a l := by
        simp [List.orderedInsert, hab]
      rw [h1]
      by_cases hpb : p b = true
      · rw [List.filter_cons_of_pos hpb, List.filter_cons_of_pos hpb, ih hs']
        by_cases hp : p a = true
        · rw [if_pos hp, if_pos hp]
          simp [List.orderedInsert, hab]
        · rw [if_neg hp, if_neg hp]
      · rw [List.filter_cons_of_neg hpb, List.filter_cons_of_neg hpb, ih hs']

/-- Sorting and filtering commute: the sort moves no element past an equal one. -/
theorem sortSlice_filter (less : α → α → Bool) (key : α → κ)
    (hless : ∀ a b, less a b = true ↔ key a < key b) (p : α → Bool) (l : List α) :
    (sortSlice less l).filter p = sortSlice less (l.filter p) := by
  induction l with
  | nil => rfl
  | cons a l ih =>
    have h1 : sortSlice less (a :: l) =
        List.orderedInsert (fun a b => less b a = false) a (sortSlice less l) := rfl
    rw [h1, filter_orderedInsert less key hless p a _ (sortSlice_sorted less key hless l), ih]
    by_cases hp : p a = true
    · rw [if_pos hp, List.filter_cons_of_pos hp]
      rfl
    · rw [if_neg hp, List.filter_cons_of_neg hp]

end FilterSort

/-- The replay sees only the events stamped at or before `atTs`. -/
theorem replayEvents_filter (unmarshal : String → String → Option String) (atTs : Int)
    (events : List Event) :
    replayEvents unmarshal atTs (events.filter (fun e => decide (e.ts ≤ atTs))) =
      replayEvents unmarshal atTs events := by
  rw [replayEvents_eq, replayEvents_eq,
    ← sortSlice_filter eventLess (fun e => toLex (e.ts, e.id)) eventLess_iff, List.filter_filter]
  simp only [Bool.and_self]

/-- With insertion sort for `sort.Slice`, `ReconstructGraph` gives on the whole list what it
gives on the events with `ts ≤ atTs` (the same result, or the same failure); in particular
events later than `atTs` added to a list change nothing. -/
theorem future_dropped (unmarshal : String → String → Option String) (atTs : Int)
    (events : List Event) :
    ReconstructGraph unmarshal atTs events =
        ReconstructGraph unmarshal atTs (events.filter (fun e => decide (e.ts ≤ atTs))) ∧
      ∀ late : List Event, (∀ e ∈ late, atTs < e.ts) →
        ReconstructGraph unmarshal atTs (events ++ late) =
          ReconstructGraph unmarshal atTs events := by
  have key : ∀ l : List Event, ReconstructGraph unmarshal atTs l =
      ReconstructGraph unmarshal atTs (l.filter (fun e => decide (e.ts ≤ atTs))) := by
    intro l
    unfold ReconstructGraph
    rw [replayEvents_filter]
  refine ⟨key events, ?_⟩
  intro late hlate
  rw [key (events ++ late), key events, List.filter_append]
  have : late.filter (fun e => decide (e.ts ≤ atTs)) = [] := by
    rw [List.filter_eq_nil_iff]
    intro e he
    have := hlate e he
    simp only [decide_eq_true_eq]
    omega
  rw [this, List.append_nil]

/-! ## Association lists determined by their keys and values -/

theorem assoc_ext {V : Type} (m : List (String × V)) :
    ∀ m' : List (String × V), m.map Prod.fst = m'.map Prod.fst → (m.map Prod.fst).Nodup →
      (∀ k ∈ m.map Prod.fst, mapGet m k = mapGet m' k) → m = m' := by
  induction m with
  | nil =>
    intro m' hk _ _
    cases m' with
    | nil => rfl
    | cons p m' => cases hk
  | cons p m ih =>
    intro m' hk hnd h
    cases m' with
    | nil => cases hk
    | cons p' m' =>
      obtain ⟨k, v⟩ := p
      obtain ⟨k', v'⟩ := p'
      simp only [List.map_cons, List.cons.injEq] at hk
      obtain ⟨hkk, hrest⟩ := hk
      subst hkk
      obtain ⟨hknot, hnd'⟩ := List.nodup_cons.1 hnd
      have hv := h k (List.mem_cons_self _ _)
      simp only [mapGet, if_true, Option.some.injEq] at hv
      subst hv
      congr 1
      apply ih m' hrest hnd'
      intro k₂ hk₂
      have hne : ¬ k = k₂ := fun hc => hknot (hc ▸ hk₂)
      have := h k₂ (List.mem_cons_of_mem _ hk₂)
      simpa only [mapGet, hne, if_false] using this

theorem mapGet_map_values {V W : Type} (g : String → V → W) (k : String) :
    ∀ m : List (String × V),
      mapGet (m.map (fun p => (p.1, g p.1 p.2))) k = (mapGet m k).map (g k) := by
  intro m
  induction m with
  | nil => rfl
  | cons p m ih =>
    obtain ⟨k', v⟩ := p
    by_cases hk : k' = k
    · subst hk
      simp [mapGet]
    · simp only [List.map_cons, mapGet, hk, if_false]
      exact ih

theorem mapGet_view_some {W : Type} (f : Node → W) (m m' : List (String × Node))
    (h : m.map (fun p => (p.1, f p.2)) = m'.map (fun p => (p.1, f p.2)))
    (k : String) (n : Node) (hg : mapGet m k = some n) :
    ∃ n', mapGet m' k = some n' ∧ f n' = f n := by
  have hv := mapGet_view f m m' k h
  rw [hg] at hv
  cases hg' : mapGet m' k with
  | none => rw [hg'] at hv; simp at hv
  | some n' =>
    rw [hg'] at hv
    simp only [Option.map_some', Option.some.injEq] at hv
    exact ⟨n', rfl, hv.symm⟩

/-! ## Closed form of the scoring pass -/

/-- Closed form of the scoring pass, whatever the order in which the entries of the
interaction map are visited: the node and edge maps keep their order and get their
amplification scores and confidences, and the evidence map is filled in visiting order. -/
theorem scoringPass_closed (atTs : Int) (rs : ReplayState) (hrs : ReplayInv rs)
    (hz : ∀ p ∈ rs.nodes, p.2.amplificationScore = 0)
    (todo : List (String × List Event)) (hp : todo.Perm rs.edgeInteractions) :
    scoringPass atTs { nodes := rs.nodes, edges := rs.edges, evidenceMap := [] } todo =
      some
        { nodes := scoredNodes rs
          edges := scoredEdges atTs rs
          evidenceMap := todo.map (fun p => (p.1, evidenceFor atTs rs p.1)) } := by
  have hndI : (rs.edgeInteractions.map Prod.fst).Nodup := by
    rw [hrs.interKeys]; exact hrs.edgesNodup
  have hndT : (todo.map Prod.fst).Nodup := ((hp.map Prod.fst).nodup_iff).2 hndI
  obtain ⟨ss, hpass, h1, h2, h4, h5⟩ := scoringPass_inv atTs rs hrs todo []
    { nodes := rs.nodes, edges := rs.edges, evidenceMap := [] } rfl rfl rfl
    (by simp) (fun _ _ => rfl) (by rw [List.nil_append]; exact hndT)
    (fun p hpm => by
      rw [← hrs.interKeys]; exact List.mem_map_of_mem Prod.fst (hp.subset hpm))
  rw [List.nil_append] at h4 h5
  rw [hpass]
  have hinter : ∀ p ∈ todo, interOf rs.edgeInteractions p.1 = p.2 := by
    intro p hpm
    unfold interOf
    rw [mapGet_of_mem _ p.1 p.2 hndI (hp.subset hpm)]
    rfl
  have hnodes : ss.nodes = scoredNodes rs := by
    have hk : ss.nodes.map Prod.fst = rs.nodes.map Prod.fst := keys_of_view nodeView _ _ h1
    apply assoc_ext
    · rw [hk]; unfold scoredNodes; rw [List.map_map]; rfl
    · rw [hk]; exact hrs.nodesInv.1
    · intro k hkm
      obtain ⟨n, hn⟩ := Option.isSome_iff_exists.1 ((mapGet_isSome_iff _ _).2 hkm)
      obtain ⟨n₀, hn₀, hview⟩ := mapGet_view_some nodeView ss.nodes rs.nodes h1 k n hn
      have hs : (mapGet rs.nodes k).isSome = true := by rw [hn₀]; rfl
      have hamp := scoringPass_amp atTs rs k hs todo
        { nodes := rs.nodes, edges := rs.edges, evidenceMap := [] } ss rfl rfl hpass
      have hz₀ : n₀.amplificationScore = 0 := hz (k, n₀) (mem_of_mapGet _ _ _ hn₀)
      have hamp' : n.amplificationScore = totalAmp rs k := by
        unfold ampOf at hamp
        simp only [hn, hn₀, hz₀, zero_add] at hamp
        rw [hamp]
        exact (hp.map _).sum_eq
      have hm := mapGet_map_values
        (fun k (n : Node) => { n with amplificationScore := totalAmp rs k }) k rs.nodes
      rw [hn₀] at hm
      rw [hn]
      refine Eq.trans ?_ hm.symm
      simp only [Option.map_some', Option.some.injEq]
      simp only [nodeView, Prod.mk.injEq] at hview
      cases n
      cases n₀
      simp only at hview hamp'
      simp only [Node.mk.injEq]
      exact ⟨hview.1.symm, hview.2.1.symm, hview.2.2.symm, hamp'⟩
  have hscored : ∀ k ∈ rs.edges.map Prod.fst, ∃ edge,
      mapGet rs.edges k = some edge ∧
      mapGet ss.evidenceMap k = some (evidenceOf atTs rs k edge) ∧
      mapGet ss.edges k =
        some { edge with causalConfidence := (evidenceOf atTs rs k edge).score } := by
    intro k hkm
    rw [← hrs.interKeys] at hkm
    obtain ⟨p, hpm, hpk⟩ := List.mem_map.1 hkm
    have hpt : p ∈ todo := hp.symm.subset hpm
    obtain ⟨edge, tn, e1, e2, e3, e4⟩ := h5 p hpt
    have hh : healthOf rs.nodes edge.target = tn.healthStatus := by
      unfold healthOf; rw [e2]
    subst hpk
    refine ⟨edge, e1, ?_, ?_⟩
    · unfold evidenceOf; rw [hh, hinter p hpt]; exact e3
    · unfold evidenceOf; rw [hh, hinter p hpt]; exact e4
  have hedges : ss.edges = scoredEdges atTs rs := by
    have hk : ss.edges.map Prod.fst = rs.edges.map Prod.fst := keys_of_view edgeView _ _ h2
    apply assoc_ext
    · rw [hk]; unfold scoredEdges; rw [List.map_map]; rfl
    · rw [hk]; exact hrs.edgesNodup
    · intro k hkm
      rw [hk] at hkm
      obtain ⟨edge, e1, _, e4⟩ := hscored k hkm
      have hm := mapGet_map_values
        (fun k (e : Edge) => { e with causalConfidence := (evidenceOf atTs rs k e).score })
        k rs.edges
      rw [e1] at hm
      rw [e4]
      exact hm.symm
  have hev : ss.evidenceMap = todo.map (fun p => (p.1, evidenceFor atTs rs p.1)) := by
    apply assoc_ext
    · rw [h4, List.map_map]; rfl
    · rw [h4]; exact hndT
    · intro k hkm
      rw [h4] at hkm
      have hkE : k ∈ rs.edges.map Prod.fst := by
        rw [← hrs.interKeys]; exact (hp.map Prod.fst).subset hkm
      obtain ⟨edge, e1, e3, _⟩ := hscored k hkE
      obtain ⟨v, hv⟩ := Option.isSome_iff_exists.1 ((mapGet_isSome_iff todo k).2 hkm)
      have hm := mapGet_map_values (fun k (_ : List Event) => evidenceFor atTs rs k) k todo
      rw [hv] at hm
      rw [e3]
      refine Eq.trans ?_ hm.symm
      unfold evidenceFor
      rw [e1]
      rfl
  rw [← hnodes, ← hedges, ← hev]

/-! ## Closed form of the reconstruction -/

/-- The replay stores every node under its service name. -/
theorem replayStep_name (unmarshal : String → String → Option String) (st st' : ReplayState)
    (e : Event) (hz : ∀ p ∈ st.nodes, p.2.serviceName = p.1)
    (hstep : replayStep unmarshal st e = some st') :
    ∀ p ∈ st'.nodes, p.2.serviceName = p.1 := by
  have hens : ∀ (nodes : List (String × Node)) (s : String),
      (∀ p ∈ nodes, p.2.serviceName = p.1) →
      ∀ p ∈ ensureNode nodes s, p.2.serviceName = p.1 := by
    intro nodes s h p hp
    rcases ensureNode_cases nodes s with ⟨heq, _⟩ | ⟨_, _, heq⟩
    · rw [heq] at hp; exact h p hp
    · rw [heq] at hp
      rcases List.mem_append.1 hp with hp | hp
      · exact h p hp
      · simp only [List.mem_singleton] at hp
        subst hp
        rfl
  rcases replayStep_cases unmarshal e with ⟨d, hty, hu, hne⟩ | ⟨s, hty, hs⟩ | ⟨h1, h2⟩
  · rw [replayStep_rpc unmarshal st e d hty hu hne] at hstep
    cases hstep
    exact hens _ _ (hens _ _ hz)
  · cases hg : mapGet (ensureNode st.nodes e.service) e.service with
    | none =>
      rw [replayStep_health_none unmarshal st e s hty hs hg] at hstep
      cases hstep
    | some node =>
      rw [replayStep_health unmarshal st e s node hty hs hg] at hstep
      cases hstep
      intro p hp
      rcases mem_mapSet _ _ _ _ hp with hp | hp
      · subst hp
        exact hens _ _ hz (e.service, node) (mem_of_mapGet _ _ node hg)
      · exact hens _ _ hz p hp
  · rw [replayStep_other unmarshal st e h1 h2] at hstep
    cases hstep
    exact hens _ _ hz

theorem replayAll_name (unmarshal : String → String → Option String) (l : List Event) :
    ∀ st st', (∀ p ∈ st.nodes, p.2.serviceName = p.1) →
      replayAll unmarshal st l = some st' → ∀ p ∈ st'.nodes, p.2.serviceName = p.1 := by
  induction l with
  | nil =>
    intro st st' hz h
    simp only [replayAll, Option.some.injEq] at h
    subst h
    exact hz
  | cons e l ih =>
    intro st st' hz h
    simp only [replayAll] at h
    cases hstep : replayStep unmarshal st e with
    | none => rw [hstep] at h; cases h
    | some st₁ =>
      rw [hstep] at h
      exact ih st₁ st' (replayStep_name unmarshal st st₁ e hz hstep) h

/-- Closed form of `ReconstructGraph`: it fails exactly when the replay loop does, and
otherwise returns what `assemble` builds from the state the loop leaves. -/
theorem ReconstructGraph_closed (unmarshal : String → String → Option String) (atTs : Int)
    (events : List Event) :
    ReconstructGraph unmarshal atTs events =
      (replayEvents unmarshal atTs events).map (assemble atTs) := by
  unfold ReconstructGraph
  cases hr : replayEvents unmarshal atTs events with
  | none => rfl
  | some rs =>
    have hrs := replayEvents_inv unmarshal atTs events rs hr
    have hall := hr
    rw [replayEvents_eq] at hall
    have hz := replayAll_amp unmarshal _ _ rs (fun p hp => by cases hp) hall
    have hname := replayAll_name unmarshal _ _ rs (fun p hp => by cases hp) hall
    simp only [Option.map_some']
    rw [scoringPass_closed atTs rs hrs hz rs.edgeInteractions (List.Perm.refl _)]
    simp only [assemble]
    congr 3
    unfold scoredNodes
    rw [List.map_map, List.map_map]
    congr 1
    apply List.map_congr_left
    intro p hp
    have h1 := (hrs.nodesInv.2 p hp).1
    have h2 := hname p hp
    have h3 : healthOf rs.nodes p.1 = p.2.healthStatus := by
      unfold healthOf
      rw [mapGet_of_mem rs.nodes p.1 p.2 hrs.nodesInv.1 hp]
    simp only [Function.comp, finalNode, h1, h2, h3]

/-! ## Counting interactions per key -/

theorem countP_or_of_disjoint {α : Type} (p q : α → Bool) (l : List α)
    (h : ∀ e ∈ l, ¬ (p e = true ∧ q e = true)) :
    l.countP (fun e => p e || q e) = l.countP p + l.countP q := by
  induction l with
  | nil => rfl
  | cons a l ih =>
    have ih' := ih (fun e he => h e (List.mem_cons_of_mem _ he))
    have ha := h a (List.mem_cons_self _ _)
    simp only [List.countP_cons, ih']
    cases hp : p a <;> cases hq : q a <;> simp_all <;> omega

/-- An interaction is stored under one key only. -/
theorem hasKey_unique (unmarshal : String → String → Option String) (k k' : String)
    (e : Event) (h : hasKey unmarshal k e = true) (h' : hasKey unmarshal k' e = true) :
    k = k' := by
  obtain ⟨d, hd, hk⟩ := (hasKey_iff unmarshal k e).1 h
  obtain ⟨d', hd', hk'⟩ := (hasKey_iff unmarshal k' e).1 h'
  rw [hd] at hd'
  simp only [Option.some.injEq] at hd'
  subst hd'
  exact hk.symm.trans hk'

/-- Counting per key and adding up counts every interaction stored under one of the
keys once. -/
theorem sum_countP_keys (unmarshal : String → String → Option String) (A : Event → Bool)
    (l : List Event) :
    ∀ K : List String, K.Nodup →
      (K.map (fun k => l.countP (fun e => A e && hasKey unmarshal k e))).sum =
        l.countP (fun e => A e && K.any (fun k => hasKey unmarshal k e)) := by
  intro K
  induction K with
  | nil =>
    intro _
    simp
  | cons k K ih =>
    intro hnd
    obtain ⟨hk, hnd'⟩ := List.nodup_cons.1 hnd
    rw [List.map_cons, List.sum_cons, ih hnd']
    have hdis : ∀ e ∈ l, ¬ ((A e && hasKey unmarshal k e) = true ∧
        (A e && K.any (fun k => hasKey unmarshal k e)) = true) := by
      rintro e _ ⟨h1, h2⟩
      simp only [Bool.and_eq_true, List.any_eq_true] at h1 h2
      obtain ⟨k', hk', hkey'⟩ := h2.2
      exact hk (hasKey_unique unmarshal k k' e h1.2 hkey' ▸ hk')
    rw [← countP_or_of_disjoint _ _ l hdis]
    apply List.countP_congr
    intro e _
    simp only [List.any_cons, Bool.and_or_distrib_left]

/-! ## Amplification totals as counts -/

/-- When no service name contains `|`, what an entry of the interaction map contributes to
a service is the number of its amplifying interactions. -/
theorem contribution_count (unmarshal : String → String → Option String) (l : List Event)
    (rs : ReplayState)
    (hall : replayAll unmarshal { nodes := [], edges := [], edgeInteractions := [] } l = some rs)
    (hbar : ∀ e ∈ l, '|' ∉ e.service.data) (s : String) (p : String × List Event)
    (hp : p ∈ rs.edgeInteractions) :
    contribution rs s p =
      ((l.countP (fun e => amplifying unmarshal rs s e && hasKey unmarshal p.1 e) : Nat) : ℚ) := by
  have hrs := replayAll_inv unmarshal _ _ _ replayInv_init hall
  have hnd : (rs.edgeInteractions.map Prod.fst).Nodup := by
    rw [hrs.interKeys]; exact hrs.edgesNodup
  have hinter : p.2 = l.filter (hasKey unmarshal p.1) := by
    have h1 := replayAll_interOf unmarshal p.1 _ _ _ hall
    unfold interOf at h1
    rw [mapGet_of_mem _ p.1 p.2 hnd hp] at h1
    exact h1
  have hedge : mapGet rs.edges p.1 = firstEdge unmarshal l p.1 := by
    rw [replayAll_edgeOf unmarshal p.1 _ _ _ hall]; rfl
  have hk : p.1 ∈ rs.edges.map Prod.fst := by
    rw [← hrs.interKeys]; exact List.mem_map_of_mem Prod.fst hp
  obtain ⟨edge, hedgek⟩ := Option.isSome_iff_exists.1 ((mapGet_isSome_iff rs.edges p.1).2 hk)
  obtain ⟨e₀, hfind, hedge₀⟩ : ∃ e₀, l.find? (hasKey unmarshal p.1) = some e₀ ∧
      edge = newEdge e₀.service ((rpcDest unmarshal e₀).getD "") := by
    rw [hedge] at hedgek
    unfold firstEdge at hedgek
    cases hf : l.find? (hasKey unmarshal p.1) with
    | none => rw [hf] at hedgek; cases hedgek
    | some e₀ =>
      rw [hf] at hedgek
      simp only [Option.map_some', Option.some.injEq] at hedgek
      exact ⟨e₀, rfl, hedgek.symm⟩
  obtain ⟨d₀, hd₀, hk₀⟩ := (hasKey_iff unmarshal p.1 e₀).1 (List.find?_some hfind)
  have he₀ : e₀ ∈ l := List.mem_of_find?_eq_some hfind
  have hsame : ∀ e ∈ l, hasKey unmarshal p.1 e = true →
      e.service = e₀.service ∧ rpcDest unmarshal e = some d₀ := by
    intro e he hke
    obtain ⟨d, hd, hkd⟩ := (hasKey_iff unmarshal p.1 e).1 hke
    obtain ⟨h1, h2⟩ := edgeKey_inj e.service d e₀.service d₀ (hbar e he) (hbar e₀ he₀)
      (hkd.trans hk₀.symm)
    exact ⟨h1, by rw [hd, h2]⟩
  unfold contribution
  rw [hedgek]
  simp only
  rw [hedge₀, hd₀]
  simp only [Option.getD_some, newEdge]
  by_cases hcond : e₀.service = s ∧ healthOf rs.nodes d₀ > 0
  · rw [if_pos hcond, hinter, List.countP_filter]
    congr 1
    apply List.countP_congr
    intro e he
    simp only [Bool.and_eq_true, decide_eq_true_eq]
    constructor
    · rintro ⟨h1, h2⟩
      obtain ⟨h3, h4⟩ := hsame e he h2
      refine ⟨?_, h2⟩
      unfold amplifying
      rw [h4]
      simp only [Bool.and_eq_true, decide_eq_true_eq]
      exact ⟨⟨h1, h3.trans hcond.1⟩, hcond.2⟩
    · rintro ⟨h1, h2⟩
      unfold amplifying at h1
      simp only [Bool.and_eq_true, decide_eq_true_eq] at h1
      exact ⟨h1.1.1, h2⟩
  · rw [if_neg hcond]
    symm
    rw [Nat.cast_eq_zero, List.countP_eq_zero]
    intro e he hc
    simp only [Bool.and_eq_true] at hc
    obtain ⟨h3, h4⟩ := hsame e he hc.2
    have h1 := hc.1
    unfold amplifying at h1
    rw [h4] at h1
    simp only [Bool.and_eq_true, decide_eq_true_eq] at h1
    exact hcond ⟨h3.symm.trans h1.1.2, h1.2⟩

/-- When no service name contains `|`, the amplification total of a service is the number
of its amplifying interactions among the events replayed. -/
theorem totalAmp_count (unmarshal : String → String → Option String) (l : List Event)
    (rs : ReplayState)
    (hall : replayAll unmarshal { nodes := [], edges := [], edgeInteractions := [] } l = some rs)
    (hbar : ∀ e ∈ l, '|' ∉ e.service.data) (s : String) :
    totalAmp rs s = ((l.countP (amplifying unmarshal rs s) : Nat) : ℚ) := by
  have hrs := replayAll_inv unmarshal _ _ _ replayInv_init hall
  have hnd : (rs.edgeInteractions.map Prod.fst).Nodup := by
    rw [hrs.interKeys]; exact hrs.edgesNodup
  unfold totalAmp
  rw [List.map_congr_left (fun p hp => contribution_count unmarshal l rs hall hbar s p hp)]
  have h1 : rs.edgeInteractions.map
      (fun p => ((l.countP (fun e => amplifying unmarshal rs s e && hasKey unmarshal p.1 e) : Nat) : ℚ)) =
      ((rs.edgeInteractions.map Prod.fst).map
        (fun k => l.countP (fun e => amplifying unmarshal rs s e && hasKey unmarshal k e))).map
          (fun n : Nat => (n : ℚ)) := by
    rw [List.map_map, List.map_map]
    rfl
  rw [h1, ← Nat.cast_list_sum, sum_countP_keys unmarshal _ l _ hnd]
  congr 1
  apply List.countP_congr
  intro e he
  simp only [Bool.and_eq_true, List.any_eq_true]
  constructor
  · rintro ⟨h, _⟩; exact h
  · intro h
    refine ⟨h, ?_⟩
    have h' := h
    unfold amplifying at h'
    cases hd : rpcDest unmarshal e with
    | none => rw [hd] at h'; simp at h'
    | some d =>
      have hkey : hasKey unmarshal (edgeKey e.service d) e = true :=
        (hasKey_iff _ _ _).2 ⟨d, hd, rfl⟩
      refine ⟨edgeKey e.service d, ?_, hkey⟩
      rw [hrs.interKeys, ← mapGet_isSome_iff, replayAll_edgeOf unmarshal _ _ _ _ hall]
      simp only [mapGet]
      unfold firstEdge
      rw [Option.isSome_map']
      rw [List.find?_isSome]
      exact ⟨e, he, hkey⟩

/-! ## Amplification value -/

theorem mem_assemble_nodes (atTs : Int) (rs : ReplayState) (n : Node) :
    n ∈ (assemble atTs rs).1.nodes ↔ ∃ k ∈ rs.nodes.map Prod.fst, n = finalNode rs k := by
  simp only [assemble, mem_sortSlice, List.mem_map]
  constructor
  · rintro ⟨k, hk, rfl⟩; exact ⟨k, hk, rfl⟩
  · rintro ⟨k, hk, rfl⟩; exact ⟨k, hk, rfl⟩

/-- A service is an unhealthy node of the assembled snapshot exactly when the replay left
it a health status above `0`. -/
theorem unhealthyIn_assemble (atTs : Int) (rs : ReplayState) (d : String) :
    unhealthyIn (assemble atTs rs).1 d = decide (0 < healthOf rs.nodes d) := by
  rw [Bool.eq_iff_iff, decide_eq_true_eq]
  unfold unhealthyIn
  simp only [List.any_eq_true, Bool.and_eq_true, decide_eq_true_eq]
  constructor
  · rintro ⟨n, hn, hid, hh⟩
    obtain ⟨k, _, rfl⟩ := (mem_assemble_nodes atTs rs n).1 hn
    simp only [finalNode] at hid hh
    rw [← hid]
    exact hh
  · intro hh
    have hsome : (mapGet rs.nodes d).isSome = true := by
      unfold healthOf at hh
      cases hg : mapGet rs.nodes d with
      | none => rw [hg] at hh; simp at hh
      | some n => rfl
    exact ⟨finalNode rs d,
      (mem_assemble_nodes atTs rs _).2 ⟨d, (mapGet_isSome_iff _ _).1 hsome, rfl⟩, rfl, hh⟩

/-- The amplification scores of the snapshot, counted over the input: helper of C30. -/
theorem amp_value (unmarshal : String → String → Option String) (atTs : Int)
    (events : List Event)
    (hsvc : ∀ e ∈ events, e.service ≠ "" ∧ '|' ∉ e.service.data) :
    ∃ snap ev, ReconstructGraph unmarshal atTs events = some (snap, ev) ∧
      ∀ n ∈ snap.nodes,
        n.amplificationScore =
          ((events.countP (amplifyingEvent unmarshal snap atTs n.id) : Nat) : ℚ) := by
  have hmemL : ∀ e ∈ (sortSlice eventLess events).filter (fun e => decide (e.ts ≤ atTs)),
      e ∈ events := fun e he => (mem_sortSlice _ _ _).1 (List.mem_filter.1 he).1
  obtain ⟨rs, hall⟩ := replayAll_isSome unmarshal _ (fun e he => (hsvc e (hmemL e he)).1)
    { nodes := [], edges := [], edgeInteractions := [] }
  have hrs := replayAll_inv unmarshal _ _ _ replayInv_init hall
  have hRG : ReconstructGraph unmarshal atTs events = some (assemble atTs rs) := by
    rw [ReconstructGraph_closed, replayEvents_eq, hall]
    rfl
  refine ⟨(assemble atTs rs).1, (assemble atTs rs).2, hRG, ?_⟩
  intro n hn
  obtain ⟨k, _, rfl⟩ := (mem_assemble_nodes atTs rs n).1 hn
  have hempty : healthOf rs.nodes "" = 0 := by
    unfold healthOf
    have : mapGet rs.nodes "" = none := by
      rw [mapGet_eq_none_iff]
      intro hmem
      obtain ⟨p, hp, hk⟩ := List.mem_map.1 hmem
      exact (hrs.nodesInv.2 p hp).2 hk
    rw [this]
  show totalAmp rs k = _
  rw [totalAmp_count unmarshal _ rs hall (fun e he => (hsvc e (hmemL e he)).2) k,
    List.countP_filter, (sortSlice_perm eventLess events).countP_eq]
  congr 1
  apply List.countP_congr
  intro e _
  unfold amplifying amplifyingEvent
  simp only [finalNode, unhealthyIn_assemble]
  by_cases hty : e.type = EventType.RPC_ERROR
  · cases hu : unmarshal "dest_service" e.payload with
    | none =>
      have : rpcDest unmarshal e = none := by
        unfold rpcDest; rw [hu]; simp
      rw [this]
      simp
    | some d =>
      by_cases hd : d = ""
      · have : rpcDest unmarshal e = none := by
          unfold rpcDest; rw [hu]; simp [hd]
        rw [this, hd]
        simp [hempty]
      · have : rpcDest unmarshal e = some d :=
          (rpcDest_eq_some unmarshal e d).2 ⟨Or.inr hty, hu, hd⟩
        rw [this]
        simp only [Bool.and_eq_true, decide_eq_true_eq]
        tauto
  · simp [hty]

/-- C30 (amplification value): for every list of events with non-empty service names
containing no `|` and every `atTs`, `ReconstructGraph` returns, and the amplification score
of each snapshot node is the number of `RPC_ERROR` events of the input with `ts ≤ atTs`
emitted by that node whose `dest_service` is a snapshot node with health status above `0`;
so it is `0` for a node with no such event and is never negative. -/
theorem amplification_value (unmarshal : String → String → Option String) (atTs : Int)
    (events : List Event)
    (hsvc : ∀ e ∈ events, e.service ≠ "" ∧ '|' ∉ e.service.data) :
    ∃ snap ev, ReconstructGraph unmarshal atTs events = some (snap, ev) ∧
      ∀ n ∈ snap.nodes,
        n.amplificationScore =
            ((events.countP (amplifyingEvent unmarshal snap atTs n.id) : Nat) : ℚ) ∧
          0 ≤ n.amplificationScore ∧
          ((∀ e ∈ events, amplifyingEvent unmarshal snap atTs n.id e = false) →
            n.amplificationScore = 0) := by
  obtain ⟨snap, ev, h, hall⟩ := amp_value unmarshal atTs events hsvc
  refine ⟨snap, ev, h, fun n hn => ⟨hall n hn, ?_, ?_⟩⟩
  · rw [hall n hn]; exact Nat.cast_nonneg _
  · intro hnone
    rw [hall n hn, Nat.cast_eq_zero, List.countP_eq_zero]
    intro e he
    rw [hnone e he]
    exact Bool.false_ne_true

/-- Instance of C30: with the call and the error from `A` to `B` and `B` going down, the
error is the one amplifying event of `A`, whose score is `1`; `B` has none and scores `0`. -/
theorem amplification_value_witness :
    (∀ e ∈ [callAB, errorAB, downB], e.service ≠ "" ∧ '|' ∉ e.service.data) ∧
      (ReconstructGraph tableUnmarshal 300 [callAB, errorAB, downB]).map
          (fun r => r.1.nodes.map (fun n => (n.id, n.healthStatus, n.amplificationScore))) =
        some [("A", 0, 1), ("B", 2, 0)] ∧
      ∃ snap ev, ReconstructGraph tableUnmarshal 300 [callAB, errorAB, downB] = some (snap, ev) ∧
        ∀ n ∈ snap.nodes,
          n.amplificationScore =
              (([callAB, errorAB, downB].countP
                (amplifyingEvent tableUnmarshal snap 300 n.id) : Nat) : ℚ) ∧
            0 ≤ n.amplificationScore ∧
            ((∀ e ∈ [callAB, errorAB, downB],
                amplifyingEvent tableUnmarshal snap 300 n.id e = false) →
              n.amplificationScore = 0) :=
  ⟨by decide!, by decide!,
    amplification_value tableUnmarshal 300 [callAB, errorAB, downB] (by decide!)⟩

/-! ## Nodes, edges and interactions along the replay -/

theorem ensureNode_isSome_iff (nodes : List (String × Node)) (s k : String) :
    (mapGet (ensureNode nodes s) k).isSome = true ↔
      (mapGet nodes k).isSome = true ∨ (s = k ∧ k ≠ "") := by
  rcases ensureNode_cases nodes s with ⟨heq, hor⟩ | ⟨hne, hnone, heq⟩
  · rw [heq]
    constructor
    · exact Or.inl
    · rintro (h | ⟨rfl, hk⟩)
      · exact h
      · rcases hor with h | h
        · exact absurd h hk
        · exact h
  · rw [heq, mapGet_isSome_iff, mapGet_isSome_iff, List.map_append, List.mem_append]
    simp only [List.map_cons, List.map_nil, List.mem_singleton]
    constructor
    · rintro (h | h)
      · exact Or.inl h
      · exact Or.inr ⟨h.symm, h ▸ hne⟩
    · rintro (h | ⟨h, _⟩)
      · exact Or.inl h
      · exact Or.inr h.symm

theorem mapSet_isSome_iff {V : Type} (m : List (String × V)) (k' k : String) (v : V) :
    (mapGet (mapSet m k' v) k).isSome = true ↔ (mapGet m k).isSome = true ∨ k = k' := by
  rw [mapGet_isSome_iff, mapGet_isSome_iff, mapSet_keys]
  by_cases h : k' ∈ m.map Prod.fst
  · rw [if_pos h]
    constructor
    · exact Or.inl
    · rintro (h1 | rfl)
      · exact h1
      · exact h
  · rw [if_neg h, List.mem_append, List.mem_singleton]

/-- The nodes after one step of the loop: those before, the emitter and, for an
interaction, the destination. -/
theorem replayStep_node_keys (unmarshal : String → String → Option String)
    (st st' : ReplayState) (e : Event) (hstep : replayStep unmarshal st e = some st')
    (k : String) :
    (mapGet st'.nodes k).isSome = true ↔
      (mapGet st.nodes k).isSome = true ∨
        (k ≠ "" ∧ (e.service = k ∨ rpcDest unmarshal e = some k)) := by
  rcases replayStep_cases unmarshal e with ⟨d, hty, hu, hne⟩ | ⟨s, hty, hs⟩ | ⟨h1, h2⟩
  · have hd : rpcDest unmarshal e = some d := (rpcDest_eq_some unmarshal e d).2 ⟨hty, hu, hne⟩
    rw [replayStep_rpc unmarshal st e d hty hu hne] at hstep
    cases hstep
    simp only
    rw [ensureNode_isSome_iff, ensureNode_isSome_iff, hd]
    simp only [Option.some.injEq]
    tauto
  · have hd : rpcDest unmarshal e = none := by
      unfold rpcDest
      rw [if_neg (by rw [hty]; simp)]
    cases hg : mapGet (ensureNode st.nodes e.service) e.service with
    | none =>
      rw [replayStep_health_none unmarshal st e s hty hs hg] at hstep
      cases hstep
    | some node =>
      rw [replayStep_health unmarshal st e s node hty hs hg] at hstep
      cases hstep
      simp only
      rw [mapSet_isSome_iff, ensureNode_isSome_iff, hd]
      have hsome : (mapGet (ensureNode st.nodes e.service) e.service).isSome = true := by
        rw [hg]; rfl
      rw [ensureNode_isSome_iff] at hsome
      constructor
      · rintro ((h | h) | h)
        · exact Or.inl h
        · exact Or.inr ⟨h.2, Or.inl h.1⟩
        · subst h
          rcases hsome with h | h
          · exact Or.inl h
          · exact Or.inr ⟨h.2, Or.inl rfl⟩
      · rintro (h | ⟨h1, h2 | h2⟩)
        · exact Or.inl (Or.inl h)
        · exact Or.inl (Or.inr ⟨h2, h1⟩)
        · cases h2
  · have hd : rpcDest unmarshal e = none := by
      cases hr : rpcDest unmarshal e with
      | none => rfl
      | some d =>
        obtain ⟨hty, hu, hne⟩ := (rpcDest_eq_some unmarshal e d).1 hr
        exact absurd (h1 hty d hu) hne
    rw [replayStep_other unmarshal st e h1 h2] at hstep
    cases hstep
    simp only
    rw [ensureNode_isSome_iff, hd]
    constructor
    · rintro (h | h)
      · exact Or.inl h
      · exact Or.inr ⟨h.2, Or.inl h.1⟩
    · rintro (h | ⟨h1, h2 | h2⟩)
      · exact Or.inl h
      · exact Or.inr ⟨h2, h1⟩
      · cases h2

/-- The nodes after a replay: those before, and the non-empty names of the emitters and of
the destinations of the interactions replayed. -/
theorem replayAll_node_keys (unmarshal : String → String → Option String) (k : String)
    (l : List Event) :
    ∀ st st', replayAll unmarshal st l = some st' →
      ((mapGet st'.nodes k).isSome = true ↔
        (mapGet st.nodes k).isSome = true ∨
          (k ≠ "" ∧ ∃ e ∈ l, e.service = k ∨ rpcDest unmarshal e = some k)) := by
  induction l with
  | nil =>
    intro st st' h
    simp only [replayAll, Option.some.injEq] at h
    subst h
    simp
  | cons e l ih =>
    intro st st' h
    simp only [replayAll] at h
    cases hstep : replayStep unmarshal st e with
    | none => rw [hstep] at h; cases h
    | some st₁ =>
      rw [hstep] at h
      simp only at h
      rw [ih st₁ st' h, replayStep_node_keys unmarshal st st₁ e hstep k]
      constructor
      · rintro ((h1 | ⟨h1, h2⟩) | ⟨h1, x, hx, h2⟩)
        · exact Or.inl h1
        · exact Or.inr ⟨h1, e, List.mem_cons_self _ _, h2⟩
        · exact Or.inr ⟨h1, x, List.mem_cons_of_mem _ hx, h2⟩
      · rintro (h1 | ⟨h1, x, hx, h2⟩)
        · exact Or.inl (Or.inl h1)
        · rcases List.mem_cons.1 hx with rfl | hx
          · exact Or.inl (Or.inr ⟨h1, h2⟩)
          · exact Or.inr ⟨h1, x, hx, h2⟩

/-- The edge and interaction maps evolve on their own: two replays of the same events from
states with the same two maps end with the same two maps. -/
theorem replayAll_edges_congr (unmarshal : String → String → Option String) (l : List Event) :
    ∀ st₁ st₂ st₁' st₂', st₁.edges = st₂.edges → st₁.edgeInteractions = st₂.edgeInteractions →
      replayAll unmarshal st₁ l = some st₁' → replayAll unmarshal st₂ l = some st₂' →
      st₁'.edges = st₂'.edges ∧ st₁'.edgeInteractions = st₂'.edgeInteractions := by
  induction l with
  | nil =>
    intro st₁ st₂ st₁' st₂' he hi h1 h2
    simp only [replayAll, Option.some.injEq] at h1 h2
    subst h1 h2
    exact ⟨he, hi⟩
  | cons e l ih =>
    intro st₁ st₂ st₁' st₂' he hi h1 h2
    simp only [replayAll] at h1 h2
    cases hs1 : replayStep unmarshal st₁ e with
    | none => rw [hs1] at h1; cases h1
    | some s1 =>
      cases hs2 : replayStep unmarshal st₂ e with
      | none => rw [hs2] at h2; cases h2
      | some s2 =>
        rw [hs1] at h1
        rw [hs2] at h2
        simp only at h1 h2
        refine ih s1 s2 st₁' st₂' ?_ ?_ h1 h2
        · cases hd : rpcDest unmarshal e with
          | none =>
            rw [(replayStep_of_no_dest unmarshal st₁ s1 e hd hs1).1,
              (replayStep_of_no_dest unmarshal st₂ s2 e hd hs2).1, he]
          | some d =>
            rw [replayStep_of_dest unmarshal st₁ e d hd] at hs1
            rw [replayStep_of_dest unmarshal st₂ e d hd] at hs2
            cases hs1
            cases hs2
            simp only [he]
        · cases hd : rpcDest unmarshal e with
          | none =>
            rw [(replayStep_of_no_dest unmarshal st₁ s1 e hd hs1).2,
              (replayStep_of_no_dest unmarshal st₂ s2 e hd hs2).2, hi]
          | some d =>
            rw [replayStep_of_dest unmarshal st₁ e d hd] at hs1
            rw [replayStep_of_dest unmarshal st₂ e d hd] at hs2
            cases hs1
            cases hs2
            simp only [hi]

theorem replayAll_append (unmarshal : String → String → Option String) (l₁ l₂ : List Event) :
    ∀ st, replayAll unmarshal st (l₁ ++ l₂) =
      (replayAll unmarshal st l₁).bind (fun st₁ => replayAll unmarshal st₁ l₂) := by
  induction l₁ with
  | nil => intro st; rfl
  | cons e l₁ ih =>
    intro st
    simp only [List.cons_append, replayAll]
    cases replayStep unmarshal st e with
    | none => rfl
    | some st₁ => exact ih st₁

/-! ## Assembling from states with the same edges and health -/

/-- What `assemble` builds depends on the node map only through the set of nodes and their
health. -/
theorem assemble_congr (atTs : Int) (rs rs' : ReplayState) (he : rs'.edges = rs.edges)
    (hi : rs'.edgeInteractions = rs.edgeInteractions)
    (hh : ∀ t, healthOf rs'.nodes t = healthOf rs.nodes t) :
    (assemble atTs rs').2 = (assemble atTs rs).2 ∧
      (assemble atTs rs').1.edges = (assemble atTs rs).1.edges ∧
      ∀ k, finalNode rs' k = finalNode rs k := by
  have hc : ∀ s p, contribution rs' s p = contribution rs s p := by
    intro s p
    unfold contribution
    rw [he]
    cases mapGet rs.edges p.1 with
    | none => rfl
    | some edge => simp only [hh]
  have ht : ∀ s, totalAmp rs' s = totalAmp rs s := by
    intro s
    unfold totalAmp
    rw [hi]
    exact congrArg List.sum (List.map_congr_left (fun p _ => hc s p))
  have hev : ∀ k edge, evidenceOf atTs rs' k edge = evidenceOf atTs rs k edge := by
    intro k edge
    unfold evidenceOf
    rw [hh, hi]
  have hef : ∀ k, evidenceFor atTs rs' k = evidenceFor atTs rs k := by
    intro k
    unfold evidenceFor
    rw [he]
    cases mapGet rs.edges k with
    | none => rfl
    | some edge => exact hev k edge
  refine ⟨?_, ?_, ?_⟩
  · simp only [assemble, hi]
    exact List.map_congr_left (fun p _ => by rw [hef])
  · simp only [assemble, scoredEdges, he]
    congr 2
    exact List.map_congr_left (fun p _ => by rw [hev])
  · intro k
    unfold finalNode
    rw [hh, ht]

/-- A service without a node has no amplification total. -/
theorem totalAmp_of_no_node (rs : ReplayState) (hrs : ReplayInv rs) (s : String)
    (hs : s ≠ "") (hno : mapGet rs.nodes s = none) : totalAmp rs s = 0 := by
  unfold totalAmp
  apply List.sum_eq_zero
  intro x hx
  obtain ⟨p, _, rfl⟩ := List.mem_map.1 hx
  unfold contribution
  cases hg : mapGet rs.edges p.1 with
  | none => rfl
  | some edge =>
    simp only
    rw [if_neg]
    rintro ⟨hsrc, _⟩
    have := hrs.edgeSource (p.1, edge) (mem_of_mapGet _ _ _ hg) (by rw [hsrc]; exact hs)
    simp only at this
    rw [hsrc, hno] at this
    cases this

theorem finalNode_of_no_node (rs : ReplayState) (hrs : ReplayInv rs) (s : String)
    (hs : s ≠ "") (hno : mapGet rs.nodes s = none) : finalNode rs s = freshNode s := by
  unfold finalNode freshNode
  rw [totalAmp_of_no_node rs hrs s hs hno]
  unfold healthOf
  rw [hno]

/-! ## Replay with one more event of an unknown type -/

/-- The two replays compared by C26: with an event of unknown type added at or before
`atTs`, the edge and interaction maps and every health are as without it, and the nodes are
those without it together with the emitter of the added event. -/
theorem replay_unknown (unmarshal : String → String → Option String) (A B : List Event)
    (u : Event) (hcall : u.type ≠ EventType.RPC_CALL) (herr : u.type ≠ EventType.RPC_ERROR)
    (hhc : u.type ≠ EventType.HEALTH_CHANGE) (rs : ReplayState)
    (h : replayAll unmarshal { nodes := [], edges := [], edgeInteractions := [] } (A ++ B) =
      some rs) :
    ∃ rs', replayAll unmarshal { nodes := [], edges := [], edgeInteractions := [] }
        (A ++ u :: B) = some rs' ∧
      rs'.edges = rs.edges ∧ rs'.edgeInteractions = rs.edgeInteractions ∧
      (∀ t, healthOf rs'.nodes t = healthOf rs.nodes t) ∧
      ∀ k, (mapGet rs'.nodes k).isSome = true ↔
        (mapGet rs.nodes k).isSome = true ∨ (k ≠ "" ∧ u.service = k) := by
  have hdest : rpcDest unmarshal u = none := by
    unfold rpcDest
    rw [if_neg (fun hc => hc.elim hcall herr)]
  have hgood := (replayAll_isSome_iff unmarshal _ _ replayInv_init).1 ⟨rs, h⟩
  have hugood : faulty unmarshal u = false := by
    rw [← Bool.not_eq_true, faulty_iff]
    exact fun hc => hhc hc.1
  obtain ⟨rs', h'⟩ := (replayAll_isSome_iff unmarshal (A ++ u :: B) _ replayInv_init).2 (by
    intro e he
    rcases List.mem_append.1 he with he | he
    · exact hgood e (List.mem_append_left _ he)
    · rcases List.mem_cons.1 he with rfl | he
      · exact hugood
      · exact hgood e (List.mem_append_right _ he))
  refine ⟨rs', h', ?_⟩
  -- split both replays at the end of `A`
  have hsplit := h
  rw [replayAll_append] at hsplit
  have hsplit' := h'
  rw [replayAll_append] at hsplit'
  cases hA : replayAll unmarshal { nodes := [], edges := [], edgeInteractions := [] } A with
  | none => rw [hA] at hsplit; cases hsplit
  | some stA =>
    rw [hA] at hsplit hsplit'
    simp only [Option.some_bind, replayAll] at hsplit hsplit'
    cases hU : replayStep unmarshal stA u with
    | none => rw [hU] at hsplit'; cases hsplit'
    | some stU =>
      rw [hU] at hsplit'
      simp only at hsplit'
      obtain ⟨hUe, hUi⟩ := replayStep_of_no_dest unmarshal stA stU u hdest hU
      obtain ⟨he, hi⟩ := replayAll_edges_congr unmarshal B stU stA rs' rs hUe hUi hsplit' hsplit
      refine ⟨he, hi, ?_, ?_⟩
      · intro t
        rw [replayAll_healthOf unmarshal t _ _ _ h', replayAll_healthOf unmarshal t _ _ _ h,
          List.foldl_append, List.foldl_append, List.foldl_cons,
          healthAfterEvent_of_not_health unmarshal t _ u hhc]
      · intro k
        rw [replayAll_node_keys unmarshal k _ _ _ h', replayAll_node_keys unmarshal k _ _ _ h]
        have hinit : ¬ (mapGet ({ nodes := [], edges := [], edgeInteractions := [] } :
            ReplayState).nodes k).isSome = true := by simp [mapGet]
        constructor
        · rintro (h1 | ⟨h1, x, hx, h2⟩)
          · exact absurd h1 hinit
          · rcases List.mem_append.1 hx with hx | hx
            · exact Or.inl (Or.inr ⟨h1, x, List.mem_append_left _ hx, h2⟩)
            · rcases List.mem_cons.1 hx with rfl | hx
              · rcases h2 with h2 | h2
                · exact Or.inr ⟨h1, h2⟩
                · rw [hdest] at h2; cases h2
              · exact Or.inl (Or.inr ⟨h1, x, List.mem_append_right _ hx, h2⟩)
        · rintro ((h1 | ⟨h1, x, hx, h2⟩) | ⟨h1, h2⟩)
          · exact absurd h1 hinit
          · refine Or.inr ⟨h1, x, ?_, h2⟩
            rcases List.mem_append.1 hx with hx | hx
            · exact List.mem_append_left _ hx
            · exact List.mem_append_right _ (List.mem_cons_of_mem _ hx)
          · exact Or.inr ⟨h1, u, List.mem_append_right _ (List.mem_cons_self _ _), Or.inl h2⟩

/-! ## Reconstruction with one more event of an unknown type -/

theorem finalNode_id (rs : ReplayState) (k : String) : (finalNode rs k).id = k := rfl

theorem snapshot_ext (a b : GraphSnapshot) (ht : a.timestamp = b.timestamp)
    (hn : a.nodes = b.nodes) (he : a.edges = b.edges) : a = b := by
  cases a
  cases b
  simp only at ht hn he
  rw [ht, hn, he]

/-- A snapshot has a node with a given id exactly when the replay left a node under it. -/
theorem assemble_has_id (atTs : Int) (rs : ReplayState) (k : String) :
    (∃ m ∈ (assemble atTs rs).1.nodes, m.id = k) ↔ k ∈ rs.nodes.map Prod.fst := by
  constructor
  · rintro ⟨m, hm, hid⟩
    obtain ⟨k', hk', rfl⟩ := (mem_assemble_nodes atTs rs m).1 hm
    rw [finalNode_id] at hid
    rw [← hid]
    exact hk'
  · intro hk
    exact ⟨finalNode rs k, (mem_assemble_nodes atTs rs _).2 ⟨k, hk, rfl⟩, rfl⟩

/-- What one more event of an unknown type changes in the result of `ReconstructGraph`:
nothing but, possibly, one more healthy node, for the emitter of the event. -/
theorem unknown_event (unmarshal : String → String → Option String) (atTs : Int)
    (l₁ l₂ : List Event) (u : Event) (hcall : u.type ≠ EventType.RPC_CALL)
    (herr : u.type ≠ EventType.RPC_ERROR) (hhc : u.type ≠ EventType.HEALTH_CHANGE) :
    (ReconstructGraph unmarshal atTs (l₁ ++ l₂) = none →
        ReconstructGraph unmarshal atTs (l₁ ++ u :: l₂) = none) ∧
      ∀ snap ev, ReconstructGraph unmarshal atTs (l₁ ++ l₂) = some (snap, ev) →
        ∃ snap', ReconstructGraph unmarshal atTs (l₁ ++ u :: l₂) = some (snap', ev) ∧
          snap'.timestamp = snap.timestamp ∧ snap'.edges = snap.edges ∧
          ((u.service ≠ "" ∧ u.ts ≤ atTs ∧ ∀ m ∈ snap.nodes, m.id ≠ u.service) →
            snap'.nodes.Perm (freshNode u.service :: snap.nodes)) ∧
          ((u.service = "" ∨ atTs < u.ts ∨ ∃ m ∈ snap.nodes, m.id = u.service) →
            snap' = snap) := by
  obtain ⟨A, B, hs', hs⟩ :=
    sortSlice_insert eventLess (fun e => toLex (e.ts, e.id)) eventLess_iff u l₂ l₁
  have hr : replayEvents unmarshal atTs (l₁ ++ l₂) =
      replayAll unmarshal { nodes := [], edges := [], edgeInteractions := [] }
        (A.filter (fun e => decide (e.ts ≤ atTs)) ++
          B.filter (fun e => decide (e.ts ≤ atTs))) := by
    rw [replayEvents_eq, hs, List.filter_append]
  by_cases hu : u.ts ≤ atTs
  · have hr' : replayEvents unmarshal atTs (l₁ ++ u :: l₂) =
        replayAll unmarshal { nodes := [], edges := [], edgeInteractions := [] }
          (A.filter (fun e => decide (e.ts ≤ atTs)) ++
            u :: B.filter (fun e => decide (e.ts ≤ atTs))) := by
      have hf : (u :: B).filter (fun e => decide (e.ts ≤ atTs)) =
          u :: B.filter (fun e => decide (e.ts ≤ atTs)) :=
        List.filter_cons_of_pos (by simpa using hu)
      rw [replayEvents_eq, hs', List.filter_append, hf]
    have hugood : faulty unmarshal u = false := by
      rw [← Bool.not_eq_true, faulty_iff]
      exact fun hc => hhc hc.1
    constructor
    · intro h
      rw [ReconstructGraph_closed, Option.map_eq_none'] at h ⊢
      rw [hr] at h
      rw [hr']
      cases h' : replayAll unmarshal { nodes := [], edges := [], edgeInteractions := [] }
          (A.filter (fun e => decide (e.ts ≤ atTs)) ++
            u :: B.filter (fun e => decide (e.ts ≤ atTs))) with
      | none => rfl
      | some rs' =>
        exfalso
        have hgood := (replayAll_isSome_iff unmarshal _ _ replayInv_init).1 ⟨rs', h'⟩
        obtain ⟨rs, hrs⟩ := (replayAll_isSome_iff unmarshal
          (A.filter (fun e => decide (e.ts ≤ atTs)) ++
            B.filter (fun e => decide (e.ts ≤ atTs))) _ replayInv_init).2 (by
          intro e he
          rcases List.mem_append.1 he with he | he
          · exact hgood e (List.mem_append_left _ he)
          · exact hgood e (List.mem_append_right _ (List.mem_cons_of_mem _ he)))
        rw [hrs] at h
        cases h
    · intro snap ev h
      rw [ReconstructGraph_closed, hr] at h
      cases hrs : replayAll unmarshal { nodes := [], edges := [], edgeInteractions := [] }
          (A.filter (fun e => decide (e.ts ≤ atTs)) ++
            B.filter (fun e => decide (e.ts ≤ atTs))) with
      | none => rw [hrs] at h; cases h
      | some rs =>
        rw [hrs] at h
        simp only [Option.map_some', Option.some.injEq] at h
        obtain ⟨rs', hrs', he, hi, hh, hkeys⟩ :=
          replay_unknown unmarshal _ _ u hcall herr hhc rs hrs
        obtain ⟨hev, hedges, hfinal⟩ := assemble_congr atTs rs rs' he hi hh
        have hinv := replayAll_inv unmarshal _ _ _ replayInv_init hrs
        have hinv' := replayAll_inv unmarshal _ _ _ replayInv_init hrs'
        have hsnap : snap = (assemble atTs rs).1 := by rw [h]
        have hevid : ev = (assemble atTs rs).2 := by rw [h]
        have hmem : ∀ k, k ∈ rs'.nodes.map Prod.fst ↔
            k ∈ rs.nodes.map Prod.fst ∨ (k ≠ "" ∧ u.service = k) := by
          intro k
          rw [← mapGet_isSome_iff, ← mapGet_isSome_iff]
          exact hkeys k
        have hnodes' : (assemble atTs rs').1.nodes =
            sortSlice nodeLess ((rs'.nodes.map Prod.fst).map (finalNode rs)) := by
          show sortSlice nodeLess ((rs'.nodes.map Prod.fst).map (finalNode rs')) = _
          congr 1
          exact List.map_congr_left (fun k _ => hfinal k)
        refine ⟨(assemble atTs rs').1, ?_, ?_, ?_, ?_, ?_⟩
        · rw [ReconstructGraph_closed, hr', hrs', Option.map_some', hevid, ← hev]
        · rw [hsnap]; rfl
        · rw [hsnap]; exact hedges
        · rintro ⟨hne, _, hno⟩
          have hnotin : u.service ∉ rs.nodes.map Prod.fst := by
            intro hc
            rw [hsnap] at hno
            obtain ⟨m, hm, hid⟩ := (assemble_has_id atTs rs u.service).2 hc
            exact hno m hm hid
          have hperm : (rs'.nodes.map Prod.fst).Perm (u.service :: rs.nodes.map Prod.fst) := by
            rw [List.perm_ext_iff_of_nodup hinv'.nodesInv.1
              (List.nodup_cons.2 ⟨hnotin, hinv.nodesInv.1⟩)]
            intro k
            rw [hmem k, List.mem_cons]
            constructor
            · rintro (hk | ⟨_, hk⟩)
              · exact Or.inr hk
              · exact Or.inl hk.symm
            · rintro (hk | hk)
              · exact Or.inr ⟨hk ▸ hne, hk.symm⟩
              · exact Or.inl hk
          rw [hnodes', hsnap]
          refine (sortSlice_perm _ _).trans ?_
          refine (hperm.map (finalNode rs)).trans ?_
          rw [List.map_cons, finalNode_of_no_node rs hinv u.service hne
            ((mapGet_eq_none_iff _ _).2 hnotin)]
          exact List.Perm.cons _ (sortSlice_perm _ _).symm
        · intro hcase
          have hold : u.service = "" ∨ u.service ∈ rs.nodes.map Prod.fst := by
            rcases hcase with hc | hc | hc
            · exact Or.inl hc
            · exact absurd hu (not_le.2 hc)
            · rw [hsnap] at hc
              exact Or.inr ((assemble_has_id atTs rs u.service).1 hc)
          have hperm : (rs'.nodes.map Prod.fst).Perm (rs.nodes.map Prod.fst) := by
            rw [List.perm_ext_iff_of_nodup hinv'.nodesInv.1 hinv.nodesInv.1]
            intro k
            rw [hmem k]
            constructor
            · rintro (hk | ⟨hk, hk'⟩)
              · exact hk
              · rcases hold with ho | ho
                · exact absurd (hk' ▸ ho) hk
                · exact hk' ▸ ho
            · exact Or.inl
          rw [hsnap]
          refine snapshot_ext (assemble atTs rs').1 (assemble atTs rs).1 rfl ?_ hedges
          rw [hnodes']
          show _ = sortSlice nodeLess ((rs.nodes.map Prod.fst).map (finalNode rs))
          apply sortSlice_unique nodeLess (fun n => n.id) nodeLess_iff _ _
            (hperm.map (finalNode rs))
          intro a ha b hb hab
          obtain ⟨ka, _, rfl⟩ := List.mem_map.1 ha
          obtain ⟨kb, _, rfl⟩ := List.mem_map.1 hb
          rw [finalNode_id, finalNode_id] at hab
          rw [hab]
  · have hsame : replayEvents unmarshal atTs (l₁ ++ u :: l₂) =
        replayEvents unmarshal atTs (l₁ ++ l₂) := by
      have hf : (u :: B).filter (fun e => decide (e.ts ≤ atTs)) =
          B.filter (fun e => decide (e.ts ≤ atTs)) :=
        List.filter_cons_of_neg (by simpa using hu)
      rw [hr, replayEvents_eq, hs', List.filter_append, hf]
    have hRG : ReconstructGraph unmarshal atTs (l₁ ++ u :: l₂) =
        ReconstructGraph unmarshal atTs (l₁ ++ l₂) := by
      rw [ReconstructGraph_closed, ReconstructGraph_closed, hsame]
    rw [hRG]
    refine ⟨id, fun snap ev h => ⟨snap, h, rfl, rfl, ?_, fun _ => rfl⟩⟩
    rintro ⟨_, hle, _⟩
    exact absurd hle hu

/-! ## Unknown event types -/

/-! ## Snapshot keys and the reverse seek -/

theorem snapshotKey_data (ts : Int) :
    (snapshotKey ts).data = "snapshot:".data ++ (pad20 ts).data := by
  simp [snapshotKey, String.data_append]

theorem hasSnapshotTag_snapshotKey (ts : Int) : hasSnapshotTag (snapshotKey ts) = true := by
  unfold hasSnapshotTag
  rw [snapshotKey_data]
  simp

theorem hasSnapshotTag_eventKey (ts : Int) (id : String) :
    hasSnapshotTag (eventKey ts id) = false := by
  unfold hasSnapshotTag
  rw [eventKey_data]
  rfl

/-- Every event key sorts before every snapshot key. -/
theorem eventKey_lt_snapshotKey (t : Int) (id : String) (ts : Int) :
    eventKey t id < snapshotKey ts := by
  rw [string_lt_iff_lex, eventKey_data, snapshotKey_data]
  exact List.Lex.rel (by decide)

theorem snapshotKey_lt_iff_pad (a b : Int) :
    snapshotKey a < snapshotKey b ↔ List.Lex (· < ·) (pad20 a).data (pad20 b).data := by
  rw [string_lt_iff_lex, snapshotKey_data, snapshotKey_data, lex_append_left]

theorem snapshotKey_eq_iff_pad (a b : Int) :
    snapshotKey a = snapshotKey b ↔ (pad20 a).data = (pad20 b).data := by
  constructor
  · intro h
    have hd := congrArg String.data h
    rw [snapshotKey_data, snapshotKey_data] at hd
    exact List.append_cancel_left hd
  · intro h
    apply String.ext
    rw [snapshotKey_data, snapshotKey_data, h]

/-- Against the key of a non-negative timestamp, snapshot keys compare as timestamps do. -/
theorem snapshotKey_le_iff (a b : Int) (hb : 0 ≤ b) (hb' : b < 2 ^ 63) (ha : -2 ^ 63 ≤ a)
    (ha' : a < 2 ^ 63) : snapshotKey a ≤ snapshotKey b ↔ a ≤ b := by
  rw [← not_lt, snapshotKey_lt_iff_pad, (pad20_lex_iff b a hb hb' ha ha').1, not_lt]

/-- Among negative timestamps the padded notation reverses the order. -/
theorem pad20_lex_neg (a b : Int) (ha : a < 0) (ha' : -2 ^ 63 ≤ a) (hb : b < 0)
    (hb' : -2 ^ 63 ≤ b) :
    (List.Lex (· < ·) (pad20 a).data (pad20 b).data ↔ b < a) ∧
      ((pad20 a).data = (pad20 b).data ↔ a = b) := by
  rw [pad20_data_neg a ha, pad20_data_neg b hb]
  obtain ⟨h1, h2⟩ := decimalDigits_lex 19 a.natAbs b.natAbs (by omega) (by omega)
  constructor
  · rw [lex_cons_cons, h1]
    constructor
    · rintro (h | ⟨_, h⟩)
      · exact absurd h (lt_irrefl _)
      · omega
    · intro h
      exact Or.inr ⟨rfl, by omega⟩
  · rw [List.cons.injEq, h2]
    constructor
    · rintro ⟨_, h⟩; omega
    · intro h; exact ⟨rfl, by omega⟩

/-- Between the keys of two negative timestamps, the smaller timestamp has the larger key. -/
theorem snapshotKey_le_neg (a b : Int) (ha : a < 0) (ha' : -2 ^ 63 ≤ a) (hb : b < 0)
    (hb' : -2 ^ 63 ≤ b) : snapshotKey a ≤ snapshotKey b ↔ b ≤ a := by
  rw [← not_lt, snapshotKey_lt_iff_pad, (pad20_lex_neg b a hb hb' ha ha').1, not_lt]

theorem mem_storedSnapshots (store : List (String × Value)) (s : GraphSnapshot) :
    s ∈ storedSnapshots store ↔ ∃ k, (k, Value.snapshot s) ∈ store := by
  unfold storedSnapshots
  rw [List.mem_filterMap]
  constructor
  · rintro ⟨⟨k, v⟩, hp, hv⟩
    cases v with
    | event e => simp at hv
    | snapshot s' =>
      simp only [Option.some.injEq] at hv
      rw [← hv]
      exact ⟨k, hp⟩
  · rintro ⟨k, hk⟩
    exact ⟨(k, Value.snapshot s), hk, rfl⟩

/-- Where a reverse seek lands in a key-sorted list: on the entry with the greatest key at
most the key sought. -/
theorem reverse_seek_head (K : String) (store : List (String × Value))
    (hs : store.Pairwise (fun a b => a.1 < b.1)) (p : String × Value) (hp : p ∈ store)
    (hle : p.1 ≤ K) (hmax : ∀ q ∈ store, q.1 ≤ K → q.1 ≤ p.1) :
    ∃ rest, store.reverse.dropWhile (fun q => decide (K < q.1)) = p :: rest := by
  have hs' : store.reverse.Pairwise (fun a b => b.1 < a.1) := List.pairwise_reverse.2 hs
  have hp' : p ∈ store.reverse := List.mem_reverse.2 hp
  have hmax' : ∀ q ∈ store.reverse, q.1 ≤ K → q.1 ≤ p.1 :=
    fun q hq => hmax q (List.mem_reverse.1 hq)
  generalize store.reverse = l at hs' hp' hmax'
  induction l with
  | nil => cases hp'
  | cons x l ih =>
    by_cases hx : K < x.1
    · rw [List.dropWhile_cons_of_pos (by simpa using hx)]
      rcases List.mem_cons.1 hp' with rfl | hmem
      · exact absurd hx (not_lt.2 hle)
      · exact ih (List.pairwise_cons.1 hs').2 hmem
          (fun q hq => hmax' q (List.mem_cons_of_mem _ hq))
    · rw [List.dropWhile_cons_of_neg (by simpa using hx)]
      rcases List.mem_cons.1 hp' with rfl | hmem
      · exact ⟨l, rfl⟩
      · exfalso
        have h1 := (List.pairwise_cons.1 hs').1 p hmem
        have h2 := hmax' x (List.mem_cons_self _ _) (not_lt.1 hx)
        exact absurd h1 (not_lt.2 h2)

/-- The entry a reverse seek lands on is an entry of the list with a key at most the key
sought. -/
theorem reverse_seek_spec (K : String) (l : List (String × Value)) (p : String × Value)
    (rest : List (String × Value))
    (h : l.dropWhile (fun q => decide (K < q.1)) = p :: rest) : p ∈ l ∧ p.1 ≤ K := by
  induction l with
  | nil => cases h
  | cons x l ih =>
    by_cases hx : K < x.1
    · rw [List.dropWhile_cons_of_pos (by simpa using hx)] at h
      exact ⟨List.mem_cons_of_mem _ (ih h).1, (ih h).2⟩
    · rw [List.dropWhile_cons_of_neg (by simpa using hx)] at h
      cases h
      exact ⟨List.mem_cons_self _ _, not_lt.1 hx⟩

/-! ## Closed description of the snapshot lookup -/

/-- A stored snapshot sits under its own snapshot key. -/
theorem stored_snapshot_entry (store : List (String × Value)) (hinv : StoreInv store)
    (s : GraphSnapshot) (hs : s ∈ storedSnapshots store) :
    (snapshotKey s.timestamp, Value.snapshot s) ∈ store := by
  obtain ⟨k, hk⟩ := (mem_storedSnapshots store s).1 hs
  rcases hinv.2 _ hk with ⟨e, he, _⟩ | ⟨s', hs', hkey⟩
  · cases he
  · simp only [Value.snapshot.injEq] at hs'
    simp only at hkey
    rw [hkey, ← hs'] at hk
    exact hk

/-- What `GetSnapshot` answers on a well-formed database, for a non-negative `ts`. -/
theorem GetSnapshot_spec (store : List (String × Value)) (hinv : StoreInv store)
    (hts : ∀ s ∈ storedSnapshots store, -2 ^ 63 ≤ s.timestamp ∧ s.timestamp < 2 ^ 63)
    (ts : Int) (h0 : 0 ≤ ts) (h1 : ts < 2 ^ 63) :
    ((∀ s ∈ storedSnapshots store, ts < s.timestamp) → GetSnapshot store ts = some none) ∧
      (∀ s ∈ storedSnapshots store, 0 ≤ s.timestamp → s.timestamp ≤ ts →
        (∀ s' ∈ storedSnapshots store, s'.timestamp ≤ ts → s'.timestamp ≤ s.timestamp) →
          GetSnapshot store ts = some (some s)) ∧
      (∀ s ∈ storedSnapshots store, s.timestamp < 0 →
        (∀ s' ∈ storedSnapshots store, s'.timestamp ≤ ts →
          s'.timestamp < 0 ∧ s.timestamp ≤ s'.timestamp) →
          GetSnapshot store ts = some (some s)) := by
  have hfound : ∀ s ∈ storedSnapshots store, snapshotKey s.timestamp ≤ snapshotKey ts →
      (∀ s' ∈ storedSnapshots store, s'.timestamp ≤ ts →
        snapshotKey s'.timestamp ≤ snapshotKey s.timestamp) →
      GetSnapshot store ts = some (some s) := by
    intro s hs hle hmax
    obtain ⟨rest, hseek⟩ := reverse_seek_head (snapshotKey ts) store hinv.1
      (snapshotKey s.timestamp, Value.snapshot s) (stored_snapshot_entry store hinv s hs) hle (by
        intro q hq hqle
        rcases hinv.2 q hq with ⟨e, _, hk⟩ | ⟨s', hv, hk⟩
        · rw [hk]
          exact le_of_lt (eventKey_lt_snapshotKey _ _ _)
        · have hs' : s' ∈ storedSnapshots store :=
            (mem_storedSnapshots store s').2 ⟨q.1, by rw [← hv]; exact hq⟩
          rw [hk] at hqle ⊢
          exact hmax s' hs' ((snapshotKey_le_iff _ _ h0 h1 (hts s' hs').1 (hts s' hs').2).1 hqle))
    unfold GetSnapshot
    rw [hseek]
    simp only [hasSnapshotTag_snapshotKey, Bool.true_eq_false, if_false]
  refine ⟨?_, ?_, ?_⟩
  · intro hnone
    unfold GetSnapshot
    cases hseek : store.reverse.dropWhile (fun p => decide (snapshotKey ts < p.1)) with
    | nil => rfl
    | cons p rest =>
      obtain ⟨hp, hle⟩ := reverse_seek_spec (snapshotKey ts) _ p rest hseek
      have hp' := List.mem_reverse.1 hp
      rcases hinv.2 p hp' with ⟨e, _, hk⟩ | ⟨s', hv, hk⟩
      · obtain ⟨k, v⟩ := p
        simp only at hk
        simp only [hk, hasSnapshotTag_eventKey, if_true]
      · exfalso
        have hs' : s' ∈ storedSnapshots store :=
          (mem_storedSnapshots store s').2 ⟨p.1, by rw [← hv]; exact hp'⟩
        rw [hk] at hle
        exact absurd (hnone s' hs')
          (not_lt.2 ((snapshotKey_le_iff _ _ h0 h1 (hts s' hs').1 (hts s' hs').2).1 hle))
  · intro s hs hs0 hle hmax
    refine hfound s hs ((snapshotKey_le_iff _ _ h0 h1 (hts s hs).1 (hts s hs).2).2 hle) ?_
    intro s' hs' hle'
    exact (snapshotKey_le_iff _ _ hs0 (hts s hs).2 (hts s' hs').1 (hts s' hs').2).2
      (hmax s' hs' hle')
  · intro s hs hneg hmin
    refine hfound s hs ((snapshotKey_le_iff _ _ h0 h1 (hts s hs).1 (hts s hs).2).2
      (le_trans (le_of_lt hneg) h0)) ?_
    intro s' hs' hle'
    obtain ⟨hn', hge⟩ := hmin s' hs' hle'
    exact (snapshotKey_le_neg _ _ hn' (hts s' hs').1 hneg (hts s hs).1).2 hge

/-! ## Snapshot cache lookup -/

/-- C25 (snapshot cache lookup) fails on the code: with snapshots saved for the timestamps
`-1` and `-2`, both at or before `0`, the snapshot closest to `0` is the one stamped `-1`;
the reverse seek of `GetSnapshot(0)` lands on the key of `-2`, which sorts after the key of
`-1`, and returns the snapshot stamped `-2`. With the snapshots stamped `300` and `100` the
lookup at `200` returns the one stamped `100`, the closest at or before `200`. -/
theorem snapshot_lookup_negative :
    storedSnapshots
        (runOps [StoreOp.save (emptySnapshot (-1)), StoreOp.save (emptySnapshot (-2))]) =
      [emptySnapshot (-1), emptySnapshot (-2)] ∧
      (snapshotKey (-1) < snapshotKey (-2) ∧ snapshotKey (-2) < snapshotKey 0) ∧
      GetSnapshot
          (runOps [StoreOp.save (emptySnapshot (-1)), StoreOp.save (emptySnapshot (-2))]) 0 =
        some (some (emptySnapshot (-2))) ∧
      GetSnapshot (runOps [StoreOp.ingest [callAB, downB],
          StoreOp.save (emptySnapshot 300), StoreOp.save (emptySnapshot 100)]) 200 =
        some (some (emptySnapshot 100)) := by
  refine ⟨by decide!, by decide!, by decide!, by decide!⟩

/-! ## Engine window -/

/-- On a well-formed database of non-negative timestamps `GetGraphAt(ts)`, for `ts` at
least one window after `0`, is `ReconstructGraph` on the first 10,000 stored events of the
half-open range `[ts - 3,600,000, ts)`: the events stamped `ts` itself are not fetched. -/
theorem GetGraphAt_closed (unmarshal : String → String → Option String)
    (store : List (String × Value)) (hinv : StoreInv store)
    (hts : ∀ e ∈ storedEvents store, 0 ≤ e.ts ∧ e.ts < 2 ^ 63)
    (ts : Int) (h0 : 0 ≤ ts) (h1 : ts < 2 ^ 63) :
    GetGraphAt unmarshal store ts =
      (ReconstructGraph unmarshal ts
        (((storedEvents store).filter
          (fun e => decide (max 0 (ts - 3600000) ≤ e.ts ∧ e.ts < ts))).take 10000)).map
        (fun r => Except.ok r.1) := by
  have hw : wrap64 (ts - 3600 * 1000) = ts - 3600000 := by
    unfold wrap64
    omega
  have hstart : (if wrap64 (ts - 3600 * 1000) < 0 then 0 else wrap64 (ts - 3600 * 1000)) =
      max 0 (ts - 3600000) := by
    rw [hw]
    split_ifs with h
    · rw [max_eq_left (le_of_lt h)]
    · rw [max_eq_right (not_lt.1 h)]
  unfold GetGraphAt reconstructGraphWithEvidence
  simp only [hstart]
  rw [GetEvents_closed store hinv hts _ ts (by omega) (by omega) (by omega) h1]
  have hfilter : ((storedEvents store).filter (inRange (max 0 (ts - 3600000)) ts)).filter
      (serviceMatch "") = (storedEvents store).filter
        (fun e => decide (max 0 (ts - 3600000) ≤ e.ts ∧ e.ts < ts)) := by
    rw [List.filter_filter]
    apply List.filter_congr
    intro e _
    simp [serviceMatch, inRange]
  simp only [hfilter, List.drop_zero, Int.toNat_zero]
  have h10 : (10000 : Int).toNat = 10000 := rfl
  rw [h10]
  cases ReconstructGraph unmarshal ts
      (((storedEvents store).filter
        (fun e => decide (max 0 (ts - 3600000) ≤ e.ts ∧ e.ts < ts))).take 10000) with
  | none => rfl
  | some r => rfl

/-- C21 (engine window) fails on the boundary: with the two events of
`TestReconstructGraph` stored, the events stamped from `max(0, 200 - 3,600,000)` to `200`
are both events, and `ReconstructGraph(200, ·)` on them shows `B` with health status `2`;
`GetGraphAt(200)` returns what `ReconstructGraph` builds from the call alone, with `B`
healthy: the `HEALTH_CHANGE` stamped exactly `200` is not fetched. -/
theorem engine_window_boundary :
    (storedEvents (runOps [StoreOp.ingest [callAB, downB]])).filter
        (fun e => decide (max 0 (200 - 3600000) ≤ e.ts ∧ e.ts ≤ 200)) = [callAB, downB] ∧
      (ReconstructGraph tableUnmarshal 200 [callAB, downB]).map
          (fun r => r.1.nodes.map (fun n => (n.id, n.healthStatus))) =
        some [("A", 0), ("B", 2)] ∧
      GetGraphAt tableUnmarshal (runOps [StoreOp.ingest [callAB, downB]]) 200 =
        (ReconstructGraph tableUnmarshal 200 [callAB]).map (fun r => Except.ok r.1) ∧
      (ReconstructGraph tableUnmarshal 200 [callAB]).map
          (fun r => r.1.nodes.map (fun n => (n.id, n.healthStatus))) =
        some [("A", 0), ("B", 0)] := by
  refine ⟨by decide!, by decide!, by decide!, by decide!⟩

/-! ## Reconstruction in any order of the map loops -/

theorem ReconstructGraphIn_insertionOrder (unmarshal : String → String → Option String)
    (atTs : Int) (events : List Event) :
    ReconstructGraphIn insertionOrder unmarshal atTs events =
      ReconstructGraph unmarshal atTs events := rfl

theorem reconstructGraphWithEvidenceIn_insertionOrder
    (unmarshal : String → String → Option String) (store : List (String × Value)) (ts : Int) :
    reconstructGraphWithEvidenceIn insertionOrder unmarshal store ts =
      reconstructGraphWithEvidence unmarshal store ts := rfl

theorem insertionOrder_valid : insertionOrder.Valid :=
  ⟨fun _ => List.Perm.refl _, fun _ => List.Perm.refl _, fun _ => List.Perm.refl _⟩

theorem reverseOrder_valid : reverseOrder.Valid :=
  ⟨fun _ => List.reverse_perm _, fun _ => List.reverse_perm _, fun _ => List.reverse_perm _⟩

/-- In whatever order the loops over the maps run, `ReconstructGraphIn` returns the
snapshot of `ReconstructGraph`; the evidence map has the same entries, inserted in the order
of the scoring pass. -/
theorem ReconstructGraphIn_closed (order : MapOrder) (horder : order.Valid)
    (unmarshal : String → String → Option String) (atTs : Int) (events : List Event) :
    ReconstructGraphIn order unmarshal atTs events =
      (replayEvents unmarshal atTs events).map
        (fun rs => ((assemble atTs rs).1,
          (order.interactions rs.edgeInteractions).map
            (fun p => (p.1, evidenceFor atTs rs p.1)))) := by
  unfold ReconstructGraphIn
  cases hr : replayEvents unmarshal atTs events with
  | none => rfl
  | some rs =>
    have hrs := replayEvents_inv unmarshal atTs events rs hr
    have hall := hr
    rw [replayEvents_eq] at hall
    have hz := replayAll_amp unmarshal _ _ rs (fun p hp => by cases hp) hall
    have hname := replayAll_name unmarshal _ _ rs (fun p hp => by cases hp) hall
    simp only [Option.map_some']
    rw [scoringPass_closed atTs rs hrs hz _ (horder.1 _)]
    simp only [Option.some.injEq, Prod.mk.injEq, and_true]
    have hfinal : (scoredNodes rs).map Prod.snd = (rs.nodes.map Prod.fst).map (finalNode rs) := by
      unfold scoredNodes
      rw [List.map_map, List.map_map]
      apply List.map_congr_left
      intro p hp
      have h1 := (hrs.nodesInv.2 p hp).1
      have h2 := hname p hp
      have h3 : healthOf rs.nodes p.1 = p.2.healthStatus := by
        unfold healthOf
        rw [mapGet_of_mem rs.nodes p.1 p.2 hrs.nodesInv.1 hp]
      simp only [Function.comp, finalNode, h1, h2, h3]
    refine snapshot_ext _ _ rfl ?_ ?_
    · show sortSlice nodeLess ((order.nodes (scoredNodes rs)).map Prod.snd) =
        sortSlice nodeLess ((rs.nodes.map Prod.fst).map (finalNode rs))
      rw [← hfinal]
      apply sortSlice_unique nodeLess (fun n => n.id) nodeLess_iff _ _
        ((horder.2.1 _).map Prod.snd)
      have hnd : (((scoredNodes rs).map Prod.snd).map (fun n => n.id)).Nodup := by
        rw [hfinal, List.map_map]
        have hid : (fun n : Node => n.id) ∘ finalNode rs = id := rfl
        rw [hid, List.map_id]
        exact hrs.nodesInv.1
      exact fun a ha b hb hab => List.inj_on_of_nodup_map hnd ha hb hab
    · show sortSlice edgeLess ((order.edges (scoredEdges atTs rs)).map Prod.snd) =
        sortSlice edgeLess ((scoredEdges atTs rs).map Prod.snd)
      apply sortSlice_unique edgeLess (fun e => toLex (e.source, e.target)) edgeLess_iff _ _
        ((horder.2.2 _).map Prod.snd)
      have hnd : (((scoredEdges atTs rs).map Prod.snd).map
          (fun e => toLex (e.source, e.target))).Nodup := by
        have := replay_edge_pairs_nodup rs hrs
        unfold scoredEdges
        rw [List.map_map, List.map_map]
        exact this
      exact fun a ha b hb hab => List.inj_on_of_nodup_map hnd ha hb hab

/-! ## The proof bundle: closed form of the packing -/

/-- Closed form of the packing: it succeeds exactly when the three encoders do, and then
the archive holds the four entries of `bundleEntries`. -/
theorem packBundle_closed (lib : BundleLib) (rootEventID : String) (ts : Int)
    (snapshot : GraphSnapshot) (evidence : List (String × EdgeEvidence)) (events : List Event) :
    packBundle lib rootEventID ts snapshot evidence events =
      match lib.marshalSnapshot snapshot, lib.marshalEvidence evidence,
          lib.marshalEvents events with
      | some b₁, some b₂, some b₃ =>
        Except.ok (lib.targz (bundleEntries lib rootEventID ts b₁ b₂ b₃),
          hexEncode (lib.sum256 (lib.targz (bundleEntries lib rootEventID ts b₁ b₂ b₃))))
      | _, _, _ => Except.error BundleError.marshalFailed := by
  unfold packBundle addFile
  cases lib.marshalSnapshot snapshot with
  | none => rfl
  | some b₁ =>
    cases lib.marshalEvidence evidence with
    | none => rfl
    | some b₂ =>
      cases lib.marshalEvents events with
      | none => rfl
      | some b₃ => rfl

theorem hexDigit_mem (d : Nat) (h : d < 16) : hexDigit d ∈ "0123456789abcdef".data := by
  interval_cases d <;> decide

/-- The encoding `hexEncode` writes two characters per byte, all of them digits or lowercase
letters from `a` to `f`. -/
theorem hexEncode_lowercase (bs : List Nat) :
    (hexEncode bs).data.length = 2 * bs.length ∧
      ∀ c ∈ (hexEncode bs).data, c ∈ "0123456789abcdef".data := by
  unfold hexEncode
  constructor
  · induction bs with
    | nil => rfl
    | cons b bs ih =>
      simp only [List.flatMap_cons, List.length_append, List.length_cons, List.length_nil] at ih ⊢
      omega
  · intro c hc
    simp only [List.mem_flatMap, List.mem_cons, List.mem_singleton, List.not_mem_nil,
      or_false] at hc
    obtain ⟨b, _, rfl | rfl⟩ := hc
    · exact hexDigit_mem _ (Nat.mod_lt _ (by norm_num))
    · exact hexDigit_mem _ (Nat.mod_lt _ (by norm_num))

/-! ## What a returned bundle is made of -/

/-- What a bundle that was returned is made of. -/
theorem GenerateProofBundleIn_ok (order : MapOrder) (lib : BundleLib)
    (unmarshal : String → String → Option String) (store : List (String × Value))
    (rootEventID : String) (ts : Int) (bytes : List Nat) (hash : String)
    (h : GenerateProofBundleIn order lib unmarshal store rootEventID ts =
      some (Except.ok (bytes, hash))) :
    ∃ snapshot evidence events b₁ b₂ b₃,
      reconstructGraphWithEvidenceIn order unmarshal store ts =
        some (Except.ok (snapshot, evidence)) ∧
      lib.marshalSnapshot snapshot = some b₁ ∧ lib.marshalEvidence evidence = some b₂ ∧
      lib.marshalEvents events = some b₃ ∧
      bytes = lib.targz (bundleEntries lib rootEventID ts b₁ b₂ b₃) ∧
      hash = hexEncode (lib.sum256 bytes) := by
  unfold GenerateProofBundleIn at h
  cases hg : reconstructGraphWithEvidenceIn order unmarshal store ts with
  | none => rw [hg] at h; cases h
  | some r =>
    rw [hg] at h
    cases r with
    | error err => cases h
    | ok r =>
      obtain ⟨snapshot, evidence⟩ := r
      simp only at h
      cases hq : GetEvents store
          (if wrap64 (ts - 3600 * 10 ^ 9) < 0 then 0 else wrap64 (ts - 3600 * 10 ^ 9))
          ts "" 10000 0 with
      | none => rw [hq] at h; cases h
      | some events =>
        rw [hq] at h
        simp only [Option.some.injEq] at h
        rw [packBundle_closed] at h
        cases h1 : lib.marshalSnapshot snapshot with
        | none => rw [h1] at h; cases h
        | some b₁ =>
          cases h2 : lib.marshalEvidence evidence with
          | none => rw [h1, h2] at h; cases h
          | some b₂ =>
            cases h3 : lib.marshalEvents events with
            | none => rw [h1, h2, h3] at h; cases h
            | some b₃ =>
              rw [h1, h2, h3] at h
              simp only [Except.ok.injEq, Prod.mk.injEq] at h
              refine ⟨snapshot, evidence, events, b₁, b₂, b₃, rfl, h1, h2, h3, h.1.symm, ?_⟩
              rw [← h.2, h.1]

/-! ## Manifest consistency and the bundler's window -/

/-- C23 (manifest consistency): for every library, store, root event id and timestamp,
when `GenerateProofBundle` returns an archive, the archive is the packing of four entries
named `snapshot.json`, `evidence.json`, `events.json`, `manifest.json` in this order; the
content of the last is the encoding of a manifest carrying the root event id, the timestamp
and a file map whose keys are exactly `snapshot.json`, `evidence.json`, `events.json`; the
file map sends each of these names to the hexadecimal notation of the hash of the content
of the entry with that name, two lowercase hexadecimal digits for each byte of the hash. -/
theorem manifest_consistency (lib : BundleLib) (unmarshal : String → String → Option String)
    (store : List (String × Value)) (rootEventID : String) (ts : Int) (bytes : List Nat)
    (hash : String)
    (h : GenerateProofBundle lib unmarshal store rootEventID ts =
      some (Except.ok (bytes, hash))) :
    ∃ (entries : List TarEntry) (files : List (String × String)),
      bytes = lib.targz entries ∧
      entries.map (fun e => e.name) =
        ["snapshot.json", "evidence.json", "events.json", "manifest.json"] ∧
      (∀ e ∈ entries, e.name = "manifest.json" →
        e.content = lib.marshalManifest
          { rootEventID := rootEventID, timestamp := ts, files := files }) ∧
      files.map Prod.fst = ["snapshot.json", "evidence.json", "events.json"] ∧
      (∀ e ∈ entries, e.name ∈ files.map Prod.fst →
        mapGet files e.name = some (hexEncode (lib.sum256 e.content))) ∧
      (∀ p ∈ files, ∃ e ∈ entries, e.name = p.1 ∧ p.2 = hexEncode (lib.sum256 e.content) ∧
        p.2.data.length = 2 * (lib.sum256 e.content).length ∧
        ∀ c ∈ p.2.data, c ∈ "0123456789abcdef".data) := by
  obtain ⟨snapshot, evidence, events, b₁, b₂, b₃, _, _, _, _, hbytes, _⟩ :=
    GenerateProofBundleIn_ok insertionOrder lib unmarshal store rootEventID ts bytes hash h
  refine ⟨bundleEntries lib rootEventID ts b₁ b₂ b₃, manifestFiles lib b₁ b₂ b₃, hbytes, rfl,
    ?_, rfl, ?_, ?_⟩
  · intro e he hname
    simp only [bundleEntries, List.mem_cons, List.mem_singleton, List.not_mem_nil,
      or_false] at he
    rcases he with rfl | rfl | rfl | rfl
    · exact absurd (show "snapshot.json" = "manifest.json" from hname) (by decide)
    · exact absurd (show "evidence.json" = "manifest.json" from hname) (by decide)
    · exact absurd (show "events.json" = "manifest.json" from hname) (by decide)
    · rfl
  · intro e he hname
    simp only [bundleEntries, List.mem_cons, List.mem_singleton, List.not_mem_nil,
      or_false] at he
    rcases he with rfl | rfl | rfl | rfl
    · rfl
    · rfl
    · rfl
    · exact absurd
        (show "manifest.json" ∈ ["snapshot.json", "evidence.json", "events.json"] from hname)
        (by decide)
  · intro p hp
    simp only [manifestFiles, List.mem_cons, List.mem_singleton, List.not_mem_nil,
      or_false] at hp
    rcases hp with rfl | rfl | rfl
    · exact ⟨_, List.mem_cons_self _ _, rfl, rfl, hexEncode_lowercase _⟩
    · exact ⟨_, List.mem_cons_of_mem _ (List.mem_cons_self _ _), rfl, rfl,
        hexEncode_lowercase _⟩
    · exact ⟨_, List.mem_cons_of_mem _ (List.mem_cons_of_mem _ (List.mem_cons_self _ _)),
        rfl, rfl, hexEncode_lowercase _⟩

/-- Instance of C23: the bundle of `TestGenerateProofBundle` (two events stored, bundle at
`300` for the root event `2`) with the stand-in library. -/
theorem manifest_consistency_witness :
    GenerateProofBundle sampleLib tableUnmarshal (runOps [StoreOp.ingest [callAB, downB]])
        "2" 300 = some (Except.ok ([2, 2, 1, 1, 1, 2, 100, 200, 3, 4, 4, 4], "440c")) ∧
      ∃ (entries : List TarEntry) (files : List (String × String)),
        [2, 2, 1, 1, 1, 2, 100, 200, 3, 4, 4, 4] = sampleLib.targz entries ∧
        entries.map (fun e => e.name) =
          ["snapshot.json", "evidence.json", "events.json", "manifest.json"] ∧
        (∀ e ∈ entries, e.name = "manifest.json" →
          e.content = sampleLib.marshalManifest
            { rootEventID := "2", timestamp := 300, files := files }) ∧
        files.map Prod.fst = ["snapshot.json", "evidence.json", "events.json"] ∧
        (∀ e ∈ entries, e.name ∈ files.map Prod.fst →
          mapGet files e.name = some (hexEncode (sampleLib.sum256 e.content))) ∧
        (∀ p ∈ files, ∃ e ∈ entries, e.name = p.1 ∧
          p.2 = hexEncode (sampleLib.sum256 e.content) ∧
          p.2.data.length = 2 * (sampleLib.sum256 e.content).length ∧
          ∀ c ∈ p.2.data, c ∈ "0123456789abcdef".data) :=
  ⟨by decide!,
    manifest_consistency sampleLib tableUnmarshal (runOps [StoreOp.ingest [callAB, downB]])
      "2" 300 [2, 2, 1, 1, 1, 2, 100, 200, 3, 4, 4, 4] "440c" (by decide!)⟩

/-- C22 (bundle events window) fails: with the call `earlyCall`, stamped `1`, alone in the
store and a bundle requested at `3,600,002`, the engine's window starts at `2` and holds no
event, so the snapshot and the evidence are reconstructed from the empty list; the bundler's
own window starts at `0`, so the event list it encodes into `events.json` is `[earlyCall]`,
a list from which `ReconstructGraph` builds the nodes `A` and `B`. -/
theorem bundle_events_window_differs (lib : BundleLib) :
    GetEvents (runOps [StoreOp.ingest [earlyCall]]) (max 0 (3600002 - 3600000)) 3600002 ""
        10000 0 = some [] ∧
      reconstructGraphWithEvidence tableUnmarshal (runOps [StoreOp.ingest [earlyCall]])
          3600002 = (ReconstructGraph tableUnmarshal 3600002 []).map Except.ok ∧
      ReconstructGraph tableUnmarshal 3600002 [] = some (emptySnapshot 3600002, []) ∧
      GenerateProofBundle lib tableUnmarshal (runOps [StoreOp.ingest [earlyCall]]) "1"
          3600002 =
        some (packBundle lib "1" 3600002 (emptySnapshot 3600002) [] [earlyCall]) ∧
      (ReconstructGraph tableUnmarshal 3600002 [earlyCall]).map
          (fun r => r.1.nodes.map (fun n => n.id)) = some ["A", "B"] := by
  refine ⟨by decide!, by decide!, by decide!, ?_, by decide!⟩
  have h1 : reconstructGraphWithEvidenceIn insertionOrder tableUnmarshal
      (runOps [StoreOp.ingest [earlyCall]]) 3600002 =
        some (Except.ok (emptySnapshot 3600002, [])) := by decide!
  have h2 : GetEvents (runOps [StoreOp.ingest [earlyCall]])
      (if wrap64 (3600002 - 3600 * 10 ^ 9) < 0 then 0 else wrap64 (3600002 - 3600 * 10 ^ 9))
      3600002 "" 10000 0 = some [earlyCall] := by decide!
  unfold GenerateProofBundle GenerateProofBundleIn
  rw [h1]
  simp only [h2]

/-! ## Proof reproducibility -/

theorem packBundle_evidence_congr (lib : BundleLib) (rootEventID : String) (ts : Int)
    (snapshot : GraphSnapshot) (evidence evidence' : List (String × EdgeEvidence))
    (events : List Event) (h : lib.marshalEvidence evidence' = lib.marshalEvidence evidence) :
    packBundle lib rootEventID ts snapshot evidence' events =
      packBundle lib rootEventID ts snapshot evidence events := by
  rw [packBundle_closed, packBundle_closed, h]

/-- The bundle does not depend on the order in which the engine's loops visit their maps,
as long as the encoder of the evidence map writes a map in an order of its own. -/
theorem GenerateProofBundleIn_order (lib : BundleLib)
    (hjson : ∀ m m' : List (String × EdgeEvidence), (m.map Prod.fst).Nodup → m'.Perm m →
      lib.marshalEvidence m' = lib.marshalEvidence m)
    (order : MapOrder) (horder : order.Valid) (unmarshal : String → String → Option String)
    (store : List (String × Value)) (rootEventID : String) (ts : Int) :
    GenerateProofBundleIn order lib unmarshal store rootEventID ts =
      GenerateProofBundle lib unmarshal store rootEventID ts := by
  unfold GenerateProofBundle GenerateProofBundleIn reconstructGraphWithEvidenceIn
  simp only []
  cases GetEvents store
      (if wrap64 (ts - 3600 * 1000) < 0 then 0 else wrap64 (ts - 3600 * 1000)) ts "" 10000 0 with
  | none => rfl
  | some fetched =>
    simp only []
    rw [ReconstructGraphIn_closed order horder, ReconstructGraphIn_closed insertionOrder
      insertionOrder_valid]
    cases hr : replayEvents unmarshal ts fetched with
    | none => rfl
    | some rs =>
      have hrs := replayEvents_inv unmarshal ts fetched rs hr
      simp only [Option.map_some']
      cases GetEvents store
          (if wrap64 (ts - 3600 * 10 ^ 9) < 0 then 0 else wrap64 (ts - 3600 * 10 ^ 9))
          ts "" 10000 0 with
      | none => rfl
      | some events =>
        simp only [Option.some.injEq]
        apply packBundle_evidence_congr
        apply hjson
        · rw [List.map_map]
          have hk : (insertionOrder.interactions rs.edgeInteractions).map
              (Prod.fst ∘ fun p => (p.1, evidenceFor ts rs p.1)) =
                rs.edges.map Prod.fst := by
            rw [← hrs.interKeys]
            rfl
          rw [hk]
          exact hrs.edgesNodup
        · exact ((horder.1 _).trans (insertionOrder_valid.1 _).symm).map _

/-- C24 (proof reproducibility): take two calls of `GenerateProofBundle` with the same
root event id and timestamp on the same store, the engine's loops over its maps running in
any two orders, and a library whose encoder of the evidence map does not depend on the order
in which the entries of the map are listed (`encoding/json` writes them by ascending key).
The two calls have the same outcome: the same archive bytes and the same hash string when
they return, and the same failure otherwise. The hash returned is the hexadecimal notation
of the hash of the bytes returned. -/
theorem proof_reproducibility (lib : BundleLib)
    (hjson : ∀ m m' : List (String × EdgeEvidence), (m.map Prod.fst).Nodup → m'.Perm m →
      lib.marshalEvidence m' = lib.marshalEvidence m)
    (order₁ order₂ : MapOrder) (h₁ : order₁.Valid) (h₂ : order₂.Valid)
    (unmarshal : String → String → Option String) (store : List (String × Value))
    (rootEventID : String) (ts : Int) :
    GenerateProofBundleIn order₁ lib unmarshal store rootEventID ts =
        GenerateProofBundleIn order₂ lib unmarshal store rootEventID ts ∧
      ∀ bytes hash, GenerateProofBundleIn order₁ lib unmarshal store rootEventID ts =
        some (Except.ok (bytes, hash)) → hash = hexEncode (lib.sum256 bytes) := by
  constructor
  · rw [GenerateProofBundleIn_order lib hjson order₁ h₁,
      GenerateProofBundleIn_order lib hjson order₂ h₂]
  · intro bytes hash h
    obtain ⟨_, _, _, _, _, _, _, _, _, _, _, hhash⟩ :=
      GenerateProofBundleIn_ok order₁ lib unmarshal store rootEventID ts bytes hash h
    exact hhash

/-- Instance of C24: the bundle of `TestGenerateProofBundle` with the stand-in library, the
maps visited once in insertion order and once in the reverse order. -/
theorem proof_reproducibility_witness :
    (∀ m m' : List (String × EdgeEvidence), (m.map Prod.fst).Nodup → m'.Perm m →
        sampleLib.marshalEvidence m' = sampleLib.marshalEvidence m) ∧
      insertionOrder.Valid ∧ reverseOrder.Valid ∧
      GenerateProofBundleIn insertionOrder sampleLib tableUnmarshal
          (runOps [StoreOp.ingest [callAB, downB]]) "2" 300 =
        some (Except.ok ([2, 2, 1, 1, 1, 2, 100, 200, 3, 4, 4, 4], "440c")) ∧
      (GenerateProofBundleIn insertionOrder sampleLib tableUnmarshal
            (runOps [StoreOp.ingest [callAB, downB]]) "2" 300 =
          GenerateProofBundleIn reverseOrder sampleLib tableUnmarshal
            (runOps [StoreOp.ingest [callAB, downB]]) "2" 300 ∧
        ∀ bytes hash, GenerateProofBundleIn insertionOrder sampleLib tableUnmarshal
            (runOps [StoreOp.ingest [callAB, downB]]) "2" 300 =
          some (Except.ok (bytes, hash)) → hash = hexEncode (sampleLib.sum256 bytes)) :=
  ⟨fun _ _ _ hp => congrArg (fun n => some [n]) hp.length_eq,
    insertionOrder_valid, reverseOrder_valid, by decide!,
    proof_reproducibility sampleLib
      (fun _ _ _ hp => congrArg (fun n => some [n]) hp.length_eq)
      insertionOrder reverseOrder insertionOrder_valid reverseOrder_valid tableUnmarshal
      (runOps [StoreOp.ingest [callAB, downB]]) "2" 300⟩

/-! ## Totality of the reconstruction -/

/-- The function `ReconstructGraph` returns exactly when no event stamped at or before
`atTs` is a `HEALTH_CHANGE` with a decodable payload from a service with an empty name. -/
theorem ReconstructGraph_isSome_iff (unmarshal : String → String → Option String)
    (atTs : Int) (events : List Event) :
    (∃ snap ev, ReconstructGraph unmarshal atTs events = some (snap, ev)) ↔
      ∀ e ∈ events, e.ts ≤ atTs → faulty unmarshal e = false := by
  have hiff := replayAll_isSome_iff unmarshal
    ((sortSlice eventLess events).filter (fun e => decide (e.ts ≤ atTs))) _ replayInv_init
  rw [← replayEvents_eq] at hiff
  have hmem := (processed_spec atTs events).2.2
  constructor
  · rintro ⟨snap, ev, h⟩ e he hts
    rw [ReconstructGraph_closed] at h
    cases hr : replayEvents unmarshal atTs events with
    | none => rw [hr] at h; cases h
    | some rs => exact hiff.1 ⟨rs, hr⟩ e ((hmem e).2 ⟨he, hts⟩)
  · intro h
    obtain ⟨rs, hr⟩ := hiff.2 (fun e he => h e ((hmem e).1 he).1 ((hmem e).1 he).2)
    exact ReconstructGraph_of_replay unmarshal atTs events rs hr

/-- C33 (reconstruction totality) fails: a `HEALTH_CHANGE` with a decodable payload from
the empty service name, stamped before `atTs`, makes the replay loop read the node of the
empty name, which `ensureNode` never creates; `ReconstructGraph` does not return, alone or
after the call of `TestReconstructGraph`. An `RPC_CALL` from the empty service name is
harmless: the scoring pass checks the source node before it writes to it. -/
theorem reconstruction_nil_dereference :
    (anonymousDown.ts ≤ 300 ∧ faulty tableUnmarshal anonymousDown = true) ∧
      replayStep tableUnmarshal { nodes := [], edges := [], edgeInteractions := [] }
        anonymousDown = none ∧
      ReconstructGraph tableUnmarshal 300 [anonymousDown] = none ∧
      ReconstructGraph tableUnmarshal 300 [callAB, anonymousDown] = none ∧
      (ReconstructGraph tableUnmarshal 300 [anonymousCall, downB]).isSome = true := by
  refine ⟨by decide!, by decide!, by decide!, by decide!, by decide!⟩

/-! ## The scoring pass in any order -/

theorem entryLess_iff (rs : ReplayState) (a b : String × List Event) :
    entryLess rs a b = true ↔
      toLex (endpointsOf rs a.1) < toLex (endpointsOf rs b.1) := by
  rw [Prod.Lex.lt_iff]
  unfold entryLess
  by_cases h : (endpointsOf rs a.1).1 = (endpointsOf rs b.1).1
  · simp [h]
  · simp [h]

/-- Two association lists with the same entries, one without repeated keys, read alike. -/
theorem mapGet_perm {V : Type} (m m' : List (String × V)) (hp : m.Perm m')
    (hnd : (m.map Prod.fst).Nodup) (k : String) : mapGet m k = mapGet m' k := by
  have hnd' : (m'.map Prod.fst).Nodup := ((hp.map Prod.fst).nodup_iff).1 hnd
  cases h : mapGet m k with
  | some v =>
    exact (mapGet_of_mem m' k v hnd' (hp.subset (mem_of_mapGet m k v h))).symm
  | none =>
    symm
    rw [mapGet_eq_none_iff] at h ⊢
    intro hk
    exact h ((hp.map Prod.fst).symm.subset hk)

/-- The endpoints of the edges are pairwise distinct along the interaction map. -/
theorem interaction_endpoints_nodup (rs : ReplayState) (hrs : ReplayInv rs) :
    (rs.edgeInteractions.map (fun p => toLex (endpointsOf rs p.1))).Nodup := by
  have h1 : rs.edgeInteractions.map (fun p => toLex (endpointsOf rs p.1)) =
      (rs.edgeInteractions.map Prod.fst).map (fun k => toLex (endpointsOf rs k)) := by
    rw [List.map_map]
    rfl
  rw [h1, hrs.interKeys, List.map_map]
  have h2 : rs.edges.map ((fun k => toLex (endpointsOf rs k)) ∘ Prod.fst) =
      rs.edges.map (fun p => toLex (p.2.source, p.2.target)) := by
    apply List.map_congr_left
    intro p hp
    simp only [Function.comp, endpointsOf]
    rw [mapGet_of_mem rs.edges p.1 p.2 hrs.edgesNodup hp]
  rw [h2]
  exact replay_edge_pairs_nodup rs hrs

/-- The entries in the order of the spec: the same entries, strictly ascending. -/
theorem ascendingEntries_spec (rs : ReplayState) (hrs : ReplayInv rs) :
    (ascendingEntries rs).Perm rs.edgeInteractions ∧
      (ascendingEntries rs).Pairwise
        (fun a b => (endpointsOf rs a.1).1 < (endpointsOf rs b.1).1 ∨
          ((endpointsOf rs a.1).1 = (endpointsOf rs b.1).1 ∧
            (endpointsOf rs a.1).2 < (endpointsOf rs b.1).2)) := by
  refine ⟨sortSlice_perm _ _, ?_⟩
  have := sortSlice_strict (entryLess rs) (fun p => toLex (endpointsOf rs p.1))
    (entryLess_iff rs) rs.edgeInteractions (interaction_endpoints_nodup rs hrs)
  exact this.imp (fun {a b} hab => (Prod.Lex.lt_iff _ _).1 hab)

/-- The scoring pass in any order of the entries against the pass in the order of the
spec: same node map, same edge map, and evidence maps with the same entries. -/
theorem scoringPass_order (atTs : Int) (rs : ReplayState) (hrs : ReplayInv rs)
    (hz : ∀ p ∈ rs.nodes, p.2.amplificationScore = 0)
    (todo : List (String × List Event)) (hp : todo.Perm rs.edgeInteractions) :
    ∃ ss ss',
      scoringPass atTs { nodes := rs.nodes, edges := rs.edges, evidenceMap := [] } todo =
        some ss ∧
      scoringPass atTs { nodes := rs.nodes, edges := rs.edges, evidenceMap := [] }
        (ascendingEntries rs) = some ss' ∧
      ss.nodes = ss'.nodes ∧ ss.edges = ss'.edges ∧
      ss.evidenceMap.Perm ss'.evidenceMap ∧
      ∀ k, mapGet ss.evidenceMap k = mapGet ss'.evidenceMap k := by
  have hasc := (ascendingEntries_spec rs hrs).1
  have hperm : (todo.map (fun p => (p.1, evidenceFor atTs rs p.1))).Perm
      ((ascendingEntries rs).map (fun p => (p.1, evidenceFor atTs rs p.1))) :=
    (hp.trans hasc.symm).map _
  refine ⟨_, _, scoringPass_closed atTs rs hrs hz todo hp,
    scoringPass_closed atTs rs hrs hz _ hasc, rfl, rfl, hperm, ?_⟩
  intro k
  apply mapGet_perm _ _ hperm
  rw [List.map_map]
  have hk : todo.map (Prod.fst ∘ fun p => (p.1, evidenceFor atTs rs p.1)) =
      todo.map Prod.fst := rfl
  rw [hk, (hp.map Prod.fst).nodup_iff, hrs.interKeys]
  exact hrs.edgesNodup

/-! ## Scoring-pass order independence -/

/-- C31 (scoring-pass order independence): let `rs` be the state the replay loop of
`ReconstructGraph` leaves for an event list and a timestamp. The entries of its interaction
map sorted by `(source, target)` of their edges are the same entries in strictly ascending
order, and the scoring pass run over the entries in any order returns, as does the pass in
that ascending order, with the same node map (so the same amplification scores), the same
edge map (so the same confidences) and an evidence map with the same entries: every key
reads the same evidence. `ReconstructGraph` itself returns the snapshot sorted from these
node and edge maps and an evidence map that reads the same. -/
theorem scoring_pass_order_independence (unmarshal : String → String → Option String)
    (atTs : Int) (events : List Event) (rs : ReplayState)
    (h : replayEvents unmarshal atTs events = some rs)
    (todo : List (String × List Event)) (hp : todo.Perm rs.edgeInteractions) :
    ((ascendingEntries rs).Perm rs.edgeInteractions ∧
      (ascendingEntries rs).Pairwise
        (fun a b => (endpointsOf rs a.1).1 < (endpointsOf rs b.1).1 ∨
          ((endpointsOf rs a.1).1 = (endpointsOf rs b.1).1 ∧
            (endpointsOf rs a.1).2 < (endpointsOf rs b.1).2))) ∧
      ∃ ss ss',
        scoringPass atTs { nodes := rs.nodes, edges := rs.edges, evidenceMap := [] } todo =
          some ss ∧
        scoringPass atTs { nodes := rs.nodes, edges := rs.edges, evidenceMap := [] }
          (ascendingEntries rs) = some ss' ∧
        ss.nodes = ss'.nodes ∧ ss.edges = ss'.edges ∧
        ss.evidenceMap.Perm ss'.evidenceMap ∧
        (∀ k, mapGet ss.evidenceMap k = mapGet ss'.evidenceMap k) ∧
        ∃ ev, ReconstructGraph unmarshal atTs events =
            some ({ timestamp := atTs
                    nodes := sortSlice nodeLess (ss'.nodes.map Prod.snd)
                    edges := sortSlice edgeLess (ss'.edges.map Prod.snd) }, ev) ∧
          ∀ k, mapGet ev k = mapGet ss'.evidenceMap k := by
  have hrs := replayEvents_inv unmarshal atTs events rs h
  have hall := h
  rw [replayEvents_eq] at hall
  have hz := replayAll_amp unmarshal _ _ rs (fun p hp => by cases hp) hall
  refine ⟨ascendingEntries_spec rs hrs, ?_⟩
  obtain ⟨ss, ss', h1, h2, h3, h4, h5, h6⟩ := scoringPass_order atTs rs hrs hz todo hp
  obtain ⟨ss₀, ss₁, g1, g2, g3, g4, _, g6⟩ :=
    scoringPass_order atTs rs hrs hz rs.edgeInteractions (List.Perm.refl _)
  rw [h2] at g2
  cases g2
  refine ⟨ss, ss', h1, h2, h3, h4, h5, h6, ss₀.evidenceMap, ?_, g6⟩
  simp only [ReconstructGraph, h, g1, g3, g4]

/-- Instance of C31: a call from `A` to `B`, an error from `B` to `c` and `c` going down
give two entries, `A|B` and `B|c`, in this order by `(source, target)`; the pass over the
two entries in the reverse order agrees with the pass in ascending order. -/
theorem scoring_pass_order_independence_witness :
    replayEvents tableUnmarshal 300 [callAB, errorBc, downC] = some twoEdgeReplay ∧
      twoEdgeReplay.edgeInteractions.reverse.Perm twoEdgeReplay.edgeInteractions ∧
      ascendingEntries twoEdgeReplay = [("A|B", [callAB]), ("B|c", [errorBc])] ∧
      twoEdgeReplay.edgeInteractions.reverse = [("B|c", [errorBc]), ("A|B", [callAB])] ∧
      ∃ ss ss',
        scoringPass 300
          { nodes := twoEdgeReplay.nodes, edges := twoEdgeReplay.edges, evidenceMap := [] }
          twoEdgeReplay.edgeInteractions.reverse = some ss ∧
        scoringPass 300
          { nodes := twoEdgeReplay.nodes, edges := twoEdgeReplay.edges, evidenceMap := [] }
          (ascendingEntries twoEdgeReplay) = some ss' ∧
        ss.nodes = ss'.nodes ∧ ss.edges = ss'.edges ∧
        ss.evidenceMap.Perm ss'.evidenceMap ∧
        (∀ k, mapGet ss.evidenceMap k = mapGet ss'.evidenceMap k) ∧
        ∃ ev, ReconstructGraph tableUnmarshal 300 [callAB, errorBc, downC] =
            some ({ timestamp := 300
                    nodes := sortSlice nodeLess (ss'.nodes.map Prod.snd)
                    edges := sortSlice edgeLess (ss'.edges.map Prod.snd) }, ev) ∧
          ∀ k, mapGet ev k = mapGet ss'.evidenceMap k :=
  ⟨by decide!, List.reverse_perm _, by decide!, by decide!,
    (scoring_pass_order_independence tableUnmarshal 300 [callAB, errorBc, downC]
      twoEdgeReplay (by decide!) twoEdgeReplay.edgeInteractions.reverse
      (List.reverse_perm _)).2⟩

/-! ## Evidence entries and score bounds of the scoring pass -/

/-- The interactions the replay records under a key are events of the list, stamped at or
before `atTs`, that are interactions of that key. -/
theorem interOf_replay (unmarshal : String → String → Option String) (atTs : Int)
    (events : List Event) (rs : ReplayState)
    (h : replayEvents unmarshal atTs events = some rs) (k : String) :
    ∀ e ∈ interOf rs.edgeInteractions k,
      e ∈ events ∧ e.ts ≤ atTs ∧ hasKey unmarshal k e = true := by
  rw [replayEvents_eq] at h
  have hi := replayAll_interOf unmarshal k _ _ _ h
  have h0 : interOf ({ nodes := [], edges := [], edgeInteractions := [] } :
      ReplayState).edgeInteractions k = [] := rfl
  rw [h0, List.nil_append] at hi
  intro e he
  rw [hi] at he
  obtain ⟨hmem, hkey⟩ := List.mem_filter.1 he
  obtain ⟨h1, h2⟩ := ((processed_spec atTs events).2.2 e).1 hmem
  exact ⟨h1, h2, hkey⟩

/-- Every entry of the evidence map of an assembled result is the evidence of a replay
edge, scored from the interactions under its key and the health of its target. -/
theorem assemble_evidence (atTs : Int) (rs : ReplayState) (hrs : ReplayInv rs)
    (p : String × EdgeEvidence) (hp : p ∈ (assemble atTs rs).2) :
    ∃ edge, (p.1, edge) ∈ rs.edges ∧
      p.2 = edgeEvidence atTs (healthOf rs.nodes edge.target) edge
        (interOf rs.edgeInteractions p.1) := by
  simp only [assemble, List.mem_map] at hp
  obtain ⟨q, hq, rfl⟩ := hp
  have hk : q.1 ∈ rs.edges.map Prod.fst := by
    rw [← hrs.interKeys]
    exact List.mem_map_of_mem Prod.fst hq
  obtain ⟨edge, hedge⟩ := Option.isSome_iff_exists.1 ((mapGet_isSome_iff _ _).2 hk)
  refine ⟨edge, mem_of_mapGet _ _ _ hedge, ?_⟩
  simp only [evidenceFor, hedge, evidenceOf]

/-- Every edge of an assembled snapshot is a replay edge carrying the score of the evidence
computed from the interactions under its key. -/
theorem assemble_edge (atTs : Int) (rs : ReplayState) (e : Edge)
    (he : e ∈ (assemble atTs rs).1.edges) :
    ∃ k edge, (k, edge) ∈ rs.edges ∧ e.source = edge.source ∧ e.target = edge.target ∧
      e.causalConfidence =
        (ScoreEdge (currentConfig (healthOf rs.nodes edge.target)) atTs
          (interOf rs.edgeInteractions k)).score := by
  simp only [assemble, mem_sortSlice, scoredEdges, List.mem_map] at he
  obtain ⟨q, ⟨p, hp, rfl⟩, rfl⟩ := he
  exact ⟨p.1, p.2, hp, rfl, rfl, rfl⟩

/-- The health a snapshot node shows is the health the replay recorded. -/
theorem assemble_node_health (atTs : Int) (rs : ReplayState) (n : Node)
    (hn : n ∈ (assemble atTs rs).1.nodes) : n.healthStatus = healthOf rs.nodes n.id := by
  obtain ⟨k, _, rfl⟩ := (mem_assemble_nodes atTs rs n).1 hn
  rfl

/-- Bounds on the score the scoring pass computes: it is the total capped at `1`, never
below the base score; without wrap-around the cap is not reached and the score is the
total, at most `0.8`, and at most `0.4` when there is no RPC bonus. -/
theorem pass_score (h : Int) (atTs : Int) (inter : List Event) :
    (ScoreEdge (currentConfig h) atTs inter).score =
        min 1 ((currentConfig h).baseScore + (ScoreEdge (currentConfig h) atTs inter).rpcBonus +
          (ScoreEdge (currentConfig h) atTs inter).timeProximityBonus) ∧
      (currentConfig h).baseScore ≤ (ScoreEdge (currentConfig h) atTs inter).score ∧
      ((∀ evt ∈ inter, evt.ts ≤ atTs → atTs - evt.ts < 2 ^ 63) →
        (ScoreEdge (currentConfig h) atTs inter).score =
            (currentConfig h).baseScore + (ScoreEdge (currentConfig h) atTs inter).rpcBonus +
              (ScoreEdge (currentConfig h) atTs inter).timeProximityBonus ∧
          (ScoreEdge (currentConfig h) atTs inter).score ≤ 8 / 10 ∧
          ((ScoreEdge (currentConfig h) atTs inter).rpcBonus = 0 →
            (ScoreEdge (currentConfig h) atTs inter).score ≤ 4 / 10)) := by
  obtain ⟨h1, h2, h3, T, hT, h4⟩ := reconstruct_bonuses h atTs inter
  have hs := reconstruct_score h atTs inter
  have hb := currentConfig_base h
  have hT' : (0 : ℚ) ≤ (T : ℚ) / 100000 := div_nonneg (by exact_mod_cast hT) (by norm_num)
  have hbase : (1 : ℚ) / 100 ≤ (currentConfig h).baseScore ∧
      (currentConfig h).baseScore ≤ 1 / 10 := by
    rw [hb]; split_ifs <;> constructor <;> norm_num
  have hrpc : 0 ≤ (ScoreEdge DefaultConfig atTs inter).rpcBonus ∧
      (ScoreEdge DefaultConfig atTs inter).rpcBonus ≤ 4 / 10 := by
    rcases h3 with h3 | h3 <;> rw [h3] <;> constructor <;> norm_num
  rw [h1, h2, hb, hs]
  refine ⟨rfl, ?_, ?_⟩
  · rw [← hb]
    apply le_min
    · linarith [hbase.2]
    · rw [h4]; linarith [hrpc.1]
  · intro hno
    have htp := default_tp_le atTs inter hno
    rw [← hb]
    have hle : (currentConfig h).baseScore + (ScoreEdge DefaultConfig atTs inter).rpcBonus +
        (ScoreEdge DefaultConfig atTs inter).timeProximityBonus ≤ 8 / 10 := by
      linarith [hbase.2, hrpc.2]
    rw [min_eq_right (by linarith)]
    refine ⟨rfl, hle, ?_⟩
    intro h0
    linarith [hbase.2]

/-! ## Exact score composition -/

/-- Score composition in the rational model: whenever `ReconstructGraph` returns, every
entry of the evidence map has a target that is a node of the snapshot, a base score of
`0.01` when that node's health status is `0` and of `0.1` otherwise, a trace bonus of `0`,
and a score within the rounding unit `10^-6` of
`base_score + rpc_bonus + time_proximity_bonus` capped at `1`, never below the base score;
and when no event of the list lies `2^63` or more milliseconds before `atTs`, the score is
within `10^-6` of `base_score + rpc_bonus + time_proximity_bonus` and at most `0.8`. -/
theorem score_composition (unmarshal : String → String → Option String) (atTs : Int)
    (events : List Event) (snap : GraphSnapshot) (ev : List (String × EdgeEvidence))
    (h : ReconstructGraph unmarshal atTs events = some (snap, ev)) :
    ∀ p ∈ ev,
      (∃ n ∈ snap.nodes, n.id = p.2.targetService) ∧
      (∀ n ∈ snap.nodes, n.id = p.2.targetService →
        p.2.baseScore = if n.healthStatus = 0 then 1 / 100 else 1 / 10) ∧
      p.2.traceBonus = 0 ∧
      |p.2.score - min 1 (p.2.baseScore + p.2.rpcBonus + p.2.timeProximityBonus)| ≤
        1 / 1000000 ∧
      p.2.baseScore ≤ p.2.score ∧
      ((∀ e ∈ events, e.ts ≤ atTs → atTs - e.ts < 2 ^ 63) →
        |p.2.score - (p.2.baseScore + p.2.rpcBonus + p.2.timeProximityBonus)| ≤ 1 / 1000000 ∧
          p.2.score ≤ 8 / 10) := by
  rw [ReconstructGraph_closed] at h
  cases hr : replayEvents unmarshal atTs events with
  | none => rw [hr] at h; cases h
  | some rs =>
    rw [hr] at h
    simp only [Option.map_some', Option.some.injEq] at h
    have hrs := replayEvents_inv unmarshal atTs events rs hr
    have hsnap : snap = (assemble atTs rs).1 := by rw [h]
    have hev : ev = (assemble atTs rs).2 := by rw [h]
    intro p hp
    rw [hev] at hp
    obtain ⟨edge, hedge, hval⟩ := assemble_evidence atTs rs hrs p hp
    obtain ⟨hscore, hbase, hexact⟩ :=
      pass_score (healthOf rs.nodes edge.target) atTs (interOf rs.edgeInteractions p.1)
    have htarget : p.2.targetService = edge.target := by rw [hval]; rfl
    refine ⟨?_, ?_, ?_, ?_, ?_, ?_⟩
    · rw [htarget, hsnap]
      exact (assemble_has_id atTs rs edge.target).2
        ((mapGet_isSome_iff _ _).1 (hrs.edgeTarget _ hedge))
    · intro n hn hid
      rw [hsnap] at hn
      have hh := assemble_node_health atTs rs n hn
      rw [hid, htarget] at hh
      rw [hh, hval]
      exact currentConfig_base (healthOf rs.nodes edge.target)
    · rw [hval]
      exact ScoreEdge_traceBonus (currentConfig (healthOf rs.nodes edge.target)) atTs
        (interOf rs.edgeInteractions p.1)
    · rw [hval]
      have hzero : |(ScoreEdge (currentConfig (healthOf rs.nodes edge.target)) atTs
            (interOf rs.edgeInteractions p.1)).score -
          min 1 ((currentConfig (healthOf rs.nodes edge.target)).baseScore +
            (ScoreEdge (currentConfig (healthOf rs.nodes edge.target)) atTs
              (interOf rs.edgeInteractions p.1)).rpcBonus +
            (ScoreEdge (currentConfig (healthOf rs.nodes edge.target)) atTs
              (interOf rs.edgeInteractions p.1)).timeProximityBonus)| = 0 := by
        rw [← hscore, sub_self, abs_zero]
      exact le_of_eq_of_le hzero (by norm_num)
    · rw [hval]
      exact hbase
    · intro hno
      have := hexact (fun evt hevt hts =>
        hno evt (interOf_replay unmarshal atTs events rs hr p.1 evt hevt).1 hts)
      rw [hval]
      refine ⟨?_, this.2.1⟩
      have hzero : |(ScoreEdge (currentConfig (healthOf rs.nodes edge.target)) atTs
            (interOf rs.edgeInteractions p.1)).score -
          ((currentConfig (healthOf rs.nodes edge.target)).baseScore +
            (ScoreEdge (currentConfig (healthOf rs.nodes edge.target)) atTs
              (interOf rs.edgeInteractions p.1)).rpcBonus +
            (ScoreEdge (currentConfig (healthOf rs.nodes edge.target)) atTs
              (interOf rs.edgeInteractions p.1)).timeProximityBonus)| = 0 := by
        rw [← this.1, sub_self, abs_zero]
      exact le_of_eq_of_le hzero (by norm_num)

/-- C32 as claimed fails, in two ways. With `atTs` the greatest `int64`, the difference
`atTs - ts` wraps for `farCall`; the evidence of the edge has base score `0.01`, no RPC
bonus and a proximity bonus of about `9.2e13`, and its score is the cap `1`: not the sum,
and above `0.8`. And without any wrap-around the equality is lost in binary64 arithmetic:
for the single error `errorAB` seen at `atTs = 155`, whose target `B` is healthy,
`ScoreEdge` returns the components `0.01`, `0.4` and `0.29995` (as binary64 values) and the
score `0.70995`, which differs from their sum, whether the sum is taken in binary64
(`0.7099500000000001`) or exactly. -/
theorem exact_score_composition_fails :
    ((ReconstructGraph tableUnmarshal 9223372036854775807 [farCall]).map
        (fun r => r.2.map
          (fun p => (p.2.score, p.2.baseScore, p.2.rpcBonus, p.2.timeProximityBonus))) =
      some [(1, 1 / 100, 0, 9223372036854765809 / 100000)] ∧
      (1 : ℚ) ≠ 1 / 100 + 0 + 9223372036854765809 / 100000 ∧ ¬ ((1 : ℚ) ≤ 8 / 10)) ∧
    ((ReconstructGraph tableUnmarshal 155 [errorAB]).map
        (fun r => r.1.nodes.map (fun n => (n.id, n.healthStatus))) =
      some [("A", 0), ("B", 0)] ∧
    (replayEvents tableUnmarshal 155 [errorAB]).map
        (fun rs => rs.edgeInteractions) = some [("A|B", [errorAB])] ∧
    (ScoreEdgeF (Config.toF (currentConfig 0)) 155 [errorAB]).baseScore =
      F64.fin (5764607523034235 / 576460752303423488) ∧
    (ScoreEdgeF (Config.toF (currentConfig 0)) 155 [errorAB]).rpcBonus =
      F64.fin (3602879701896397 / 9007199254740992) ∧
    (ScoreEdgeF (Config.toF (currentConfig 0)) 155 [errorAB]).timeProximityBonus =
      F64.fin (5403418832919121 / 18014398509481984) ∧
    (ScoreEdgeF (Config.toF (currentConfig 0)) 155 [errorAB]).score =
      F64.fin (6394661110903367 / 9007199254740992) ∧
    F64.add
        (F64.add (ScoreEdgeF (Config.toF (currentConfig 0)) 155 [errorAB]).baseScore
          (ScoreEdgeF (Config.toF (currentConfig 0)) 155 [errorAB]).rpcBonus)
        (ScoreEdgeF (Config.toF (currentConfig 0)) 155 [errorAB]).timeProximityBonus =
      F64.fin (799332638862921 / 1125899906842624) ∧
    (6394661110903367 / 9007199254740992 : ℚ) ≠ 799332638862921 / 1125899906842624 ∧
    (6394661110903367 / 9007199254740992 : ℚ) ≠
      5764607523034235 / 576460752303423488 + 3602879701896397 / 9007199254740992 +
        5403418832919121 / 18014398509481984) := by
  refine ⟨⟨by decide!, by norm_num, by norm_num⟩, by decide!, by decide!, by decide!,
    by decide!, by decide!, by decide!, by decide!, by norm_num, by norm_num⟩

/-! ## Edges leaving a node without recent errors -/

/-- When no service name contains `|`, every interaction recorded under the key of an edge
was emitted by the source of that edge. -/
theorem interaction_source (unmarshal : String → String → Option String) (l : List Event)
    (rs : ReplayState)
    (hall : replayAll unmarshal { nodes := [], edges := [], edgeInteractions := [] } l = some rs)
    (hbar : ∀ e ∈ l, '|' ∉ e.service.data) (k : String) (edge : Edge)
    (hedge : (k, edge) ∈ rs.edges) (e : Event) (he : e ∈ l)
    (hkey : hasKey unmarshal k e = true) : e.service = edge.source := by
  have hrs := replayAll_inv unmarshal _ _ _ replayInv_init hall
  have hget : mapGet rs.edges k = some edge := mapGet_of_mem _ _ _ hrs.edgesNodup hedge
  have hfirst : mapGet rs.edges k = firstEdge unmarshal l k := by
    rw [replayAll_edgeOf unmarshal k _ _ _ hall]; rfl
  rw [hget] at hfirst
  unfold firstEdge at hfirst
  cases hf : l.find? (hasKey unmarshal k) with
  | none => rw [hf] at hfirst; cases hfirst
  | some e₀ =>
    rw [hf] at hfirst
    simp only [Option.map_some', Option.some.injEq] at hfirst
    obtain ⟨d₀, _, hk₀⟩ := (hasKey_iff unmarshal k e₀).1 (List.find?_some hf)
    obtain ⟨d, _, hkd⟩ := (hasKey_iff unmarshal k e).1 hkey
    have he₀ : e₀ ∈ l := List.mem_of_find?_eq_some hf
    obtain ⟨h1, _⟩ := edgeKey_inj e.service d e₀.service d₀ (hbar e he) (hbar e₀ he₀)
      (hkd.trans hk₀.symm)
    rw [h1, hfirst]
    rfl

/-- The greatest confidence among the edges leaving a node is below a positive bound as soon
as each of them is. -/
theorem maxOutgoing_lt (edges : List Edge) (id : String) (b : ℚ) (hb : 0 < b)
    (h : ∀ e ∈ edges, e.source = id → e.causalConfidence < b) : maxOutgoing edges id < b := by
  unfold maxOutgoing
  have hall : ∀ c ∈ (edges.filter (fun e => decide (e.source = id))).map
      (fun e => e.causalConfidence), c < b := by
    intro c hc
    obtain ⟨e, he, rfl⟩ := List.mem_map.1 hc
    obtain ⟨hmem, hsrc⟩ := List.mem_filter.1 he
    exact h e hmem (of_decide_eq_true hsrc)
  cases hl : (edges.filter (fun e => decide (e.source = id))).map
      (fun e => e.causalConfidence) with
  | nil => exact hb
  | cons c cs =>
    rw [hl] at hall
    simp only
    rw [foldl_max_lt]
    exact ⟨hall c (List.mem_cons_self _ _), fun x hx => hall x (List.mem_cons_of_mem _ hx)⟩

/-- Without wrap-around and without `|` in service names, the edges leaving a node that
emitted no `RPC_ERROR` in the window before `atTs` score at most `0.4`. -/
theorem quiet_source_edges (unmarshal : String → String → Option String) (atTs : Int)
    (events : List Event) (rs : ReplayState)
    (hr : replayEvents unmarshal atTs events = some rs)
    (hbar : ∀ e ∈ events, '|' ∉ e.service.data)
    (hno : ∀ e ∈ events, e.ts ≤ atTs → atTs - e.ts < 2 ^ 63) (s : String)
    (hquiet : ∀ e ∈ events, e.service = s → e.type = EventType.RPC_ERROR →
      ¬ (atTs - 30000 ≤ e.ts ∧ e.ts ≤ atTs)) :
    ∀ edge ∈ (assemble atTs rs).1.edges, edge.source = s → edge.causalConfidence ≤ 4 / 10 := by
  intro edge hedge hsrc
  obtain ⟨k, edge₀, hmem, hs, _, hconf⟩ := assemble_edge atTs rs edge hedge
  have hinter := interOf_replay unmarshal atTs events rs hr k
  have hall := hr
  rw [replayEvents_eq] at hall
  have hproc := (processed_spec atTs events).2.2
  have hexact := (pass_score (healthOf rs.nodes edge₀.target) atTs
    (interOf rs.edgeInteractions k)).2.2
    (fun evt hevt hts => hno evt (hinter evt hevt).1 hts)
  rw [hconf]
  apply hexact.2.2
  rw [ScoreEdge_rpcBonus_eq, if_neg]
  rw [List.any_eq_true]
  rintro ⟨e, he, hcond⟩
  simp only [Bool.and_eq_true, decide_eq_true_eq] at hcond
  obtain ⟨hin, hkts, hkey⟩ := hinter e he
  have hserv : e.service = edge₀.source :=
    interaction_source unmarshal _ rs hall
      (fun x hx => hbar x ((hproc x).1 hx).1) k edge₀ hmem e ((hproc e).2 ⟨hin, hkts⟩) hkey
  have hw := (inWindow_iff_of_no_overflow _ atTs e (hno e hin)).1 hcond.1
  rw [currentConfig_windowSize] at hw
  exact hquiet e hin (by rw [hserv, ← hs, hsrc]) hcond.2 ⟨by omega, by omega⟩

/-! ## Root cause and recent errors -/

/-- C34 (root cause hinges on recent errors, amended): for every list of events with
non-empty service names containing no `|`, none of them `2^63` or more milliseconds before
`atTs`, `ReconstructGraph` returns, and every node of the snapshot that is unhealthy and has
emitted no `RPC_ERROR` event with `atTs - 30000 ≤ ts ≤ atTs` has all its outgoing edges
scored at most `0.4` and is returned by `GetRootCauseCandidates` on that snapshot. -/
theorem root_cause_recent_errors (unmarshal : String → String → Option String) (atTs : Int)
    (events : List Event) (hsvc : ∀ e ∈ events, e.service ≠ "" ∧ '|' ∉ e.service.data)
    (hno : ∀ e ∈ events, e.ts ≤ atTs → atTs - e.ts < 2 ^ 63) :
    ∃ snap ev, ReconstructGraph unmarshal atTs events = some (snap, ev) ∧
      ∀ n ∈ snap.nodes, n.healthStatus > 0 →
        (∀ e ∈ events, e.service = n.id → e.type = EventType.RPC_ERROR →
          ¬ (atTs - 30000 ≤ e.ts ∧ e.ts ≤ atTs)) →
        (∀ edge ∈ snap.edges, edge.source = n.id → edge.causalConfidence ≤ 4 / 10) ∧
          n ∈ GetRootCauseCandidates snap := by
  obtain ⟨snap, ev, h⟩ := (ReconstructGraph_isSome_iff unmarshal atTs events).2 (by
    intro e he _
    rw [← Bool.not_eq_true, faulty_iff]
    rintro ⟨_, _, hempty⟩
    exact (hsvc e he).1 hempty)
  refine ⟨snap, ev, h, ?_⟩
  rw [ReconstructGraph_closed] at h
  cases hr : replayEvents unmarshal atTs events with
  | none => rw [hr] at h; cases h
  | some rs =>
    rw [hr] at h
    simp only [Option.map_some', Option.some.injEq] at h
    have hsnap : snap = (assemble atTs rs).1 := by rw [h]
    intro n hn hpos hquiet
    have hedges : ∀ edge ∈ snap.edges, edge.source = n.id → edge.causalConfidence ≤ 4 / 10 := by
      rw [hsnap]
      exact quiet_source_edges unmarshal atTs events rs hr (fun e he => (hsvc e he).2) hno
        n.id hquiet
    refine ⟨hedges, ?_⟩
    rw [mem_candidates]
    refine ⟨hn, by omega, ?_⟩
    apply maxOutgoing_lt _ _ _ (by norm_num)
    intro edge hedge hsrc
    have := hedges edge hedge hsrc
    linarith

/-- C34 as claimed fails: with `atTs` the greatest `int64`, the call `farCall` from `A` and
`A` going down, the node `A` is unhealthy and has emitted no `RPC_ERROR` at all; the
difference `atTs - ts` wraps for the call, its edge scores `1`, and `A` is not among the
candidates. -/
theorem root_cause_recent_errors_fails :
    (∀ e ∈ [farCall, downA], e.service ≠ "" ∧ '|' ∉ e.service.data) ∧
      (∀ e ∈ [farCall, downA], e.type ≠ EventType.RPC_ERROR) ∧
      (ReconstructGraph tableUnmarshal 9223372036854775807 [farCall, downA]).map
          (fun r => (r.1.nodes.map (fun n => (n.id, n.healthStatus)),
            r.1.edges.map (fun x => (x.source, x.target, x.causalConfidence)),
            (GetRootCauseCandidates r.1).map (fun n => n.id))) =
        some ([("A", 2), ("B", 0)], [("A", "B", 1)], []) := by
  refine ⟨by decide!, by decide!, by decide!⟩

/-- Instance of C34: the call of `TestReconstructGraph` and `A` going down; at `300` the
node `A` is unhealthy, has emitted no `RPC_ERROR`, and is the one candidate. -/
theorem root_cause_recent_errors_witness :
    (∀ e ∈ [callAB, downA], e.service ≠ "" ∧ '|' ∉ e.service.data) ∧
      (∀ e ∈ [callAB, downA], e.ts ≤ 300 → 300 - e.ts < 2 ^ 63) ∧
      (ReconstructGraph tableUnmarshal 300 [callAB, downA]).map
          (fun r => (r.1.nodes.map (fun n => (n.id, n.healthStatus)),
            r.1.edges.map (fun x => (x.source, x.target, x.causalConfidence)),
            (GetRootCauseCandidates r.1).map (fun n => n.id))) =
        some ([("A", 2), ("B", 0)], [("A", "B", 77 / 250)], ["A"]) ∧
      ∃ snap ev, ReconstructGraph tableUnmarshal 300 [callAB, downA] = some (snap, ev) ∧
        ∀ n ∈ snap.nodes, n.healthStatus > 0 →
          (∀ e ∈ [callAB, downA], e.service = n.id → e.type = EventType.RPC_ERROR →
            ¬ (300 - 30000 ≤ e.ts ∧ e.ts ≤ 300)) →
          (∀ edge ∈ snap.edges, edge.source = n.id → edge.causalConfidence ≤ 4 / 10) ∧
            n ∈ GetRootCauseCandidates snap :=
  ⟨by decide!, by decide!, by decide!,
    root_cause_recent_errors tableUnmarshal 300 [callAB, downA] (by decide!) (by decide!)⟩

/-! ## Binary64 arithmetic of the scorer -/

/-! ### Rounding to binary64 -/

theorem pow2_eq (k : Int) : pow2 k = (2 : ℚ) ^ k := by
  unfold pow2
  split_ifs with h
  · obtain ⟨n, rfl⟩ := Int.eq_ofNat_of_zero_le h
    simp
  · obtain ⟨n, rfl⟩ : ∃ n : ℕ, k = -(n : ℤ) := ⟨(-k).toNat, by omega⟩
    simp [zpow_neg]

theorem pow2_pos (k : Int) : 0 < pow2 k := by
  rw [pow2_eq]; positivity

theorem pow2_mono {j k : Int} (h : j ≤ k) : pow2 j ≤ pow2 k := by
  rw [pow2_eq, pow2_eq]
  exact zpow_le_zpow_right₀ (by norm_num) h

theorem log2Steps_spec (steps n : Nat) (h : n ≤ steps) (hn : n ≠ 0) :
    2 ^ log2Steps steps n ≤ n ∧ n < 2 ^ (log2Steps steps n + 1) := by
  induction steps generalizing n with
  | zero => omega
  | succ k ih =>
    unfold log2Steps
    by_cases h2 : 2 ≤ n
    · rw [if_pos h2]
      obtain ⟨h3, h4⟩ := ih (n / 2) (by omega) (by omega)
      rw [pow_succ, pow_succ]
      constructor <;> omega
    · rw [if_neg h2]
      constructor <;> simp <;> omega

theorem log2Nat_spec (n : Nat) (hn : n ≠ 0) :
    2 ^ log2Nat n ≤ n ∧ n < 2 ^ (log2Nat n + 1) :=
  log2Steps_spec n n (le_refl _) hn

theorem pow2_binade_le (q : ℚ) (hq : 0 < q) : pow2 (binade q) ≤ q := by
  unfold binade
  simp only
  split_ifs with h
  · have hn : 0 < q.num := Rat.num_pos.2 hq
    have ha : 2 ^ log2Nat q.num.natAbs ≤ q.num.natAbs := (log2Nat_spec _ (by omega)).1
    have hb : q.den < 2 ^ (log2Nat q.den + 1) := (log2Nat_spec _ q.den_nz).2
    generalize log2Nat q.num.natAbs = a at ha
    generalize log2Nat q.den = b at hb
    rw [pow2_eq]
    have he : (2 : ℚ) ^ ((a : ℤ) - b - 1) = 2 ^ a / 2 ^ (b + 1) := by
      rw [show ((a : ℤ) - b - 1) = (a : ℤ) - ((b + 1 : ℕ) : ℤ) by push_cast; ring,
        zpow_sub₀ (by norm_num), zpow_natCast, zpow_natCast]
    rw [he]
    have hnum : ((2 ^ a : ℕ) : ℚ) ≤ (q.num : ℚ) := by
      have : ((q.num.natAbs : ℤ) : ℚ) = (q.num : ℚ) := by
        rw [Int.natAbs_of_nonneg hn.le]
      rw [← this]
      exact_mod_cast ha
    have hden : (q.den : ℚ) ≤ ((2 ^ (b + 1) : ℕ) : ℚ) := by exact_mod_cast hb.le
    have hdpos : (0 : ℚ) < q.den := by exact_mod_cast q.den_pos
    calc (2 : ℚ) ^ a / 2 ^ (b + 1) ≤ (q.num : ℚ) / q.den := by
          rw [div_le_div_iff₀ (by positivity) hdpos]
          push_cast at hnum hden
          have h2 : (0 : ℚ) ≤ 2 ^ a := by positivity
          have h3 : (0 : ℚ) ≤ q.num := by exact_mod_cast hn.le
          calc (2 : ℚ) ^ a * q.den ≤ 2 ^ a * 2 ^ (b + 1) := by gcongr
            _ ≤ q.num * 2 ^ (b + 1) := by gcongr
      _ = q := Rat.num_div_den q
  · exact not_lt.1 h

theorem roundHalfEven_cases (x : ℚ) :
    roundHalfEven x = ⌊x⌋ ∨ (roundHalfEven x = ⌊x⌋ + 1 ∧ 1 / 2 ≤ x - ⌊x⌋) := by
  unfold roundHalfEven
  simp only
  split_ifs with h1 h2 h3
  · exact Or.inl rfl
  · exact Or.inr ⟨rfl, h2.le⟩
  · exact Or.inl rfl
  · exact Or.inr ⟨rfl, not_lt.1 h1⟩

theorem roundHalfEven_le (x : ℚ) (n : Int) (h : x ≤ n) : roundHalfEven x ≤ n := by
  rcases roundHalfEven_cases x with h1 | ⟨h1, h2⟩
  · rw [h1]
    have : (⌊x⌋ : ℚ) ≤ n := le_trans (Int.floor_le x) h
    exact_mod_cast this
  · rw [h1]
    have : (⌊x⌋ : ℚ) < n := by linarith
    have : ⌊x⌋ < n := by exact_mod_cast this
    omega

theorem le_roundHalfEven (x : ℚ) (n : Int) (h : (n : ℚ) ≤ x) : n ≤ roundHalfEven x := by
  have : n ≤ ⌊x⌋ := Int.le_floor.2 h
  rcases roundHalfEven_cases x with h1 | ⟨h1, _⟩ <;> rw [h1] <;> omega

theorem roundHalfEven_near (x : ℚ) : |(roundHalfEven x : ℚ) - x| ≤ 1 / 2 := by
  have hf := Int.floor_le x
  have hl := Int.lt_floor_add_one x
  unfold roundHalfEven
  simp only
  rw [abs_le]
  split_ifs with h1 h2 h3 <;> push_cast <;> constructor <;> linarith

theorem roundF64_zero : roundF64 0 = F64.fin 0 := by
  unfold roundF64; rw [if_pos rfl]

theorem roundF64_unfold (q : ℚ) (hq : q ≠ 0) :
    ∃ e : Int, -1022 ≤ e ∧ (e = -1022 ∨ pow2 e ≤ |q|) ∧
      roundF64 q =
        if pow2 1024 ≤ (roundHalfEven (|q| / pow2 (e - 52)) : ℚ) * pow2 (e - 52) then
          F64.inf (decide (q < 0))
        else
          F64.fin (if q < 0 then -((roundHalfEven (|q| / pow2 (e - 52)) : ℚ) * pow2 (e - 52))
            else (roundHalfEven (|q| / pow2 (e - 52)) : ℚ) * pow2 (e - 52)) := by
  refine ⟨max (binade |q|) (-1022), le_max_right _ _, ?_, ?_⟩
  · rcases le_total (binade |q|) (-1022) with h | h
    · left; exact max_eq_right h
    · right; rw [max_eq_left h]; exact pow2_binade_le _ (abs_pos.2 hq)
  · unfold roundF64
    rw [if_neg hq]

theorem roundF64_spec (q : ℚ) (hq : q ≠ 0) :
    ∃ v : ℚ, 0 ≤ v ∧ |v - abs q| ≤ |q| / 4 + 1 / 4 ∧
      roundF64 q =
        if pow2 1024 ≤ v then F64.inf (decide (q < 0))
        else F64.fin (if q < 0 then -v else v) := by
  obtain ⟨e, he, hcase, heq⟩ := roundF64_unfold q hq
  have hu := pow2_pos (e - 52)
  have ha : 0 < |q| := abs_pos.2 hq
  refine ⟨(roundHalfEven (|q| / pow2 (e - 52)) : ℚ) * pow2 (e - 52), ?_, ?_, heq⟩
  · have : (0 : Int) ≤ roundHalfEven (|q| / pow2 (e - 52)) :=
      le_roundHalfEven _ 0 (by push_cast; positivity)
    have : (0 : ℚ) ≤ (roundHalfEven (|q| / pow2 (e - 52)) : ℚ) := by exact_mod_cast this
    positivity
  · have hnear := roundHalfEven_near (|q| / pow2 (e - 52))
    have hub : pow2 (e - 52) ≤ |q| / 2 + 1 / 2 := by
      rcases hcase with h | h
      · rw [h, pow2_eq]
        have : (2 : ℚ) ^ (-1022 - 52 : ℤ) ≤ 1 / 2 := by
          rw [show (-1022 - 52 : ℤ) = -(1074 : ℕ) by norm_num, zpow_neg, zpow_natCast]
          rw [inv_le_comm₀ (by positivity) (by norm_num)]
          norm_num
        linarith
      · have : pow2 (e - 52) ≤ pow2 e := pow2_mono (by omega)
        have h3 : pow2 (e - 52) * 2 ≤ pow2 e := by
          rw [pow2_eq, pow2_eq, zpow_sub₀ (by norm_num)]
          have : (0 : ℚ) < 2 ^ e := by positivity
          rw [div_mul_eq_mul_div, div_le_iff₀ (by positivity)]
          have : (2 : ℚ) ≤ 2 ^ (52 : ℤ) := by norm_num
          nlinarith
        linarith
    have hx : (roundHalfEven (|q| / pow2 (e - 52)) : ℚ) * pow2 (e - 52) - |q| =
        ((roundHalfEven (|q| / pow2 (e - 52)) : ℚ) - |q| / pow2 (e - 52)) * pow2 (e - 52) := by
      field_simp
    rw [hx, abs_mul, abs_of_pos hu]
    calc |(roundHalfEven (|q| / pow2 (e - 52)) : ℚ) - |q| / pow2 (e - 52)| * pow2 (e - 52)
        ≤ 1 / 2 * pow2 (e - 52) := by gcongr
      _ ≤ 1 / 2 * (|q| / 2 + 1 / 2) := by gcongr
      _ = |q| / 4 + 1 / 4 := by ring

theorem pow2_nat (k : ℕ) : pow2 (k : ℤ) = 2 ^ k := by
  rw [pow2_eq, zpow_natCast]

theorem pow2_1024 : pow2 1024 = 2 ^ 1024 := pow2_nat 1024

theorem two_pow_lt_1024 (k : ℕ) (hk : k < 1024) : (2 : ℚ) ^ k < pow2 1024 := by
  rw [pow2_1024]
  exact pow_lt_pow_right₀ (by norm_num) hk

/-- Rounding never yields a NaN, and yields a finite number close to the exact one when
that is below `2 ^ 1000` in magnitude. -/
theorem roundF64_fin (q : ℚ) (k : ℕ) (hk : k ≤ 1000) (h : |q| ≤ 2 ^ k) :
    ∃ v : ℚ, roundF64 q = F64.fin v ∧ |v| ≤ 2 ^ (k + 2) ∧ (0 ≤ q → 0 ≤ v) := by
  by_cases hq : q = 0
  · subst hq; exact ⟨0, roundF64_zero, by rw [abs_zero]; positivity, fun _ => le_refl _⟩
  obtain ⟨v, hv0, hnear, heq⟩ := roundF64_spec q hq
  have h1 : (1 : ℚ) ≤ 2 ^ k := one_le_pow₀ (by norm_num)
  have hv : v ≤ 2 ^ (k + 2) := by
    have := (abs_le.1 hnear).2
    have := abs_nonneg q
    rw [pow_add]
    linarith
  have hlt : ¬ pow2 1024 ≤ v := by
    rw [not_le]
    exact lt_of_le_of_lt hv (two_pow_lt_1024 _ (by omega))
  rw [if_neg hlt] at heq
  refine ⟨_, heq, ?_, ?_⟩
  · split_ifs
    · rw [abs_neg, abs_of_nonneg hv0]; exact hv
    · rw [abs_of_nonneg hv0]; exact hv
  · intro h0
    rw [if_neg (not_lt.2 h0)]
    exact hv0

/-- Rounding a number that is at least one yields `+Inf` or a finite number that is at
least one half. -/
theorem roundF64_of_one_le (q : ℚ) (h : 1 ≤ q) :
    roundF64 q = F64.inf false ∨ ∃ v : ℚ, roundF64 q = F64.fin v ∧ 1 / 2 ≤ v := by
  have hq : q ≠ 0 := by linarith
  obtain ⟨v, hv0, hnear, heq⟩ := roundF64_spec q hq
  have hnot : ¬ q < 0 := by linarith
  rw [if_neg hnot, decide_eq_false hnot] at heq
  by_cases hinf : pow2 1024 ≤ v
  · left; rw [heq, if_pos hinf]
  · right
    rw [if_neg hinf] at heq
    refine ⟨v, heq, ?_⟩
    rw [abs_of_pos (by linarith : 0 < q)] at hnear
    have := (abs_le.1 hnear).1
    linarith

/-- Rounding keeps a number between zero and a natural number below `2 ^ 53` (which is
itself a binary64 value) in that range. -/
theorem roundF64_le_nat (q : ℚ) (c : ℕ) (h0 : 0 ≤ q) (hc : q ≤ c) (hc53 : c < 2 ^ 53) :
    ∃ v : ℚ, roundF64 q = F64.fin v ∧ 0 ≤ v ∧ v ≤ c := by
  by_cases hq : q = 0
  · subst hq; exact ⟨0, roundF64_zero, le_refl _, by positivity⟩
  have hpos : 0 < q := lt_of_le_of_ne h0 (Ne.symm hq)
  obtain ⟨e, he, hcase, heq⟩ := roundF64_unfold q hq
  rw [abs_of_pos hpos] at heq hcase
  have hnot : ¬ q < 0 := by linarith
  rw [if_neg hnot] at heq
  have hc53q : (c : ℚ) < 2 ^ 53 := by exact_mod_cast hc53
  have he52 : e ≤ 52 := by
    rcases hcase with h | h
    · omega
    · by_contra hcon
      have h1 : pow2 53 ≤ pow2 e := pow2_mono (by omega)
      have h2 : pow2 53 = 2 ^ 53 := pow2_nat 53
      rw [h2] at h1
      linarith
  obtain ⟨j, hj⟩ : ∃ j : ℕ, e - 52 = -(j : ℤ) := ⟨(52 - e).toNat, by omega⟩
  have hu : pow2 (e - 52) = 1 / 2 ^ j := by
    rw [pow2_eq, hj, zpow_neg, zpow_natCast, one_div]
  rw [hu] at heq
  have hm1 : roundHalfEven (q / (1 / 2 ^ j)) ≤ ((c * 2 ^ j : ℕ) : ℤ) := by
    apply roundHalfEven_le
    push_cast
    rw [div_div_eq_mul_div, div_one]
    gcongr
  have hm0 : (0 : ℤ) ≤ roundHalfEven (q / (1 / 2 ^ j)) :=
    le_roundHalfEven _ 0 (by push_cast; positivity)
  have hm1q : (roundHalfEven (q / (1 / 2 ^ j)) : ℚ) ≤ c * 2 ^ j := by exact_mod_cast hm1
  have hm0q : (0 : ℚ) ≤ (roundHalfEven (q / (1 / 2 ^ j)) : ℚ) := by exact_mod_cast hm0
  have hv1 : (roundHalfEven (q / (1 / 2 ^ j)) : ℚ) * (1 / 2 ^ j) ≤ c := by
    rw [mul_one_div, div_le_iff₀ (by positivity)]
    exact hm1q
  have hlt : ¬ pow2 1024 ≤ (roundHalfEven (q / (1 / 2 ^ j)) : ℚ) * (1 / 2 ^ j) := by
    rw [not_le]
    have := two_pow_lt_1024 53 (by norm_num)
    linarith
  rw [if_neg hlt] at heq
  exact ⟨_, heq, by positivity, hv1⟩

/-! ### The scorer in binary64 -/

theorem ScoreEdgeF_score_eq (cfg : ConfigF) (failureTs : Int) (interactions : List Event) :
    (ScoreEdgeF cfg failureTs interactions).score = finishF (totalF cfg failureTs interactions) :=
  rfl

theorem finishF_fin (t : ℚ) : ∃ s : ℚ, finishF (F64.fin t) = F64.fin s ∧ 0 ≤ s ∧ s ≤ 1 := by
  have hclamp : ∃ c : ℚ, 0 ≤ c ∧ c ≤ 1 ∧
      (if F64.lt (if F64.lt (F64.fin 1) (F64.fin t) then F64.fin 1 else F64.fin t) (F64.fin 0)
        then F64.fin 0
        else (if F64.lt (F64.fin 1) (F64.fin t) then F64.fin 1 else F64.fin t)) = F64.fin c := by
    by_cases h1 : 1 < t
    · refine ⟨1, by norm_num, le_refl _, ?_⟩
      simp [F64.lt, h1]
    · by_cases h0 : t < 0
      · refine ⟨0, le_refl _, by norm_num, ?_⟩
        simp [F64.lt, h1, h0]
      · refine ⟨t, not_lt.1 h0, not_lt.1 h1, ?_⟩
        simp [F64.lt, h1, h0]
  obtain ⟨c, hc0, hc1, hc⟩ := hclamp
  unfold finishF
  simp only
  rw [hc]
  obtain ⟨m, hm, hm0, hm1⟩ := roundF64_le_nat (c * 1000000) 1000000 (by positivity)
    (by push_cast; linarith) (by norm_num)
  have hmul : F64.mul (F64.fin c) (F64.fin 1000000) = F64.fin m := hm
  rw [hmul]
  have hround : F64.round (F64.fin m) = F64.fin (mathRound m) := rfl
  rw [hround]
  obtain ⟨hr0, hr1⟩ := mathRound_bounds m 1000000 hm0 (by push_cast at hm1 ⊢; exact hm1)
  obtain ⟨s, hs, hs0, hs1⟩ := roundF64_le_nat (mathRound m / 1000000) 1 (by positivity)
    (by push_cast at hr1 ⊢; rw [div_le_one (by norm_num)]; exact hr1) (by norm_num)
  have hdiv : F64.div (F64.fin (mathRound m)) (F64.fin 1000000) = F64.fin s := by
    simp only [F64.div]
    rw [if_neg (by norm_num)]
    exact hs
  rw [hdiv]
  exact ⟨s, rfl, hs0, by push_cast at hs1; exact hs1⟩

theorem wrap64_abs_le (x : Int) : |((wrap64 x : Int) : ℚ)| ≤ 2 ^ 63 := by
  have h1 : -2 ^ 63 ≤ wrap64 x := by unfold wrap64; omega
  have h2 : wrap64 x ≤ 2 ^ 63 := by unfold wrap64; omega
  rw [abs_le]
  constructor
  · exact_mod_cast h1
  · exact_mod_cast h2

theorem ten_pow_le : (10 : ℚ) ^ 250 ≤ 2 ^ 850 := by
  have h : (10 : ℚ) ^ 5 ≤ 2 ^ 17 := by norm_num
  calc (10 : ℚ) ^ 250 = (10 ^ 5) ^ 50 := by rw [← pow_mul]
    _ ≤ (2 ^ 17) ^ 50 := pow_le_pow_left₀ (by norm_num) h 50
    _ = 2 ^ 850 := by rw [← pow_mul]

theorem two_pow_le {j k : ℕ} (h : j ≤ k) : (2 : ℚ) ^ j ≤ 2 ^ k :=
  pow_le_pow_right₀ (by norm_num) h

/-- The proximity bonus of `ScoreEdge` is a finite number when the window is positive and
the configured bonus is finite and at most `10 ^ 250` in magnitude. -/
theorem proximityF_fin (cfg : ConfigF) (failureTs : Int) (interactions : List Event)
    (hW : 0 < cfg.windowSize) (ht : F64.Within (10 ^ 250) cfg.timeProximityBonus) :
    ∃ p : ℚ, (ScoreEdgeF cfg failureTs interactions).timeProximityBonus = F64.fin p ∧
      |p| ≤ 2 ^ 921 := by
  obtain ⟨t, ht, htB⟩ := ht
  have htB : |t| ≤ 2 ^ 850 := le_trans htB ten_pow_le
  unfold ScoreEdgeF
  simp only
  generalize scanInteractionsF cfg failureTs interactions = st
  by_cases hlen : st.contributingEventIds.length > 0
  swap
  · rw [if_neg hlen]
    exact ⟨0, rfl, by rw [abs_zero]; positivity⟩
  rw [if_pos hlen]
  obtain ⟨a, ha, haB, _⟩ := roundF64_fin ((wrap64 (cfg.windowSize - st.minDelta) : Int) : ℚ) 63
    (by norm_num) (wrap64_abs_le _)
  have hx : F64.ofInt (wrap64 (cfg.windowSize - st.minDelta)) = F64.fin a := ha
  rw [hx]
  have hW1 : (1 : ℚ) ≤ ((cfg.windowSize : Int) : ℚ) := by exact_mod_cast hW
  have hpf : ∃ p : ℚ, |p| ≤ 2 ^ 68 ∧
      (if F64.lt (F64.div (F64.fin a) (F64.ofInt cfg.windowSize)) (F64.fin 0) then F64.fin 0
        else F64.div (F64.fin a) (F64.ofInt cfg.windowSize)) = F64.fin p := by
    have hzero : |(0 : ℚ)| ≤ 2 ^ 68 := by rw [abs_zero]; positivity
    rcases roundF64_of_one_le _ hW1 with hinf | ⟨w, hw, hwhalf⟩
    · have hy : F64.ofInt cfg.windowSize = F64.inf false := hinf
      rw [hy]
      exact ⟨0, hzero, by simp [F64.div, F64.lt]⟩
    · have hy : F64.ofInt cfg.windowSize = F64.fin w := hw
      rw [hy]
      have hw0 : w ≠ 0 := by linarith
      have hdiv : F64.div (F64.fin a) (F64.fin w) = roundF64 (a / w) := by
        simp only [F64.div]; rw [if_neg hw0]
      rw [hdiv]
      have hq : |a / w| ≤ 2 ^ 66 := by
        rw [abs_div, abs_of_pos (by linarith : 0 < w), div_le_iff₀ (by linarith)]
        calc |a| ≤ 2 ^ (63 + 2) := haB
          _ = 2 ^ 66 * (1 / 2) := by norm_num
          _ ≤ 2 ^ 66 * w := by gcongr
      obtain ⟨p, hp, hpB, _⟩ := roundF64_fin (a / w) 66 (by norm_num) hq
      rw [hp]
      by_cases hneg : p < 0
      · exact ⟨0, hzero, by simp [F64.lt, hneg]⟩
      · exact ⟨p, hpB, by simp [F64.lt, hneg]⟩
  obtain ⟨p, hpB, hp⟩ := hpf
  rw [hp, ht]
  have hq : |p * t| ≤ 2 ^ (68 + 850) := by
    rw [abs_mul, pow_add]
    exact mul_le_mul hpB htB (abs_nonneg _) (by positivity)
  obtain ⟨v, hv, hvB, _⟩ := roundF64_fin (p * t) (68 + 850) (by omega) hq
  exact ⟨v, hv, le_trans hvB (two_pow_le (by omega))⟩

/-- Score bounds of `ScoreEdge` in binary64: with a positive window and finite parameters
of magnitude at most `10 ^ 250` the score is a number between 0 and 1. -/
theorem ScoreEdgeF_score_bounds (cfg : ConfigF) (failureTs : Int) (interactions : List Event)
    (hW : 0 < cfg.windowSize) (hb : F64.Within (10 ^ 250) cfg.baseScore)
    (hr : F64.Within (10 ^ 250) cfg.rpcErrorBonus)
    (ht : F64.Within (10 ^ 250) cfg.timeProximityBonus) :
    ∃ s : ℚ, (ScoreEdgeF cfg failureTs interactions).score = F64.fin s ∧ 0 ≤ s ∧ s ≤ 1 := by
  rw [ScoreEdgeF_score_eq]
  obtain ⟨p, hp, hpB⟩ := proximityF_fin cfg failureTs interactions hW ht
  obtain ⟨b, hb, hbB⟩ := hb
  obtain ⟨r, hr, hrB⟩ := hr
  have hbB : |b| ≤ 2 ^ 850 := le_trans hbB ten_pow_le
  have hrB : |r| ≤ 2 ^ 850 := le_trans hrB ten_pow_le
  have htotal : ∃ t : ℚ, totalF cfg failureTs interactions = F64.fin t := by
    unfold totalF
    simp only
    rw [hp, hb, hr]
    have h1 : ∃ t1 : ℚ, |t1| ≤ 2 ^ 853 ∧
        (if (scanInteractionsF cfg failureTs interactions).hasRpcError then
          F64.add (F64.fin b) (F64.fin r) else F64.fin b) = F64.fin t1 := by
      split_ifs
      · obtain ⟨v, hv, hvB, _⟩ := roundF64_fin (b + r) 851 (by norm_num)
          (by
            calc |b + r| ≤ |b| + |r| := abs_add _ _
              _ ≤ 2 ^ 850 + 2 ^ 850 := by gcongr
              _ = 2 ^ 851 := by ring)
        exact ⟨v, le_trans hvB (two_pow_le (by omega)), hv⟩
      · exact ⟨b, le_trans hbB (two_pow_le (by omega)), rfl⟩
    obtain ⟨t1, ht1B, ht1⟩ := h1
    rw [ht1]
    split_ifs
    · obtain ⟨v, hv, _, _⟩ := roundF64_fin (t1 + p) 922 (by norm_num)
        (by
          calc |t1 + p| ≤ |t1| + |p| := abs_add _ _
            _ ≤ 2 ^ 921 + 2 ^ 921 := by
              gcongr
              exact le_trans ht1B (two_pow_le (by omega))
            _ = 2 ^ 922 := by ring)
      exact ⟨v, hv⟩
    · exact ⟨t1, rfl⟩
  obtain ⟨t, ht⟩ := htotal
  rw [ht]
  exact finishF_fin t

/-! ### Scoring bounds -/

theorem roundF64_within (q : ℚ) (h : |q| ≤ 1) : F64.Within (10 ^ 250) (roundF64 q) := by
  obtain ⟨v, hv, hvB, _⟩ := roundF64_fin q 0 (by omega) (by simpa using h)
  refine ⟨v, hv, le_trans hvB ?_⟩
  calc (2 : ℚ) ^ (0 + 2) ≤ 10 ^ 1 := by norm_num
    _ ≤ 10 ^ 250 := pow_le_pow_right₀ (by norm_num) (by omega)

/-- The parameters the scoring pass hands to `ScoreEdge` are finite binary64 values. -/
theorem currentConfig_within (health : Int) :
    F64.Within (10 ^ 250) (Config.toF (currentConfig health)).baseScore ∧
      F64.Within (10 ^ 250) (Config.toF (currentConfig health)).rpcErrorBonus ∧
      F64.Within (10 ^ 250) (Config.toF (currentConfig health)).timeProximityBonus := by
  unfold currentConfig
  split_ifs <;>
    refine ⟨roundF64_within _ ?_, roundF64_within _ ?_, roundF64_within _ ?_⟩ <;>
    simp only [DefaultConfig] <;> rw [abs_le] <;> constructor <;> norm_num

/-- C7 fails as stated: `ScoreEdge` in binary64 arithmetic returns a NaN score, which is
neither at least `0` nor at most `1`, for the default configuration with a NaN base score
(window `30000`) on the interaction of the golden test; and it returns a NaN score for
`hugeConfig`, whose parameters are finite, on `earliestError` seen at `40000`: the
difference of the timestamps wraps, the proximity bonus overflows to `-Inf`, the sum of the
base score and the RPC bonus overflows to `+Inf`, and their sum is a NaN. -/
theorem scoring_bounds_fails :
    (0 < nanConfig.windowSize ∧
      (ScoreEdgeF nanConfig 100000 [goldenError]).score = F64.nan ∧
      F64.le (F64.fin 0) (ScoreEdgeF nanConfig 100000 [goldenError]).score = false ∧
      F64.le (ScoreEdgeF nanConfig 100000 [goldenError]).score (F64.fin 1) = false) ∧
    (0 < hugeConfig.windowSize ∧
      F64.add hugeConfig.baseScore hugeConfig.rpcErrorBonus = F64.inf false ∧
      (ScoreEdgeF hugeConfig 40000 [earliestError]).timeProximityBonus = F64.inf true ∧
      (ScoreEdgeF hugeConfig 40000 [earliestError]).score = F64.nan) := by
  refine ⟨⟨?_, ?_, ?_, ?_⟩, ?_, ?_, ?_, ?_⟩ <;> decide!

/-- C7, as amended (scoring bounds): in binary64 arithmetic, for every configuration with a
positive window whose base score, RPC-error bonus and time-proximity bonus are finite
numbers of magnitude at most `10^250`, every failure time and every interaction list,
`ScoreEdge` returns a score that is a number between 0 and 1; this covers the
configurations the scoring pass of `ReconstructGraph` uses, and consequently every edge of
every snapshot returned by `ReconstructGraph` has a causal confidence between 0 and 1. -/
theorem scoring_bounds :
    (∀ (cfg : ConfigF) (failureTs : Int) (interactions : List Event), 0 < cfg.windowSize →
      F64.Within (10 ^ 250) cfg.baseScore → F64.Within (10 ^ 250) cfg.rpcErrorBonus →
      F64.Within (10 ^ 250) cfg.timeProximityBonus →
      ∃ s : ℚ, (ScoreEdgeF cfg failureTs interactions).score = F64.fin s ∧ 0 ≤ s ∧ s ≤ 1) ∧
    (∀ (health failureTs : Int) (interactions : List Event),
      ∃ s : ℚ, (ScoreEdgeF (Config.toF (currentConfig health)) failureTs interactions).score =
        F64.fin s ∧ 0 ≤ s ∧ s ≤ 1) ∧
    (∀ (unmarshal : String → String → Option String) (atTs : Int) (events : List Event)
      (snap : GraphSnapshot) (ev : List (String × EdgeEvidence)),
      ReconstructGraph unmarshal atTs events = some (snap, ev) →
      ∀ e ∈ snap.edges, 0 ≤ e.causalConfidence ∧ e.causalConfidence ≤ 1) := by
  refine ⟨?_, ?_, ?_⟩
  · intro cfg failureTs interactions hW hb hr ht
    exact ScoreEdgeF_score_bounds cfg failureTs interactions hW hb hr ht
  · intro health failureTs interactions
    obtain ⟨hb, hr, ht⟩ := currentConfig_within health
    refine ScoreEdgeF_score_bounds _ failureTs interactions ?_ hb hr ht
    show 0 < (currentConfig health).windowSize
    rw [currentConfig_windowSize]
    norm_num
  · intro unmarshal atTs events snap ev h e he
    obtain ⟨rs, ss, _, hrs, _, hsnap, _, _, hve, _, hsc⟩ :=
      ReconstructGraph_some unmarshal atTs events snap ev h
    subst hsnap
    have he' : e ∈ ss.edges.map Prod.snd := (mem_sortSlice _ _ _).1 he
    obtain ⟨inter, edge, tn, _, _, _, _, heq⟩ := scored_edge atTs rs ss hrs hve hsc e he'
    subst heq
    exact ScoreEdge_score_bounds _ _ _

/-- Instance of C7 on the scorer's golden test, in binary64 arithmetic, and on
`TestReconstructGraph`. -/
theorem scoring_bounds_witness :
    0 < (Config.toF DefaultConfig).windowSize ∧
      F64.Within (10 ^ 250) (Config.toF DefaultConfig).baseScore ∧
      F64.Within (10 ^ 250) (Config.toF DefaultConfig).rpcErrorBonus ∧
      F64.Within (10 ^ 250) (Config.toF DefaultConfig).timeProximityBonus ∧
      (∃ s : ℚ, (ScoreEdgeF (Config.toF DefaultConfig) 100000 [goldenError]).score = F64.fin s ∧
        0 ≤ s ∧ s ≤ 1) ∧
      ReconstructGraph tableUnmarshal 300 [callAB, downB] = some (testSnapshot, testEvidence) ∧
      ∀ e ∈ testSnapshot.edges, 0 ≤ e.causalConfidence ∧ e.causalConfidence ≤ 1 :=
  ⟨by decide, (currentConfig_within 1).1, (currentConfig_within 1).2.1,
    (currentConfig_within 1).2.2,
    scoring_bounds.1 (Config.toF DefaultConfig) 100000 [goldenError] (by decide)
      (currentConfig_within 1).1 (currentConfig_within 1).2.1 (currentConfig_within 1).2.2,
    test_reconstruction,
    scoring_bounds.2.2 tableUnmarshal 300 [callAB, downB] testSnapshot testEvidence
      test_reconstruction⟩

/-! ### Rounding ties -/

/-- The rational model and the code disagree on a rounding tie. With a window of ten
minutes and the call `callAB` one millisecond before the failure, the exact total is
`0.3999995`, which the rational model rounds away from zero to `0.4`; the binary64 total
lies just below the tie and the code returns `0.399999`. -/
theorem rounded_tie_binary64 :
    (ScoreEdge tenMinuteConfig 101 [callAB]).baseScore +
        (ScoreEdge tenMinuteConfig 101 [callAB]).timeProximityBonus = 3999995 / 10000000 ∧
      (ScoreEdge tenMinuteConfig 101 [callAB]).score = 2 / 5 ∧
      totalF (Config.toF tenMinuteConfig) 101 [callAB] =
        F64.fin (3602875198296769 / 9007199254740992) ∧
      (3602875198296769 / 9007199254740992 : ℚ) < 3999995 / 10000000 ∧
      (ScoreEdgeF (Config.toF tenMinuteConfig) 101 [callAB]).score =
        roundF64 (399999 / 1000000) ∧
      roundF64 (399999 / 1000000) ≠ roundF64 (2 / 5) := by
  refine ⟨by decide!, by decide!, by decide!, by norm_num, by decide!, by decide!⟩

/-! ## The reconstruction over any implementation of `sort.Slice` -/

theorem ReconstructGraphBy_sortSlice (unmarshal : String → String → Option String) (atTs : Int)
    (events : List Event) :
    ReconstructGraphBy sortSlice unmarshal atTs events =
      ReconstructGraph unmarshal atTs events := rfl

/-- Insertion sort meets the contract of `sort.Slice`. -/
theorem sortSlice_contract : SortContract sortSlice := by
  intro α κ _ less key hless l
  exact ⟨sortSlice_perm less l, sortSlice_sorted less key hless l⟩

/-- A sort that meets the contract returns what insertion sort returns on a list without
two elements of the same key. -/
theorem sort_eq_sortSlice (sort : {α : Type} → (α → α → Bool) → List α → List α)
    (hsort : SortContract sort) {α κ : Type} [LinearOrder κ] (less : α → α → Bool)
    (key : α → κ) (hless : ∀ a b, less a b = true ↔ key a < key b) (l : List α)
    (hinj : ∀ a ∈ l, ∀ b ∈ l, key a = key b → a = b) :
    sort less l = sortSlice less l := by
  obtain ⟨hp, hs⟩ := hsort α κ less key hless l
  apply sorted_perm_unique key _ _ (hp.trans (sortSlice_perm less l).symm) hs
    (sortSlice_sorted less key hless l)
  intro a ha b hb
  exact hinj a (hp.subset ha) b (hp.subset hb)

/-- The events a replay handles do not depend on the implementation of `sort.Slice` when no
two distinct events up to `atTs` share `(ts, id)`. -/
theorem sort_processed (sort : {α : Type} → (α → α → Bool) → List α → List α)
    (hsort : SortContract sort) (atTs : Int) (events : List Event)
    (hkey : ∀ a ∈ events, ∀ b ∈ events, a.ts ≤ atTs → a.ts = b.ts → a.id = b.id → a = b) :
    (sort eventLess events).takeWhile (fun e => decide (e.ts ≤ atTs)) =
      (sortSlice eventLess events).takeWhile (fun e => decide (e.ts ≤ atTs)) := by
  obtain ⟨hp, hs⟩ := hsort Event _ eventLess (fun e => toLex (e.ts, e.id)) eventLess_iff events
  have hts : (sort eventLess events).Pairwise (fun a b => a.ts ≤ b.ts) := by
    refine hs.imp ?_
    intro a b hab
    rcases (Prod.Lex.le_iff _ _).1 hab with h | h
    · exact le_of_lt h
    · exact le_of_eq h.1
  rw [takeWhile_eq_filter_of_sorted atTs _ hts, (processed_spec atTs events).1]
  apply sorted_perm_unique (fun e : Event => toLex (e.ts, e.id))
  · exact (hp.filter _).trans ((sortSlice_perm eventLess events).filter _).symm
  · exact hs.sublist (List.filter_sublist _)
  · exact (processed_spec atTs events).2.1
  · intro a ha b hb hab
    have ha' := List.mem_filter.1 ha
    have hb' := List.mem_filter.1 hb
    have := congrArg ofLex hab
    simp only [ofLex_toLex, Prod.mk.injEq] at this
    exact hkey a (hp.subset ha'.1) b (hp.subset hb'.1) (by simpa using ha'.2) this.1 this.2

/-- With events that do not share `(ts, id)` up to `atTs`, `ReconstructGraph` returns the
same result over every implementation of `sort.Slice` that meets its contract. -/
theorem ReconstructGraphBy_eq (sort : {α : Type} → (α → α → Bool) → List α → List α)
    (hsort : SortContract sort) (unmarshal : String → String → Option String) (atTs : Int)
    (events : List Event)
    (hkey : ∀ a ∈ events, ∀ b ∈ events, a.ts ≤ atTs → a.ts = b.ts → a.id = b.id → a = b) :
    ReconstructGraphBy sort unmarshal atTs events = ReconstructGraph unmarshal atTs events := by
  have hreplay : replayLoop unmarshal atTs { nodes := [], edges := [], edgeInteractions := [] }
      (sort eventLess events) = replayEvents unmarshal atTs events := by
    unfold replayEvents
    rw [replayLoop_eq_replayAll, replayLoop_eq_replayAll, sort_processed sort hsort atTs events hkey]
  unfold ReconstructGraphBy
  rw [hreplay]
  cases hr : replayEvents unmarshal atTs events with
  | none => simp only [ReconstructGraph, hr]
  | some rs =>
    simp only
    cases hs : scoringPass atTs { nodes := rs.nodes, edges := rs.edges, evidenceMap := [] }
        rs.edgeInteractions with
    | none => simp only [ReconstructGraph, hr, hs]
    | some ss =>
      have hrg : ReconstructGraph unmarshal atTs events =
          some ({ timestamp := atTs
                  nodes := sortSlice nodeLess (ss.nodes.map Prod.snd)
                  edges := sortSlice edgeLess (ss.edges.map Prod.snd) }, ss.evidenceMap) := by
        simp only [ReconstructGraph, hr, hs]
      obtain ⟨rs', ss', hr', hrs, hs', _, _, hvn, hve, _, _⟩ :=
        ReconstructGraph_some unmarshal atTs events _ _ hrg
      rw [hr] at hr'
      cases hr'
      rw [hs] at hs'
      cases hs'
      rw [hrg]
      simp only
      have hn : sort nodeLess (ss.nodes.map Prod.snd) =
          sortSlice nodeLess (ss.nodes.map Prod.snd) := by
        apply sort_eq_sortSlice sort hsort nodeLess (fun n => n.id) nodeLess_iff
        have hnd : ((ss.nodes.map Prod.snd).map (fun n => n.id)).Nodup := by
          rw [scored_node_ids rs ss hrs hvn]; exact hrs.nodesInv.1
        exact fun a ha b hb hab => List.inj_on_of_nodup_map hnd ha hb hab
      have he : sort edgeLess (ss.edges.map Prod.snd) =
          sortSlice edgeLess (ss.edges.map Prod.snd) := by
        apply sort_eq_sortSlice sort hsort edgeLess (fun e => toLex (e.source, e.target))
          edgeLess_iff
        have hnd : ((ss.edges.map Prod.snd).map (fun e => toLex (e.source, e.target))).Nodup := by
          rw [scored_edge_pairs rs ss hve]; exact replay_edge_pairs_nodup rs hrs
        exact fun a ha b hb hab => List.inj_on_of_nodup_map hnd ha hb hab
      rw [hn, he]

theorem mem_insert_of_mem {α : Type} (l₁ l₂ : List α) (x a : α) (h : a ∈ l₁ ++ l₂) :
    a ∈ l₁ ++ x :: l₂ := by
  rcases List.mem_append.1 h with h | h
  · exact List.mem_append_left _ h
  · exact List.mem_append_right _ (List.mem_cons_of_mem _ h)

/-! ### Amplification monotonicity -/

/-- C15, as amended (amplification monotonicity): over every implementation of `sort.Slice`
that meets its contract, for every event list `E = l₁ ++ l₂`, timestamp and `RPC_ERROR`
event `x` with `x.ts ≤ atTs` such that no two distinct events of `E` with `x`, stamped at
or before `atTs`, share `(ts, id)`: when `ReconstructGraph` returns on `E`, it returns on
`E` with `x` added at any position, whatever the destination of `x` and its health, and the
amplification score of the emitter of `x` in the new snapshot is at least the one in the
snapshot of `E` (`0` when the emitter is not a node there). -/
theorem amplification_monotonicity
    (sort : {α : Type} → (α → α → Bool) → List α → List α) (hsort : SortContract sort)
    (unmarshal : String → String → Option String) (atTs : Int)
    (l₁ l₂ : List Event) (x : Event) (snap : GraphSnapshot)
    (ev : List (String × EdgeEvidence))
    (hx : x.type = EventType.RPC_ERROR) (hts : x.ts ≤ atTs)
    (hkey : ∀ a ∈ l₁ ++ x :: l₂, ∀ b ∈ l₁ ++ x :: l₂,
      a.ts ≤ atTs → a.ts = b.ts → a.id = b.id → a = b)
    (h : ReconstructGraphBy sort unmarshal atTs (l₁ ++ l₂) = some (snap, ev)) :
    ∃ snap' ev', ReconstructGraphBy sort unmarshal atTs (l₁ ++ x :: l₂) = some (snap', ev') ∧
      amplificationIn snap x.service ≤ amplificationIn snap' x.service := by
  have hkey' : ∀ a ∈ l₁ ++ l₂, ∀ b ∈ l₁ ++ l₂,
      a.ts ≤ atTs → a.ts = b.ts → a.id = b.id → a = b :=
    fun a ha b hb => hkey a (mem_insert_of_mem l₁ l₂ x a ha) b (mem_insert_of_mem l₁ l₂ x b hb)
  rw [ReconstructGraphBy_eq sort hsort unmarshal atTs _ hkey'] at h
  rw [ReconstructGraphBy_eq sort hsort unmarshal atTs _ hkey]
  exact amp_monotone unmarshal atTs l₁ l₂ x snap ev hx hts h

/-- C15 fails as stated. The twelve events `tiedEvents` are sorted by insertion, which
keeps `UP` before `DOWN`: `B` ends `DOWN` and the ten errors from `A` to `B` give `A` the
amplification score `10`. With one more error from `A` to `B`, stamped `2`, appended, the
slice has thirteen elements and Go partitions it: the first element, `UP`, is swapped with
the pivot at index `6` and comes out after `DOWN`; `B` ends healthy and the amplification
score of `A` is `0`. -/
theorem amplification_monotonicity_fails :
    (errorAt 2 "e02").type = EventType.RPC_ERROR ∧ (errorAt 2 "e02").ts ≤ 20 ∧
      goSortSlice eventLess tiedEvents = tiedEvents ∧
      goSortSlice eventLess (tiedEvents ++ [errorAt 2 "e02"]) =
        dupDown :: dupUp :: errorAt 2 "e02" :: tenErrors ∧
      (ReconstructGraphBy goSortSlice tableUnmarshal 20 tiedEvents).map
          (fun r => (r.1.nodes.map (fun n => (n.id, n.healthStatus)),
            amplificationIn r.1 (errorAt 2 "e02").service)) =
        some ([("A", 0), ("B", 2)], 10) ∧
      (ReconstructGraphBy goSortSlice tableUnmarshal 20 (tiedEvents ++ [errorAt 2 "e02"])).map
          (fun r => (r.1.nodes.map (fun n => (n.id, n.healthStatus)),
            amplificationIn r.1 (errorAt 2 "e02").service)) =
        some ([("A", 0), ("B", 0)], 0) := by
  refine ⟨by decide, by decide, by decide!, by decide!, by decide!, by decide!⟩

/-- Instance of C15 on the events of `TestReconstructGraph`, with insertion sort for
`sort.Slice`: with the error from `A` to the `DOWN` node `B` added, the amplification score
of `A` goes from `0` to `1`. -/
theorem amplification_monotonicity_witness :
    SortContract sortSlice ∧ errorAB.type = EventType.RPC_ERROR ∧ errorAB.ts ≤ 300 ∧
      (∀ a ∈ [callAB] ++ errorAB :: [downB], ∀ b ∈ [callAB] ++ errorAB :: [downB],
        a.ts ≤ 300 → a.ts = b.ts → a.id = b.id → a = b) ∧
      ReconstructGraphBy sortSlice tableUnmarshal 300 ([callAB] ++ [downB]) =
        some (testSnapshot, testEvidence) ∧
      amplificationIn testSnapshot "A" = 0 ∧
      (ReconstructGraphBy sortSlice tableUnmarshal 300 ([callAB] ++ errorAB :: [downB])).map
          (fun r => (amplificationIn r.1 "A", r.1.nodes.map (fun n => (n.id, n.healthStatus)))) =
        some (1, [("A", 0), ("B", 2)]) ∧
      ∃ snap' ev',
        ReconstructGraphBy sortSlice tableUnmarshal 300 ([callAB] ++ errorAB :: [downB]) =
          some (snap', ev') ∧
        amplificationIn testSnapshot errorAB.service ≤ amplificationIn snap' errorAB.service :=
  ⟨sortSlice_contract, by decide, by decide, by decide!, by decide!, by decide!, by decide!,
    amplification_monotonicity sortSlice sortSlice_contract tableUnmarshal 300 [callAB] [downB]
      errorAB testSnapshot testEvidence (by decide) (by decide) (by decide!) (by decide!)⟩

/-! ### Unknown event types -/

/-- C26 (unknown types ignored, amended): over every implementation of `sort.Slice` that
meets its contract, for every event list (written `l₁ ++ l₂`), timestamp and event `u`
whose type is none of RPC_CALL, RPC_ERROR, HEALTH_CHANGE, put anywhere in the list, such
that no two distinct events of the list with `u`, stamped at or before `atTs`, share
`(ts, id)`: when `ReconstructGraph` fails without `u` it fails with it, and when it returns
`(snap, ev)` without `u` it returns with `u` the same evidence map `ev` and a snapshot with
the same timestamp and edges, whose nodes are those of `snap` and, when `u.service` is not
empty, `u.ts ≤ atTs` and `snap` has no node of that id, one more node: the service of `u`,
healthy and with amplification `0`. In every other case the snapshot is `snap` itself. -/
theorem unknown_types_ignored
    (sort : {α : Type} → (α → α → Bool) → List α → List α) (hsort : SortContract sort)
    (unmarshal : String → String → Option String) (atTs : Int)
    (l₁ l₂ : List Event) (u : Event) (hcall : u.type ≠ EventType.RPC_CALL)
    (herr : u.type ≠ EventType.RPC_ERROR) (hhc : u.type ≠ EventType.HEALTH_CHANGE)
    (hkey : ∀ a ∈ l₁ ++ u :: l₂, ∀ b ∈ l₁ ++ u :: l₂,
      a.ts ≤ atTs → a.ts = b.ts → a.id = b.id → a = b) :
    (ReconstructGraphBy sort unmarshal atTs (l₁ ++ l₂) = none →
        ReconstructGraphBy sort unmarshal atTs (l₁ ++ u :: l₂) = none) ∧
      ∀ snap ev, ReconstructGraphBy sort unmarshal atTs (l₁ ++ l₂) = some (snap, ev) →
        ∃ snap', ReconstructGraphBy sort unmarshal atTs (l₁ ++ u :: l₂) = some (snap', ev) ∧
          snap'.timestamp = snap.timestamp ∧ snap'.edges = snap.edges ∧
          ((u.service ≠ "" ∧ u.ts ≤ atTs ∧ ∀ m ∈ snap.nodes, m.id ≠ u.service) →
            snap'.nodes.Perm (freshNode u.service :: snap.nodes)) ∧
          ((u.service = "" ∨ atTs < u.ts ∨ ∃ m ∈ snap.nodes, m.id = u.service) →
            snap' = snap) := by
  have hkey' : ∀ a ∈ l₁ ++ l₂, ∀ b ∈ l₁ ++ l₂,
      a.ts ≤ atTs → a.ts = b.ts → a.id = b.id → a = b :=
    fun a ha b hb => hkey a (mem_insert_of_mem l₁ l₂ u a ha) b (mem_insert_of_mem l₁ l₂ u b hb)
  rw [ReconstructGraphBy_eq sort hsort unmarshal atTs _ hkey',
    ReconstructGraphBy_eq sort hsort unmarshal atTs _ hkey]
  exact unknown_event unmarshal atTs l₁ l₂ u hcall herr hhc

/-- C26 as claimed fails, in two ways. The event `unknownEvent`, of a type that is none of
the three, added to the empty list at `atTs = 5`, gives a snapshot with the node `Z`, while
the empty list gives a snapshot without nodes. And an event of unknown type can change the
health of a node it does not name: the twelve events `tiedEvents` are sorted by insertion,
`UP` before `DOWN`, and `B` ends `DOWN`; with `unknownFromA` appended the slice has thirteen
elements, Go partitions it, `UP` comes out after `DOWN`, and `B` ends healthy. -/
theorem unknown_types_ignored_fails :
    ((unknownEvent.type ≠ EventType.RPC_CALL ∧ unknownEvent.type ≠ EventType.RPC_ERROR ∧
        unknownEvent.type ≠ EventType.HEALTH_CHANGE) ∧
      (ReconstructGraph tableUnmarshal 5 []).map (fun r => r.1.nodes) = some [] ∧
      (ReconstructGraph tableUnmarshal 5 [unknownEvent]).map (fun r => r.1.nodes) =
        some [freshNode "Z"]) ∧
    ((unknownFromA.type ≠ EventType.RPC_CALL ∧ unknownFromA.type ≠ EventType.RPC_ERROR ∧
        unknownFromA.type ≠ EventType.HEALTH_CHANGE) ∧
      goSortSlice eventLess tiedEvents = tiedEvents ∧
      goSortSlice eventLess (tiedEvents ++ [unknownFromA]) =
        dupDown :: dupUp :: unknownFromA :: tenErrors ∧
      (ReconstructGraphBy goSortSlice tableUnmarshal 20 tiedEvents).map
          (fun r => r.1.nodes.map (fun n => (n.id, n.healthStatus))) =
        some [("A", 0), ("B", 2)] ∧
      (ReconstructGraphBy goSortSlice tableUnmarshal 20 (tiedEvents ++ [unknownFromA])).map
          (fun r => r.1.nodes.map (fun n => (n.id, n.healthStatus))) =
        some [("A", 0), ("B", 0)]) := by
  refine ⟨by decide!, by decide, by decide!, by decide!, by decide!, by decide!⟩

/-- Instance of C26, with insertion sort for `sort.Slice`: `unknownEvent` put between the
two events of the test list leaves the evidence map and the edges as they were and adds the
node `Z`; the same event emitted by `A`, already a node, leaves the whole result as it
was. -/
theorem unknown_types_ignored_witness :
    SortContract sortSlice ∧
      (unknownEvent.type ≠ EventType.RPC_CALL ∧ unknownEvent.type ≠ EventType.RPC_ERROR ∧
        unknownEvent.type ≠ EventType.HEALTH_CHANGE) ∧
      (∀ a ∈ [callAB] ++ unknownEvent :: [downB], ∀ b ∈ [callAB] ++ unknownEvent :: [downB],
        a.ts ≤ 300 → a.ts = b.ts → a.id = b.id → a = b) ∧
      ReconstructGraphBy sortSlice tableUnmarshal 300 ([callAB] ++ [downB]) =
        some (testSnapshot, testEvidence) ∧
      (∃ snap',
        ReconstructGraphBy sortSlice tableUnmarshal 300 ([callAB] ++ unknownEvent :: [downB]) =
          some (snap', testEvidence) ∧
        snap'.timestamp = testSnapshot.timestamp ∧ snap'.edges = testSnapshot.edges ∧
        ((unknownEvent.service ≠ "" ∧ unknownEvent.ts ≤ 300 ∧
            ∀ m ∈ testSnapshot.nodes, m.id ≠ unknownEvent.service) →
          snap'.nodes.Perm (freshNode unknownEvent.service :: testSnapshot.nodes)) ∧
        ((unknownEvent.service = "" ∨ 300 < unknownEvent.ts ∨
            ∃ m ∈ testSnapshot.nodes, m.id = unknownEvent.service) →
          snap' = testSnapshot)) ∧
      ReconstructGraphBy sortSlice tableUnmarshal 300
          ([callAB] ++ { unknownEvent with service := "A" } :: [downB]) =
        some (testSnapshot, testEvidence) :=
  ⟨sortSlice_contract, by decide, by decide!, by decide!,
    (unknown_types_ignored sortSlice sortSlice_contract tableUnmarshal 300 [callAB] [downB]
      unknownEvent (by decide) (by decide) (by decide) (by decide!)).2 testSnapshot testEvidence
      (by decide!),
    by decide!⟩

/-! ### Future events -/

/-- C29, as amended (future events dropped): over every implementation of `sort.Slice` that
meets its contract, for every timestamp and every event list in which no two distinct
events stamped at or before `atTs` share `(ts, id)`, `ReconstructGraph` gives on the whole
list what it gives on the events with `ts ≤ atTs` (the same result, or the same failure);
in particular events later than `atTs` added to the list change nothing. -/
theorem future_events_dropped
    (sort : {α : Type} → (α → α → Bool) → List α → List α) (hsort : SortContract sort)
    (unmarshal : String → String → Option String) (atTs : Int) (events : List Event)
    (hkey : ∀ a ∈ events, ∀ b ∈ events, a.ts ≤ atTs → a.ts = b.ts → a.id = b.id → a = b) :
    ReconstructGraphBy sort unmarshal atTs events =
        ReconstructGraphBy sort unmarshal atTs
          (events.filter (fun e => decide (e.ts ≤ atTs))) ∧
      ∀ late : List Event, (∀ e ∈ late, atTs < e.ts) →
        ReconstructGraphBy sort unmarshal atTs (events ++ late) =
          ReconstructGraphBy sort unmarshal atTs events := by
  have hfilter : ∀ a ∈ events.filter (fun e => decide (e.ts ≤ atTs)),
      ∀ b ∈ events.filter (fun e => decide (e.ts ≤ atTs)),
      a.ts ≤ atTs → a.ts = b.ts → a.id = b.id → a = b :=
    fun a ha b hb => hkey a (List.mem_filter.1 ha).1 b (List.mem_filter.1 hb).1
  refine ⟨?_, ?_⟩
  · rw [ReconstructGraphBy_eq sort hsort unmarshal atTs _ hkey,
      ReconstructGraphBy_eq sort hsort unmarshal atTs _ hfilter]
    exact (future_dropped unmarshal atTs events).1
  · intro late hlate
    have hin : ∀ a ∈ events ++ late, a.ts ≤ atTs → a ∈ events := by
      intro a ha hts
      rcases List.mem_append.1 ha with h | h
      · exact h
      · have := hlate a h
        omega
    have hboth : ∀ a ∈ events ++ late, ∀ b ∈ events ++ late,
        a.ts ≤ atTs → a.ts = b.ts → a.id = b.id → a = b := by
      intro a ha b hb hts hab hid
      exact hkey a (hin a ha hts) b (hin b hb (by omega)) hts hab hid
    rw [ReconstructGraphBy_eq sort hsort unmarshal atTs _ hboth,
      ReconstructGraphBy_eq sort hsort unmarshal atTs _ hkey]
    exact (future_dropped unmarshal atTs events).2 late hlate

/-- C29 fails as stated. The thirteen events `tiedWithLate` hold one event later than
`atTs = 20`; Go partitions the slice, the first element, `UP`, is swapped with the pivot
at index `6` and comes out after `DOWN`, so `B` ends healthy. The twelve events up to `atTs`
are `tiedEvents`, which insertion sort leaves with `UP` before `DOWN`, so `B` ends
`DOWN`. -/
theorem future_events_dropped_fails :
    tiedWithLate.filter (fun e => decide (e.ts ≤ 20)) = tiedEvents ∧
      goSortSlice eventLess tiedWithLate =
        dupDown :: dupUp :: (tenErrors ++ [errorAt 100 "late"]) ∧
      goSortSlice eventLess tiedEvents = tiedEvents ∧
      (ReconstructGraphBy goSortSlice tableUnmarshal 20 tiedWithLate).map
          (fun r => r.1.nodes.map (fun n => (n.id, n.healthStatus))) =
        some [("A", 0), ("B", 0)] ∧
      (ReconstructGraphBy goSortSlice tableUnmarshal 20
          (tiedWithLate.filter (fun e => decide (e.ts ≤ 20)))).map
          (fun r => r.1.nodes.map (fun n => (n.id, n.healthStatus))) =
        some [("A", 0), ("B", 2)] ∧
      ReconstructGraphBy goSortSlice tableUnmarshal 20 tiedWithLate ≠
        ReconstructGraphBy goSortSlice tableUnmarshal 20
          (tiedWithLate.filter (fun e => decide (e.ts ≤ 20))) := by
  refine ⟨by decide!, by decide!, by decide!, by decide!, by decide!, by decide!⟩

/-- Instance of C29 on the events of `TestReconstructGraph`, with insertion sort for
`sort.Slice`: a `DOWN` of `A` stamped `400` leaves the snapshot at `300` as it was, `A`
healthy. -/
theorem future_events_dropped_witness :
    SortContract sortSlice ∧
      (∀ a ∈ [callAB, downB], ∀ b ∈ [callAB, downB],
        a.ts ≤ 300 → a.ts = b.ts → a.id = b.id → a = b) ∧
      (∀ e ∈ [lateDown], (300 : Int) < e.ts) ∧
      ReconstructGraphBy sortSlice tableUnmarshal 300 ([callAB, downB] ++ [lateDown]) =
        ReconstructGraphBy sortSlice tableUnmarshal 300 [callAB, downB] ∧
      ReconstructGraphBy sortSlice tableUnmarshal 300 ([callAB, downB] ++ [lateDown]) =
        some (testSnapshot, testEvidence) :=
  ⟨sortSlice_contract, by decide!, by decide,
    (future_events_dropped sortSlice sortSlice_contract tableUnmarshal 300 [callAB, downB]
      (by decide!)).2 [lateDown] (by decide),
    by decide!⟩

/-! ## Rounding error of the scorer in binary64 -/

/-! ### Rounding error -/

/-- The error of one rounding: at most `2 ^ -53` of the magnitude of the exact value, plus
the half spacing of the subnormal numbers. -/
theorem roundF64_near (q : ℚ) (k : ℕ) (hk : k ≤ 1000) (h : |q| ≤ 2 ^ k) :
    ∃ v : ℚ, roundF64 q = F64.fin v ∧ |v - q| ≤ (|q| + 1) / 2 ^ 53 ∧ (0 ≤ q → 0 ≤ v) := by
  by_cases hq : q = 0
  · refine ⟨0, by rw [hq]; exact roundF64_zero, ?_, fun _ => le_refl _⟩
    rw [hq, sub_zero, abs_zero]
    positivity
  obtain ⟨e, he, hcase, heq⟩ := roundF64_unfold q hq
  have hu := pow2_pos (e - 52)
  have ha : 0 < |q| := abs_pos.2 hq
  set m : ℚ := (roundHalfEven (|q| / pow2 (e - 52)) : ℚ) with hm
  have hm0 : 0 ≤ m := by
    have : (0 : Int) ≤ roundHalfEven (|q| / pow2 (e - 52)) :=
      le_roundHalfEven _ 0 (by push_cast; positivity)
    rw [hm]
    exact_mod_cast this
  have hue : pow2 (e - 52) = pow2 e / 2 ^ 52 := by
    rw [pow2_eq, pow2_eq, zpow_sub₀ (by norm_num), show (52 : ℤ) = ((52 : ℕ) : ℤ) from rfl,
      zpow_natCast]
  have h0 : pow2 0 = 1 := by rw [pow2_eq]; norm_num
  have hpe : pow2 e ≤ |q| + 1 := by
    rcases hcase with h1 | h1
    · rw [h1]
      have : pow2 (-1022) ≤ pow2 0 := pow2_mono (by norm_num)
      linarith
    · linarith
  have hnear : |m * pow2 (e - 52) - abs q| ≤ (|q| + 1) / 2 ^ 53 := by
    have h1 := roundHalfEven_near (|q| / pow2 (e - 52))
    have hx : m * pow2 (e - 52) - |q| = (m - |q| / pow2 (e - 52)) * pow2 (e - 52) := by
      field_simp
    rw [hx, abs_mul, abs_of_pos hu]
    calc |m - |q| / pow2 (e - 52)| * pow2 (e - 52) ≤ 1 / 2 * pow2 (e - 52) := by gcongr
      _ = pow2 e / 2 ^ 53 := by rw [hue]; ring
      _ ≤ (|q| + 1) / 2 ^ 53 := by gcongr
  have hfin : ¬ pow2 1024 ≤ m * pow2 (e - 52) := by
    rw [not_le]
    have h1 := (abs_le.1 hnear).2
    have h2 : (|q| + 1) / 2 ^ 53 ≤ |q| + 1 := div_le_self (by positivity) (by norm_num)
    have h4 : (1 : ℚ) ≤ 2 ^ k := one_le_pow₀ (by norm_num)
    have h3 : (2 : ℚ) ^ k * 4 < pow2 1024 := by
      calc (2 : ℚ) ^ k * 4 = 2 ^ (k + 2) := by rw [pow_add]; norm_num
        _ < pow2 1024 := two_pow_lt_1024 _ (by omega)
    linarith
  rw [if_neg hfin] at heq
  refine ⟨_, heq, ?_, ?_⟩
  · by_cases hneg : q < 0
    · rw [if_pos hneg]
      have : -(m * pow2 (e - 52)) - q = -(m * pow2 (e - 52) - |q|) := by
        rw [abs_of_neg hneg]; ring
      rw [this, abs_neg]
      exact hnear
    · rw [if_neg hneg]
      have : m * pow2 (e - 52) - q = m * pow2 (e - 52) - |q| := by
        rw [abs_of_nonneg (not_lt.1 hneg)]
      rw [this]
      exact hnear
  · intro h0
    rw [if_neg (not_lt.2 h0)]
    positivity

theorem clamp01_dist (x y : ℚ) : |clamp01 x - clamp01 y| ≤ |x - y| := by
  unfold clamp01
  rcases le_total x y with h | h
  · have h1 : max 0 (min 1 x) ≤ max 0 (min 1 y) := max_le_max (le_refl _) (min_le_min (le_refl _) h)
    rw [abs_sub_comm, abs_of_nonneg (by linarith), abs_sub_comm, abs_of_nonneg (by linarith)]
    rcases le_total 1 x with hx | hx
    · rw [min_eq_left hx, min_eq_left (le_trans hx h)]; linarith
    · rw [min_eq_right hx]
      rcases le_total 0 x with h0 | h0
      · rw [max_eq_right h0]
        have : max 0 (min 1 y) ≤ y := max_le (le_trans h0 h) (min_le_right _ _)
        linarith
      · rw [max_eq_left h0]
        rcases le_total 0 y with hy | hy
        · have : max 0 (min 1 y) ≤ y := max_le hy (min_le_right _ _)
          linarith
        · rw [max_eq_left (le_trans (min_le_right _ _) hy)]; linarith
  · have h1 : max 0 (min 1 y) ≤ max 0 (min 1 x) := max_le_max (le_refl _) (min_le_min (le_refl _) h)
    rw [abs_of_nonneg (by linarith), abs_of_nonneg (by linarith)]
    rcases le_total 1 y with hy | hy
    · rw [min_eq_left hy, min_eq_left (le_trans hy h)]; linarith
    · rw [min_eq_right hy]
      rcases le_total 0 y with h0 | h0
      · rw [max_eq_right h0]
        have : max 0 (min 1 x) ≤ x := max_le (le_trans h0 h) (min_le_right _ _)
        linarith
      · rw [max_eq_left h0]
        rcases le_total 0 x with hx | hx
        · have : max 0 (min 1 x) ≤ x := max_le hx (min_le_right _ _)
          linarith
        · rw [max_eq_left (le_trans (min_le_right _ _) hx)]; linarith

/-- The clamp of `ScoreEdge` in binary64 on a finite total. -/
theorem clampF_fin (t : ℚ) :
    (if F64.lt (if F64.lt (F64.fin 1) (F64.fin t) then F64.fin 1 else F64.fin t) (F64.fin 0)
      then F64.fin 0
      else (if F64.lt (F64.fin 1) (F64.fin t) then F64.fin 1 else F64.fin t)) =
      F64.fin (clamp01 t) := by
  unfold clamp01
  by_cases h1 : 1 < t
  · rw [min_eq_left h1.le, max_eq_right (by norm_num)]
    simp [F64.lt, h1]
  · rw [min_eq_right (not_lt.1 h1)]
    by_cases h0 : t < 0
    · rw [max_eq_left h0.le]
      simp [F64.lt, h1, h0]
    · rw [max_eq_right (not_lt.1 h0)]
      simp [F64.lt, h1, h0]

/-- The clamp and the rounding to six decimals in binary64 return a number within
`6e-7` of the clamped total. -/
theorem finishF_near (t : ℚ) :
    ∃ s : ℚ, finishF (F64.fin t) = F64.fin s ∧ |s - clamp01 t| ≤ 6 / 10000000 := by
  obtain ⟨hc0, hc1⟩ := clamp01_bounds t
  unfold finishF
  simp only
  rw [clampF_fin]
  generalize clamp01 t = c at hc0 hc1
  have hy : |c * 1000000| ≤ 2 ^ 20 := by
    rw [abs_of_nonneg (by positivity)]
    norm_num
    linarith
  obtain ⟨y, hyeq, hynear, hy0⟩ := roundF64_near (c * 1000000) 20 (by omega) hy
  have hmul : F64.mul (F64.fin c) (F64.fin 1000000) = F64.fin y := hyeq
  rw [hmul]
  have hround : F64.round (F64.fin y) = F64.fin (mathRound y) := rfl
  rw [hround]
  obtain ⟨n, hn, hnnear, _⟩ := mathRound_spec y
  rw [hn]
  rw [abs_of_nonneg (by positivity : (0 : ℚ) ≤ c * 1000000)] at hynear
  have hyb := abs_le.1 hynear
  have hnb := abs_le.1 hnnear
  have hq : |(n : ℚ) / 1000000| ≤ 2 ^ 1 := by
    rw [abs_le]
    constructor
    · rw [le_div_iff₀ (by norm_num)]
      linarith [hy0 (by positivity)]
    · rw [div_le_iff₀ (by norm_num)]
      linarith
  obtain ⟨s, hseq, hsnear, _⟩ := roundF64_near ((n : ℚ) / 1000000) 1 (by omega) hq
  have hdiv : F64.div (F64.fin (n : ℚ)) (F64.fin 1000000) = F64.fin s := by
    simp only [F64.div]
    rw [if_neg (by norm_num)]
    exact hseq
  rw [hdiv]
  refine ⟨s, rfl, ?_⟩
  have hq2 : |(n : ℚ) / 1000000| ≤ 2 := by
    rw [abs_le]
    constructor
    · rw [le_div_iff₀ (by norm_num)]
      linarith [hy0 (by positivity)]
    · rw [div_le_iff₀ (by norm_num)]
      linarith
  have hsb := abs_le.1 hsnear
  have hsmall : (|(n : ℚ) / 1000000| + 1) / 2 ^ 53 ≤ 1 / 100000000 := by
    rw [div_le_iff₀ (by positivity)]
    norm_num
    linarith
  rw [abs_le]
  constructor
  · have : (n : ℚ) / 1000000 - c ≥ -(6 / 10000000) + 1 / 100000000 := by
      rw [ge_iff_le, ← sub_nonneg]
      have : (n : ℚ) / 1000000 - c - (-(6 / 10000000) + 1 / 100000000) =
          ((n : ℚ) - c * 1000000 + 59 / 100) / 1000000 := by ring
      rw [this]
      apply div_nonneg _ (by norm_num)
      have : (c * 1000000 + 1) / 2 ^ 53 ≤ 1 / 100 := by
        rw [div_le_iff₀ (by positivity)]
        norm_num
        linarith
      linarith
    linarith
  · have : (n : ℚ) / 1000000 - c ≤ 6 / 10000000 - 1 / 100000000 := by
      rw [← sub_nonneg]
      have : 6 / 10000000 - 1 / 100000000 - ((n : ℚ) / 1000000 - c) =
          (c * 1000000 + 59 / 100 - (n : ℚ)) / 1000000 := by ring
      rw [this]
      apply div_nonneg _ (by norm_num)
      have : (c * 1000000 + 1) / 2 ^ 53 ≤ 1 / 100 := by
        rw [div_le_iff₀ (by positivity)]
        norm_num
        linarith
      linarith
    linarith

/-! ### Score composition in binary64 -/

theorem clamp01_of_nonneg (x : ℚ) (h : 0 ≤ x) : clamp01 x = min 1 x := by
  unfold clamp01
  exact max_eq_right (le_min (by norm_num) h)

/-- The parameters the scoring pass hands to `ScoreEdge`, as binary64 values. -/
theorem currentConfig_toF (health : Int) :
    (Config.toF (currentConfig health)).windowSize = 30000 ∧
      (Config.toF (currentConfig health)).baseScore =
        F64.fin (if health = 0 then 5764607523034235 / 576460752303423488
          else 3602879701896397 / 36028797018963968) ∧
      (Config.toF (currentConfig health)).rpcErrorBonus =
        F64.fin (3602879701896397 / 9007199254740992) ∧
      (Config.toF (currentConfig health)).timeProximityBonus =
        F64.fin (5404319552844595 / 18014398509481984) := by
  have h1 : roundF64 (1 / 100) = F64.fin (5764607523034235 / 576460752303423488) := by decide!
  have h2 : roundF64 (1 / 10) = F64.fin (3602879701896397 / 36028797018963968) := by decide!
  have h3 : roundF64 (4 / 10) = F64.fin (3602879701896397 / 9007199254740992) := by decide!
  have h4 : roundF64 (3 / 10) = F64.fin (5404319552844595 / 18014398509481984) := by decide!
  unfold currentConfig
  by_cases h : health = 0
  · rw [if_pos h, if_pos h]
    exact ⟨rfl, h1, h3, h4⟩
  · rw [if_neg h, if_neg h]
    exact ⟨rfl, h2, h3, h4⟩

theorem ScoreEdgeF_baseScore (cfg : ConfigF) (failureTs : Int) (interactions : List Event) :
    (ScoreEdgeF cfg failureTs interactions).baseScore = cfg.baseScore := rfl

theorem ScoreEdgeF_traceBonus (cfg : ConfigF) (failureTs : Int) (interactions : List Event) :
    (ScoreEdgeF cfg failureTs interactions).traceBonus = F64.fin 0 := rfl

theorem ScoreEdgeF_rpcBonus (cfg : ConfigF) (failureTs : Int) (interactions : List Event) :
    (ScoreEdgeF cfg failureTs interactions).rpcBonus =
      if (scanInteractionsF cfg failureTs interactions).hasRpcError then cfg.rpcErrorBonus
      else F64.fin 0 := rfl

theorem ScoreEdgeF_tp (cfg : ConfigF) (failureTs : Int) (interactions : List Event) :
    (ScoreEdgeF cfg failureTs interactions).timeProximityBonus =
      if (scanInteractionsF cfg failureTs interactions).contributingEventIds.length > 0 then
        F64.mul
          (if F64.lt
              (F64.div
                (F64.ofInt (wrap64 (cfg.windowSize -
                  (scanInteractionsF cfg failureTs interactions).minDelta)))
                (F64.ofInt cfg.windowSize)) (F64.fin 0)
            then F64.fin 0
            else
              F64.div
                (F64.ofInt (wrap64 (cfg.windowSize -
                  (scanInteractionsF cfg failureTs interactions).minDelta)))
                (F64.ofInt cfg.windowSize))
          cfg.timeProximityBonus
      else F64.fin 0 := rfl

/-- The scan of the binary64 scorer is the scan of the rational one. -/
theorem scanInteractionsF_eq (cfg : Config) (failureTs : Int) (interactions : List Event) :
    scanInteractionsF (Config.toF cfg) failureTs interactions =
      scanInteractions cfg failureTs interactions :=
  scanInteractions_congr _ _ rfl failureTs interactions

/-- Without wrap-around, the least distance the scan of the default window finds lies
between `0` and the window. -/
theorem default_minDelta_bounds (health atTs : Int) (inter : List Event)
    (hno : ∀ evt ∈ inter, evt.ts ≤ atTs → atTs - evt.ts < 2 ^ 63) :
    0 ≤ (scanInteractionsF (Config.toF (currentConfig health)) atTs inter).minDelta ∧
      (scanInteractionsF (Config.toF (currentConfig health)) atTs inter).minDelta ≤ 30000 := by
  rw [scanInteractionsF_eq, scan_minDelta, currentConfig_windowSize]
  apply foldl_min_bounds _ _ 30000 (by norm_num)
  intro d hd
  obtain ⟨e, he, rfl⟩ := List.mem_map.1 hd
  obtain ⟨hmem, hw⟩ := List.mem_filter.1 he
  have := (inWindow_iff_of_no_overflow (currentConfig health) atTs e (hno e hmem)).1 hw
  have hts : e.ts ≤ atTs := by omega
  rw [wrap64_of_range _ this.1 (hno e hmem hts)]
  exact this.1

/-- The proximity bonus of the scoring pass in binary64: a non-negative number, at most
`0.32` without wrap-around. -/
theorem proximityF_default (health atTs : Int) (inter : List Event) :
    ∃ t : ℚ, (ScoreEdgeF (Config.toF (currentConfig health)) atTs inter).timeProximityBonus =
        F64.fin t ∧ 0 ≤ t ∧ t ≤ 2 ^ 70 ∧
      ((∀ evt ∈ inter, evt.ts ≤ atTs → atTs - evt.ts < 2 ^ 63) → t ≤ 32 / 100) := by
  obtain ⟨hW, _, _, htp⟩ := currentConfig_toF health
  rw [ScoreEdgeF_tp, hW, htp]
  have hzero : (0 : ℚ) ≤ 2 ^ 70 := by positivity
  by_cases hlen : (scanInteractionsF (Config.toF (currentConfig health)) atTs
      inter).contributingEventIds.length > 0
  swap
  · rw [if_neg hlen]
    exact ⟨0, rfl, le_refl _, hzero, fun _ => by norm_num⟩
  rw [if_pos hlen]
  have hw : F64.ofInt 30000 = F64.fin 30000 := by decide!
  rw [hw]
  set md := (scanInteractionsF (Config.toF (currentConfig health)) atTs inter).minDelta with hmdef
  -- the general case
  have hgen : ∃ p : ℚ, 0 ≤ p ∧ p ≤ 2 ^ 67 ∧
      (if F64.lt (F64.div (F64.ofInt (wrap64 (30000 - md))) (F64.fin 30000)) (F64.fin 0)
        then F64.fin 0
        else F64.div (F64.ofInt (wrap64 (30000 - md))) (F64.fin 30000)) = F64.fin p ∧
      ((0 ≤ md ∧ md ≤ 30000) → p ≤ 1) := by
    by_cases hmd : 0 ≤ md ∧ md ≤ 30000
    · have hwrap : wrap64 (30000 - md) = 30000 - md :=
        wrap64_of_range _ (by omega) (by omega)
      rw [hwrap]
      obtain ⟨a, ha, ha0, ha1⟩ := roundF64_le_nat (((30000 - md : Int) : ℚ)) 30000
        (by exact_mod_cast (by omega : (0 : Int) ≤ 30000 - md))
        (by exact_mod_cast (by omega : 30000 - md ≤ (30000 : Int))) (by norm_num)
      have hx : F64.ofInt (30000 - md) = F64.fin a := ha
      rw [hx]
      have hdiv : F64.div (F64.fin a) (F64.fin 30000) = roundF64 (a / 30000) := by
        simp only [F64.div]; rw [if_neg (by norm_num)]
      rw [hdiv]
      obtain ⟨p, hp, hp0, hp1⟩ := roundF64_le_nat (a / 30000) 1 (by positivity)
        (by push_cast at ha1 ⊢; rw [div_le_one (by norm_num)]; exact ha1) (by norm_num)
      rw [hp]
      push_cast at hp1
      refine ⟨p, hp0, le_trans hp1 (one_le_pow₀ (by norm_num)), ?_, fun _ => hp1⟩
      simp [F64.lt, not_lt.2 hp0]
    · obtain ⟨a, ha, haB, _⟩ := roundF64_fin ((wrap64 (30000 - md) : Int) : ℚ) 63
        (by norm_num) (wrap64_abs_le _)
      have hx : F64.ofInt (wrap64 (30000 - md)) = F64.fin a := ha
      rw [hx]
      have hdiv : F64.div (F64.fin a) (F64.fin 30000) = roundF64 (a / 30000) := by
        simp only [F64.div]; rw [if_neg (by norm_num)]
      rw [hdiv]
      have hq : |a / 30000| ≤ 2 ^ 65 := by
        rw [abs_div, abs_of_pos (by norm_num : (0 : ℚ) < 30000), div_le_iff₀ (by norm_num)]
        calc |a| ≤ 2 ^ (63 + 2) := haB
          _ ≤ 2 ^ 65 * 30000 := by norm_num
      obtain ⟨p, hp, hpB, _⟩ := roundF64_fin (a / 30000) 65 (by norm_num) hq
      rw [hp]
      by_cases hneg : p < 0
      · exact ⟨0, le_refl _, by positivity, by simp [F64.lt, hneg], fun h => absurd h hmd⟩
      · exact ⟨p, not_lt.1 hneg, le_trans (le_abs_self p) hpB, by simp [F64.lt, hneg],
          fun h => absurd h hmd⟩
  obtain ⟨p, hp0, hpB, hp, hp1⟩ := hgen
  rw [hp]
  have hτ0 : (0 : ℚ) ≤ 5404319552844595 / 18014398509481984 := by norm_num
  have hτ1 : (5404319552844595 / 18014398509481984 : ℚ) ≤ 31 / 100 := by norm_num
  have hq : |p * (5404319552844595 / 18014398509481984)| ≤ 2 ^ 67 := by
    rw [abs_of_nonneg (by positivity)]
    calc p * (5404319552844595 / 18014398509481984) ≤ 2 ^ 67 * 1 := by
          apply mul_le_mul hpB (by norm_num) hτ0 (by positivity)
      _ = 2 ^ 67 := by ring
  obtain ⟨t, ht, htnear, ht0⟩ := roundF64_near _ 67 (by norm_num) hq
  have hmul : F64.mul (F64.fin p) (F64.fin (5404319552844595 / 18014398509481984)) =
      F64.fin t := ht
  rw [hmul]
  have hpt : 0 ≤ p * (5404319552844595 / 18014398509481984) := by positivity
  rw [abs_of_nonneg hpt] at htnear
  have htb := abs_le.1 htnear
  refine ⟨t, rfl, ht0 hpt, ?_, ?_⟩
  · have h1 : (p * (5404319552844595 / 18014398509481984) + 1) / 2 ^ 53 ≤
        p * (5404319552844595 / 18014398509481984) + 1 :=
      div_le_self (by positivity) (by norm_num)
    have h2 : p * (5404319552844595 / 18014398509481984) ≤ 2 ^ 67 := by
      rw [abs_of_nonneg hpt] at hq; exact hq
    have h3 : (2 : ℚ) ^ 67 + (2 ^ 67 + 1) ≤ 2 ^ 70 := by norm_num
    linarith
  · intro hno
    have hp1' := hp1 (default_minDelta_bounds health atTs inter hno)
    have h1 : p * (5404319552844595 / 18014398509481984) ≤ 31 / 100 := by
      calc p * (5404319552844595 / 18014398509481984)
          ≤ 1 * (5404319552844595 / 18014398509481984) := by gcongr
        _ ≤ 31 / 100 := by norm_num
    have h2 : (p * (5404319552844595 / 18014398509481984) + 1) / 2 ^ 53 ≤ 1 / 100 := by
      rw [div_le_iff₀ (by positivity)]
      norm_num
      linarith
    linarith

/-- The total of the scoring pass in binary64, clamped, is within `1e-9` of the exact sum
of the evidence components capped at `1`. -/
theorem totalF_near (health atTs : Int) (inter : List Event) :
    ∃ T b r t : ℚ,
      totalF (Config.toF (currentConfig health)) atTs inter = F64.fin T ∧
      (ScoreEdgeF (Config.toF (currentConfig health)) atTs inter).baseScore = F64.fin b ∧
      (ScoreEdgeF (Config.toF (currentConfig health)) atTs inter).rpcBonus = F64.fin r ∧
      (ScoreEdgeF (Config.toF (currentConfig health)) atTs inter).timeProximityBonus =
        F64.fin t ∧
      b = (if health = 0 then 5764607523034235 / 576460752303423488
        else 3602879701896397 / 36028797018963968) ∧
      (r = 0 ∨ r = 3602879701896397 / 9007199254740992) ∧ 0 ≤ t ∧
      ((∀ evt ∈ inter, evt.ts ≤ atTs → atTs - evt.ts < 2 ^ 63) → t ≤ 32 / 100) ∧
      |clamp01 T - min 1 (b + r + t)| ≤ 1 / 1000000000 := by
  obtain ⟨_, hb, hr, _⟩ := currentConfig_toF health
  obtain ⟨t, ht, ht0, htB, htno⟩ := proximityF_default health atTs inter
  have htp := ScoreEdgeF_tp (Config.toF (currentConfig health)) atTs inter
  unfold totalF
  simp only
  rw [ScoreEdgeF_baseScore, ScoreEdgeF_rpcBonus, ht, hb, hr]
  generalize hbdef : (if health = 0 then (5764607523034235 / 576460752303423488 : ℚ)
    else 3602879701896397 / 36028797018963968) = b
  have hb0 : 0 ≤ b := by rw [← hbdef]; split_ifs <;> norm_num
  have hb1 : b ≤ 11 / 100 := by rw [← hbdef]; split_ifs <;> norm_num
  -- the total after the RPC bonus
  have h1 : ∃ t1 r : ℚ, (r = 0 ∨ r = 3602879701896397 / 9007199254740992) ∧
      (if (scanInteractionsF (Config.toF (currentConfig health)) atTs inter).hasRpcError then
        F64.fin (3602879701896397 / 9007199254740992) else F64.fin 0) = F64.fin r ∧
      (if (scanInteractionsF (Config.toF (currentConfig health)) atTs inter).hasRpcError then
        F64.add (F64.fin b) (F64.fin (3602879701896397 / 9007199254740992))
        else F64.fin b) = F64.fin t1 ∧
      0 ≤ t1 ∧ |t1 - (b + r)| ≤ 2 / 2 ^ 53 ∧ 0 ≤ r ∧ r ≤ 41 / 100 := by
    by_cases herr : (scanInteractionsF (Config.toF (currentConfig health)) atTs
        inter).hasRpcError = true
    · rw [if_pos herr, if_pos herr]
      have hq : |b + 3602879701896397 / 9007199254740992| ≤ 2 ^ 0 := by
        rw [abs_of_nonneg (by positivity)]
        norm_num
        linarith
      obtain ⟨v, hv, hvnear, hv0⟩ := roundF64_near _ 0 (by omega) hq
      refine ⟨v, _, Or.inr rfl, rfl, hv, hv0 (by positivity), ?_, by norm_num, by norm_num⟩
      refine le_trans hvnear ?_
      rw [abs_of_nonneg (by positivity)]
      apply div_le_div_of_nonneg_right _ (by positivity)
      norm_num
      linarith
    · rw [if_neg herr, if_neg herr]
      refine ⟨b, 0, Or.inl rfl, rfl, rfl, hb0, ?_, le_refl _, by norm_num⟩
      rw [add_zero, sub_self, abs_zero]
      positivity
  obtain ⟨t1, r, hrcases, hreq, ht1eq, ht10, ht1near, hr0, hr1⟩ := h1
  rw [hreq, ht1eq]
  have ht1b := abs_le.1 ht1near
  have hsmall : (2 : ℚ) / 2 ^ 53 ≤ 1 / 10000000000 := by norm_num
  by_cases hlen : (scanInteractionsF (Config.toF (currentConfig health)) atTs
      inter).contributingEventIds.length > 0
  · rw [if_pos hlen]
    have hq : |t1 + t| ≤ 2 ^ 71 := by
      rw [abs_of_nonneg (by positivity)]
      have : (2 : ℚ) ^ 70 + 2 ^ 70 = 2 ^ 71 := by norm_num
      have : t1 ≤ 2 ^ 70 := by
        have : (1 : ℚ) ≤ 2 ^ 70 := one_le_pow₀ (by norm_num)
        linarith
      linarith
    obtain ⟨T, hT, hTnear, hT0⟩ := roundF64_near (t1 + t) 71 (by norm_num) hq
    have hadd : F64.add (F64.fin t1) (F64.fin t) = F64.fin T := hT
    rw [hadd]
    refine ⟨T, b, r, t, rfl, rfl, rfl, rfl, rfl, hrcases, ht0, htno, ?_⟩
    rw [abs_of_nonneg (by positivity : (0 : ℚ) ≤ t1 + t)] at hTnear
    have hTb := abs_le.1 hTnear
    rw [← clamp01_of_nonneg (b + r + t) (by positivity)]
    by_cases ht2 : t ≤ 2
    · refine le_trans (clamp01_dist _ _) ?_
      have h3 : (t1 + t + 1) / 2 ^ 53 ≤ 4 / 2 ^ 53 := by
        apply div_le_div_of_nonneg_right _ (by positivity)
        linarith
      have h4 : (4 : ℚ) / 2 ^ 53 ≤ 1 / 10000000000 := by norm_num
      rw [abs_le]
      constructor <;> linarith
    · have ht2' : 2 < t := not_le.1 ht2
      have h3 : (t1 + t + 1) / 2 ^ 53 ≤ (t1 + t + 1) / 4 := by
        apply div_le_div_of_nonneg_left (by positivity) (by norm_num) (by norm_num)
      have hT1 : 1 ≤ T := by linarith
      have hc1 : clamp01 T = 1 := by
        unfold clamp01; rw [min_eq_left hT1, max_eq_right (by norm_num)]
      have hc2 : clamp01 (b + r + t) = 1 := by
        unfold clamp01; rw [min_eq_left (by linarith), max_eq_right (by norm_num)]
      rw [hc1, hc2, sub_self, abs_zero]
      norm_num
  · rw [if_neg hlen]
    have htz : t = 0 := by
      rw [if_neg hlen] at htp
      rw [htp] at ht
      exact (F64.fin.inj ht).symm
    refine ⟨t1, b, r, t, rfl, rfl, rfl, rfl, rfl, hrcases, ht0, htno, ?_⟩
    rw [← clamp01_of_nonneg (b + r + t) (by positivity)]
    refine le_trans (clamp01_dist _ _) ?_
    rw [htz, add_zero, abs_le]
    constructor <;> linarith

/-- Score composition of the scoring pass in binary64 arithmetic: the evidence components
are finite numbers, the base score is the binary64 value of `0.01` or `0.1`, the RPC bonus
is `0` or the binary64 value of `0.4`, and the score is within `1e-6` of the exact sum of
the components capped at `1`; without wrap-around it is within `1e-6` of the sum
itself. -/
theorem ScoreEdgeF_composition (health atTs : Int) (inter : List Event) :
    ∃ s b r t : ℚ,
      (ScoreEdgeF (Config.toF (currentConfig health)) atTs inter).score = F64.fin s ∧
      (ScoreEdgeF (Config.toF (currentConfig health)) atTs inter).baseScore = F64.fin b ∧
      (ScoreEdgeF (Config.toF (currentConfig health)) atTs inter).traceBonus = F64.fin 0 ∧
      (ScoreEdgeF (Config.toF (currentConfig health)) atTs inter).rpcBonus = F64.fin r ∧
      (ScoreEdgeF (Config.toF (currentConfig health)) atTs inter).timeProximityBonus =
        F64.fin t ∧
      b = (if health = 0 then 5764607523034235 / 576460752303423488
        else 3602879701896397 / 36028797018963968) ∧
      (r = 0 ∨ r = 3602879701896397 / 9007199254740992) ∧ 0 ≤ t ∧
      |s - min 1 (b + r + t)| ≤ 1 / 1000000 ∧
      ((∀ evt ∈ inter, evt.ts ≤ atTs → atTs - evt.ts < 2 ^ 63) →
        |s - (b + r + t)| ≤ 1 / 1000000) := by
  obtain ⟨T, b, r, t, hT, hb, hr, ht, hbv, hrv, ht0, htno, hnear⟩ :=
    totalF_near health atTs inter
  rw [ScoreEdgeF_score_eq, hT]
  obtain ⟨s, hs, hsnear⟩ := finishF_near T
  have hmin : |s - min 1 (b + r + t)| ≤ 1 / 1000000 := by
    have h1 := abs_le.1 hsnear
    have h2 := abs_le.1 hnear
    rw [abs_le]
    constructor <;> linarith
  refine ⟨s, b, r, t, hs, hb, rfl, hr, ht, hbv, hrv, ht0, hmin, ?_⟩
  intro hno
  have ht1 := htno hno
  have hb1 : b ≤ 11 / 100 := by rw [hbv]; split_ifs <;> norm_num
  have hr1 : r ≤ 41 / 100 := by rcases hrv with h | h <;> rw [h] <;> norm_num
  rw [min_eq_right (by linarith)] at hmin
  exact hmin

/-- Healthy-target suppression in binary64 arithmetic: the score `ScoreEdge` returns under
the base score `0.01` is at most the exact sum of `0.01` (as a binary64 value) and the
bonuses plus `1e-6`, and without wrap-around that sum is below the score the same
interactions receive under the base score `0.1`. -/
theorem ScoreEdgeF_suppression (atTs : Int) (inter : List Event) :
    ∃ s r t s' : ℚ,
      (ScoreEdgeF (Config.toF (currentConfig 0)) atTs inter).score = F64.fin s ∧
      (ScoreEdgeF (Config.toF (currentConfig 0)) atTs inter).rpcBonus = F64.fin r ∧
      (ScoreEdgeF (Config.toF (currentConfig 0)) atTs inter).traceBonus = F64.fin 0 ∧
      (ScoreEdgeF (Config.toF (currentConfig 0)) atTs inter).timeProximityBonus = F64.fin t ∧
      (ScoreEdgeF (Config.toF DefaultConfig) atTs inter).score = F64.fin s' ∧
      s ≤ 5764607523034235 / 576460752303423488 + r + 0 + t + 1 / 1000000 ∧
      ((∀ evt ∈ inter, evt.ts ≤ atTs → atTs - evt.ts < 2 ^ 63) →
        5764607523034235 / 576460752303423488 + r + 0 + t < s') := by
  obtain ⟨s, b, r, t, hs, _, htr, hr, ht, hbv, _, ht0, hmin, _⟩ :=
    ScoreEdgeF_composition 0 atTs inter
  obtain ⟨s', b', r', t', hs', _, _, hr', ht', hbv', _, _, _, hno'⟩ :=
    ScoreEdgeF_composition 1 atTs inter
  have hcfg : currentConfig 1 = DefaultConfig := by
    unfold currentConfig; rw [if_neg (by decide)]
  rw [hcfg] at hs' hr' ht'
  have hrr : (ScoreEdgeF (Config.toF DefaultConfig) atTs inter).rpcBonus =
      (ScoreEdgeF (Config.toF (currentConfig 0)) atTs inter).rpcBonus := rfl
  have htt : (ScoreEdgeF (Config.toF DefaultConfig) atTs inter).timeProximityBonus =
      (ScoreEdgeF (Config.toF (currentConfig 0)) atTs inter).timeProximityBonus := rfl
  rw [hrr, hr] at hr'
  rw [htt, ht] at ht'
  have hreq : r' = r := (F64.fin.inj hr').symm
  have hteq : t' = t := (F64.fin.inj ht').symm
  rw [if_pos rfl] at hbv
  rw [if_neg (by decide)] at hbv'
  subst hbv hbv' hreq hteq
  refine ⟨s, r', t', s', hs, hr, htr, ht, hs', ?_, ?_⟩
  · have h1 := (abs_le.1 hmin).2
    have h2 : min 1 (5764607523034235 / 576460752303423488 + r' + t') ≤
        5764607523034235 / 576460752303423488 + r' + t' := min_le_right _ _
    linarith
  · intro hno
    have h1 := (abs_le.1 (hno' hno)).1
    have h3 : (5764607523034235 / 576460752303423488 : ℚ) + 8 / 100 ≤
        3602879701896397 / 36028797018963968 := by norm_num
    linarith

/-! ### Healthy-target suppression and score composition -/

/-- C9, as amended (healthy-target suppression): every snapshot edge whose target node is
healthy has a causal confidence of at most `0.01 + rpc_bonus + trace_bonus +
time_proximity_bonus` of its evidence plus the rounding unit `10^-6` of the score; and when
no interaction of the edge lies `2^63` or more milliseconds before `atTs`, the value
`0.01 + rpc_bonus + trace_bonus + time_proximity_bonus` is strictly below the score the same
interactions receive under the default base score `0.1`. The first part states this of the
reconstruction in the rational model; the second part states it of `ScoreEdge` in binary64
arithmetic, for every interaction list, with `0.01` and the bonuses as binary64 values and
their sum taken exactly. -/
theorem healthy_target_suppression (unmarshal : String → String → Option String) (atTs : Int)
    (events : List Event) (snap : GraphSnapshot) (ev : List (String × EdgeEvidence))
    (h : ReconstructGraph unmarshal atTs events = some (snap, ev)) :
    (∃ rs, replayEvents unmarshal atTs events = some rs ∧
      ∀ e ∈ snap.edges, ∀ n ∈ snap.nodes, n.id = e.target → n.healthStatus = 0 →
        ∃ x inter, mapGet ev (edgeKey e.source e.target) = some x ∧
          mapGet rs.edgeInteractions (edgeKey e.source e.target) = some inter ∧
          e.causalConfidence ≤
            1 / 100 + x.rpcBonus + x.traceBonus + x.timeProximityBonus + 1 / 1000000 ∧
          ((∀ evt ∈ inter, evt.ts ≤ atTs → atTs - evt.ts < 2 ^ 63) →
            1 / 100 + x.rpcBonus + x.traceBonus + x.timeProximityBonus <
              (ScoreEdge DefaultConfig atTs inter).score)) ∧
    ∀ inter : List Event, ∃ s r t s' : ℚ,
      (ScoreEdgeF (Config.toF (currentConfig 0)) atTs inter).score = F64.fin s ∧
      (ScoreEdgeF (Config.toF (currentConfig 0)) atTs inter).rpcBonus = F64.fin r ∧
      (ScoreEdgeF (Config.toF (currentConfig 0)) atTs inter).traceBonus = F64.fin 0 ∧
      (ScoreEdgeF (Config.toF (currentConfig 0)) atTs inter).timeProximityBonus = F64.fin t ∧
      (ScoreEdgeF (Config.toF DefaultConfig) atTs inter).score = F64.fin s' ∧
      s ≤ 5764607523034235 / 576460752303423488 + r + 0 + t + 1 / 1000000 ∧
      ((∀ evt ∈ inter, evt.ts ≤ atTs → atTs - evt.ts < 2 ^ 63) →
        5764607523034235 / 576460752303423488 + r + 0 + t < s') :=
  ⟨healthy_suppression unmarshal atTs events snap ev h,
    fun inter => ScoreEdgeF_suppression atTs inter⟩

/-- Instance of C9 on a single call from `A` to the healthy `B`, in the rational model and
in binary64 arithmetic. -/
theorem healthy_target_suppression_witness :
    ReconstructGraph tableUnmarshal 300 [callAB] = some (callSnapshot, callEvidence) ∧
      (∃ rs, replayEvents tableUnmarshal 300 [callAB] = some rs ∧
        ∀ e ∈ callSnapshot.edges, ∀ n ∈ callSnapshot.nodes, n.id = e.target →
          n.healthStatus = 0 →
          ∃ x inter, mapGet callEvidence (edgeKey e.source e.target) = some x ∧
            mapGet rs.edgeInteractions (edgeKey e.source e.target) = some inter ∧
            e.causalConfidence ≤
              1 / 100 + x.rpcBonus + x.traceBonus + x.timeProximityBonus + 1 / 1000000 ∧
            ((∀ evt ∈ inter, evt.ts ≤ 300 → 300 - evt.ts < 2 ^ 63) →
              1 / 100 + x.rpcBonus + x.traceBonus + x.timeProximityBonus <
                (ScoreEdge DefaultConfig 300 inter).score)) ∧
      ∃ s r t s' : ℚ,
        (ScoreEdgeF (Config.toF (currentConfig 0)) 300 [callAB]).score = F64.fin s ∧
        (ScoreEdgeF (Config.toF (currentConfig 0)) 300 [callAB]).rpcBonus = F64.fin r ∧
        (ScoreEdgeF (Config.toF (currentConfig 0)) 300 [callAB]).traceBonus = F64.fin 0 ∧
        (ScoreEdgeF (Config.toF (currentConfig 0)) 300 [callAB]).timeProximityBonus =
          F64.fin t ∧
        (ScoreEdgeF (Config.toF DefaultConfig) 300 [callAB]).score = F64.fin s' ∧
        s ≤ 5764607523034235 / 576460752303423488 + r + 0 + t + 1 / 1000000 ∧
        ((∀ evt ∈ [callAB], evt.ts ≤ 300 → 300 - evt.ts < 2 ^ 63) →
          5764607523034235 / 576460752303423488 + r + 0 + t < s') :=
  ⟨call_reconstruction,
    (healthy_target_suppression tableUnmarshal 300 [callAB] callSnapshot callEvidence
      call_reconstruction).1,
    (healthy_target_suppression tableUnmarshal 300 [callAB] callSnapshot callEvidence
      call_reconstruction).2 [callAB]⟩

/-- C32 (score composition, amended): whenever `ReconstructGraph` returns, every entry of
the evidence map has a target that is a node of the snapshot, a base score of `0.01` when
that node's health status is `0` and of `0.1` otherwise, a trace bonus of `0`, and a score
within the rounding unit `10^-6` of `base_score + rpc_bonus + time_proximity_bonus` capped
at `1`, never below the base score; and when no event of the list lies `2^63` or more
milliseconds before `atTs`, the score is within `10^-6` of
`base_score + rpc_bonus + time_proximity_bonus` and at most `0.8`. The first part states
this of the reconstruction in the rational model; the second part states the composition
of `ScoreEdge` in binary64 arithmetic, under either base score and for every interaction
list, with the components as binary64 values and their sum taken exactly. -/
theorem exact_score_composition (unmarshal : String → String → Option String) (atTs : Int)
    (events : List Event) (snap : GraphSnapshot) (ev : List (String × EdgeEvidence))
    (h : ReconstructGraph unmarshal atTs events = some (snap, ev)) :
    (∀ p ∈ ev,
      (∃ n ∈ snap.nodes, n.id = p.2.targetService) ∧
      (∀ n ∈ snap.nodes, n.id = p.2.targetService →
        p.2.baseScore = if n.healthStatus = 0 then 1 / 100 else 1 / 10) ∧
      p.2.traceBonus = 0 ∧
      |p.2.score - min 1 (p.2.baseScore + p.2.rpcBonus + p.2.timeProximityBonus)| ≤
        1 / 1000000 ∧
      p.2.baseScore ≤ p.2.score ∧
      ((∀ e ∈ events, e.ts ≤ atTs → atTs - e.ts < 2 ^ 63) →
        |p.2.score - (p.2.baseScore + p.2.rpcBonus + p.2.timeProximityBonus)| ≤ 1 / 1000000 ∧
          p.2.score ≤ 8 / 10)) ∧
    ∀ (health : Int) (inter : List Event), ∃ s b r t : ℚ,
      (ScoreEdgeF (Config.toF (currentConfig health)) atTs inter).score = F64.fin s ∧
      (ScoreEdgeF (Config.toF (currentConfig health)) atTs inter).baseScore = F64.fin b ∧
      (ScoreEdgeF (Config.toF (currentConfig health)) atTs inter).traceBonus = F64.fin 0 ∧
      (ScoreEdgeF (Config.toF (currentConfig health)) atTs inter).rpcBonus = F64.fin r ∧
      (ScoreEdgeF (Config.toF (currentConfig health)) atTs inter).timeProximityBonus =
        F64.fin t ∧
      b = (if health = 0 then 5764607523034235 / 576460752303423488
        else 3602879701896397 / 36028797018963968) ∧
      (r = 0 ∨ r = 3602879701896397 / 9007199254740992) ∧ 0 ≤ t ∧
      |s - min 1 (b + r + t)| ≤ 1 / 1000000 ∧
      ((∀ evt ∈ inter, evt.ts ≤ atTs → atTs - evt.ts < 2 ^ 63) →
        |s - (b + r + t)| ≤ 1 / 1000000) :=
  ⟨score_composition unmarshal atTs events snap ev h,
    fun health inter => ScoreEdgeF_composition health atTs inter⟩

/-- Instance of C32 on the events of `TestReconstructGraph`: the evidence of `A -> B`, whose
target is `DOWN`, has base score `0.1` and score `0.1 + 0 + 0.298 = 0.398`; in binary64
arithmetic the score of the same interaction is within `1e-6` of the sum of its
components. -/
theorem exact_score_composition_witness :
    ReconstructGraph tableUnmarshal 300 [callAB, downB] = some (testSnapshot, testEvidence) ∧
      (∀ e ∈ [callAB, downB], e.ts ≤ 300 → 300 - e.ts < 2 ^ 63) ∧
      testEvidence.map
          (fun p => (p.2.score, p.2.baseScore, p.2.rpcBonus, p.2.timeProximityBonus)) =
        [(199 / 500, 1 / 10, 0, 149 / 500)] ∧
      (∀ p ∈ testEvidence,
        (∃ n ∈ testSnapshot.nodes, n.id = p.2.targetService) ∧
        (∀ n ∈ testSnapshot.nodes, n.id = p.2.targetService →
          p.2.baseScore = if n.healthStatus = 0 then 1 / 100 else 1 / 10) ∧
        p.2.traceBonus = 0 ∧
        |p.2.score - min 1 (p.2.baseScore + p.2.rpcBonus + p.2.timeProximityBonus)| ≤
          1 / 1000000 ∧
        p.2.baseScore ≤ p.2.score ∧
        ((∀ e ∈ [callAB, downB], e.ts ≤ 300 → 300 - e.ts < 2 ^ 63) →
          |p.2.score - (p.2.baseScore + p.2.rpcBonus + p.2.timeProximityBonus)| ≤
              1 / 1000000 ∧
            p.2.score ≤ 8 / 10)) ∧
      ∃ s b r t : ℚ,
        (ScoreEdgeF (Config.toF (currentConfig 2)) 300 [callAB]).score = F64.fin s ∧
        (ScoreEdgeF (Config.toF (currentConfig 2)) 300 [callAB]).baseScore = F64.fin b ∧
        (ScoreEdgeF (Config.toF (currentConfig 2)) 300 [callAB]).traceBonus = F64.fin 0 ∧
        (ScoreEdgeF (Config.toF (currentConfig 2)) 300 [callAB]).rpcBonus = F64.fin r ∧
        (ScoreEdgeF (Config.toF (currentConfig 2)) 300 [callAB]).timeProximityBonus =
          F64.fin t ∧
        b = (if (2 : Int) = 0 then 5764607523034235 / 576460752303423488
          else 3602879701896397 / 36028797018963968) ∧
        (r = 0 ∨ r = 3602879701896397 / 9007199254740992) ∧ 0 ≤ t ∧
        |s - min 1 (b + r + t)| ≤ 1 / 1000000 ∧
        ((∀ evt ∈ [callAB], evt.ts ≤ 300 → 300 - evt.ts < 2 ^ 63) →
          |s - (b + r + t)| ≤ 1 / 1000000) :=
  ⟨by decide!, by decide!, by decide!,
    (exact_score_composition tableUnmarshal 300 [callAB, downB] testSnapshot testEvidence
      (by decide!)).1,
    (exact_score_composition tableUnmarshal 300 [callAB, downB] testSnapshot testEvidence
      (by decide!)).2 2 [callAB]⟩

end Tfte
